import Mathlib

/-!
# PL_Lab1: lexer and recursive-descent parser

A shallow embedding of `src/lexer.cpp` and `src/parser.cpp`.

* The mutable fields of the C++ classes (`pos_`, `line_`, `col_`, `errors_`)
  are threaded explicitly as a state record.
* Every C++ loop and every (mutually) recursive function takes a `fuel`
  argument and yields `none` when the budget is exhausted, so that loops that
  do not terminate in the source do not terminate in the model either.
* `std::unique_ptr<ASTNode>` is `Option ASTNode` (`none` is the null pointer);
  dereferencing a null pointer yields no result (`none`).
* `int` fields (`line`, `column`, `offset`, the comment depth) are natural
  numbers: the source never decrements them below zero, and signed overflow
  (inputs of 2 GiB and more) is undefined in the source and outside the model.
* A byte of the input is a `Char`; the `<cctype>` predicates are those of the
  "C" locale (the program never calls `setlocale`).
-/

namespace PLLab1

/-! ## Tokens (`include/lexer.h`) -/

inductive TokenType where
  | TOK_DEC | TOK_HEX | TOK_BITS | TOK_STRING | TOK_CHAR | TOK_TRUE | TOK_FALSE
  | TOK_DEF | TOK_END | TOK_IF | TOK_THEN | TOK_ELSE | TOK_WHILE | TOK_UNTIL
  | TOK_BREAK | TOK_BEGIN | TOK_OF | TOK_BOOL | TOK_BYTE | TOK_INT | TOK_UINT
  | TOK_LONG | TOK_ULONG | TOK_CHARTYPE | TOK_STRINGTYPE | TOK_ARRAY
  | TOK_IDENT
  | TOK_PLUS | TOK_MINUS | TOK_STAR | TOK_SLASH | TOK_PERCENT | TOK_AMP
  | TOK_PIPE | TOK_CARET | TOK_TILDE | TOK_BANG | TOK_LT | TOK_GT | TOK_LE
  | TOK_GE | TOK_EQ | TOK_NE | TOK_AND | TOK_OR | TOK_SHL | TOK_SHR
  | TOK_ASSIGN | TOK_INC | TOK_DEC_OP | TOK_DOTDOT
  | TOK_LPAREN | TOK_RPAREN | TOK_LBRACKET | TOK_RBRACKET | TOK_LBRACE
  | TOK_RBRACE | TOK_COMMA | TOK_SEMICOLON
  | TOK_EOF | TOK_ERROR
  deriving DecidableEq, Repr

structure SourceLocation where
  line : Nat
  column : Nat
  offset : Nat
  deriving DecidableEq, Repr

structure Token where
  type : TokenType
  text : String
  loc : SourceLocation
  deriving DecidableEq, Repr

structure LexerError where
  message : String
  loc : SourceLocation
  deriving DecidableEq, Repr

/-! ## Lexer (`src/lexer.cpp`) -/

/-- The NUL byte returned by `peek` and `peekNext` at the end of the input. -/
def NUL : Char := Char.ofNat 0

/-- The fields of `class Lexer`. -/
structure Lexer where
  source : List Char
  pos : Nat
  line : Nat
  col : Nat
  errors : List LexerError

/-- Constructor `Lexer::Lexer`. -/
def Lexer.init (source : List Char) : Lexer :=
  { source := source, pos := 0, line := 1, col := 1, errors := [] }

def Lexer.isAtEnd (l : Lexer) : Bool :=
  decide (l.pos ≥ l.source.length)

def Lexer.peek (l : Lexer) : Char :=
  if l.isAtEnd then NUL else l.source.getD l.pos NUL

def Lexer.peekNext (l : Lexer) : Char :=
  if l.pos + 1 ≥ l.source.length then NUL else l.source.getD (l.pos + 1) NUL

/-- The character returned by `Lexer::advance` (`source_[pos_]`; `std::string`
yields NUL at index `size()`). -/
def Lexer.cur (l : Lexer) : Char :=
  l.source.getD l.pos NUL

/-- The state after `Lexer::advance`. -/
def Lexer.advance (l : Lexer) : Lexer :=
  if l.cur = '\n' then { l with pos := l.pos + 1, line := l.line + 1, col := 1 }
  else { l with pos := l.pos + 1, col := l.col + 1 }

/-- The location record `{line_, col_, static_cast<int>(pos_)}`. -/
def Lexer.here (l : Lexer) : SourceLocation :=
  { line := l.line, column := l.col, offset := l.pos }

/-- Effect of `errors_.push_back({message, loc})`. -/
def Lexer.pushError (l : Lexer) (message : String) (loc : SourceLocation) : Lexer :=
  { l with errors := l.errors ++ [{ message := message, loc := loc }] }

def isdigit (c : Char) : Bool := decide (48 ≤ c.toNat ∧ c.toNat ≤ 57)

def isalpha (c : Char) : Bool :=
  decide ((65 ≤ c.toNat ∧ c.toNat ≤ 90) ∨ (97 ≤ c.toNat ∧ c.toNat ≤ 122))

def isalnum (c : Char) : Bool := isalpha c || isdigit c

def isxdigit (c : Char) : Bool :=
  isdigit c || decide ((65 ≤ c.toNat ∧ c.toNat ≤ 70) ∨ (97 ≤ c.toNat ∧ c.toNat ≤ 102))

/-- The loop `while (!isAtEnd() && peek() != '\n') advance();` of a `//` comment. -/
def skipLineComment : Nat → Lexer → Option Lexer
  | 0, _ => none
  | fuel + 1, l =>
    if !l.isAtEnd && l.peek != '\n' then skipLineComment fuel l.advance
    else some l

/-- The loop `while (!isAtEnd() && depth > 0)` of a block comment. -/
def skipBlockComment : Nat → Nat → Lexer → Option Lexer
  | 0, _, _ => none
  | fuel + 1, depth, l =>
    if !l.isAtEnd && decide (depth > 0) then
      if l.peek == '/' && l.peekNext == '*' then
        skipBlockComment fuel (depth + 1) l.advance.advance
      else if l.peek == '*' && l.peekNext == '/' then
        skipBlockComment fuel (depth - 1) l.advance.advance
      else
        skipBlockComment fuel depth l.advance
    else some l

def skipWhitespaceAndComments : Nat → Lexer → Option Lexer
  | 0, _ => none
  | fuel + 1, l =>
    if l.isAtEnd then some l
    else if l.peek == ' ' || l.peek == '\t' || l.peek == '\r' || l.peek == '\n' then
      skipWhitespaceAndComments fuel l.advance
    else if l.peek == '/' && l.peekNext == '/' then
      match skipLineComment (fuel + 1) l with
      | none => none
      | some l1 => skipWhitespaceAndComments fuel l1
    else if l.peek == '/' && l.peekNext == '*' then
      match skipBlockComment (fuel + 1) 1 l.advance.advance with
      | none => none
      | some l1 => skipWhitespaceAndComments fuel l1
    else some l

def makeToken (type : TokenType) (text : String) (loc : SourceLocation) : Token :=
  { type := type, text := text, loc := loc }

/-- The loop `while (!isAtEnd() && peek() != '"')` of `readString`. -/
def readStringLoop : Nat → String → Lexer → Option (String × Lexer)
  | 0, _, _ => none
  | fuel + 1, val, l =>
    if !l.isAtEnd && l.peek != '"' then
      if l.peek == '\\' then
        if !l.advance.isAtEnd then
          readStringLoop fuel ((val.push l.cur).push l.advance.cur) l.advance.advance
        else
          readStringLoop fuel (val.push l.cur) l.advance
      else
        readStringLoop fuel (val.push l.cur) l.advance
    else some (val, l)

def readString (fuel : Nat) (l : Lexer) : Option (Token × Lexer) :=
  match readStringLoop fuel "\"" l.advance with
  | none => none
  | some (val, l1) =>
    if !l1.isAtEnd then
      some (makeToken .TOK_STRING (val.push l1.cur) l.here, l1.advance)
    else
      some (makeToken .TOK_ERROR val l.here,
        l1.pushError "Unterminated string literal" l.here)

def readChar (l : Lexer) : Token × Lexer :=
  let val := String.singleton l.cur
  let l1 := l.advance
  let val1 := if !l1.isAtEnd && l1.peek != '\'' then val.push l1.cur else val
  let l2 := if !l1.isAtEnd && l1.peek != '\'' then l1.advance else l1
  if !l2.isAtEnd && l2.peek == '\'' then
    (makeToken .TOK_CHAR (val1.push l2.cur) l.here, l2.advance)
  else
    (makeToken .TOK_ERROR val1 l.here, l2.pushError "Unterminated char literal" l.here)

/-- The loop `while (!isAtEnd() && p(peek())) val += advance();`, which occurs
three times in `readNumber` and once in `readIdentOrKeyword`. -/
def readWhile (p : Char → Bool) : Nat → String → Lexer → Option (String × Lexer)
  | 0, _, _ => none
  | fuel + 1, val, l =>
    if !l.isAtEnd && p l.peek then readWhile p fuel (val.push l.cur) l.advance
    else some (val, l)

def readNumber (fuel : Nat) (l : Lexer) : Option (Token × Lexer) :=
  if l.peek == '0' && (l.peekNext == 'x' || l.peekNext == 'X') then
    match readWhile isxdigit fuel (("".push l.cur).push l.advance.cur) l.advance.advance with
    | none => none
    | some (val, l1) => some (makeToken .TOK_HEX val l.here, l1)
  else if l.peek == '0' && (l.peekNext == 'b' || l.peekNext == 'B') then
    match readWhile (fun c => c == '0' || c == '1') fuel
        (("".push l.cur).push l.advance.cur) l.advance.advance with
    | none => none
    | some (val, l1) => some (makeToken .TOK_BITS val l.here, l1)
  else
    match readWhile isdigit fuel "" l with
    | none => none
    | some (val, l1) => some (makeToken .TOK_DEC val l.here, l1)

/-- The table of `Lexer::keywordType`. -/
def keywords : List (String × TokenType) :=
  [("def", .TOK_DEF), ("end", .TOK_END), ("if", .TOK_IF), ("then", .TOK_THEN),
   ("else", .TOK_ELSE), ("while", .TOK_WHILE), ("until", .TOK_UNTIL),
   ("break", .TOK_BREAK), ("begin", .TOK_BEGIN), ("of", .TOK_OF),
   ("bool", .TOK_BOOL), ("byte", .TOK_BYTE), ("int", .TOK_INT),
   ("uint", .TOK_UINT), ("long", .TOK_LONG), ("ulong", .TOK_ULONG),
   ("char", .TOK_CHARTYPE), ("string", .TOK_STRINGTYPE), ("array", .TOK_ARRAY),
   ("true", .TOK_TRUE), ("false", .TOK_FALSE)]

def keywordType (word : String) : TokenType :=
  match keywords.lookup word with
  | some t => t
  | none => .TOK_IDENT

def readIdentOrKeyword (fuel : Nat) (l : Lexer) : Option (Token × Lexer) :=
  match readWhile (fun c => isalnum c || c == '_') fuel "" l with
  | none => none
  | some (val, l1) => some (makeToken (keywordType val) val l.here, l1)

/-- The eleven two-character tests of `tokenize`, in source order. -/
def twoCharOperator (c n : Char) : Option (TokenType × String) :=
  if c == '=' && n == '=' then some (.TOK_EQ, "==")
  else if c == '!' && n == '=' then some (.TOK_NE, "!=")
  else if c == '<' && n == '=' then some (.TOK_LE, "<=")
  else if c == '>' && n == '=' then some (.TOK_GE, ">=")
  else if c == '<' && n == '<' then some (.TOK_SHL, "<<")
  else if c == '>' && n == '>' then some (.TOK_SHR, ">>")
  else if c == '&' && n == '&' then some (.TOK_AND, "&&")
  else if c == '|' && n == '|' then some (.TOK_OR, "||")
  else if c == '+' && n == '+' then some (.TOK_INC, "++")
  else if c == '-' && n == '-' then some (.TOK_DEC_OP, "--")
  else if c == '.' && n == '.' then some (.TOK_DOTDOT, "..")
  else none

/-- The non-default cases of the `switch (c)` of `tokenize`. -/
def oneCharOperator (c : Char) : Option (TokenType × String) :=
  if c == '+' then some (.TOK_PLUS, "+")
  else if c == '-' then some (.TOK_MINUS, "-")
  else if c == '*' then some (.TOK_STAR, "*")
  else if c == '/' then some (.TOK_SLASH, "/")
  else if c == '%' then some (.TOK_PERCENT, "%")
  else if c == '&' then some (.TOK_AMP, "&")
  else if c == '|' then some (.TOK_PIPE, "|")
  else if c == '^' then some (.TOK_CARET, "^")
  else if c == '~' then some (.TOK_TILDE, "~")
  else if c == '!' then some (.TOK_BANG, "!")
  else if c == '<' then some (.TOK_LT, "<")
  else if c == '>' then some (.TOK_GT, ">")
  else if c == '=' then some (.TOK_ASSIGN, "=")
  else if c == '(' then some (.TOK_LPAREN, "(")
  else if c == ')' then some (.TOK_RPAREN, ")")
  else if c == '[' then some (.TOK_LBRACKET, "[")
  else if c == ']' then some (.TOK_RBRACKET, "]")
  else if c == '{' then some (.TOK_LBRACE, "\x7b")
  else if c == '}' then some (.TOK_RBRACE, "\x7d")
  else if c == ',' then some (.TOK_COMMA, ",")
  else if c == ';' then some (.TOK_SEMICOLON, ";")
  else none

/-- The body of the `for (;;)` loop of `tokenize` after the end-of-input test:
every branch there pushes exactly one token and continues; the function
returns that token and the lexer state at the `continue`. -/
def scanToken (fuel : Nat) (l : Lexer) : Option (Token × Lexer) :=
  if l.peek == '"' then readString fuel l
  else if l.peek == '\'' then some (readChar l)
  else if isdigit l.peek then readNumber fuel l
  else if isalpha l.peek || l.peek == '_' then readIdentOrKeyword fuel l
  else
    match twoCharOperator l.peek l.peekNext with
    | some (type, text) => some (makeToken type text l.here, l.advance.advance)
    | none =>
      match oneCharOperator l.peek with
      | some (type, text) => some (makeToken type text l.here, l.advance)
      | none =>
        some (makeToken .TOK_ERROR (String.singleton l.peek) l.here,
          l.advance.pushError ("Unexpected character: " ++ String.singleton l.peek) l.here)

/-- The `for (;;)` loop of `Lexer::tokenize`. -/
def tokenizeLoop : Nat → List Token → Lexer → Option (List Token × Lexer)
  | 0, _, _ => none
  | fuel + 1, tokens, l =>
    match skipWhitespaceAndComments (fuel + 1) l with
    | none => none
    | some l1 =>
      if l1.isAtEnd then
        some (tokens ++ [makeToken .TOK_EOF "" l1.here], l1)
      else
        match scanToken (fuel + 1) l1 with
        | none => none
        | some (tok, l2) => tokenizeLoop fuel (tokens ++ [tok]) l2

/-- `Lexer(source).tokenize()` together with `errors()`: the token vector and
the error vector, or `none` when `fuel` loop iterations do not suffice. -/
def tokenize (fuel : Nat) (source : List Char) : Option (List Token × List LexerError) :=
  match tokenizeLoop fuel [] (Lexer.init source) with
  | none => none
  | some (tokens, l) => some (tokens, l.errors)

/-! ## Syntax tree (`include/ast.h`) -/

inductive Kind where
  | SOURCE | FUNC_DEF | FUNC_SIGNATURE | FUNC_ARG
  | TYPE_BUILTIN | TYPE_CUSTOM | TYPE_ARRAY
  | STMT_IF | STMT_LOOP | STMT_REPEAT | STMT_BREAK | STMT_EXPR | STMT_BLOCK
  | STMT_ASSIGN
  | EXPR_BINARY | EXPR_UNARY | EXPR_BRACES | EXPR_CALL | EXPR_SLICE
  | EXPR_RANGE | EXPR_PLACE | EXPR_LITERAL
  deriving DecidableEq, Repr

/-- The node `struct ASTNode`; a child is an owning pointer that may be null. -/
inductive ASTNode where
  | mk (kind : Kind) (loc : SourceLocation) (value : String)
      (children : List (Option ASTNode)) : ASTNode

/-- The pointer `std::unique_ptr<ASTNode>`; `none` is `nullptr`. -/
abbrev ASTNodePtr := Option ASTNode

def ASTNode.kind : ASTNode → Kind
  | .mk k _ _ _ => k

def ASTNode.loc : ASTNode → SourceLocation
  | .mk _ l _ _ => l

def ASTNode.value : ASTNode → String
  | .mk _ _ v _ => v

def ASTNode.children : ASTNode → List ASTNodePtr
  | .mk _ _ _ c => c

def ASTNode.addChild : ASTNode → ASTNodePtr → ASTNode
  | .mk k l v c, child => .mk k l v (c ++ [child])

/-- The assignment `node->value = v`. -/
def ASTNode.setValue : ASTNode → String → ASTNode
  | .mk k l _ c, v => .mk k l v c

/-- The node built by `makeNode(k, loc, val)` (never null). -/
def makeNode (k : Kind) (loc : SourceLocation) (val : String) : ASTNode :=
  .mk k loc val []

/-! ## Parser (`src/parser.cpp`) -/

structure ParseError where
  message : String
  loc : SourceLocation
  deriving DecidableEq, Repr

structure ParseResult where
  tree : ASTNodePtr
  errors : List ParseError

/-- The mutable fields of `class Parser`; the token vector `tokens_` is
immutable and passed alongside. -/
structure Parser where
  pos : Nat
  errors : List ParseError

/-- The result of a parsing function: the returned pointer and the parser state
after the call; `none` when the fuel is exhausted or a null pointer is
dereferenced. -/
abbrev Parsed := Option (ASTNodePtr × Parser)

section
variable (tokens : List Token)

/-- The token `tokens_[pos_]`. Reading past the end is undefined in the source;
the model reads an end-of-input token there. -/
def current (p : Parser) : Token :=
  tokens.getD p.pos { type := .TOK_EOF, text := "", loc := ⟨0, 0, 0⟩ }

def peekToken (p : Parser) : Token :=
  if p.pos + 1 < tokens.length then
    tokens.getD (p.pos + 1) { type := .TOK_EOF, text := "", loc := ⟨0, 0, 0⟩ }
  else tokens.getLastD { type := .TOK_EOF, text := "", loc := ⟨0, 0, 0⟩ }

/-- The state after `Parser::advance`; the token it returns is `current`
of the state before. -/
def advance (p : Parser) : Parser :=
  if p.pos + 1 < tokens.length then { p with pos := p.pos + 1 } else p

def check (p : Parser) (type : TokenType) : Bool :=
  (current tokens p).type == type

def isAtEnd (p : Parser) : Bool :=
  (current tokens p).type == .TOK_EOF

/-- Effect of `Parser::error(msg)`. -/
def error (p : Parser) (msg : String) : Parser :=
  { p with errors := p.errors ++ [{ message := msg, loc := (current tokens p).loc }] }

/-- The state after `Parser::expect`. The token it returns is, on either
branch, `current` of the state before the call. -/
def expect (p : Parser) (type : TokenType) (context : String) : Parser :=
  if check tokens p type then advance tokens p
  else error tokens p
    ("expected '" ++ context ++ "', got '" ++ (current tokens p).text ++ "'")

def synchronize : Nat → Parser → Option Parser
  | 0, _ => none
  | fuel + 1, p =>
    if !isAtEnd tokens p then
      if check tokens p .TOK_SEMICOLON then some (advance tokens p)
      else if check tokens p .TOK_DEF || check tokens p .TOK_IF ||
          check tokens p .TOK_WHILE || check tokens p .TOK_UNTIL ||
          check tokens p .TOK_BREAK || check tokens p .TOK_END ||
          check tokens p .TOK_BEGIN || check tokens p .TOK_LBRACE then some p
      else synchronize fuel (advance tokens p)
    else some p

/-- The suffix loop `while (check(TOK_ARRAY))` of `parseTypeRef`. -/
def parseTypeRefLoop : Nat → SourceLocation → ASTNodePtr → Parser → Parsed
  | 0, _, _, _ => none
  | fuel + 1, loc, baseType, p =>
    if check tokens p .TOK_ARRAY then
      let p1 := expect tokens (advance tokens p) .TOK_LBRACKET "["
      let dim := current tokens p1
      let p2 := expect tokens (expect tokens p1 .TOK_DEC "array dimension") .TOK_RBRACKET "]"
      parseTypeRefLoop fuel loc
        (some ((makeNode .TYPE_ARRAY loc dim.text).addChild baseType)) p2
    else some (baseType, p)

def isBuiltinType (t : TokenType) : Bool :=
  t == .TOK_BOOL || t == .TOK_BYTE || t == .TOK_INT || t == .TOK_UINT ||
  t == .TOK_LONG || t == .TOK_ULONG || t == .TOK_CHARTYPE || t == .TOK_STRINGTYPE

def parseTypeRef (fuel : Nat) (p : Parser) : Parsed :=
  let loc := (current tokens p).loc
  if isBuiltinType (current tokens p).type then
    parseTypeRefLoop tokens fuel loc
      (some (makeNode .TYPE_BUILTIN loc (current tokens p).text)) (advance tokens p)
  else if check tokens p .TOK_IDENT then
    parseTypeRefLoop tokens fuel loc
      (some (makeNode .TYPE_CUSTOM loc (current tokens p).text)) (advance tokens p)
  else
    some (some (makeNode .TYPE_BUILTIN loc "<error>"), error tokens p "expected type name")

def parseFuncArg (fuel : Nat) (p : Parser) : Parsed :=
  let loc := (current tokens p).loc
  let name := current tokens p
  let p1 := expect tokens p .TOK_IDENT "argument name"
  let node := makeNode .FUNC_ARG loc name.text
  if check tokens p1 .TOK_OF then
    match parseTypeRef tokens fuel (advance tokens p1) with
    | none => none
    | some (t, p2) => some (some (node.addChild t), p2)
  else some (some node, p1)

/-- The loop `while (match(TOK_COMMA)) node->addChild(item());`, which occurs in
`parseFuncSignature` (items `parseFuncArg`) and twice in `parseExprPostfix`
(items `parseExpression` and the range lambda). -/
def commaLoop (item : Parser → Parsed) : Nat → ASTNode → Parser → Option (ASTNode × Parser)
  | 0, _, _ => none
  | fuel + 1, node, p =>
    if check tokens p .TOK_COMMA then
      match item (advance tokens p) with
      | none => none
      | some (child, p1) => commaLoop item fuel (node.addChild child) p1
    else some (node, p)

def parseFuncSignature (fuel : Nat) (p : Parser) : Parsed :=
  let loc := (current tokens p).loc
  let name := current tokens p
  let p1 := expect tokens p .TOK_IDENT "function name"
  let node := (makeNode .FUNC_SIGNATURE loc "").setValue name.text
  let p2 := expect tokens p1 .TOK_LPAREN "("
  let args : Option (ASTNode × Parser) :=
    if !check tokens p2 .TOK_RPAREN then
      match parseFuncArg tokens fuel p2 with
      | none => none
      | some (arg, p3) => commaLoop tokens (parseFuncArg tokens fuel) fuel (node.addChild arg) p3
    else some (node, p2)
  match args with
  | none => none
  | some (node1, p4) =>
    let p5 := expect tokens p4 .TOK_RPAREN ")"
    if check tokens p5 .TOK_OF then
      match parseTypeRef tokens fuel (advance tokens p5) with
      | none => none
      | some (t, p6) => some (some (node1.addChild t), p6)
    else some (some node1, p5)

/-- The loop shared by the nine binary levels `parseExprOr` .. `parseExprMul`:
`while (<current token is an operator of the level>) { loc; op = advance();
right = <next level>(); left = BinaryExpr(op.text)[left, right]; }`. -/
def binaryLoop (isOp : TokenType → Bool) (operand : Parser → Parsed) :
    Nat → ASTNodePtr → Parser → Parsed
  | 0, _, _ => none
  | fuel + 1, left, p =>
    if isOp (current tokens p).type then
      let loc := (current tokens p).loc
      let op := current tokens p
      match operand (advance tokens p) with
      | none => none
      | some (right, p1) =>
        binaryLoop isOp operand fuel
          (some (((makeNode .EXPR_BINARY loc op.text).addChild left).addChild right)) p1
    else some (left, p)

def isOrOp (t : TokenType) : Bool := t == .TOK_OR

def isAndOp (t : TokenType) : Bool := t == .TOK_AND

def isComparisonOp (t : TokenType) : Bool :=
  t == .TOK_LT || t == .TOK_GT || t == .TOK_LE || t == .TOK_GE || t == .TOK_EQ || t == .TOK_NE

def isBitOrOp (t : TokenType) : Bool := t == .TOK_PIPE

def isBitXorOp (t : TokenType) : Bool := t == .TOK_CARET

def isBitAndOp (t : TokenType) : Bool := t == .TOK_AMP

def isShiftOp (t : TokenType) : Bool := t == .TOK_SHL || t == .TOK_SHR

def isAddOp (t : TokenType) : Bool := t == .TOK_PLUS || t == .TOK_MINUS

def isMulOp (t : TokenType) : Bool := t == .TOK_STAR || t == .TOK_SLASH || t == .TOK_PERCENT

def isUnaryOp (t : TokenType) : Bool :=
  t == .TOK_MINUS || t == .TOK_TILDE || t == .TOK_BANG || t == .TOK_INC || t == .TOK_DEC_OP

def isLiteralStart (t : TokenType) : Bool :=
  t == .TOK_DEC || t == .TOK_HEX || t == .TOK_BITS || t == .TOK_STRING || t == .TOK_CHAR ||
  t == .TOK_TRUE || t == .TOK_FALSE

mutual

def parseExpression : Nat → Parser → Parsed
  | 0, _ => none
  | fuel + 1, p => parseExprOr fuel p

def parseExprOr : Nat → Parser → Parsed
  | 0, _ => none
  | fuel + 1, p =>
    match parseExprAnd fuel p with
    | none => none
    | some (left, p1) => binaryLoop tokens isOrOp (parseExprAnd fuel) fuel left p1

def parseExprAnd : Nat → Parser → Parsed
  | 0, _ => none
  | fuel + 1, p =>
    match parseExprComparison fuel p with
    | none => none
    | some (left, p1) => binaryLoop tokens isAndOp (parseExprComparison fuel) fuel left p1

def parseExprComparison : Nat → Parser → Parsed
  | 0, _ => none
  | fuel + 1, p =>
    match parseExprBitOr fuel p with
    | none => none
    | some (left, p1) => binaryLoop tokens isComparisonOp (parseExprBitOr fuel) fuel left p1

def parseExprBitOr : Nat → Parser → Parsed
  | 0, _ => none
  | fuel + 1, p =>
    match parseExprBitXor fuel p with
    | none => none
    | some (left, p1) => binaryLoop tokens isBitOrOp (parseExprBitXor fuel) fuel left p1

def parseExprBitXor : Nat → Parser → Parsed
  | 0, _ => none
  | fuel + 1, p =>
    match parseExprBitAnd fuel p with
    | none => none
    | some (left, p1) => binaryLoop tokens isBitXorOp (parseExprBitAnd fuel) fuel left p1

def parseExprBitAnd : Nat → Parser → Parsed
  | 0, _ => none
  | fuel + 1, p =>
    match parseExprShift fuel p with
    | none => none
    | some (left, p1) => binaryLoop tokens isBitAndOp (parseExprShift fuel) fuel left p1

def parseExprShift : Nat → Parser → Parsed
  | 0, _ => none
  | fuel + 1, p =>
    match parseExprAdd fuel p with
    | none => none
    | some (left, p1) => binaryLoop tokens isShiftOp (parseExprAdd fuel) fuel left p1

def parseExprAdd : Nat → Parser → Parsed
  | 0, _ => none
  | fuel + 1, p =>
    match parseExprMul fuel p with
    | none => none
    | some (left, p1) => binaryLoop tokens isAddOp (parseExprMul fuel) fuel left p1

def parseExprMul : Nat → Parser → Parsed
  | 0, _ => none
  | fuel + 1, p =>
    match parseExprUnary fuel p with
    | none => none
    | some (left, p1) => binaryLoop tokens isMulOp (parseExprUnary fuel) fuel left p1

def parseExprUnary : Nat → Parser → Parsed
  | 0, _ => none
  | fuel + 1, p =>
    if isUnaryOp (current tokens p).type then
      let loc := (current tokens p).loc
      let op := current tokens p
      match parseExprUnary fuel (advance tokens p) with
      | none => none
      | some (operand, p1) =>
        some (some ((makeNode .EXPR_UNARY loc op.text).addChild operand), p1)
    else parseExprPostfix fuel p

def parseExprPostfix : Nat → Parser → Parsed
  | 0, _ => none
  | fuel + 1, p =>
    match parseExprPrimary fuel p with
    | none => none
    | some (expr, p1) => parseExprPostfixLoop fuel expr p1

/-- The `for (;;)` loop of `parseExprPostfix`. -/
def parseExprPostfixLoop : Nat → ASTNodePtr → Parser → Parsed
  | 0, _, _ => none
  | fuel + 1, expr, p =>
    if check tokens p .TOK_LPAREN then
      let loc := (current tokens p).loc
      let p1 := advance tokens p
      let callNode := (makeNode .EXPR_CALL loc "").addChild expr
      let args : Option (ASTNode × Parser) :=
        if !check tokens p1 .TOK_RPAREN then
          match parseExpression fuel p1 with
          | none => none
          | some (arg, p2) =>
            commaLoop tokens (parseExpression fuel) fuel (callNode.addChild arg) p2
        else some (callNode, p1)
      match args with
      | none => none
      | some (callNode1, p3) =>
        parseExprPostfixLoop fuel (some callNode1) (expect tokens p3 .TOK_RPAREN ")")
    else if check tokens p .TOK_LBRACKET then
      let loc := (current tokens p).loc
      let p1 := advance tokens p
      let sliceNode := (makeNode .EXPR_SLICE loc "").addChild expr
      match parseRange fuel p1 with
      | none => none
      | some (range, p2) =>
        match commaLoop tokens (parseRange fuel) fuel (sliceNode.addChild range) p2 with
        | none => none
        | some (sliceNode1, p3) =>
          parseExprPostfixLoop fuel (some sliceNode1) (expect tokens p3 .TOK_RBRACKET "]")
    else if check tokens p .TOK_INC || check tokens p .TOK_DEC_OP then
      let loc := (current tokens p).loc
      let op := current tokens p
      parseExprPostfixLoop fuel
        (some ((makeNode .EXPR_UNARY loc ("post" ++ op.text)).addChild expr)) (advance tokens p)
    else some (expr, p)

/-- The lambda `parseRange` of `parseExprPostfix`. -/
def parseRange : Nat → Parser → Parsed
  | 0, _ => none
  | fuel + 1, p =>
    match parseExpression fuel p with
    | none => none
    | some (from_, p1) =>
      if check tokens p1 .TOK_DOTDOT then
        match parseExpression fuel (advance tokens p1) with
        | none => none
        | some (to_, p2) =>
          match from_ with
          | none => none
          | some f =>
            some (some (((makeNode .EXPR_RANGE f.loc "").addChild from_).addChild to_), p2)
      else some (from_, p1)

def parseExprPrimary : Nat → Parser → Parsed
  | 0, _ => none
  | fuel + 1, p =>
    let loc := (current tokens p).loc
    if check tokens p .TOK_LPAREN then
      match parseExpression fuel (advance tokens p) with
      | none => none
      | some (inner, p1) =>
        some (some ((makeNode .EXPR_BRACES loc "").addChild inner),
          expect tokens p1 .TOK_RPAREN ")")
    else if isLiteralStart (current tokens p).type then
      some (some (makeNode .EXPR_LITERAL loc (current tokens p).text), advance tokens p)
    else if check tokens p .TOK_IDENT then
      some (some (makeNode .EXPR_PLACE loc (current tokens p).text), advance tokens p)
    else
      some (some (makeNode .EXPR_LITERAL loc "<error>"),
        advance tokens (error tokens p
          ("expected expression, got '" ++ (current tokens p).text ++ "'")))

end

def parseExpressionOrAssign (fuel : Nat) (p : Parser) : Parsed :=
  let loc := (current tokens p).loc
  match parseExpression tokens fuel p with
  | none => none
  | some (expr, p1) =>
    if check tokens p1 .TOK_ASSIGN then
      match parseExpression tokens fuel (advance tokens p1) with
      | none => none
      | some (rhs, p2) =>
        let assignNode := ((makeNode .STMT_ASSIGN loc "").addChild expr).addChild rhs
        if check tokens p2 .TOK_WHILE || check tokens p2 .TOK_UNTIL then
          let kw := current tokens p2
          let repeatNode := (makeNode .STMT_REPEAT loc kw.text).addChild (some assignNode)
          match parseExpression tokens fuel (advance tokens p2) with
          | none => none
          | some (cond, p3) =>
            some (some (repeatNode.addChild cond), expect tokens p3 .TOK_SEMICOLON ";")
        else some (some assignNode, expect tokens p2 .TOK_SEMICOLON ";")
    else if check tokens p1 .TOK_WHILE || check tokens p1 .TOK_UNTIL then
      let kw := current tokens p1
      let repeatNode := makeNode .STMT_REPEAT loc kw.text
      match expr with
      | none => none
      | some e =>
        let bodyStmt := (makeNode .STMT_EXPR e.loc "").addChild expr
        match parseExpression tokens fuel (advance tokens p1) with
        | none => none
        | some (cond, p2) =>
          some (some ((repeatNode.addChild (some bodyStmt)).addChild cond),
            expect tokens p2 .TOK_SEMICOLON ";")
    else
      some (some ((makeNode .STMT_EXPR loc "").addChild expr),
        expect tokens p1 .TOK_SEMICOLON ";")

mutual

def parseStatement : Nat → Parser → Parsed
  | 0, _ => none
  | fuel + 1, p =>
    match (current tokens p).type with
    | .TOK_IF => parseIfStatement fuel p
    | .TOK_WHILE => parseLoopStatement fuel p
    | .TOK_UNTIL => parseLoopStatement fuel p
    | .TOK_BREAK =>
      some (some (makeNode .STMT_BREAK (current tokens p).loc ""),
        expect tokens (advance tokens p) .TOK_SEMICOLON ";")
    | .TOK_BEGIN => parseBlock fuel p
    | .TOK_LBRACE => parseBlock fuel p
    | _ => parseExpressionOrAssign tokens fuel p

def parseIfStatement : Nat → Parser → Parsed
  | 0, _ => none
  | fuel + 1, p =>
    let loc := (current tokens p).loc
    let node := makeNode .STMT_IF loc ""
    match parseExpression tokens fuel (expect tokens p .TOK_IF "if") with
    | none => none
    | some (cond, p1) =>
      match parseStatement fuel (expect tokens p1 .TOK_THEN "then") with
      | none => none
      | some (thenStmt, p2) =>
        if check tokens p2 .TOK_ELSE then
          match parseStatement fuel (advance tokens p2) with
          | none => none
          | some (elseStmt, p3) =>
            some (some (((node.addChild cond).addChild thenStmt).addChild elseStmt), p3)
        else some (some ((node.addChild cond).addChild thenStmt), p2)

def parseLoopStatement : Nat → Parser → Parsed
  | 0, _ => none
  | fuel + 1, p =>
    let loc := (current tokens p).loc
    let kw := current tokens p
    let node := makeNode .STMT_LOOP loc kw.text
    match parseExpression tokens fuel (advance tokens p) with
    | none => none
    | some (cond, p1) =>
      match parseLoopStatementLoop fuel (node.addChild cond) p1 with
      | none => none
      | some (node1, p2) => some (node1, expect tokens p2 .TOK_END "end")

/-- The loop `while (!check(TOK_END) && !isAtEnd())` of `parseLoopStatement`. -/
def parseLoopStatementLoop : Nat → ASTNode → Parser → Parsed
  | 0, _, _ => none
  | fuel + 1, node, p =>
    if !check tokens p .TOK_END && !isAtEnd tokens p then
      match parseStatement fuel p with
      | none => none
      | some (some stmt, p1) => parseLoopStatementLoop fuel (node.addChild (some stmt)) p1
      | some (none, p1) =>
        match synchronize tokens fuel p1 with
        | none => none
        | some p2 => parseLoopStatementLoop fuel node p2
    else some (some node, p)

def parseBlock : Nat → Parser → Parsed
  | 0, _ => none
  | fuel + 1, p =>
    let loc := (current tokens p).loc
    let isBrace := check tokens p .TOK_LBRACE
    let node := makeNode .STMT_BLOCK loc ""
    let closer := if isBrace then TokenType.TOK_RBRACE else TokenType.TOK_END
    match parseBlockLoop fuel closer node (advance tokens p) with
    | none => none
    | some (node1, p1) =>
      some (node1, expect tokens p1 closer (if isBrace then "\x7d" else "end"))

/-- The loop `while (!check(closer) && !isAtEnd())` of `parseBlock`. -/
def parseBlockLoop : Nat → TokenType → ASTNode → Parser → Parsed
  | 0, _, _, _ => none
  | fuel + 1, closer, node, p =>
    if !check tokens p closer && !isAtEnd tokens p then
      if check tokens p .TOK_DEF then
        match parseSourceItem fuel p with
        | none => none
        | some (some item, p1) => parseBlockLoop fuel closer (node.addChild (some item)) p1
        | some (none, p1) =>
          match synchronize tokens fuel p1 with
          | none => none
          | some p2 => parseBlockLoop fuel closer node p2
      else
        match parseStatement fuel p with
        | none => none
        | some (some stmt, p1) => parseBlockLoop fuel closer (node.addChild (some stmt)) p1
        | some (none, p1) =>
          match synchronize tokens fuel p1 with
          | none => none
          | some p2 => parseBlockLoop fuel closer node p2
    else some (some node, p)

def parseSourceItem : Nat → Parser → Parsed
  | 0, _ => none
  | fuel + 1, p =>
    if check tokens p .TOK_DEF then parseFuncDef fuel p
    else some (none, error tokens p "expected function definition ('def')")

def parseFuncDef : Nat → Parser → Parsed
  | 0, _ => none
  | fuel + 1, p =>
    let loc := (current tokens p).loc
    let node := makeNode .FUNC_DEF loc ""
    match parseFuncSignature tokens fuel (expect tokens p .TOK_DEF "def") with
    | none => none
    | some (sig, p1) =>
      let body : Parsed :=
        if !check tokens p1 .TOK_END && !isAtEnd tokens p1 && !check tokens p1 .TOK_DEF then
          parseFuncDefLoop fuel (node.addChild sig) p1
        else some (some (node.addChild sig), p1)
      match body with
      | none => none
      | some (node1, p2) =>
        if check tokens p2 .TOK_END then some (node1, advance tokens p2)
        else some (node1, p2)

/-- The loop `while (!check(TOK_END) && !isAtEnd())` of `parseFuncDef`. -/
def parseFuncDefLoop : Nat → ASTNode → Parser → Parsed
  | 0, _, _ => none
  | fuel + 1, node, p =>
    if !check tokens p .TOK_END && !isAtEnd tokens p then
      if check tokens p .TOK_DEF then some (some node, p)
      else
        match parseStatement fuel p with
        | none => none
        | some (some stmt, p1) => parseFuncDefLoop fuel (node.addChild (some stmt)) p1
        | some (none, p1) =>
          match synchronize tokens fuel p1 with
          | none => none
          | some p2 => parseFuncDefLoop fuel node p2
    else some (some node, p)

end

/-- The loop `while (!isAtEnd())` of `parseSource`. -/
def parseSourceLoop : Nat → ASTNode → Parser → Parsed
  | 0, _, _ => none
  | fuel + 1, node, p =>
    if !isAtEnd tokens p then
      match parseSourceItem tokens fuel p with
      | none => none
      | some (some item, p1) => parseSourceLoop fuel (node.addChild (some item)) p1
      | some (none, p1) =>
        match synchronize tokens fuel p1 with
        | none => none
        | some p2 => parseSourceLoop fuel node p2
    else some (some node, p)

def parseSource (fuel : Nat) (p : Parser) : Parsed :=
  parseSourceLoop tokens fuel (makeNode .SOURCE (current tokens p).loc "") p

/-- `Parser(tokens).parse()`: the tree and the error vector, or `none` when the
call does not return within `fuel` nested calls and loop iterations. -/
def parse (fuel : Nat) : Option ParseResult :=
  match parseSource tokens fuel { pos := 0, errors := [] } with
  | none => none
  | some (tree, p) => some { tree := tree, errors := p.errors }

end

/-- Lexing followed by parsing, as `main` does it: the tree, the lexical
errors and the syntax errors. -/
def lexAndParse (fuel : Nat) (source : String) :
    Option (ASTNodePtr × List LexerError × List ParseError) :=
  match tokenize fuel source.toList with
  | none => none
  | some (tokens, lexErrors) =>
    match parse tokens fuel with
    | none => none
    | some r => some (r.tree, lexErrors, r.errors)

/-! ## Specification vocabulary -/

/-- The `n` bytes of `src` starting at offset `a`. -/
def substr (src : List Char) (a n : Nat) : List Char :=
  (src.drop a).take n

/-- Location order: the byte offset is not smaller and the (line, column) pair
is not smaller in lexicographic order. -/
def SourceLocation.le (a b : SourceLocation) : Prop :=
  a.offset ≤ b.offset ∧ (a.line < b.line ∨ (a.line = b.line ∧ a.column ≤ b.column))

/-- The state `l1` is a later state of the scan that was in state `l`: same
input, position and location not smaller, position within the input. -/
structure Lexer.Reaches (l l1 : Lexer) : Prop where
  source : l1.source = l.source
  pos : l.pos ≤ l1.pos
  bound : l1.pos ≤ l.source.length
  loc : l.here.le l1.here

/-- The bytes `a .. b-1` of `src` are what one call of
`skipWhitespaceAndComments` consumes when the lexer stands at offset `a`. -/
def SkippedGap (src : List Char) (a b : Nat) : Prop :=
  ∃ fuel l l1, l.source = src ∧ l.pos = a ∧
    skipWhitespaceAndComments fuel l = some l1 ∧ l1.pos = b

/-- From offset `o` on, `src` is exactly: a gap skipped as whitespace or
comment, the lexeme of the first token (at that token's offset), a gap, the
lexeme of the second token, and so on up to the end of `src`. -/
def Decomposes (src : List Char) : Nat → List (List Char) → List Token → Prop
  | o, [], [] => o = src.length
  | o, g :: gs, t :: ts =>
    substr src o g.length = g ∧ SkippedGap src o (o + g.length) ∧
    t.loc.offset = o + g.length ∧
    substr src t.loc.offset t.text.length = t.text.data ∧
    Decomposes src (t.loc.offset + t.text.length) gs ts
  | _, _, _ => False

/-- The text `g0 ++ lexeme0 ++ g1 ++ lexeme1 ++ ...`. -/
def interleave : List (List Char) → List Token → List Char
  | g :: gs, t :: ts => g ++ t.text.data ++ interleave gs ts
  | _, _ => []

/-- The big-step run of the loop of `tokenize` from state `l`: the tokens it
appends, with the facts about each iteration that the theorems need. -/
inductive TokenRun : Lexer → List Token → Prop
  | eof (l l1 : Lexer) (fuel : Nat) :
      skipWhitespaceAndComments fuel l = some l1 → l.Reaches l1 →
      l1.pos = l.source.length → TokenRun l [makeToken .TOK_EOF "" l1.here]
  | tok (l l1 l2 : Lexer) (fuel : Nat) (t : Token) (rest : List Token) :
      skipWhitespaceAndComments fuel l = some l1 → l.Reaches l1 → l1.Reaches l2 →
      l1.pos < l2.pos → t.loc = l1.here → t.type ≠ .TOK_EOF →
      t.text.data = substr l.source l1.pos (l2.pos - l1.pos) →
      TokenRun l2 rest → TokenRun l (t :: rest)

/-- What every branch of `scanToken` guarantees about the token it returns and
the state it leaves. -/
structure TokenSpec (l : Lexer) (t : Token) (l2 : Lexer) : Prop where
  reaches : l.Reaches l2
  progress : l.pos < l2.pos
  loc : t.loc = l.here
  notEof : t.type ≠ .TOK_EOF
  text : t.text.data = substr l.source l.pos (l2.pos - l.pos)

/-- What a run of the loop of `tokenize` says about lexemes and gaps. -/
structure LexemeFacts (src : List Char) (o : Nat) (toks : List Token) : Prop where
  each : ∀ t ∈ toks, o ≤ t.loc.offset ∧ t.loc.offset + t.text.length ≤ src.length ∧
    substr src t.loc.offset t.text.length = t.text.data ∧
    (t.type ≠ .TOK_EOF → 0 < t.text.length)
  apart : toks.Pairwise (fun a b => a.loc.offset + a.text.length ≤ b.loc.offset)
  gaps : ∃ gaps, Decomposes src o gaps toks ∧ src.drop o = interleave gaps toks

/-- The kinds of the nodes that `parseExpression` returns. -/
def isExprKind (k : Kind) : Bool :=
  k == .EXPR_BINARY || k == .EXPR_UNARY || k == .EXPR_BRACES || k == .EXPR_CALL ||
  k == .EXPR_SLICE || k == .EXPR_PLACE || k == .EXPR_LITERAL

/-- The child-count rule of each node kind. -/
def childrenOk : Kind → List ASTNodePtr → Prop
  | .EXPR_BINARY, cs => cs.length = 2
  | .STMT_ASSIGN, cs => cs.length = 2
  | .STMT_REPEAT, cs => cs.length = 2
  | .EXPR_RANGE, cs => cs.length = 2
  | .EXPR_UNARY, cs => cs.length = 1
  | .EXPR_BRACES, cs => cs.length = 1
  | .STMT_EXPR, cs => cs.length = 1
  | .TYPE_ARRAY, cs => cs.length = 1
  | .STMT_IF, cs => cs.length = 2 ∨ cs.length = 3
  | .STMT_LOOP, cs => ∃ c rest, cs = some c :: rest ∧ isExprKind c.kind = true
  | .EXPR_CALL, cs => ∃ c rest, cs = some c :: rest ∧ isExprKind c.kind = true
  | .EXPR_SLICE, cs => 2 ≤ cs.length
  | .FUNC_DEF, cs => ∃ sig rest, cs = some sig :: rest ∧ sig.kind = .FUNC_SIGNATURE
  | .FUNC_ARG, cs => cs.length ≤ 1
  | .STMT_BREAK, cs => cs = []
  | .EXPR_PLACE, cs => cs = []
  | .EXPR_LITERAL, cs => cs = []
  | .TYPE_BUILTIN, cs => cs = []
  | .TYPE_CUSTOM, cs => cs = []
  | .SOURCE, _ => True
  | .FUNC_SIGNATURE, _ => True
  | .STMT_BLOCK, _ => True

/-- Well-formed tree: in every node, no child is null, the children obey the
rule of the node's kind, and every child is itself well formed. -/
inductive WellFormed : ASTNode → Prop
  | intro (kind : Kind) (loc : SourceLocation) (value : String) (children : List ASTNodePtr) :
      (∀ c ∈ children, c ≠ none) → childrenOk kind children →
      (∀ n, some n ∈ children → WellFormed n) →
      WellFormed (.mk kind loc value children)

/-- The tokens of the input `end`, as the lexer returns them. -/
def endOnly : List Token :=
  [{ type := .TOK_END, text := "end", loc := ⟨1, 1, 0⟩ },
   { type := .TOK_EOF, text := "", loc := ⟨1, 4, 3⟩ }]

/-- A non-null pointer to a well-formed tree. -/
def GoodNode (r : ASTNodePtr) : Prop :=
  ∃ n, r = some n ∧ WellFormed n

/-- A non-null pointer to a well-formed tree of expression kind. -/
def GoodExpr (r : ASTNodePtr) : Prop :=
  ∃ n, r = some n ∧ WellFormed n ∧ isExprKind n.kind = true

/-- Every result of the parsing function `f` satisfies `Q`. -/
def Yields (f : Parser → Parsed) (Q : ASTNodePtr → Prop) : Prop :=
  ∀ p r p1, f p = some (r, p1) → Q r

/-- A kind whose child-count rule still holds after one more child is added. -/
def Growable (k : Kind) : Prop :=
  ∀ cs c, childrenOk k cs → childrenOk k (cs ++ [c])

/-- The invariant of the expression functions at one fuel level. -/
structure ExprInv (tokens : List Token) (fuel : Nat) : Prop where
  expression : Yields (parseExpression tokens fuel) GoodExpr
  or_ : Yields (parseExprOr tokens fuel) GoodExpr
  and_ : Yields (parseExprAnd tokens fuel) GoodExpr
  comparison : Yields (parseExprComparison tokens fuel) GoodExpr
  bitOr : Yields (parseExprBitOr tokens fuel) GoodExpr
  bitXor : Yields (parseExprBitXor tokens fuel) GoodExpr
  bitAnd : Yields (parseExprBitAnd tokens fuel) GoodExpr
  shift : Yields (parseExprShift tokens fuel) GoodExpr
  add : Yields (parseExprAdd tokens fuel) GoodExpr
  mul : Yields (parseExprMul tokens fuel) GoodExpr
  unary : Yields (parseExprUnary tokens fuel) GoodExpr
  postfix_ : Yields (parseExprPostfix tokens fuel) GoodExpr
  postfixLoop : ∀ e, GoodExpr e → Yields (parseExprPostfixLoop tokens fuel e) GoodExpr
  range : Yields (parseRange tokens fuel) GoodNode
  primary : Yields (parseExprPrimary tokens fuel) GoodExpr

/-- A non-null pointer to a well-formed tree of kind `k`. -/
def GoodKind (k : Kind) (r : ASTNodePtr) : Prop :=
  ∃ n, r = some n ∧ WellFormed n ∧ n.kind = k

/-- The invariant of the statement functions at one fuel level. -/
structure StmtInv (tokens : List Token) (fuel : Nat) : Prop where
  statement : Yields (parseStatement tokens fuel) GoodNode
  ifStatement : Yields (parseIfStatement tokens fuel) GoodNode
  loopStatement : Yields (parseLoopStatement tokens fuel) GoodNode
  loopLoop : ∀ node, WellFormed node → node.kind = .STMT_LOOP →
    Yields (parseLoopStatementLoop tokens fuel node) GoodNode
  block : Yields (parseBlock tokens fuel) GoodNode
  blockLoop : ∀ closer node, WellFormed node → node.kind = .STMT_BLOCK →
    Yields (parseBlockLoop tokens fuel closer node) GoodNode
  sourceItem : Yields (parseSourceItem tokens fuel) (fun r => r = none ∨ GoodKind .FUNC_DEF r)
  funcDef : Yields (parseFuncDef tokens fuel) (GoodKind .FUNC_DEF)
  funcDefLoop : ∀ node, WellFormed node → node.kind = .FUNC_DEF →
    Yields (parseFuncDefLoop tokens fuel node) (GoodKind .FUNC_DEF)

/-- The precedence level of a binary operator, from loosest (0) to tightest
(8), as in the grammar of the language. -/
def binaryLevel : TokenType → Option Nat
  | .TOK_OR => some 0
  | .TOK_AND => some 1
  | .TOK_LT => some 2
  | .TOK_GT => some 2
  | .TOK_LE => some 2
  | .TOK_GE => some 2
  | .TOK_EQ => some 2
  | .TOK_NE => some 2
  | .TOK_PIPE => some 3
  | .TOK_CARET => some 4
  | .TOK_AMP => some 5
  | .TOK_SHL => some 6
  | .TOK_SHR => some 6
  | .TOK_PLUS => some 7
  | .TOK_MINUS => some 7
  | .TOK_STAR => some 8
  | .TOK_SLASH => some 8
  | .TOK_PERCENT => some 8
  | _ => none

/-- The nine binary functions `parseExprOr` .. `parseExprMul` by level, followed
by `parseExprUnary`. -/
def levelParser (tokens : List Token) : Nat → Nat → Parser → Parsed
  | 0 => parseExprOr tokens
  | 1 => parseExprAnd tokens
  | 2 => parseExprComparison tokens
  | 3 => parseExprBitOr tokens
  | 4 => parseExprBitXor tokens
  | 5 => parseExprBitAnd tokens
  | 6 => parseExprShift tokens
  | 7 => parseExprAdd tokens
  | 8 => parseExprMul tokens
  | _ => parseExprUnary tokens

/-- The loop condition of the binary function of each level. -/
def levelIsOp : Nat → TokenType → Bool
  | 0 => isOrOp
  | 1 => isAndOp
  | 2 => isComparisonOp
  | 3 => isBitOrOp
  | 4 => isBitXorOp
  | 5 => isBitAndOp
  | 6 => isShiftOp
  | 7 => isAddOp
  | 8 => isMulOp
  | _ => fun _ => false

/-- An identifier or literal token. -/
def isOperand (t : Token) : Bool :=
  isLiteralStart t.type || t.type == .TOK_IDENT

/-- The leaf node of an operand token: `Place` for an identifier, `Literal`
for a literal, valued with the lexeme and located at the token. -/
def operandNode (t : Token) : ASTNode :=
  if t.type = .TOK_IDENT then makeNode .EXPR_PLACE t.loc t.text
  else makeNode .EXPR_LITERAL t.loc t.text

/-- The node `BinaryExpr(op)[l, r]`: valued with the operator's lexeme and
located at the operator token. -/
def binaryNode (op : Token) (l r : ASTNode) : ASTNode :=
  .mk .EXPR_BINARY op.loc op.text [some l, some r]

/-- The token starts no postfix suffix (call, slice, `++`, `--`). -/
def noPostfix (t : TokenType) : Bool :=
  !(t == .TOK_LPAREN || t == .TOK_LBRACKET || t == .TOK_INC || t == .TOK_DEC_OP)

/-- The token sequence of scenario 2, `def f(x of T) begin x = x + 1; end end`,
with arbitrary names `f`, `x`, an arbitrary type token `T` and arbitrary
locations. -/
def scenario2Tokens (f x : String) (T : Token) (loc : Nat → SourceLocation) : List Token :=
  [⟨.TOK_DEF, "def", loc 0⟩, ⟨.TOK_IDENT, f, loc 1⟩, ⟨.TOK_LPAREN, "(", loc 2⟩,
   ⟨.TOK_IDENT, x, loc 3⟩, ⟨.TOK_OF, "of", loc 4⟩, T, ⟨.TOK_RPAREN, ")", loc 6⟩,
   ⟨.TOK_BEGIN, "begin", loc 7⟩, ⟨.TOK_IDENT, x, loc 8⟩, ⟨.TOK_ASSIGN, "=", loc 9⟩,
   ⟨.TOK_IDENT, x, loc 10⟩, ⟨.TOK_PLUS, "+", loc 11⟩, ⟨.TOK_DEC, "1", loc 12⟩,
   ⟨.TOK_SEMICOLON, ";", loc 13⟩, ⟨.TOK_END, "end", loc 14⟩, ⟨.TOK_END, "end", loc 15⟩,
   ⟨.TOK_EOF, "", loc 16⟩]

/-- The tree of scenario 2:
`Source[FuncDef[FuncSignature(f)[FuncArg(x)[TypeBuiltin(T)]],
Block[Assign[Place(x), BinaryExpr(+)[Place(x), Literal(1)]]]]]`. -/
def scenario2Tree (f x : String) (T : Token) (loc : Nat → SourceLocation) : ASTNode :=
  .mk .SOURCE (loc 0) "" [some (.mk .FUNC_DEF (loc 0) "" [
    some (.mk .FUNC_SIGNATURE (loc 1) f [some (.mk .FUNC_ARG (loc 3) x [
      some (.mk .TYPE_BUILTIN T.loc T.text [])])]),
    some (.mk .STMT_BLOCK (loc 7) "" [some (.mk .STMT_ASSIGN (loc 8) "" [
      some (.mk .EXPR_PLACE (loc 8) x []),
      some (.mk .EXPR_BINARY (loc 11) "+" [some (.mk .EXPR_PLACE (loc 10) x []),
        some (.mk .EXPR_LITERAL (loc 12) "1" [])])])])])]

/-- The locations that the lexer gives the tokens of
`def f(x of int) begin x = x + 1; end end`. -/
def scenario2Locs : Nat → SourceLocation
  | 0 => ⟨1, 1, 0⟩
  | 1 => ⟨1, 5, 4⟩
  | 3 => ⟨1, 7, 6⟩
  | 7 => ⟨1, 17, 16⟩
  | 8 => ⟨1, 23, 22⟩
  | 10 => ⟨1, 27, 26⟩
  | 11 => ⟨1, 29, 28⟩
  | 12 => ⟨1, 31, 30⟩
  | _ => ⟨0, 0, 0⟩

/-- The tree of scenario 6 for `def f() x = x+1 while x<10; end`. -/
def scenario6Tree : ASTNode :=
  .mk .SOURCE ⟨1, 1, 0⟩ "" [some (.mk .FUNC_DEF ⟨1, 1, 0⟩ "" [
    some (.mk .FUNC_SIGNATURE ⟨1, 5, 4⟩ "f" []),
    some (.mk .STMT_REPEAT ⟨1, 9, 8⟩ "while" [
      some (.mk .STMT_ASSIGN ⟨1, 9, 8⟩ "" [some (.mk .EXPR_PLACE ⟨1, 9, 8⟩ "x" []),
        some (.mk .EXPR_BINARY ⟨1, 14, 13⟩ "+" [some (.mk .EXPR_PLACE ⟨1, 13, 12⟩ "x" []),
          some (.mk .EXPR_LITERAL ⟨1, 15, 14⟩ "1" [])])]),
      some (.mk .EXPR_BINARY ⟨1, 24, 23⟩ "<" [some (.mk .EXPR_PLACE ⟨1, 23, 22⟩ "x" []),
        some (.mk .EXPR_LITERAL ⟨1, 25, 24⟩ "10" [])])])])]

/-- Sample tokens `a + b - c ;` and `a + b * c ;`, `a * b + c ;` for the
operator theorems, and `x = y while z ;`, `x until z ;` for the repeat
statements. -/
def tokA : Token := ⟨.TOK_IDENT, "a", ⟨1, 1, 0⟩⟩

def tokB : Token := ⟨.TOK_DEC, "2", ⟨1, 5, 4⟩⟩

def tokC : Token := ⟨.TOK_IDENT, "c", ⟨1, 9, 8⟩⟩

def tokPlus : Token := ⟨.TOK_PLUS, "+", ⟨1, 3, 2⟩⟩

def tokMinus : Token := ⟨.TOK_MINUS, "-", ⟨1, 7, 6⟩⟩

def tokStar : Token := ⟨.TOK_STAR, "*", ⟨1, 7, 6⟩⟩

def tokSemi : Token := ⟨.TOK_SEMICOLON, ";", ⟨1, 10, 9⟩⟩

def tokEof : Token := ⟨.TOK_EOF, "", ⟨1, 11, 10⟩⟩

def repeatAssignTokens : List Token :=
  [⟨.TOK_IDENT, "x", ⟨1, 1, 0⟩⟩, ⟨.TOK_ASSIGN, "=", ⟨1, 3, 2⟩⟩, ⟨.TOK_IDENT, "y", ⟨1, 5, 4⟩⟩,
   ⟨.TOK_WHILE, "while", ⟨1, 7, 6⟩⟩, ⟨.TOK_IDENT, "z", ⟨1, 13, 12⟩⟩,
   ⟨.TOK_SEMICOLON, ";", ⟨1, 14, 13⟩⟩, ⟨.TOK_EOF, "", ⟨1, 15, 14⟩⟩]

def repeatExprTokens : List Token :=
  [⟨.TOK_IDENT, "x", ⟨1, 1, 0⟩⟩, ⟨.TOK_UNTIL, "until", ⟨1, 3, 2⟩⟩,
   ⟨.TOK_IDENT, "z", ⟨1, 9, 8⟩⟩, ⟨.TOK_SEMICOLON, ";", ⟨1, 10, 9⟩⟩,
   ⟨.TOK_EOF, "", ⟨1, 11, 10⟩⟩]

/-- The part of the input that the lexer has not consumed yet. -/
def Lexer.rest (l : Lexer) : List Char :=
  l.source.drop l.pos

/-- The state after consuming `n` bytes none of which is a newline. -/
def Lexer.skip (l : Lexer) (n : Nat) : Lexer :=
  { l with pos := l.pos + n, col := l.col + n }

/-- The bytes `w`, when followed by `r`, are scanned as one token of kind
`type` whose lexeme is `w`, without recording an error. -/
def LexesAs (w : String) (type : TokenType) (r : List Char) : Prop :=
  ∀ fuel l, l.rest = w.data ++ r → (w.data ++ r).length < fuel →
    scanToken fuel l = some (makeToken type w l.here, l.skip w.length)

/-- A piece of source text: some blanks followed by the lexeme of one token. -/
structure Item where
  spaces : Nat
  word : String
  type : TokenType

/-- The source text of a list of items. -/
def itemsText : List Item → List Char
  | [] => []
  | it :: rest => List.replicate it.spaces ' ' ++ (it.word.data ++ itemsText rest)

/-- The tokens of a list of items when the lexer starts in state `l`. -/
def itemTokens (l : Lexer) : List Item → List Token
  | [] => []
  | it :: rest =>
    makeToken it.type it.word (l.skip it.spaces).here ::
      itemTokens ((l.skip it.spaces).skip it.word.length) rest

/-- The state of the lexer after the items. -/
def itemsEnd (l : Lexer) : List Item → Lexer
  | [] => l
  | it :: rest => itemsEnd ((l.skip it.spaces).skip it.word.length) rest

/-- Each item starts with a byte that is neither a blank nor `/`, and is
scanned as one token of its kind in front of the text of the items after it. -/
def ItemsOk : List Item → Prop
  | [] => True
  | it :: rest =>
    (∃ c cs, it.word.data = c :: cs ∧ c ≠ ' ' ∧ c ≠ '\t' ∧ c ≠ '\r' ∧ c ≠ '\n' ∧ c ≠ '/') ∧
    LexesAs it.word it.type (itemsText rest) ∧ ItemsOk rest

/-- An identifier name: a letter or underscore followed by letters, digits and
underscores, that is not one of the keywords. -/
def isIdentifierName (w : String) : Prop :=
  (∃ c cs, w.data = c :: cs ∧ (isalpha c || c == '_') = true ∧
    ∀ d ∈ cs, (isalnum d || d == '_') = true) ∧
  keywordType w = .TOK_IDENT

/-- The eight builtin type keywords with their token kinds. -/
def builtinTypeNames : List (String × TokenType) :=
  [("bool", .TOK_BOOL), ("byte", .TOK_BYTE), ("int", .TOK_INT), ("uint", .TOK_UINT),
   ("long", .TOK_LONG), ("ulong", .TOK_ULONG), ("char", .TOK_CHARTYPE),
   ("string", .TOK_STRINGTYPE)]

/-- The source text of scenario 2 with the names `f`, `x` and the type `T`. -/
def scenario2Source (f x T : String) : String :=
  "def " ++ f ++ "(" ++ x ++ " of " ++ T ++ ") begin " ++ x ++ " = " ++ x ++ " + 1; end end"

/-- The items of `scenario2Source`. -/
def scenario2Items (f x T : String) (type : TokenType) : List Item :=
  [⟨0, "def", .TOK_DEF⟩, ⟨1, f, .TOK_IDENT⟩, ⟨0, "(", .TOK_LPAREN⟩, ⟨0, x, .TOK_IDENT⟩,
   ⟨1, "of", .TOK_OF⟩, ⟨1, T, type⟩, ⟨0, ")", .TOK_RPAREN⟩, ⟨1, "begin", .TOK_BEGIN⟩,
   ⟨1, x, .TOK_IDENT⟩, ⟨1, "=", .TOK_ASSIGN⟩, ⟨1, x, .TOK_IDENT⟩, ⟨1, "+", .TOK_PLUS⟩,
   ⟨1, "1", .TOK_DEC⟩, ⟨0, ";", .TOK_SEMICOLON⟩, ⟨1, "end", .TOK_END⟩, ⟨1, "end", .TOK_END⟩]

/-! ### Scenarios 1 and 3, optional `end` -/

/-- The source text `def n() end` of scenario 1. -/
def scenario1Source (n : String) : String :=
  "def " ++ n ++ "() end"

/-- The items of `scenario1Source`. -/
def scenario1Items (n : String) : List Item :=
  [⟨0, "def", .TOK_DEF⟩, ⟨1, n, .TOK_IDENT⟩, ⟨0, "(", .TOK_LPAREN⟩, ⟨0, ")", .TOK_RPAREN⟩,
   ⟨1, "end", .TOK_END⟩]

/-- The token sequence of `def n() end`, at arbitrary locations. -/
def scenario1Tokens (n : String) (loc : Nat → SourceLocation) : List Token :=
  [⟨.TOK_DEF, "def", loc 0⟩, ⟨.TOK_IDENT, n, loc 1⟩, ⟨.TOK_LPAREN, "(", loc 2⟩,
   ⟨.TOK_RPAREN, ")", loc 3⟩, ⟨.TOK_END, "end", loc 4⟩, ⟨.TOK_EOF, "", loc 5⟩]

/-- The tree of scenario 1: `Source[FuncDef[FuncSignature(n)]]`, the signature
without children and the function definition with the signature as its only
child. -/
def scenario1Tree (n : String) (loc : Nat → SourceLocation) : ASTNode :=
  .mk .SOURCE (loc 0) "" [some (.mk .FUNC_DEF (loc 0) "" [
    some (.mk .FUNC_SIGNATURE (loc 1) n [])])]

/-- The tree that `def f( end` parses to (scenario 3). -/
def scenario3Tree : ASTNode :=
  .mk .SOURCE ⟨1, 1, 0⟩ "" [some (.mk .FUNC_DEF ⟨1, 1, 0⟩ "" [
    some (.mk .FUNC_SIGNATURE ⟨1, 5, 4⟩ "f" [some (.mk .FUNC_ARG ⟨1, 8, 7⟩ "end" [])])])]

/-- The statements of `parseFuncDef` up to, and without, its last one
`if (check(TOK_END)) advance();`: the `def`, the signature and the body
statements. -/
def funcDefBody (tokens : List Token) : Nat → Parser → Parsed
  | 0, _ => none
  | fuel + 1, p =>
    let loc := (current tokens p).loc
    let node := makeNode .FUNC_DEF loc ""
    match parseFuncSignature tokens fuel (expect tokens p .TOK_DEF "def") with
    | none => none
    | some (sig, p1) =>
      if !check tokens p1 .TOK_END && !isAtEnd tokens p1 && !check tokens p1 .TOK_DEF then
        parseFuncDefLoop tokens fuel (node.addChild sig) p1
      else some (some (node.addChild sig), p1)

/-- The tree of `def f() x = 1;`, with or without a closing `end`. -/
def optionalEndTree : ASTNode :=
  .mk .SOURCE ⟨1, 1, 0⟩ "" [some (.mk .FUNC_DEF ⟨1, 1, 0⟩ "" [
    some (.mk .FUNC_SIGNATURE ⟨1, 5, 4⟩ "f" []),
    some (.mk .STMT_ASSIGN ⟨1, 9, 8⟩ "" [some (.mk .EXPR_PLACE ⟨1, 9, 8⟩ "x" []),
      some (.mk .EXPR_LITERAL ⟨1, 13, 12⟩ "1" [])])])]

/-- The tree of two function definitions `f` and `g` without parameters and
statements, `g` at location `loc`, its name at `nameLoc`. -/
def twoFuncTree (loc nameLoc : SourceLocation) : ASTNode :=
  .mk .SOURCE ⟨1, 1, 0⟩ "" [
    some (.mk .FUNC_DEF ⟨1, 1, 0⟩ "" [some (.mk .FUNC_SIGNATURE ⟨1, 5, 4⟩ "f" [])]),
    some (.mk .FUNC_DEF loc "" [some (.mk .FUNC_SIGNATURE nameLoc "g" [])])]

/-! ### Token-by-token vocabulary -/

/-- The big-step run of the loop of `tokenize` from state `l` to state `l3`,
keeping for every token the call of `scanToken` that returned it. -/
inductive ScanRun : Lexer → List Token → Lexer → Prop
  | eof (l l1 : Lexer) (fuel : Nat) :
      skipWhitespaceAndComments fuel l = some l1 → l.Reaches l1 → l1.isAtEnd = true →
      ScanRun l [makeToken .TOK_EOF "" l1.here] l1
  | tok (l l1 l2 l3 : Lexer) (fuel : Nat) (t : Token) (rest : List Token) :
      skipWhitespaceAndComments fuel l = some l1 → l.Reaches l1 → l1.isAtEnd = false →
      l1.source.length - l1.pos < fuel → scanToken fuel l1 = some (t, l2) →
      TokenSpec l1 t l2 → ScanRun l2 rest l3 → ScanRun l (t :: rest) l3

/-- The token `t` of the input `source` was returned by `scanToken` called in
state `l1`, which stands inside the input at the token's location, and the
call left the lexer in state `l2`. -/
structure ScannedAt (source : List Char) (t : Token) (l1 l2 : Lexer) : Prop where
  src : l1.source = source
  loc : t.loc = l1.here
  inside : l1.pos < source.length
  call : ∃ fuel, source.length - l1.pos < fuel ∧ scanToken fuel l1 = some (t, l2)

/-- Kind and lexeme of the numeric literal at the head of the text `r`, in the
words of the specification: `0x`/`0X` and the longest run of hex digits,
`0b`/`0B` and the longest run of `0`/`1`, otherwise the longest run of decimal
digits. -/
def numberLexeme (r : List Char) : TokenType × List Char :=
  match r with
  | c :: n :: r2 =>
    if c = '0' ∧ (n = 'x' ∨ n = 'X') then (.TOK_HEX, c :: n :: r2.takeWhile isxdigit)
    else if c = '0' ∧ (n = 'b' ∨ n = 'B') then
      (.TOK_BITS, c :: n :: r2.takeWhile (fun d => d == '0' || d == '1'))
    else (.TOK_DEC, r.takeWhile isdigit)
  | _ => (.TOK_DEC, r.takeWhile isdigit)

/-- The index in `r`, the text after an opening `"`, of the first `"` that is
not the byte right after an escaping backslash, in the words of the
specification; `none` when there is no such quote. -/
def closingQuote : List Char → Option Nat
  | [] => none
  | c :: r =>
    if c = '"' then some 0
    else if c = '\\' then
      match r with
      | [] => none
      | _ :: r2 => (closingQuote r2).map (· + 2)
    else (closingQuote r).map (· + 1)

/-- The number of bytes of the text up to and including the `*/` at which the depth
counter, `depth` at the head of the text, raised at each `/*` and lowered at each
`*/` read from left to right without overlap, gets to zero; `none` when it
never does. -/
def commentClose : List Char → Nat → Option Nat
  | [], depth => if depth = 0 then some 0 else none
  | [_], depth => if depth = 0 then some 0 else none
  | c :: c2 :: r2, depth =>
    if depth = 0 then some 0
    else if c = '/' ∧ c2 = '*' then (commentClose r2 (depth + 1)).map (· + 2)
    else if c = '*' ∧ c2 = '/' then (commentClose r2 (depth - 1)).map (· + 2)
    else (commentClose (c2 :: r2) depth).map (· + 1)

/-- The eleven two-character operators of the specification. -/
def twoCharOperators : List (Char × Char × TokenType) :=
  [('=', '=', .TOK_EQ), ('!', '=', .TOK_NE), ('<', '=', .TOK_LE), ('>', '=', .TOK_GE),
   ('<', '<', .TOK_SHL), ('>', '>', .TOK_SHR), ('&', '&', .TOK_AND), ('|', '|', .TOK_OR),
   ('+', '+', .TOK_INC), ('-', '-', .TOK_DEC_OP), ('.', '.', .TOK_DOTDOT)]

/-- The kinds of the one-character operator and punctuation tokens. -/
def isOneCharKind (ty : TokenType) : Bool :=
  ty ∈ [TokenType.TOK_PLUS, .TOK_MINUS, .TOK_STAR, .TOK_SLASH, .TOK_PERCENT, .TOK_AMP,
    .TOK_PIPE, .TOK_CARET, .TOK_TILDE, .TOK_BANG, .TOK_LT, .TOK_GT, .TOK_ASSIGN,
    .TOK_LPAREN, .TOK_RPAREN, .TOK_LBRACKET, .TOK_RBRACKET, .TOK_LBRACE, .TOK_RBRACE,
    .TOK_COMMA, .TOK_SEMICOLON]

/-- The 21 keywords of the specification. -/
def keywordNames : List String :=
  ["def", "end", "if", "then", "else", "while", "until", "break", "begin", "of", "bool",
   "byte", "int", "uint", "long", "ulong", "char", "string", "array", "true", "false"]

/-! ### One more byte in front of the input -/

/-- The location of the same byte when one more byte, not a newline, stands in
front of the input: the offset is one larger, the line is the same, and the
column is one larger on line 1 and the same on every later line. -/
def shiftLoc (loc : SourceLocation) : SourceLocation :=
  { line := loc.line
    column := if loc.line = 1 then loc.column + 1 else loc.column
    offset := loc.offset + 1 }

/-- The same token at the shifted location. -/
def shiftToken (t : Token) : Token :=
  { t with loc := shiftLoc t.loc }

/-- The same error at the shifted location. -/
def shiftError (e : LexerError) : LexerError :=
  { e with loc := shiftLoc e.loc }

/-- The lexer `l` is at the same place of the input `c :: src` as the lexer
`k` is of `src`, and has recorded the errors `first` before the errors of
`k`. -/
structure Shifted (c : Char) (first : List LexerError) (l k : Lexer) : Prop where
  source : l.source = c :: k.source
  pos : l.pos = k.pos + 1
  line : l.line = k.line
  col : l.col = if k.line = 1 then k.col + 1 else k.col
  lineOk : 1 ≤ k.line
  errors : l.errors = first ++ k.errors.map shiftError

/-- The literal reading of "shifted by one column and offset". -/
def shiftedByOne (a b : SourceLocation) : Prop :=
  a.line = b.line ∧ a.column = b.column + 1 ∧ a.offset = b.offset + 1

/-- The operator and punctuation bytes of the specification. -/
def operatorChars : List Char :=
  ['+', '-', '*', '/', '%', '&', '|', '^', '~', '!', '<', '>', '=', '(', ')', '[', ']',
   '{', '}', ',', ';']

/-! ### Parser positions, resynchronization, sentinels -/

/-- The token at index `i` of the token vector, as `current` reads it. -/
def tokenAt (tokens : List Token) (i : Nat) : Token :=
  current tokens { pos := i, errors := [] }

/-- The kinds at which `synchronize` stops: end of input, `;`, and the eight
resumption kinds `def if while until break end begin {`. -/
def isSyncStop (t : TokenType) : Bool :=
  t == .TOK_EOF || t == .TOK_SEMICOLON ||
  (t == .TOK_DEF || t == .TOK_IF || t == .TOK_WHILE || t == .TOK_UNTIL ||
   t == .TOK_BREAK || t == .TOK_END || t == .TOK_BEGIN || t == .TOK_LBRACE)

/-- The last token of the sequence is an EOF token. -/
def EndsWithEof (tokens : List Token) : Prop :=
  ∃ body eof, tokens = body ++ [eof] ∧ eof.type = .TOK_EOF

/-- The sequence is some tokens, none of kind EOF, followed by one EOF token,
as the lexer returns it. -/
def EofTerminated (tokens : List Token) : Prop :=
  ∃ body eof, tokens = body ++ [eof] ∧ eof.type = .TOK_EOF ∧ ∀ t ∈ body, t.type ≠ .TOK_EOF

/-- A token that starts a primary expression: `(`, a literal or an identifier. -/
def startsPrimary (t : TokenType) : Bool :=
  t == .TOK_LPAREN || isLiteralStart t || t == .TOK_IDENT

/-- A token that starts a type: a builtin type keyword or an identifier. -/
def startsType (t : TokenType) : Bool :=
  isBuiltinType t || t == .TOK_IDENT

/-- The tree of `def f() x = ; end`: the assignment has the sentinel literal as
its right-hand side. -/
def missingExprTree : ASTNode :=
  .mk .SOURCE ⟨1, 1, 0⟩ "" [some (.mk .FUNC_DEF ⟨1, 1, 0⟩ "" [
    some (.mk .FUNC_SIGNATURE ⟨1, 5, 4⟩ "f" []),
    some (.mk .STMT_ASSIGN ⟨1, 9, 8⟩ "" [some (.mk .EXPR_PLACE ⟨1, 9, 8⟩ "x" []),
      some (.mk .EXPR_LITERAL ⟨1, 13, 12⟩ "<error>" [])])])]

/-- Three sample tokens `x ; <eof>`. -/
def syncSample : List Token :=
  [⟨.TOK_IDENT, "x", ⟨1, 1, 0⟩⟩, ⟨.TOK_SEMICOLON, ";", ⟨1, 2, 1⟩⟩, ⟨.TOK_EOF, "", ⟨1, 3, 2⟩⟩]

/-- The four tokens of one suffix `array [ d ]`. -/
structure ArraySuffix where
  array : Token
  lbracket : Token
  dim : Token
  rbracket : Token

def ArraySuffix.tokens (s : ArraySuffix) : List Token :=
  [s.array, s.lbracket, s.dim, s.rbracket]

/-- The kinds of the four tokens of a suffix; the dimension is a decimal
literal. -/
def ArraySuffix.ok (s : ArraySuffix) : Prop :=
  s.array.type = .TOK_ARRAY ∧ s.lbracket.type = .TOK_LBRACKET ∧ s.dim.type = .TOK_DEC ∧
    s.rbracket.type = .TOK_RBRACKET

/-- The tokens of the suffixes `array [ d1 ] ... array [ dn ]`. -/
def suffixTokens : List ArraySuffix → List Token
  | [] => []
  | s :: ss => s.tokens ++ suffixTokens ss

/-- The nesting `TypeArray(dn)[ ... TypeArray(d1)[base] ... ]`: every array
node has the node built so far as its only child and the lexeme of its own
dimension as its value; the last suffix is the outermost node. -/
def arrayNest (loc : SourceLocation) : ASTNode → List ArraySuffix → ASTNode
  | base, [] => base
  | base, s :: ss => arrayNest loc (.mk .TYPE_ARRAY loc s.dim.text [some base]) ss

/-- The node of a base type token: TypeBuiltin for a builtin type keyword,
TypeCustom for an identifier. -/
def baseTypeNode (T : Token) : ASTNode :=
  .mk (if isBuiltinType T.type then .TYPE_BUILTIN else .TYPE_CUSTOM) T.loc T.text []

/-- The tokens of `def f( end`. -/
def missingParenTokens : List Token :=
  [⟨.TOK_DEF, "def", ⟨1, 1, 0⟩⟩, ⟨.TOK_IDENT, "f", ⟨1, 5, 4⟩⟩, ⟨.TOK_LPAREN, "(", ⟨1, 6, 5⟩⟩,
   ⟨.TOK_END, "end", ⟨1, 8, 7⟩⟩, ⟨.TOK_EOF, "", ⟨1, 11, 10⟩⟩]

/-! ### Locations and errors of the lexer -/

/-- The state `l1` is the state `l` after zero or more calls of `advance`,
each made inside the input. -/
inductive Lexer.Moves : Lexer → Lexer → Prop
  | refl (l : Lexer) : Lexer.Moves l l
  | step (l l1 : Lexer) : l.isAtEnd = false → Lexer.Moves l.advance l1 → Lexer.Moves l l1

/-- The line of the byte offset `o` of the text `s`: 1 plus the number of
newlines in `s[0..o)`. -/
def lineOf (s : List Char) (o : Nat) : Nat :=
  1 + (s.take o).count '\n'

/-- The column of the byte offset `o` of the text `s`: 1 plus the number of
bytes between the last newline before `o`, or the start of `s` when there is
none, and `o`. -/
def columnOf (s : List Char) (o : Nat) : Nat :=
  1 + ((s.take o).reverse.takeWhile (fun c => c != '\n')).length

/-- The location of the byte offset `o` of the text `s`. -/
def locationOf (s : List Char) (o : Nat) : SourceLocation :=
  { line := lineOf s o, column := columnOf s o, offset := o }

/-- The line and column that the lexer holds are those of its offset. -/
def Lexer.Located (l : Lexer) : Prop :=
  l.here = locationOf l.source l.pos

/-- The tokens of kind `TOK_ERROR`, in order. -/
def errorTokens (tokens : List Token) : List Token :=
  tokens.filter (fun t => t.type == .TOK_ERROR)

/-! ### Relations that every parser operation keeps -/

/-- A relation between parser states that holds from every state to itself,
is transitive, and holds across `advance` and across `error`. -/
structure StepClosed (tokens : List Token) (R : Parser → Parser → Prop) : Prop where
  refl : ∀ p, R p p
  trans : ∀ {a b c}, R a b → R b c → R a c
  advance : ∀ p, R p (advance tokens p)
  error : ∀ p msg, R p (error tokens p msg)

/-- The parsing function `f` relates the state it is called in to the state it
returns in. -/
def Keeps (R : Parser → Parser → Prop) (f : Parser → Parsed) : Prop :=
  ∀ p r p1, f p = some (r, p1) → R p p1

/-- The expression functions at one fuel level keep `R`. -/
structure ExprKeeps (tokens : List Token) (R : Parser → Parser → Prop) (fuel : Nat) : Prop where
  expression : Keeps R (parseExpression tokens fuel)
  or_ : Keeps R (parseExprOr tokens fuel)
  and_ : Keeps R (parseExprAnd tokens fuel)
  comparison : Keeps R (parseExprComparison tokens fuel)
  bitOr : Keeps R (parseExprBitOr tokens fuel)
  bitXor : Keeps R (parseExprBitXor tokens fuel)
  bitAnd : Keeps R (parseExprBitAnd tokens fuel)
  shift : Keeps R (parseExprShift tokens fuel)
  add : Keeps R (parseExprAdd tokens fuel)
  mul : Keeps R (parseExprMul tokens fuel)
  unary : Keeps R (parseExprUnary tokens fuel)
  postfix_ : Keeps R (parseExprPostfix tokens fuel)
  postfixLoop : ∀ e, Keeps R (parseExprPostfixLoop tokens fuel e)
  range : Keeps R (parseRange tokens fuel)
  primary : Keeps R (parseExprPrimary tokens fuel)

/-- The statement functions at one fuel level keep `R`. -/
structure StmtKeeps (tokens : List Token) (R : Parser → Parser → Prop) (fuel : Nat) : Prop where
  statement : Keeps R (parseStatement tokens fuel)
  ifStatement : Keeps R (parseIfStatement tokens fuel)
  loopStatement : Keeps R (parseLoopStatement tokens fuel)
  loopLoop : ∀ node, Keeps R (parseLoopStatementLoop tokens fuel node)
  block : Keeps R (parseBlock tokens fuel)
  blockLoop : ∀ closer node, Keeps R (parseBlockLoop tokens fuel closer node)
  sourceItem : Keeps R (parseSourceItem tokens fuel)
  funcDef : Keeps R (parseFuncDef tokens fuel)
  funcDefLoop : ∀ node, Keeps R (parseFuncDefLoop tokens fuel node)

/-- The parser state `p1` follows the state `p`: the position is not smaller
and is inside the token vector if it was, the errors of `p` are kept, and the
errors added are located at tokens whose indices lie between the two positions
and do not decrease along the list. -/
structure Follows (tokens : List Token) (p p1 : Parser) : Prop where
  pos : p.pos ≤ p1.pos
  inside : p.pos < tokens.length → p1.pos < tokens.length
  errors : ∃ idx : List (Nat × String),
    p1.errors = p.errors ++ idx.map (fun x => ⟨x.2, (tokenAt tokens x.1).loc⟩) ∧
    (idx.map Prod.fst).Pairwise (fun a b => a ≤ b) ∧
    ∀ x ∈ idx, p.pos ≤ x.1 ∧ x.1 ≤ p1.pos

/-- From a position inside the token vector the parser gets to a position
inside it. -/
def StaysInside (tokens : List Token) (p p1 : Parser) : Prop :=
  p.pos < tokens.length → p1.pos < tokens.length

/-! ### Vocabulary of blocks -/

/-- The closer that `parseBlock` chooses for a block whose opener has kind
`opener`: the closing brace for the opening brace, `end` otherwise. -/
def blockCloser (opener : TokenType) : TokenType :=
  if opener == .TOK_LBRACE then .TOK_RBRACE else .TOK_END

/-- The context label of the closer in the error message of `parseBlock`. -/
def blockCloserText (opener : TokenType) : String :=
  if opener == .TOK_LBRACE then "\x7d" else "end"

/-- The token can start a statement of a block: it is no closer, not the end
of the input and not `def`. -/
def startsBlockStatement (t : TokenType) : Bool :=
  !(t == .TOK_END || t == .TOK_RBRACE || t == .TOK_EOF || t == .TOK_DEF)

/-- The node with the children `cs` added after its own. -/
def ASTNode.addChildren : ASTNode → List ASTNodePtr → ASTNode
  | .mk k l v c, cs => .mk k l v (c ++ cs)

/-- From the state `p` the statements `stmts` are parsed one after the other
by `parseStatement`, up to the state `p1`, each one giving a node and none
recording an error; the fuel is the one the loop of `parseBlock` passes on. -/
inductive StatementsAt (tokens : List Token) : Nat → Parser → List ASTNode → Parser → Prop
  | nil (fuel : Nat) (p : Parser) : StatementsAt tokens fuel p [] p
  | cons (fuel : Nat) (p p1 p2 : Parser) (s : ASTNode) (rest : List ASTNode) :
      startsBlockStatement (current tokens p).type = true →
      parseStatement tokens (fuel + 1) p = some (some s, p1) →
      p1.errors = p.errors →
      StatementsAt tokens fuel p1 rest p2 →
      StatementsAt tokens (fuel + 1) p (s :: rest) p2

/-- The tokens of `begin x; end`. -/
def beginEndTokens : List Token :=
  [⟨.TOK_BEGIN, "begin", ⟨1, 1, 0⟩⟩, ⟨.TOK_IDENT, "x", ⟨1, 7, 6⟩⟩,
   ⟨.TOK_SEMICOLON, ";", ⟨1, 8, 7⟩⟩, ⟨.TOK_END, "end", ⟨1, 10, 9⟩⟩,
   ⟨.TOK_EOF, "", ⟨1, 13, 12⟩⟩]

/-- The tree of `def f() <opener> x; <closer> end` for an opener that is `w`
bytes wide. -/
def blockTree (w : Nat) : ASTNode :=
  .mk .SOURCE ⟨1, 1, 0⟩ "" [some (.mk .FUNC_DEF ⟨1, 1, 0⟩ "" [
    some (.mk .FUNC_SIGNATURE ⟨1, 5, 4⟩ "f" []),
    some (.mk .STMT_BLOCK ⟨1, 9, 8⟩ "" [
      some (.mk .STMT_EXPR ⟨1, 10 + w, 9 + w⟩ "" [
        some (.mk .EXPR_PLACE ⟨1, 10 + w, 9 + w⟩ "x" [])])])])]

/-! ### Vocabulary of node locations -/

/-- Every node that `f` returns is located at the token at which `f` was
called, the first token of the construct. -/
def RootAtStart (tokens : List Token) (f : Parser → Parsed) : Prop :=
  ∀ p node p1, f p = some (some node, p1) → node.loc = (current tokens p).loc

/-- The functions whose node is located at the first token of the construct:
declarations, type references, statements and primary expressions. -/
structure StartLocated (tokens : List Token) (fuel : Nat) : Prop where
  source : RootAtStart tokens (parseSource tokens fuel)
  sourceItem : RootAtStart tokens (parseSourceItem tokens fuel)
  funcDef : RootAtStart tokens (parseFuncDef tokens fuel)
  funcSignature : RootAtStart tokens (parseFuncSignature tokens fuel)
  funcArg : RootAtStart tokens (parseFuncArg tokens fuel)
  typeRef : RootAtStart tokens (parseTypeRef tokens fuel)
  statement : RootAtStart tokens (parseStatement tokens fuel)
  ifStatement : RootAtStart tokens (parseIfStatement tokens fuel)
  loopStatement : RootAtStart tokens (parseLoopStatement tokens fuel)
  block : RootAtStart tokens (parseBlock tokens fuel)
  expressionOrAssign : RootAtStart tokens (parseExpressionOrAssign tokens fuel)
  primary : RootAtStart tokens (parseExprPrimary tokens fuel)

/-- The tokens of `a + 2;`. -/
def sumTokens : List Token :=
  [⟨.TOK_IDENT, "a", ⟨1, 1, 0⟩⟩, ⟨.TOK_PLUS, "+", ⟨1, 3, 2⟩⟩, ⟨.TOK_DEC, "2", ⟨1, 5, 4⟩⟩,
   ⟨.TOK_SEMICOLON, ";", ⟨1, 6, 5⟩⟩, ⟨.TOK_EOF, "", ⟨1, 7, 6⟩⟩]

/-- A type reference all of whose nodes, the base type and every TypeArray
around it, are located at `loc`. -/
inductive TypeAt (loc : SourceLocation) : ASTNode → Prop
  | base (k : Kind) (v : String) : k = .TYPE_BUILTIN ∨ k = .TYPE_CUSTOM →
      TypeAt loc (.mk k loc v [])
  | array (v : String) (b : ASTNode) : TypeAt loc b →
      TypeAt loc (.mk .TYPE_ARRAY loc v [some b])

/-! ### Vocabulary of the last claims -/

/-- The tokens of `if a then if b then x; else y;`. -/
def danglingElseTokens : List Token :=
  [⟨.TOK_IF, "if", ⟨1, 1, 0⟩⟩, ⟨.TOK_IDENT, "a", ⟨1, 4, 3⟩⟩, ⟨.TOK_THEN, "then", ⟨1, 6, 5⟩⟩,
   ⟨.TOK_IF, "if", ⟨1, 11, 10⟩⟩, ⟨.TOK_IDENT, "b", ⟨1, 14, 13⟩⟩,
   ⟨.TOK_THEN, "then", ⟨1, 16, 15⟩⟩, ⟨.TOK_IDENT, "x", ⟨1, 21, 20⟩⟩,
   ⟨.TOK_SEMICOLON, ";", ⟨1, 22, 21⟩⟩, ⟨.TOK_ELSE, "else", ⟨1, 24, 23⟩⟩,
   ⟨.TOK_IDENT, "y", ⟨1, 29, 28⟩⟩, ⟨.TOK_SEMICOLON, ";", ⟨1, 30, 29⟩⟩,
   ⟨.TOK_EOF, "", ⟨1, 31, 30⟩⟩]

/-- The statement `v;` with the identifier `v` at `loc`. -/
def placeStatement (v : String) (loc : SourceLocation) : ASTNode :=
  .mk .STMT_EXPR loc "" [some (.mk .EXPR_PLACE loc v [])]

/-- The tokens of `def ( ) end`. -/
def missingNameTokens : List Token :=
  [⟨.TOK_DEF, "def", ⟨1, 1, 0⟩⟩, ⟨.TOK_LPAREN, "(", ⟨1, 5, 4⟩⟩, ⟨.TOK_RPAREN, ")", ⟨1, 7, 6⟩⟩,
   ⟨.TOK_END, "end", ⟨1, 9, 8⟩⟩, ⟨.TOK_EOF, "", ⟨1, 12, 11⟩⟩]

/-! ## Lexer: auxiliary lemmas -/

theorem substr_succ (src : List Char) (a n : Nat) (h : a + n < src.length) :
    substr src a (n + 1) = substr src a n ++ [src.getD (a + n) NUL] := by
  unfold substr
  rw [List.take_succ]
  congr 1
  simp [List.getElem?_drop, List.getD_eq_getElem?_getD, List.getElem?_eq_getElem h]

theorem substr_zero (src : List Char) (a : Nat) : substr src a 0 = [] := by
  simp [substr]

theorem substr_length (src : List Char) (a n : Nat) (h : a + n ≤ src.length) :
    (substr src a n).length = n := by
  simp [substr]; omega

theorem SourceLocation.le_refl (a : SourceLocation) : a.le a := by
  simp [SourceLocation.le]

theorem SourceLocation.le_trans {a b c : SourceLocation} (h1 : a.le b) (h2 : b.le c) :
    a.le c := by
  unfold SourceLocation.le at *
  omega

theorem Lexer.not_isAtEnd {l : Lexer} : l.isAtEnd = false ↔ l.pos < l.source.length := by
  simp [Lexer.isAtEnd]

theorem Lexer.peek_eq_cur {l : Lexer} (h : l.isAtEnd = false) : l.peek = l.cur := by
  simp [Lexer.peek, Lexer.cur, h]

theorem Lexer.peekNext_bound {l : Lexer} (h : l.peekNext ≠ NUL) :
    l.pos + 1 < l.source.length := by
  unfold Lexer.peekNext at h
  split at h
  · exact absurd rfl h
  · omega

@[simp] theorem Lexer.advance_source (l : Lexer) : l.advance.source = l.source := by
  unfold Lexer.advance; split <;> rfl

@[simp] theorem Lexer.advance_pos (l : Lexer) : l.advance.pos = l.pos + 1 := by
  unfold Lexer.advance; split <;> rfl

@[simp] theorem Lexer.advance_errors (l : Lexer) : l.advance.errors = l.errors := by
  unfold Lexer.advance; split <;> rfl

theorem Lexer.here_le_advance (l : Lexer) : l.here.le l.advance.here := by
  unfold Lexer.advance SourceLocation.le Lexer.here
  split <;> simp

theorem Lexer.Reaches.refl (l : Lexer) (h : l.pos ≤ l.source.length) : l.Reaches l :=
  ⟨rfl, Nat.le_refl _, h, SourceLocation.le_refl _⟩

theorem Lexer.Reaches.trans {a b c : Lexer} (h1 : a.Reaches b) (h2 : b.Reaches c) :
    a.Reaches c :=
  ⟨h2.source.trans h1.source, Nat.le_trans h1.pos h2.pos, by
    have := h2.bound; rw [h1.source] at this; exact this,
    SourceLocation.le_trans h1.loc h2.loc⟩

theorem Lexer.Reaches.advance (l : Lexer) (h : l.pos < l.source.length) :
    l.Reaches l.advance :=
  ⟨l.advance_source, by simp, by simp; omega, l.here_le_advance⟩

theorem Lexer.Reaches.advance2 (l : Lexer) (h : l.pos + 1 < l.source.length) :
    l.Reaches l.advance.advance :=
  (Lexer.Reaches.advance l (by omega)).trans (Lexer.Reaches.advance l.advance (by simpa using h))

theorem skipLineComment_spec (fuel : Nat) (l : Lexer) (hb : l.pos ≤ l.source.length)
    (hf : l.source.length - l.pos < fuel) :
    ∃ l1, skipLineComment fuel l = some l1 ∧ l.Reaches l1 := by
  induction fuel generalizing l with
  | zero => omega
  | succ fuel ih =>
    unfold skipLineComment
    by_cases hc : (!l.isAtEnd && l.peek != '\n') = true
    · rw [if_pos hc]
      have hlt : l.pos < l.source.length := by
        simp only [Bool.and_eq_true, Bool.not_eq_true'] at hc
        exact Lexer.not_isAtEnd.mp hc.1
      obtain ⟨l1, h1, r1⟩ := ih l.advance (by simp; omega) (by simp; omega)
      exact ⟨l1, h1, (Lexer.Reaches.advance l hlt).trans r1⟩
    · rw [if_neg hc]
      exact ⟨l, rfl, Lexer.Reaches.refl l hb⟩

theorem skipBlockComment_spec (fuel depth : Nat) (l : Lexer) (hb : l.pos ≤ l.source.length)
    (hf : l.source.length - l.pos < fuel) :
    ∃ l1, skipBlockComment fuel depth l = some l1 ∧ l.Reaches l1 := by
  induction fuel generalizing l depth with
  | zero => omega
  | succ fuel ih =>
    unfold skipBlockComment
    by_cases hc : (!l.isAtEnd && decide (depth > 0)) = true
    · rw [if_pos hc]
      have hlt : l.pos < l.source.length := by
        simp only [Bool.and_eq_true, Bool.not_eq_true'] at hc
        exact Lexer.not_isAtEnd.mp hc.1
      by_cases h1 : (l.peek == '/' && l.peekNext == '*') = true
      · rw [if_pos h1]
        have hn : l.pos + 1 < l.source.length := by
          apply Lexer.peekNext_bound
          simp only [Bool.and_eq_true, beq_iff_eq] at h1
          rw [h1.2]; decide
        obtain ⟨l1, e1, r1⟩ := ih (depth + 1) l.advance.advance (by simp; omega) (by simp; omega)
        exact ⟨l1, e1, (Lexer.Reaches.advance2 l hn).trans r1⟩
      · rw [if_neg h1]
        by_cases h2 : (l.peek == '*' && l.peekNext == '/') = true
        · rw [if_pos h2]
          have hn : l.pos + 1 < l.source.length := by
            apply Lexer.peekNext_bound
            simp only [Bool.and_eq_true, beq_iff_eq] at h2
            rw [h2.2]; decide
          obtain ⟨l1, e1, r1⟩ := ih (depth - 1) l.advance.advance (by simp; omega) (by simp; omega)
          exact ⟨l1, e1, (Lexer.Reaches.advance2 l hn).trans r1⟩
        · rw [if_neg h2]
          obtain ⟨l1, e1, r1⟩ := ih depth l.advance (by simp; omega) (by simp; omega)
          exact ⟨l1, e1, (Lexer.Reaches.advance l hlt).trans r1⟩
    · rw [if_neg hc]
      exact ⟨l, rfl, Lexer.Reaches.refl l hb⟩

theorem skipWhitespaceAndComments_spec (fuel : Nat) (l : Lexer)
    (hb : l.pos ≤ l.source.length) (hf : l.source.length - l.pos < fuel) :
    ∃ l1, skipWhitespaceAndComments fuel l = some l1 ∧ l.Reaches l1 := by
  induction fuel generalizing l with
  | zero => omega
  | succ fuel ih =>
    unfold skipWhitespaceAndComments
    by_cases hc : l.isAtEnd = true
    · rw [if_pos hc]
      exact ⟨l, rfl, Lexer.Reaches.refl l hb⟩
    · rw [if_neg hc]
      have hlt : l.pos < l.source.length := Lexer.not_isAtEnd.mp (by simpa using hc)
      by_cases h1 : (l.peek == ' ' || l.peek == '\t' || l.peek == '\r' || l.peek == '\n') = true
      · rw [if_pos h1]
        obtain ⟨l1, e1, r1⟩ := ih l.advance (by simp; omega) (by simp; omega)
        exact ⟨l1, e1, (Lexer.Reaches.advance l hlt).trans r1⟩
      · rw [if_neg h1]
        by_cases h2 : (l.peek == '/' && l.peekNext == '/') = true
        · rw [if_pos h2]
          have hn : l.pos + 1 < l.source.length := by
            apply Lexer.peekNext_bound
            simp only [Bool.and_eq_true, beq_iff_eq] at h2
            rw [h2.2]; decide
          have hstep : skipLineComment (fuel + 1) l = skipLineComment fuel l.advance := by
            have hp : l.peek = '/' := by
              simp only [Bool.and_eq_true, beq_iff_eq] at h2; exact h2.1
            rw [skipLineComment]
            simp [hc, hp]
          obtain ⟨l1, e1, r1⟩ := skipLineComment_spec fuel l.advance (by simp; omega) (by simp; omega)
          rw [hstep, e1]
          have hl1 : l.pos < l1.pos := by have := r1.pos; simp at this; omega
          have hb1 : l1.pos ≤ l.source.length := by have := r1.bound; simpa using this
          obtain ⟨l2, e2, r2⟩ := ih l1 (by rw [r1.source]; simpa using hb1)
            (by rw [r1.source]; simp; omega)
          exact ⟨l2, e2, ((Lexer.Reaches.advance l hlt).trans r1).trans r2⟩
        · rw [if_neg h2]
          by_cases h3 : (l.peek == '/' && l.peekNext == '*') = true
          · rw [if_pos h3]
            have hn : l.pos + 1 < l.source.length := by
              apply Lexer.peekNext_bound
              simp only [Bool.and_eq_true, beq_iff_eq] at h3
              rw [h3.2]; decide
            obtain ⟨l1, e1, r1⟩ := skipBlockComment_spec (fuel + 1) 1 l.advance.advance
              (by simp; omega) (by simp; omega)
            rw [e1]
            have hl1 : l.pos < l1.pos := by have := r1.pos; simp at this; omega
            have hb1 : l1.pos ≤ l.source.length := by have := r1.bound; simpa using this
            obtain ⟨l2, e2, r2⟩ := ih l1 (by rw [r1.source]; simpa using hb1)
              (by rw [r1.source]; simp; omega)
            exact ⟨l2, e2, ((Lexer.Reaches.advance2 l hn).trans r1).trans r2⟩
          · rw [if_neg h3]
            exact ⟨l, rfl, Lexer.Reaches.refl l hb⟩

theorem push_cur_data (l : Lexer) (val : String) (start : Nat) (hs : start ≤ l.pos)
    (hlt : l.pos < l.source.length)
    (hv : val.data = substr l.source start (l.pos - start)) :
    (val.push l.cur).data = substr l.source start (l.advance.pos - start) := by
  have h := substr_succ l.source start (l.pos - start) (by omega)
  have e1 : l.advance.pos - start = l.pos - start + 1 := by simp; omega
  have e2 : start + (l.pos - start) = l.pos := by omega
  rw [e1, h, e2, String.data_push, hv]
  rfl

theorem readWhile_spec (p : Char → Bool) (fuel : Nat) (val : String) (l : Lexer) (start : Nat)
    (hb : l.pos ≤ l.source.length) (hf : l.source.length - l.pos < fuel)
    (hs : start ≤ l.pos) (hv : val.data = substr l.source start (l.pos - start)) :
    ∃ val1 l1, readWhile p fuel val l = some (val1, l1) ∧ l.Reaches l1 ∧
      val1.data = substr l.source start (l1.pos - start) := by
  induction fuel generalizing l val with
  | zero => omega
  | succ fuel ih =>
    unfold readWhile
    by_cases hc : (!l.isAtEnd && p l.peek) = true
    · rw [if_pos hc]
      have hlt : l.pos < l.source.length := by
        simp only [Bool.and_eq_true, Bool.not_eq_true'] at hc
        exact Lexer.not_isAtEnd.mp hc.1
      obtain ⟨v1, l1, e1, r1, d1⟩ := ih (val.push l.cur) l.advance (by simp; omega)
        (by simp; omega) (by simp; omega) (by simpa using push_cur_data l val start hs hlt hv)
      exact ⟨v1, l1, e1, (Lexer.Reaches.advance l hlt).trans r1, by simpa using d1⟩
    · rw [if_neg hc]
      exact ⟨val, l, rfl, Lexer.Reaches.refl l hb, hv⟩

theorem readStringLoop_spec (fuel : Nat) (val : String) (l : Lexer) (start : Nat)
    (hb : l.pos ≤ l.source.length) (hf : l.source.length - l.pos < fuel)
    (hs : start ≤ l.pos) (hv : val.data = substr l.source start (l.pos - start)) :
    ∃ val1 l1, readStringLoop fuel val l = some (val1, l1) ∧ l.Reaches l1 ∧
      val1.data = substr l.source start (l1.pos - start) := by
  induction fuel generalizing l val with
  | zero => omega
  | succ fuel ih =>
    unfold readStringLoop
    by_cases hc : (!l.isAtEnd && l.peek != '"') = true
    · rw [if_pos hc]
      have hlt : l.pos < l.source.length := by
        simp only [Bool.and_eq_true, Bool.not_eq_true'] at hc
        exact Lexer.not_isAtEnd.mp hc.1
      have hv1 := push_cur_data l val start hs hlt hv
      by_cases h1 : (l.peek == '\\') = true
      · rw [if_pos h1]
        by_cases h2 : (!l.advance.isAtEnd) = true
        · rw [if_pos h2]
          have hlt2 : l.advance.pos < l.advance.source.length := by
            simp only [Bool.not_eq_true'] at h2
            exact Lexer.not_isAtEnd.mp h2
          have hv2 := push_cur_data l.advance (val.push l.cur) start (by simp; omega) hlt2
            (by simpa using hv1)
          simp only [Lexer.advance_pos, Lexer.advance_source] at hlt2
          obtain ⟨v1, l1, e1, r1, d1⟩ := ih ((val.push l.cur).push l.advance.cur)
            l.advance.advance (by simp; omega) (by simp; omega) (by simp; omega)
            (by simpa using hv2)
          exact ⟨v1, l1, e1, (Lexer.Reaches.advance2 l hlt2).trans r1, by simpa using d1⟩
        · rw [if_neg h2]
          obtain ⟨v1, l1, e1, r1, d1⟩ := ih (val.push l.cur) l.advance (by simp; omega)
            (by simp; omega) (by simp; omega) (by simpa using hv1)
          exact ⟨v1, l1, e1, (Lexer.Reaches.advance l hlt).trans r1, by simpa using d1⟩
      · rw [if_neg h1]
        obtain ⟨v1, l1, e1, r1, d1⟩ := ih (val.push l.cur) l.advance (by simp; omega)
          (by simp; omega) (by simp; omega) (by simpa using hv1)
        exact ⟨v1, l1, e1, (Lexer.Reaches.advance l hlt).trans r1, by simpa using d1⟩
    · rw [if_neg hc]
      exact ⟨val, l, rfl, Lexer.Reaches.refl l hb, hv⟩

theorem Lexer.pushError_reaches {l l1 : Lexer} (h : l.Reaches l1) (m : String)
    (loc : SourceLocation) : l.Reaches (l1.pushError m loc) :=
  ⟨h.source, h.pos, h.bound, h.loc⟩

theorem single_data (l : Lexer) (hlt : l.pos < l.source.length) :
    [l.cur] = substr l.source l.pos (l.advance.pos - l.pos) := by
  have := push_cur_data l "" l.pos (Nat.le_refl _) hlt (by simp [substr_zero])
  simpa using this

theorem readString_spec (fuel : Nat) (l : Lexer) (hlt : l.pos < l.source.length)
    (hf : l.source.length - l.pos < fuel) (hq : l.cur = '"') :
    ∃ t l2, readString fuel l = some (t, l2) ∧ TokenSpec l t l2 := by
  unfold readString
  obtain ⟨v1, l1, e1, r1, d1⟩ := readStringLoop_spec fuel "\"" l.advance l.pos
    (by simp only [Lexer.advance_pos, Lexer.advance_source]; omega)
    (by simp only [Lexer.advance_pos, Lexer.advance_source]; omega)
    (by simp only [Lexer.advance_pos, Lexer.advance_source]; omega)
    (by rw [Lexer.advance_source, ← single_data l hlt, hq])
  rw [e1]
  have hp1 : l.pos + 1 ≤ l1.pos := by simpa using r1.pos
  have hb1 : l1.pos ≤ l.source.length := by simpa using r1.bound
  have hs1 : l1.source = l.source := by simpa using r1.source
  simp only [Lexer.advance_source] at d1
  by_cases hc : (!l1.isAtEnd) = true
  · simp only [if_pos hc]
    have hlt1 : l1.pos < l1.source.length := by
      simp only [Bool.not_eq_true'] at hc
      exact Lexer.not_isAtEnd.mp hc
    refine ⟨_, _, rfl, ⟨((Lexer.Reaches.advance l hlt).trans r1).trans
      (Lexer.Reaches.advance l1 hlt1), by simp only [Lexer.advance_pos]; omega, rfl, by simp [makeToken], ?_⟩⟩
    have := push_cur_data l1 v1 l.pos (by omega) hlt1 (by rw [hs1]; exact d1)
    rw [hs1] at this
    exact this
  · simp only [if_neg hc]
    refine ⟨_, _, rfl, ⟨Lexer.pushError_reaches ((Lexer.Reaches.advance l hlt).trans r1) _ _,
      by simp only [Lexer.pushError]; omega, rfl, by simp [makeToken], ?_⟩⟩
    simpa [makeToken, Lexer.pushError] using d1

theorem readChar_spec (l : Lexer) (hlt : l.pos < l.source.length) :
    TokenSpec l (readChar l).1 (readChar l).2 := by
  have hv0 : (String.singleton l.cur).data = substr l.source l.pos (l.advance.pos - l.pos) := by
    rw [String.data_singleton]; exact single_data l hlt
  have r0 := Lexer.Reaches.advance l hlt
  unfold readChar
  by_cases h1 : (!l.advance.isAtEnd && l.advance.peek != '\'') = true
  · have hlt1 : l.pos + 1 < l.source.length := by
      simp only [Bool.and_eq_true, Bool.not_eq_true'] at h1
      simpa using Lexer.not_isAtEnd.mp h1.1
    have hv1 := push_cur_data l.advance (String.singleton l.cur) l.pos (by simp only [Lexer.advance_pos]; omega)
      (by simpa using hlt1) (by simpa using hv0)
    have r1 := Lexer.Reaches.advance2 l hlt1
    simp only [if_pos h1]
    by_cases h2 : (!l.advance.advance.isAtEnd && l.advance.advance.peek == '\'') = true
    · have hlt2 : l.pos + 1 + 1 < l.source.length := by
        simp only [Bool.and_eq_true, Bool.not_eq_true'] at h2
        simpa using Lexer.not_isAtEnd.mp h2.1
      have hv2 := push_cur_data l.advance.advance _ l.pos (by simp only [Lexer.advance_pos]; omega)
        (by simpa using hlt2) (by simpa using hv1)
      simp only [if_pos h2]
      exact ⟨r1.trans (Lexer.Reaches.advance _ (by simpa using hlt2)),
        by simp only [Lexer.advance_pos]; omega, rfl,
        by simp [makeToken], by simpa [makeToken] using hv2⟩
    · simp only [if_neg h2]
      exact ⟨Lexer.pushError_reaches r1 _ _,
        by simp only [Lexer.pushError, Lexer.advance_pos]; omega, rfl,
        by simp [makeToken], by simpa [makeToken, Lexer.pushError] using hv1⟩
  · simp only [if_neg h1]
    by_cases h2 : (!l.advance.isAtEnd && l.advance.peek == '\'') = true
    · have hlt1 : l.pos + 1 < l.source.length := by
        simp only [Bool.and_eq_true, Bool.not_eq_true'] at h2
        simpa using Lexer.not_isAtEnd.mp h2.1
      have hv1 := push_cur_data l.advance (String.singleton l.cur) l.pos (by simp only [Lexer.advance_pos]; omega)
        (by simpa using hlt1) (by simpa using hv0)
      simp only [if_pos h2]
      exact ⟨Lexer.Reaches.advance2 l hlt1, by simp only [Lexer.advance_pos]; omega, rfl,
        by simp [makeToken], by simpa [makeToken] using hv1⟩
    · simp only [if_neg h2]
      exact ⟨Lexer.pushError_reaches r0 _ _, by simp only [Lexer.pushError, Lexer.advance_pos]; omega, rfl,
        by simp [makeToken], by simpa [makeToken, Lexer.pushError] using hv0⟩

theorem keywordType_ne_eof (w : String) : keywordType w ≠ .TOK_EOF := by
  unfold keywordType
  cases h : keywords.lookup w with
  | none => simp
  | some t =>
    have hm := (List.lookup_eq_some_iff.mp h)
    obtain ⟨l1, l2, hl, _⟩ := hm
    have hmem : (w, t) ∈ keywords := by rw [hl]; simp
    simp only [keywords, List.mem_cons, Prod.mk.injEq, List.mem_singleton, List.not_mem_nil,
      or_false] at hmem
    rcases hmem with h | h | h | h | h | h | h | h | h | h | h | h | h | h | h | h | h | h |
      h | h | h <;> (rw [h.2]; simp)

/-- After the first byte: the one-byte value matches the input. -/
theorem first_data (l : Lexer) (hlt : l.pos < l.source.length) :
    ("".push l.cur).data = substr l.advance.source l.pos (l.advance.pos - l.pos) := by
  rw [Lexer.advance_source]
  exact push_cur_data l "" l.pos (Nat.le_refl _) hlt (by simp [substr_zero])

/-- After the first two bytes: the two-byte value matches the input. -/
theorem second_data (l : Lexer) (hlt : l.pos + 1 < l.source.length) :
    (("".push l.cur).push l.advance.cur).data =
      substr l.advance.advance.source l.pos (l.advance.advance.pos - l.pos) := by
  rw [Lexer.advance_source]
  exact push_cur_data l.advance ("".push l.cur) l.pos
    (by simp only [Lexer.advance_pos]; omega)
    (by simp only [Lexer.advance_pos, Lexer.advance_source]; omega)
    (first_data l (by omega))

theorem readNumber_spec (fuel : Nat) (l : Lexer) (hlt : l.pos < l.source.length)
    (hf : l.source.length - l.pos < fuel) (hd : isdigit l.peek = true) :
    ∃ t l2, readNumber fuel l = some (t, l2) ∧ TokenSpec l t l2 := by
  have hna : l.isAtEnd = false := Lexer.not_isAtEnd.mpr hlt
  have two : ∀ (c : Char), l.peekNext = c → c ≠ NUL → ∀ (p : Char → Bool) (ty : TokenType),
      ty ≠ .TOK_EOF →
      ∃ t l2, (match readWhile p fuel (("".push l.cur).push l.advance.cur) l.advance.advance with
        | none => none
        | some (val, l1) => some (makeToken ty val l.here, l1)) = some (t, l2) ∧
        TokenSpec l t l2 := by
    intro c hc hcn p ty hty
    have hn : l.pos + 1 < l.source.length := Lexer.peekNext_bound (by rw [hc]; exact hcn)
    obtain ⟨v1, l1, e1, r1, d1⟩ := readWhile_spec p fuel (("".push l.cur).push l.advance.cur)
      l.advance.advance l.pos
      (by simp only [Lexer.advance_pos, Lexer.advance_source]; omega)
      (by simp only [Lexer.advance_pos, Lexer.advance_source]; omega)
      (by simp only [Lexer.advance_pos]; omega) (second_data l hn)
    rw [e1]
    have hp1 : l.pos + 1 + 1 ≤ l1.pos := by simpa using r1.pos
    exact ⟨_, _, rfl, (Lexer.Reaches.advance2 l hn).trans r1, by omega, rfl, hty,
      by simpa [makeToken] using d1⟩
  unfold readNumber
  by_cases h1 : (l.peek == '0' && (l.peekNext == 'x' || l.peekNext == 'X')) = true
  · rw [if_pos h1]
    simp only [Bool.and_eq_true, Bool.or_eq_true, beq_iff_eq] at h1
    rcases h1.2 with hx | hx
    · exact two _ hx (by decide) _ _ (by simp)
    · exact two _ hx (by decide) _ _ (by simp)
  · rw [if_neg h1]
    by_cases h2 : (l.peek == '0' && (l.peekNext == 'b' || l.peekNext == 'B')) = true
    · rw [if_pos h2]
      simp only [Bool.and_eq_true, Bool.or_eq_true, beq_iff_eq] at h2
      rcases h2.2 with hx | hx
      · exact two _ hx (by decide) _ _ (by simp)
      · exact two _ hx (by decide) _ _ (by simp)
    · rw [if_neg h2]
      have hstep : readWhile isdigit fuel "" l
          = readWhile isdigit (fuel - 1) ("".push l.cur) l.advance := by
        obtain ⟨k, rfl⟩ : ∃ k, fuel = k + 1 := ⟨fuel - 1, by omega⟩
        rw [readWhile]
        simp [hna, hd]
      obtain ⟨v1, l1, e1, r1, d1⟩ := readWhile_spec isdigit (fuel - 1) ("".push l.cur)
        l.advance l.pos
        (by simp only [Lexer.advance_pos, Lexer.advance_source]; omega)
        (by simp only [Lexer.advance_pos, Lexer.advance_source]; omega)
        (by simp only [Lexer.advance_pos]; omega) (first_data l hlt)
      rw [hstep, e1]
      have hp1 : l.pos + 1 ≤ l1.pos := by simpa using r1.pos
      exact ⟨_, _, rfl, (Lexer.Reaches.advance l hlt).trans r1, by omega, rfl, by simp [makeToken],
        by simpa [makeToken] using d1⟩

theorem readIdentOrKeyword_spec (fuel : Nat) (l : Lexer) (hlt : l.pos < l.source.length)
    (hf : l.source.length - l.pos < fuel) (hd : (isalpha l.peek || l.peek == '_') = true) :
    ∃ t l2, readIdentOrKeyword fuel l = some (t, l2) ∧ TokenSpec l t l2 := by
  have hna : l.isAtEnd = false := Lexer.not_isAtEnd.mpr hlt
  unfold readIdentOrKeyword
  have hp : (isalnum l.peek || l.peek == '_') = true := by
    simp only [isalnum, Bool.or_eq_true] at hd ⊢
    rcases hd with h | h
    · exact Or.inl (Or.inl h)
    · exact Or.inr h
  have hstep : readWhile (fun c => isalnum c || c == '_') fuel "" l
      = readWhile (fun c => isalnum c || c == '_') (fuel - 1) ("".push l.cur) l.advance := by
    obtain ⟨k, rfl⟩ : ∃ k, fuel = k + 1 := ⟨fuel - 1, by omega⟩
    rw [readWhile]
    simp only [hna, hp]
    simp
  obtain ⟨v1, l1, e1, r1, d1⟩ := readWhile_spec (fun c => isalnum c || c == '_') (fuel - 1)
    ("".push l.cur) l.advance l.pos
    (by simp only [Lexer.advance_pos, Lexer.advance_source]; omega)
    (by simp only [Lexer.advance_pos, Lexer.advance_source]; omega)
    (by simp only [Lexer.advance_pos]; omega) (first_data l hlt)
  rw [hstep, e1]
  have hp1 : l.pos + 1 ≤ l1.pos := by simpa using r1.pos
  exact ⟨_, _, rfl, (Lexer.Reaches.advance l hlt).trans r1, by omega, rfl,
    keywordType_ne_eof _, by simpa [makeToken] using d1⟩

theorem twoChar_step {c n a b : Char} {ty ty0 : TokenType} {text s : String}
    {rest : Option (TokenType × String)} (hb : b ≠ NUL) (hty0 : ty0 ≠ .TOK_EOF)
    (hs : s.data = [a, b])
    (h : (if (c == a && n == b) = true then some (ty0, s) else rest) = some (ty, text))
    (hrest : rest = some (ty, text) → text.data = [c, n] ∧ ty ≠ .TOK_EOF ∧ n ≠ NUL) :
    text.data = [c, n] ∧ ty ≠ .TOK_EOF ∧ n ≠ NUL := by
  by_cases hc : (c == a && n == b) = true
  · rw [if_pos hc] at h
    simp only [Bool.and_eq_true, beq_iff_eq] at hc
    injection h with h
    injection h with h1 h2
    subst h1 h2
    rw [hc.1, hc.2]
    exact ⟨hs, hty0, hb⟩
  · rw [if_neg hc] at h
    exact hrest h

theorem twoCharOperator_spec {c n : Char} {ty : TokenType} {text : String}
    (h : twoCharOperator c n = some (ty, text)) :
    text.data = [c, n] ∧ ty ≠ .TOK_EOF ∧ n ≠ NUL := by
  unfold twoCharOperator at h
  iterate 11 refine twoChar_step (by decide) (by decide) rfl h fun h => ?_
  exact absurd h (by simp)

theorem oneChar_step {c a : Char} {ty ty0 : TokenType} {text s : String}
    {rest : Option (TokenType × String)} (hty0 : ty0 ≠ .TOK_EOF)
    (hs : s.data = [a])
    (h : (if (c == a) = true then some (ty0, s) else rest) = some (ty, text))
    (hrest : rest = some (ty, text) → text.data = [c] ∧ ty ≠ .TOK_EOF) :
    text.data = [c] ∧ ty ≠ .TOK_EOF := by
  by_cases hc : (c == a) = true
  · rw [if_pos hc] at h
    simp only [beq_iff_eq] at hc
    injection h with h
    injection h with h1 h2
    subst h1 h2
    rw [hc]
    exact ⟨hs, hty0⟩
  · rw [if_neg hc] at h
    exact hrest h

theorem oneCharOperator_spec {c : Char} {ty : TokenType} {text : String}
    (h : oneCharOperator c = some (ty, text)) :
    text.data = [c] ∧ ty ≠ .TOK_EOF := by
  unfold oneCharOperator at h
  iterate 21 refine oneChar_step (by decide) rfl h fun h => ?_
  exact absurd h (by simp)

theorem scanToken_spec (fuel : Nat) (l : Lexer) (hlt : l.pos < l.source.length)
    (hf : l.source.length - l.pos < fuel) :
    ∃ t l2, scanToken fuel l = some (t, l2) ∧ TokenSpec l t l2 := by
  have hna : l.isAtEnd = false := Lexer.not_isAtEnd.mpr hlt
  have hpk : l.peek = l.cur := Lexer.peek_eq_cur hna
  unfold scanToken
  by_cases h1 : (l.peek == '"') = true
  · rw [if_pos h1]
    exact readString_spec fuel l hlt hf (by rw [← hpk]; simpa using h1)
  rw [if_neg h1]
  by_cases h2 : (l.peek == '\'') = true
  · rw [if_pos h2]
    exact ⟨_, _, rfl, readChar_spec l hlt⟩
  rw [if_neg h2]
  by_cases h3 : isdigit l.peek = true
  · rw [if_pos h3]
    exact readNumber_spec fuel l hlt hf h3
  rw [if_neg h3]
  by_cases h4 : (isalpha l.peek || l.peek == '_') = true
  · rw [if_pos h4]
    exact readIdentOrKeyword_spec fuel l hlt hf h4
  rw [if_neg h4]
  cases h5 : twoCharOperator l.peek l.peekNext with
  | some r =>
    obtain ⟨ty, text⟩ := r
    obtain ⟨hd, hty, hn⟩ := twoCharOperator_spec h5
    have hn2 : l.pos + 1 < l.source.length := Lexer.peekNext_bound hn
    refine ⟨_, _, rfl, Lexer.Reaches.advance2 l hn2, by simp only [Lexer.advance_pos]; omega,
      rfl, hty, ?_⟩
    have hv2 := second_data l hn2
    have hnx : l.peekNext = l.advance.cur := by
      unfold Lexer.peekNext Lexer.cur
      rw [if_neg (by omega)]
      simp
    simp only [makeToken, hd, hpk, hnx]
    simpa using hv2
  | none =>
    simp only
    have hv1 := first_data l hlt
    cases h6 : oneCharOperator l.peek with
    | some r =>
      obtain ⟨ty, text⟩ := r
      obtain ⟨hd, hty⟩ := oneCharOperator_spec h6
      refine ⟨_, _, rfl, Lexer.Reaches.advance l hlt, by simp only [Lexer.advance_pos]; omega,
        rfl, hty, ?_⟩
      simp only [makeToken, hd, hpk]
      simpa using hv1
    | none =>
      refine ⟨_, _, rfl, Lexer.pushError_reaches (Lexer.Reaches.advance l hlt) _ _,
        by simp only [Lexer.pushError, Lexer.advance_pos]; omega, rfl, by simp [makeToken], ?_⟩
      simp only [makeToken, hpk, Lexer.pushError, String.data_singleton]
      simpa using hv1

theorem tokenizeLoop_spec (fuel : Nat) (acc : List Token) (l : Lexer)
    (hb : l.pos ≤ l.source.length) (hf : l.source.length - l.pos < fuel) :
    ∃ tail l3, tokenizeLoop fuel acc l = some (acc ++ tail, l3) ∧ TokenRun l tail := by
  induction fuel generalizing l acc with
  | zero => omega
  | succ fuel ih =>
    unfold tokenizeLoop
    obtain ⟨l1, e1, r1⟩ := skipWhitespaceAndComments_spec (fuel + 1) l hb hf
    rw [e1]
    simp only
    by_cases hc : l1.isAtEnd = true
    · rw [if_pos hc]
      refine ⟨_, _, rfl, TokenRun.eof l l1 _ e1 r1 ?_⟩
      have := r1.bound
      simp only [Lexer.isAtEnd, decide_eq_true_eq, r1.source] at hc
      omega
    · rw [if_neg hc]
      have hlt : l1.pos < l1.source.length := Lexer.not_isAtEnd.mp (by simpa using hc)
      obtain ⟨t, l2, e2, s2⟩ := scanToken_spec (fuel + 1) l1 hlt
        (by rw [r1.source]; have := r1.pos; omega)
      rw [e2]
      simp only
      have hs2 : l2.source = l1.source := s2.reaches.source
      have hlt1 : l1.pos < l.source.length := by rw [← r1.source]; exact hlt
      obtain ⟨tail, l3, e3, run⟩ := ih (acc ++ [t]) l2
        (by rw [hs2]; exact s2.reaches.bound)
        (by rw [hs2, r1.source]; have := s2.progress; have := r1.pos; omega)
      refine ⟨t :: tail, l3, by rw [e3]; simp, ?_⟩
      exact TokenRun.tok l l1 l2 _ t tail e1 r1 s2.reaches s2.progress s2.loc s2.notEof
        (by rw [← r1.source]; exact s2.text) run

theorem TokenRun.ends_with_eof {l : Lexer} {toks : List Token} (h : TokenRun l toks) :
    ∃ init loc, toks = init ++ [makeToken .TOK_EOF "" loc] ∧
      ∀ t ∈ init, t.type ≠ .TOK_EOF := by
  induction h with
  | eof l l1 fuel _ _ _ => exact ⟨[], l1.here, rfl, by simp⟩
  | tok l l1 l2 fuel t rest _ _ _ _ _ hne _ _ ih =>
    obtain ⟨init, loc, e, hall⟩ := ih
    refine ⟨t :: init, loc, by rw [e]; rfl, ?_⟩
    intro x hx
    rcases List.mem_cons.mp hx with rfl | hx
    · exact hne
    · exact hall x hx

theorem String.length_eq_data (s : String) : s.length = s.data.length := rfl

theorem drop_eq_substr_append (src : List Char) (a n : Nat) :
    src.drop a = substr src a n ++ src.drop (a + n) := by
  unfold substr
  rw [← List.drop_drop, List.take_append_drop]

theorem TokenRun.lexemes {l : Lexer} {toks : List Token} (h : TokenRun l toks) :
    LexemeFacts l.source l.pos toks := by
  induction h with
  | eof l l1 fuel e r hend =>
    have hp := r.pos
    refine ⟨?_, List.pairwise_singleton _ _, ?_⟩
    · intro t ht
      rw [List.mem_singleton.mp ht]
      refine ⟨hp, ?_, ?_, fun hne => absurd rfl hne⟩
      · show l1.pos + 0 ≤ l.source.length
        omega
      · show substr l.source l1.pos 0 = []
        exact substr_zero _ _
    · have hg : (substr l.source l.pos (l1.pos - l.pos)).length = l1.pos - l.pos :=
        substr_length _ _ _ (by omega)
      refine ⟨[substr l.source l.pos (l1.pos - l.pos)], ?_, ?_⟩
      · refine ⟨by rw [hg], ⟨fuel, l, l1, rfl, rfl, e, by rw [hg]; omega⟩, ?_, ?_, ?_⟩
        · show l1.pos = l.pos + _
          rw [hg]; omega
        · show substr l.source l1.pos 0 = []
          exact substr_zero _ _
        · show l1.pos + 0 = l.source.length
          omega
      · show l.source.drop l.pos = substr l.source l.pos (l1.pos - l.pos) ++ [] ++ []
        rw [drop_eq_substr_append l.source l.pos (l1.pos - l.pos)]
        have : l.pos + (l1.pos - l.pos) = l.source.length := by omega
        rw [this]
        simp
  | tok l l1 l2 fuel t rest e r1 r2 hprog hloc hne htext _ ih =>
    have hs : l2.source = l.source := r2.source.trans r1.source
    rw [hs] at ih
    have hp1 := r1.pos
    have hb2 : l2.pos ≤ l.source.length := by have := r2.bound; rw [r1.source] at this; exact this
    have hlen : t.text.length = l2.pos - l1.pos := by
      rw [String.length_eq_data, htext]
      exact substr_length _ _ _ (by omega)
    have hoff : t.loc.offset = l1.pos := by rw [hloc]; rfl
    have hend : t.loc.offset + t.text.length = l2.pos := by omega
    obtain ⟨ieach, iapart, gs, idec, iinter⟩ := ih
    refine ⟨?_, ?_, ?_⟩
    · intro x hx
      rcases List.mem_cons.mp hx with rfl | hx
      · exact ⟨by omega, by omega, by rw [hoff, hlen]; exact htext.symm, fun _ => by omega⟩
      · obtain ⟨a, b, c, d⟩ := ieach x hx
        exact ⟨by omega, b, c, d⟩
    · refine List.Pairwise.cons ?_ iapart
      intro x hx
      have := (ieach x hx).1
      omega
    · have hg : (substr l.source l.pos (l1.pos - l.pos)).length = l1.pos - l.pos :=
        substr_length _ _ _ (by omega)
      refine ⟨substr l.source l.pos (l1.pos - l.pos) :: gs, ?_, ?_⟩
      · refine ⟨by rw [hg], ⟨fuel, l, l1, rfl, rfl, e, by rw [hg]; omega⟩, by rw [hg]; omega,
          by rw [hoff, hlen]; exact htext.symm, ?_⟩
        rw [hend]; exact idec
      · show l.source.drop l.pos = substr l.source l.pos (l1.pos - l.pos) ++ t.text.data ++
          interleave gs rest
        rw [← iinter, htext, List.append_assoc,
          drop_eq_substr_append l.source l.pos (l1.pos - l.pos)]
        congr 1
        have e1 : l.pos + (l1.pos - l.pos) = l1.pos := by omega
        rw [e1, drop_eq_substr_append l.source l1.pos (l2.pos - l1.pos)]
        have e2 : l1.pos + (l2.pos - l1.pos) = l2.pos := by omega
        rw [e2]

theorem tokenize_run (source : List Char) (fuel : Nat) (h : source.length < fuel) :
    ∃ tokens errors, tokenize fuel source = some (tokens, errors) ∧
      TokenRun (Lexer.init source) tokens := by
  obtain ⟨tail, l3, e, run⟩ := tokenizeLoop_spec fuel [] (Lexer.init source)
    (Nat.zero_le _) (by simpa [Lexer.init] using h)
  refine ⟨tail, l3.errors, ?_, run⟩
  unfold tokenize
  rw [e]
  rfl

/-! ## Parser: termination of `parseSource` -/

theorem parseSourceLoop_endOnly (fuel : Nat) (node : ASTNode) (errs : List ParseError) :
    parseSourceLoop endOnly fuel node { pos := 0, errors := errs } = none := by
  induction fuel generalizing node errs with
  | zero => rfl
  | succ n ih =>
    cases n with
    | zero => rfl
    | succ m =>
      have h1 : parseSourceItem endOnly (m + 1) { pos := 0, errors := errs } =
          some (none, error endOnly { pos := 0, errors := errs }
            "expected function definition ('def')") := rfl
      have h2 : synchronize endOnly (m + 1) (error endOnly { pos := 0, errors := errs }
            "expected function definition ('def')") =
          some (error endOnly { pos := 0, errors := errs }
            "expected function definition ('def')") := rfl
      rw [parseSourceLoop]
      simp only [h1, h2]
      exact ih _ _

theorem lexer_gives_endOnly : tokenize 4 "end".toList = some (endOnly, []) := by
  rfl

/-! ## Parser: well-formed trees -/

@[simp] theorem ASTNode.kind_addChild (n : ASTNode) (c : ASTNodePtr) :
    (n.addChild c).kind = n.kind := by
  cases n; rfl

@[simp] theorem ASTNode.kind_setValue (n : ASTNode) (v : String) :
    (n.setValue v).kind = n.kind := by
  cases n; rfl

@[simp] theorem ASTNode.kind_makeNode (k : Kind) (loc : SourceLocation) (v : String) :
    (makeNode k loc v).kind = k := rfl

theorem WellFormed.of_list (k : Kind) (loc : SourceLocation) (v : String) (cs : List ASTNode)
    (hk : childrenOk k (cs.map some)) (hc : ∀ n ∈ cs, WellFormed n) :
    WellFormed (.mk k loc v (cs.map some)) := by
  refine WellFormed.intro k loc v _ ?_ hk ?_
  · intro c hc1
    obtain ⟨n, _, rfl⟩ := List.mem_map.mp hc1
    simp
  · intro n hn
    obtain ⟨m, hm, e⟩ := List.mem_map.mp hn
    have e1 : m = n := by injection e
    exact e1 ▸ hc m hm

theorem WellFormed.addChild {node c : ASTNode} (h : WellFormed node) (hg : Growable node.kind)
    (hc : WellFormed c) : WellFormed (node.addChild (some c)) := by
  cases h with
  | intro kind loc value children h1 h2 h3 =>
    refine WellFormed.intro kind loc value _ ?_ (hg _ _ h2) ?_
    · intro x hx
      rcases List.mem_append.mp hx with hx | hx
      · exact h1 x hx
      · rw [List.mem_singleton.mp hx]; simp
    · intro n hn
      rcases List.mem_append.mp hn with hn | hn
      · exact h3 n hn
      · have := List.mem_singleton.mp hn
        cases this
        exact hc

theorem growable_call : Growable .EXPR_CALL := by
  intro cs c h
  obtain ⟨x, rest, rfl, hx⟩ := h
  exact ⟨x, rest ++ [c], rfl, hx⟩

theorem growable_loop : Growable .STMT_LOOP := by
  intro cs c h
  obtain ⟨x, rest, rfl, hx⟩ := h
  exact ⟨x, rest ++ [c], rfl, hx⟩

theorem growable_funcDef : Growable .FUNC_DEF := by
  intro cs c h
  obtain ⟨x, rest, rfl, hx⟩ := h
  exact ⟨x, rest ++ [c], rfl, hx⟩

theorem growable_slice : Growable .EXPR_SLICE := by
  intro cs c h
  simp only [childrenOk, List.length_append, List.length_singleton] at h ⊢
  omega

theorem growable_source : Growable .SOURCE := fun _ _ _ => trivial

theorem growable_signature : Growable .FUNC_SIGNATURE := fun _ _ _ => trivial

theorem growable_block : Growable .STMT_BLOCK := fun _ _ _ => trivial

theorem GoodExpr.toGoodNode {r : ASTNodePtr} (h : GoodExpr r) : GoodNode r := by
  obtain ⟨n, e, w, _⟩ := h
  exact ⟨n, e, w⟩

theorem binaryLoop_good {toks : List Token} {isOp : TokenType → Bool}
    {operand : Parser → Parsed} (ho : Yields operand GoodExpr) (fuel : Nat) :
    ∀ left, GoodExpr left → Yields (binaryLoop toks isOp operand fuel left) GoodExpr := by
  induction fuel with
  | zero => intro left _ p r p1 h; simp [binaryLoop] at h
  | succ n ih =>
    intro left hl p r p1 h
    rw [binaryLoop] at h
    split at h
    · cases ho1 : operand (advance toks p) with
      | none => simp [ho1] at h
      | some res =>
        obtain ⟨right, p2⟩ := res
        simp only [ho1] at h
        obtain ⟨ln, rfl, lw, _⟩ := hl
        obtain ⟨rn, rfl, rw_, _⟩ := ho _ _ _ ho1
        refine ih _ ⟨_, rfl, ?_, ?_⟩ p2 r p1 h
        · exact WellFormed.of_list .EXPR_BINARY _ _ [ln, rn] rfl (by
            intro x hx
            simp only [List.mem_cons, List.mem_singleton, List.not_mem_nil, or_false] at hx
            rcases hx with rfl | rfl
            · exact lw
            · exact rw_)
        · rfl
    · injection h with h
      injection h with h1 h2
      subst h1
      exact hl

theorem level_good {toks : List Token} {isOp : TokenType → Bool}
    {operand : Parser → Parsed} (fuel : Nat) (ho : Yields operand GoodExpr) :
    Yields (fun p => match operand p with
      | none => none
      | some (left, p1) => binaryLoop toks isOp operand fuel left p1) GoodExpr := by
  intro p r p1 h
  simp only at h
  cases ho1 : operand p with
  | none => simp [ho1] at h
  | some res =>
    obtain ⟨left, p2⟩ := res
    simp only [ho1] at h
    exact binaryLoop_good ho fuel left (ho _ _ _ ho1) p2 r p1 h

theorem commaLoop_good {toks : List Token} {item : Parser → Parsed}
    (hi : Yields item GoodNode) (fuel : Nat) :
    ∀ node p node1 p1, WellFormed node → Growable node.kind →
      commaLoop toks item fuel node p = some (node1, p1) →
      WellFormed node1 ∧ node1.kind = node.kind := by
  induction fuel with
  | zero => intro node p node1 p1 _ _ h; simp [commaLoop] at h
  | succ n ih =>
    intro node p node1 p1 hw hg h
    rw [commaLoop] at h
    split at h
    · cases hi1 : item (advance toks p) with
      | none => simp [hi1] at h
      | some res =>
        obtain ⟨child, p2⟩ := res
        simp only [hi1] at h
        obtain ⟨cn, rfl, cw⟩ := hi _ _ _ hi1
        have := ih _ _ _ _ (WellFormed.addChild hw hg cw) (by simpa using hg) h
        simpa using this
    · injection h with h
      injection h with h1 h2
      subst h1
      exact ⟨hw, rfl⟩

theorem wf_one (k : Kind) (loc : SourceLocation) (v : String) (a : ASTNode)
    (hk : childrenOk k [some a]) (ha : WellFormed a) :
    WellFormed ((makeNode k loc v).addChild (some a)) :=
  WellFormed.of_list k loc v [a] hk (by
    intro x hx
    rw [List.mem_singleton.mp hx]
    exact ha)

theorem wf_two (k : Kind) (loc : SourceLocation) (v : String) (a b : ASTNode)
    (hk : childrenOk k [some a, some b]) (ha : WellFormed a) (hb : WellFormed b) :
    WellFormed (((makeNode k loc v).addChild (some a)).addChild (some b)) :=
  WellFormed.of_list k loc v [a, b] hk (by
    intro x hx
    simp only [List.mem_cons, List.mem_singleton, List.not_mem_nil, or_false] at hx
    rcases hx with rfl | rfl
    · exact ha
    · exact hb)

theorem wf_leaf (k : Kind) (loc : SourceLocation) (v : String) (hk : childrenOk k []) :
    WellFormed (makeNode k loc v) :=
  WellFormed.of_list k loc v [] hk (by simp)

theorem exprInv_zero (toks : List Token) : ExprInv toks 0 := by
  constructor
  all_goals first
    | (intro p r p1 h
       simp [parseExpression, parseExprOr, parseExprAnd, parseExprComparison, parseExprBitOr,
         parseExprBitXor, parseExprBitAnd, parseExprShift, parseExprAdd, parseExprMul,
         parseExprUnary, parseExprPostfix, parseRange, parseExprPrimary] at h)
    | (intro e _ p r p1 h
       simp [parseExprPostfixLoop] at h)

theorem exprInv_succ (toks : List Token) (n : Nat) (ih : ExprInv toks n) :
    ExprInv toks (n + 1) := by
  constructor
  · intro p r p1 h
    rw [parseExpression] at h
    exact ih.or_ _ _ _ h
  · intro p r p1 h
    rw [parseExprOr] at h
    exact level_good n ih.and_ p r p1 h
  · intro p r p1 h
    rw [parseExprAnd] at h
    exact level_good n ih.comparison p r p1 h
  · intro p r p1 h
    rw [parseExprComparison] at h
    exact level_good n ih.bitOr p r p1 h
  · intro p r p1 h
    rw [parseExprBitOr] at h
    exact level_good n ih.bitXor p r p1 h
  · intro p r p1 h
    rw [parseExprBitXor] at h
    exact level_good n ih.bitAnd p r p1 h
  · intro p r p1 h
    rw [parseExprBitAnd] at h
    exact level_good n ih.shift p r p1 h
  · intro p r p1 h
    rw [parseExprShift] at h
    exact level_good n ih.add p r p1 h
  · intro p r p1 h
    rw [parseExprAdd] at h
    exact level_good n ih.mul p r p1 h
  · intro p r p1 h
    rw [parseExprMul] at h
    exact level_good n ih.unary p r p1 h
  · -- parseExprUnary
    intro p r p1 h
    rw [parseExprUnary] at h
    split at h
    · dsimp only at h
      split at h
      · cases h
      · rename_i operand p2 h1
        obtain ⟨opn, rfl, ow, _⟩ := ih.unary _ _ _ h1
        injection h with h
        injection h with h3 h4
        subst h3
        exact ⟨_, rfl, wf_one .EXPR_UNARY _ _ _ rfl ow, rfl⟩
    · exact ih.postfix_ _ _ _ h
  · -- parseExprPostfix
    intro p r p1 h
    rw [parseExprPostfix] at h
    split at h
    · cases h
    · rename_i expr p2 h1
      exact ih.postfixLoop expr (ih.primary _ _ _ h1) _ _ _ h
  · -- parseExprPostfixLoop
    intro e he p r p1 h
    obtain ⟨en, rfl, ew, ek⟩ := he
    rw [parseExprPostfixLoop] at h
    split at h
    · -- call
      have hcall : WellFormed ((makeNode .EXPR_CALL (current toks p).loc "").addChild (some en)) :=
        wf_one .EXPR_CALL _ _ _ ⟨en, [], rfl, ek⟩ ew
      dsimp only at h
      split at h
      · cases h
      · rename_i callNode1 p3 hargs
        have hres : WellFormed callNode1 ∧ callNode1.kind = .EXPR_CALL := by
          split at hargs
          · split at hargs
            · cases hargs
            · rename_i arg p2 h1
              obtain ⟨an, rfl, aw, _⟩ := ih.expression _ _ _ h1
              have := commaLoop_good (fun a b c d => (ih.expression a b c d).toGoodNode) n _ _ _ _
                (WellFormed.addChild hcall growable_call aw) (by simpa using growable_call) hargs
              simpa using this
          · injection hargs with hargs
            injection hargs with h3 h4
            subst h3
            exact ⟨hcall, rfl⟩
        exact ih.postfixLoop _ ⟨_, rfl, hres.1, by rw [hres.2]; rfl⟩ _ _ _ h
    · split at h
      · -- slice
        dsimp only at h
        split at h
        · cases h
        · rename_i range p2 h1
          obtain ⟨rn, rfl, rw_⟩ := ih.range _ _ _ h1
          split at h
          · cases h
          · rename_i sliceNode1 p3 h3
            have hslice : WellFormed (((makeNode .EXPR_SLICE (current toks p).loc "").addChild
                (some en)).addChild (some rn)) :=
              wf_two .EXPR_SLICE _ _ _ _ (Nat.le_refl 2) ew rw_
            have := commaLoop_good ih.range n _ _ _ _ hslice (by simpa using growable_slice) h3
            exact ih.postfixLoop _ ⟨_, rfl, this.1, by rw [this.2]; rfl⟩ _ _ _ h
      · split at h
        · exact ih.postfixLoop _ ⟨_, rfl, wf_one .EXPR_UNARY _ _ _ rfl ew, rfl⟩ _ _ _ h
        · injection h with h
          injection h with h1 h2
          subst h1
          exact ⟨en, rfl, ew, ek⟩
  · -- parseRange
    intro p r p1 h
    rw [parseRange] at h
    split at h
    · cases h
    · rename_i from_ p2 h1
      obtain ⟨fn, rfl, fw, _⟩ := ih.expression _ _ _ h1
      split at h
      · split at h
        · cases h
        · rename_i to_ p3 h3
          obtain ⟨tn, rfl, tw, _⟩ := ih.expression _ _ _ h3
          dsimp only at h
          injection h with h
          injection h with h5 h6
          subst h5
          exact ⟨_, rfl, wf_two .EXPR_RANGE _ _ _ _ rfl fw tw⟩
      · injection h with h
        injection h with h5 h6
        subst h5
        exact ⟨fn, rfl, fw⟩
  · -- parseExprPrimary
    intro p r p1 h
    rw [parseExprPrimary] at h
    split at h
    · split at h
      · cases h
      · rename_i inner p2 h1
        obtain ⟨inn, rfl, iw, _⟩ := ih.expression _ _ _ h1
        injection h with h
        injection h with h3 h4
        subst h3
        exact ⟨_, rfl, wf_one .EXPR_BRACES _ _ _ rfl iw, rfl⟩
    · split at h
      · injection h with h
        injection h with h3 h4
        subst h3
        exact ⟨_, rfl, wf_leaf .EXPR_LITERAL _ _ rfl, rfl⟩
      · split at h
        · injection h with h
          injection h with h3 h4
          subst h3
          exact ⟨_, rfl, wf_leaf .EXPR_PLACE _ _ rfl, rfl⟩
        · injection h with h
          injection h with h3 h4
          subst h3
          exact ⟨_, rfl, wf_leaf .EXPR_LITERAL _ _ rfl, rfl⟩

theorem exprInv (toks : List Token) (fuel : Nat) : ExprInv toks fuel := by
  induction fuel with
  | zero => exact exprInv_zero toks
  | succ n ih => exact exprInv_succ toks n ih

theorem GoodKind.toNode {k : Kind} {r : ASTNodePtr} (h : GoodKind k r) : GoodNode r := by
  obtain ⟨n, e, w, _⟩ := h
  exact ⟨n, e, w⟩

theorem parseTypeRefLoop_good (toks : List Token) (fuel : Nat) :
    ∀ loc base, GoodNode base → Yields (parseTypeRefLoop toks fuel loc base) GoodNode := by
  induction fuel with
  | zero => intro loc base _ p r p1 h; simp [parseTypeRefLoop] at h
  | succ n ih =>
    intro loc base hb p r p1 h
    obtain ⟨bn, rfl, bw⟩ := hb
    rw [parseTypeRefLoop] at h
    split at h
    · exact ih _ _ ⟨_, rfl, wf_one .TYPE_ARRAY _ _ _ rfl bw⟩ _ _ _ h
    · injection h with h
      injection h with h1 h2
      subst h1
      exact ⟨bn, rfl, bw⟩

theorem parseTypeRef_good (toks : List Token) (fuel : Nat) :
    Yields (parseTypeRef toks fuel) GoodNode := by
  intro p r p1 h
  unfold parseTypeRef at h
  dsimp only at h
  split at h
  · exact parseTypeRefLoop_good toks fuel _ _ ⟨_, rfl, wf_leaf .TYPE_BUILTIN _ _ rfl⟩ _ _ _ h
  · split at h
    · exact parseTypeRefLoop_good toks fuel _ _ ⟨_, rfl, wf_leaf .TYPE_CUSTOM _ _ rfl⟩ _ _ _ h
    · injection h with h
      injection h with h1 h2
      subst h1
      exact ⟨_, rfl, wf_leaf .TYPE_BUILTIN _ _ rfl⟩

theorem parseFuncArg_good (toks : List Token) (fuel : Nat) :
    Yields (parseFuncArg toks fuel) GoodNode := by
  intro p r p1 h
  unfold parseFuncArg at h
  dsimp only at h
  split at h
  · split at h
    · cases h
    · rename_i t p2 h1
      obtain ⟨tn, rfl, tw⟩ := parseTypeRef_good toks fuel _ _ _ h1
      injection h with h
      injection h with h3 h4
      subst h3
      exact ⟨_, rfl, wf_one .FUNC_ARG _ _ _ (Nat.le_refl 1) tw⟩
  · injection h with h
    injection h with h3 h4
    subst h3
    exact ⟨_, rfl, wf_leaf .FUNC_ARG _ _ (Nat.zero_le 1)⟩

theorem parseFuncSignature_good (toks : List Token) (fuel : Nat) :
    Yields (parseFuncSignature toks fuel) (GoodKind .FUNC_SIGNATURE) := by
  intro p r p1 h
  unfold parseFuncSignature at h
  dsimp only at h
  have hnode : ∀ loc v, WellFormed ((makeNode .FUNC_SIGNATURE loc "").setValue v) := by
    intro loc v
    exact WellFormed.of_list .FUNC_SIGNATURE loc v [] trivial (by simp)
  split at h
  · cases h
  · rename_i node1 p4 hargs
    have hres : WellFormed node1 ∧ node1.kind = .FUNC_SIGNATURE := by
      split at hargs
      · split at hargs
        · cases hargs
        · rename_i arg p3 h1
          obtain ⟨an, rfl, aw⟩ := parseFuncArg_good toks fuel _ _ _ h1
          have := commaLoop_good (parseFuncArg_good toks fuel) fuel _ _ _ _
            (WellFormed.addChild (hnode _ _) (by simpa using growable_signature) aw)
            (by simpa using growable_signature) hargs
          simpa using this
      · injection hargs with hargs
        injection hargs with h3 h4
        subst h3
        exact ⟨hnode _ _, rfl⟩
    split at h
    · split at h
      · cases h
      · rename_i t p6 h1
        obtain ⟨tn, rfl, tw⟩ := parseTypeRef_good toks fuel _ _ _ h1
        injection h with h
        injection h with h3 h4
        subst h3
        exact ⟨_, rfl, WellFormed.addChild hres.1 (by rw [hres.2]; exact growable_signature) tw,
          by simpa using hres.2⟩
    · injection h with h
      injection h with h3 h4
      subst h3
      exact ⟨_, rfl, hres.1, hres.2⟩

theorem parseExpressionOrAssign_good (toks : List Token) (fuel : Nat) :
    Yields (parseExpressionOrAssign toks fuel) GoodNode := by
  intro p r p1 h
  have he := (exprInv toks fuel).expression
  unfold parseExpressionOrAssign at h
  dsimp only at h
  split at h
  · cases h
  · rename_i expr p2 h1
    obtain ⟨en, rfl, ew, _⟩ := he _ _ _ h1
    split at h
    · split at h
      · cases h
      · rename_i rhs p3 h2
        obtain ⟨rn, rfl, rw_, _⟩ := he _ _ _ h2
        have hassign := wf_two .STMT_ASSIGN (current toks p).loc "" en rn rfl ew rw_
        split at h
        · split at h
          · cases h
          · rename_i cond p4 h3
            obtain ⟨cn, rfl, cw, _⟩ := he _ _ _ h3
            injection h with h
            injection h with h5 h6
            subst h5
            exact ⟨_, rfl, wf_two .STMT_REPEAT _ _ _ _ rfl hassign cw⟩
        · injection h with h
          injection h with h5 h6
          subst h5
          exact ⟨_, rfl, hassign⟩
    · split at h
      · dsimp only at h
        split at h
        · cases h
        · rename_i cond p3 h2
          obtain ⟨cn, rfl, cw, _⟩ := he _ _ _ h2
          injection h with h
          injection h with h5 h6
          subst h5
          exact ⟨_, rfl, wf_two .STMT_REPEAT _ _ _ _ rfl (wf_one .STMT_EXPR _ _ _ rfl ew) cw⟩
      · injection h with h
        injection h with h5 h6
        subst h5
        exact ⟨_, rfl, wf_one .STMT_EXPR _ _ _ rfl ew⟩

theorem stmtInv_zero (toks : List Token) : StmtInv toks 0 := by
  constructor
  all_goals first
    | (intro p r p1 h
       simp [parseStatement, parseIfStatement, parseLoopStatement, parseBlock, parseSourceItem,
         parseFuncDef] at h)
    | (intro node _ _ p r p1 h
       simp [parseLoopStatementLoop, parseFuncDefLoop] at h)
    | (intro closer node _ _ p r p1 h
       simp [parseBlockLoop] at h)

theorem stmtInv_succ (toks : List Token) (n : Nat) (ih : StmtInv toks n) :
    StmtInv toks (n + 1) := by
  have he := (exprInv toks n).expression
  constructor
  · -- parseStatement
    intro p r p1 h
    rw [parseStatement] at h
    split at h
    · exact ih.ifStatement _ _ _ h
    · exact ih.loopStatement _ _ _ h
    · exact ih.loopStatement _ _ _ h
    · injection h with h
      injection h with h1 h2
      subst h1
      exact ⟨_, rfl, wf_leaf .STMT_BREAK _ _ rfl⟩
    · exact ih.block _ _ _ h
    · exact ih.block _ _ _ h
    · exact parseExpressionOrAssign_good toks n _ _ _ h
  · -- parseIfStatement
    intro p r p1 h
    rw [parseIfStatement] at h
    split at h
    · cases h
    · rename_i cond p2 h1
      obtain ⟨cn, rfl, cw, _⟩ := he _ _ _ h1
      split at h
      · cases h
      · rename_i thenStmt p3 h2
        obtain ⟨tn, rfl, tw⟩ := ih.statement _ _ _ h2
        split at h
        · split at h
          · cases h
          · rename_i elseStmt p4 h3
            obtain ⟨sn, rfl, sw⟩ := ih.statement _ _ _ h3
            injection h with h
            injection h with h5 h6
            subst h5
            refine ⟨_, rfl, WellFormed.of_list .STMT_IF _ _ [cn, tn, sn] (Or.inr rfl) ?_⟩
            intro x hx
            simp only [List.mem_cons, List.mem_singleton, List.not_mem_nil, or_false] at hx
            rcases hx with rfl | rfl | rfl
            · exact cw
            · exact tw
            · exact sw
        · injection h with h
          injection h with h5 h6
          subst h5
          exact ⟨_, rfl, wf_two .STMT_IF _ _ _ _ (Or.inl rfl) cw tw⟩
  · -- parseLoopStatement
    intro p r p1 h
    rw [parseLoopStatement] at h
    split at h
    · cases h
    · rename_i cond p2 h1
      obtain ⟨cn, rfl, cw, ck⟩ := he _ _ _ h1
      split at h
      · cases h
      · rename_i node1 p3 h2
        injection h with h
        injection h with h5 h6
        subst h5
        exact ih.loopLoop _ (wf_one .STMT_LOOP _ _ _ ⟨cn, [], rfl, ck⟩ cw) rfl _ _ _ h2
  · -- parseLoopStatementLoop
    intro node hw hk p r p1 h
    rw [parseLoopStatementLoop] at h
    split at h
    · split at h
      · cases h
      · rename_i stmt p2 h1
        obtain ⟨sn, e, sw⟩ := ih.statement _ _ _ h1
        injection e with e
        subst e
        exact ih.loopLoop _ (WellFormed.addChild hw (by rw [hk]; exact growable_loop) sw)
          (by simpa using hk) _ _ _ h
      · rename_i p2 h1
        split at h
        · cases h
        · exact ih.loopLoop _ hw hk _ _ _ h
    · injection h with h
      injection h with h5 h6
      subst h5
      exact ⟨_, rfl, hw⟩
  · -- parseBlock
    intro p r p1 h
    rw [parseBlock] at h
    split at h
    · cases h
    · rename_i node1 p2 h1
      injection h with h
      injection h with h5 h6
      subst h5
      exact ih.blockLoop _ _ (wf_leaf .STMT_BLOCK _ _ trivial) rfl _ _ _ h1
  · -- parseBlockLoop
    intro closer node hw hk p r p1 h
    rw [parseBlockLoop] at h
    have hgrow : Growable node.kind := by rw [hk]; exact growable_block
    split at h
    · split at h
      · split at h
        · cases h
        · rename_i item p2 h1
          rcases ih.sourceItem _ _ _ h1 with e | ⟨sn, e, sw, _⟩
          · cases e
          · injection e with e
            subst e
            exact ih.blockLoop _ _ (WellFormed.addChild hw hgrow sw) (by simpa using hk) _ _ _ h
        · split at h
          · cases h
          · exact ih.blockLoop _ _ hw hk _ _ _ h
      · split at h
        · cases h
        · rename_i stmt p2 h1
          obtain ⟨sn, e, sw⟩ := ih.statement _ _ _ h1
          injection e with e
          subst e
          exact ih.blockLoop _ _ (WellFormed.addChild hw hgrow sw) (by simpa using hk) _ _ _ h
        · split at h
          · cases h
          · exact ih.blockLoop _ _ hw hk _ _ _ h
    · injection h with h
      injection h with h5 h6
      subst h5
      exact ⟨_, rfl, hw⟩
  · -- parseSourceItem
    intro p r p1 h
    rw [parseSourceItem] at h
    split at h
    · exact Or.inr (ih.funcDef _ _ _ h)
    · injection h with h
      injection h with h5 h6
      exact Or.inl h5.symm
  · -- parseFuncDef
    intro p r p1 h
    rw [parseFuncDef] at h
    dsimp only at h
    split at h
    · cases h
    · rename_i sig p2 h1
      obtain ⟨sn, rfl, sw, sk⟩ := parseFuncSignature_good toks n _ _ _ h1
      have hnode : WellFormed ((makeNode .FUNC_DEF (current toks p).loc "").addChild (some sn)) :=
        wf_one .FUNC_DEF _ _ _ ⟨sn, [], rfl, sk⟩ sw
      split at h
      · cases h
      · rename_i node1 p3 hbody
        have hres : GoodKind .FUNC_DEF node1 := by
          split at hbody
          · exact ih.funcDefLoop _ hnode rfl _ _ _ hbody
          · injection hbody with hbody
            injection hbody with h5 h6
            subst h5
            exact ⟨_, rfl, hnode, rfl⟩
        split at h
        · injection h with h
          injection h with h5 h6
          subst h5
          exact hres
        · injection h with h
          injection h with h5 h6
          subst h5
          exact hres
  · -- parseFuncDefLoop
    intro node hw hk p r p1 h
    rw [parseFuncDefLoop] at h
    have hgrow : Growable node.kind := by rw [hk]; exact growable_funcDef
    split at h
    · split at h
      · injection h with h
        injection h with h5 h6
        subst h5
        exact ⟨_, rfl, hw, hk⟩
      · split at h
        · cases h
        · rename_i stmt p2 h1
          obtain ⟨sn, e, sw⟩ := ih.statement _ _ _ h1
          injection e with e
          subst e
          exact ih.funcDefLoop _ (WellFormed.addChild hw hgrow sw) (by simpa using hk) _ _ _ h
        · split at h
          · cases h
          · exact ih.funcDefLoop _ hw hk _ _ _ h
    · injection h with h
      injection h with h5 h6
      subst h5
      exact ⟨_, rfl, hw, hk⟩

theorem stmtInv (toks : List Token) (fuel : Nat) : StmtInv toks fuel := by
  induction fuel with
  | zero => exact stmtInv_zero toks
  | succ n ih => exact stmtInv_succ toks n ih

theorem parseSourceLoop_good (toks : List Token) (fuel : Nat) :
    ∀ node p r p1, WellFormed node → node.kind = .SOURCE →
      (∀ c ∈ node.children, GoodKind .FUNC_DEF c) →
      parseSourceLoop toks fuel node p = some (r, p1) →
      ∃ root, r = some root ∧ WellFormed root ∧ root.kind = .SOURCE ∧
        ∀ c ∈ root.children, GoodKind .FUNC_DEF c := by
  induction fuel with
  | zero => intro node p r p1 _ _ _ h; simp [parseSourceLoop] at h
  | succ n ih =>
    intro node p r p1 hw hk hc h
    rw [parseSourceLoop] at h
    split at h
    · split at h
      · cases h
      · rename_i item p2 h1
        rcases (stmtInv toks n).sourceItem _ _ _ h1 with e | ⟨sn, e, sw, sk⟩
        · cases e
        · injection e with e
          subst e
          refine ih _ _ _ _ (WellFormed.addChild hw (by rw [hk]; exact growable_source) sw)
            (by simpa using hk) ?_ h
          intro c hc1
          cases node with
          | mk k l v cs =>
            rcases List.mem_append.mp hc1 with hc2 | hc2
            · exact hc c hc2
            · rw [List.mem_singleton.mp hc2]
              exact ⟨_, rfl, sw, sk⟩
      · split at h
        · cases h
        · exact ih _ _ _ _ hw hk hc h
    · injection h with h
      injection h with h5 h6
      subst h5
      exact ⟨_, rfl, hw, hk, hc⟩

/-! ## Parser: binary operator levels -/

theorem levelParser_succ (toks : List Token) (j : Nat) (hj : j < 9) (f : Nat) (p : Parser) :
    levelParser toks j (f + 1) p =
      match levelParser toks (j + 1) f p with
      | none => none
      | some (left, p1) =>
        binaryLoop toks (levelIsOp j) (levelParser toks (j + 1) f) f left p1 := by
  interval_cases j <;> rfl

theorem levelIsOp_iff (j : Nat) (hj : j < 9) (t : TokenType) :
    levelIsOp j t = true ↔ binaryLevel t = some j := by
  interval_cases j <;> cases t <;> decide

theorem levelIsOp_false_of_level {t : TokenType} {j i : Nat} (h : binaryLevel t = some j)
    (hne : i ≠ j) : levelIsOp i t = false := by
  by_cases hi : i < 9
  · cases hb : levelIsOp i t with
    | false => rfl
    | true =>
      have := (levelIsOp_iff i hi t).mp hb
      rw [h] at this
      injection this with this
      exact absurd this.symm hne
  · have : ∃ k, i = k + 9 := ⟨i - 9, by omega⟩
    obtain ⟨k, rfl⟩ := this
    rfl

theorem levelIsOp_false_of_none {t : TokenType} (h : binaryLevel t = none) (i : Nat) :
    levelIsOp i t = false := by
  by_cases hi : i < 9
  · cases hb : levelIsOp i t with
    | false => rfl
    | true =>
      have := (levelIsOp_iff i hi t).mp hb
      rw [h] at this
      cases this
  · have : ∃ k, i = k + 9 := ⟨i - 9, by omega⟩
    obtain ⟨k, rfl⟩ := this
    rfl

theorem binaryLoop_stop (toks : List Token) (isOp : TokenType → Bool)
    (operand : Parser → Parsed) (f : Nat) (left : ASTNodePtr) (p : Parser)
    (h : isOp (current toks p).type = false) :
    binaryLoop toks isOp operand (f + 1) left p = some (left, p) := by
  rw [binaryLoop]
  simp [h]

theorem binaryLoop_step (toks : List Token) (isOp : TokenType → Bool)
    (operand : Parser → Parsed) (f : Nat) (left right : ASTNode) (p p1 : Parser)
    (h : isOp (current toks p).type = true)
    (ho : operand (advance toks p) = some (some right, p1)) :
    binaryLoop toks isOp operand (f + 1) (some left) p =
      binaryLoop toks isOp operand f (some (binaryNode (current toks p) left right)) p1 := by
  rw [binaryLoop]
  simp only [h, if_true, ho]
  rfl

/-- A level passes on the result of the next tighter level when the token
after it is not an operator of the level. -/
theorem level_pass (toks : List Token) (j : Nat) (hj : j < 9) (f : Nat) (p p1 : Parser)
    (l : ASTNodePtr) (h : levelParser toks (j + 1) (f + 1) p = some (l, p1))
    (hstop : levelIsOp j (current toks p1).type = false) :
    levelParser toks j (f + 2) p = some (l, p1) := by
  rw [levelParser_succ toks j hj, h]
  exact binaryLoop_stop toks _ _ f l p1 hstop

theorem level_pass_many (toks : List Token) (j : Nat) (hj : j ≤ 9) (f : Nat) (p p1 : Parser)
    (l : ASTNodePtr) (h : levelParser toks j (f + 1) p = some (l, p1)) :
    ∀ d, d ≤ j → (∀ i, j - d ≤ i → i < j → levelIsOp i (current toks p1).type = false) →
      levelParser toks (j - d) (f + 1 + d) p = some (l, p1) := by
  intro d
  induction d with
  | zero => intro _ _; simpa using h
  | succ d ih =>
    intro hd hstop
    have h1 := ih (by omega) (fun i hi1 hi2 => hstop i (by omega) hi2)
    have e : j - d = (j - (d + 1)) + 1 := by omega
    rw [e] at h1
    have := level_pass toks (j - (d + 1)) (by omega) (f + d) p p1 l
      (by rw [show f + d + 1 = f + 1 + d by omega]; exact h1)
      (hstop _ (Nat.le_refl _) (by omega))
    rw [show f + 1 + (d + 1) = f + d + 2 by omega]
    exact this

/-- The result of level `j` is passed on by the looser levels down to level
`i` when the token after it is an operator of none of them. -/
theorem level_pass_to (toks : List Token) (i j : Nat) (hij : i ≤ j) (hj : j ≤ 9) (F : Nat)
    (p p1 : Parser) (l : ASTNodePtr) (h : levelParser toks j F p = some (l, p1))
    (hstop : ∀ k, i ≤ k → k < j → levelIsOp k (current toks p1).type = false) :
    levelParser toks i (F + (j - i)) p = some (l, p1) := by
  have hF : 1 ≤ F := by
    cases F with
    | zero =>
      exfalso
      have : levelParser toks j 0 p = none := by
        by_cases hj9 : j < 9
        · interval_cases j <;> rfl
        · have : ∃ k, j = k + 9 := ⟨j - 9, by omega⟩
          obtain ⟨k, rfl⟩ := this
          rfl
      rw [this] at h
      cases h
    | succ n => omega
  obtain ⟨f, rfl⟩ : ∃ f, F = f + 1 := ⟨F - 1, by omega⟩
  have := level_pass_many toks j hj f p p1 l h (j - i) (by omega)
    (fun k hk1 hk2 => hstop k (by omega) hk2)
  rw [show j - (j - i) = i by omega] at this
  exact this

/-- One operator of level `j` between two operands of the tighter level. -/
theorem level_one (toks : List Token) (j : Nat) (hj : j < 9) (f : Nat) (p p1 p2 : Parser)
    (l r : ASTNode)
    (hl : levelParser toks (j + 1) (f + 2) p = some (some l, p1))
    (hop : levelIsOp j (current toks p1).type = true)
    (hr : levelParser toks (j + 1) (f + 2) (advance toks p1) = some (some r, p2))
    (hstop : levelIsOp j (current toks p2).type = false) :
    levelParser toks j (f + 3) p = some (some (binaryNode (current toks p1) l r), p2) := by
  rw [levelParser_succ toks j hj, hl]
  show binaryLoop toks (levelIsOp j) _ (f + 1 + 1) (some l) p1 = _
  rw [binaryLoop_step toks _ _ (f + 1) l r p1 p2 hop hr]
  exact binaryLoop_stop toks _ _ f _ p2 hstop

/-- Two operators of level `j` between three operands of the tighter level:
the first operator binds first. -/
theorem level_two (toks : List Token) (j : Nat) (hj : j < 9) (f : Nat)
    (p p1 p2 p3 : Parser) (a b c : ASTNode)
    (ha : levelParser toks (j + 1) (f + 3) p = some (some a, p1))
    (hop1 : levelIsOp j (current toks p1).type = true)
    (hb : levelParser toks (j + 1) (f + 3) (advance toks p1) = some (some b, p2))
    (hop2 : levelIsOp j (current toks p2).type = true)
    (hc : levelParser toks (j + 1) (f + 3) (advance toks p2) = some (some c, p3))
    (hstop : levelIsOp j (current toks p3).type = false) :
    levelParser toks j (f + 4) p =
      some (some (binaryNode (current toks p2) (binaryNode (current toks p1) a b) c), p3) := by
  rw [levelParser_succ toks j hj, ha]
  show binaryLoop toks (levelIsOp j) _ (f + 2 + 1) (some a) p1 = _
  rw [binaryLoop_step toks _ _ (f + 2) a b p1 p2 hop1 hb]
  rw [binaryLoop_step toks _ _ (f + 1) _ c p2 p3 hop2 hc]
  exact binaryLoop_stop toks _ _ f _ p3 hstop

/-- An operand token followed by a token that starts no postfix suffix:
`parseExprUnary` returns its leaf and consumes that one token. -/
theorem unary_operand (toks : List Token) (f : Nat) (p : Parser)
    (hop : isOperand (current toks p) = true)
    (hpost : noPostfix (current toks (advance toks p)).type = true) :
    parseExprUnary toks (f + 3) p =
      some (some (operandNode (current toks p)), advance toks p) := by
  have hun : isUnaryOp (current toks p).type = false := by
    revert hop
    unfold isOperand isLiteralStart isUnaryOp
    cases (current toks p).type <;> decide
  have hlp : check toks p .TOK_LPAREN = false := by
    revert hop
    unfold isOperand isLiteralStart check
    cases (current toks p).type <;> decide
  have hprim : parseExprPrimary toks (f + 1) p =
      some (some (operandNode (current toks p)), advance toks p) := by
    rw [parseExprPrimary]
    simp only [hlp]
    by_cases hlit : isLiteralStart (current toks p).type = true
    · have hid : (current toks p).type ≠ .TOK_IDENT := by
        revert hlit
        unfold isLiteralStart
        cases (current toks p).type <;> decide
      simp [hlit, operandNode, hid]
    · have hid : (current toks p).type = .TOK_IDENT := by
        revert hop
        unfold isOperand
        simp only [Bool.or_eq_true, beq_iff_eq]
        intro h
        rcases h with h | h
        · exact absurd h hlit
        · exact h
      simp [operandNode, hid, check, isLiteralStart]
  have hloop : parseExprPostfixLoop toks (f + 1) (some (operandNode (current toks p)))
      (advance toks p) = some (some (operandNode (current toks p)), advance toks p) := by
    rw [parseExprPostfixLoop]
    revert hpost
    unfold noPostfix check
    cases (current toks (advance toks p)).type <;> simp
  rw [parseExprUnary]
  simp only [hun]
  rw [parseExprPostfix, hprim]
  exact hloop

theorem levelParser_nine (toks : List Token) : levelParser toks 9 = parseExprUnary toks := rfl

/-- An operand token followed by a token that starts no postfix suffix and is
no operator of level `j` or tighter: level `j` returns the operand's leaf. -/
theorem level_operand (toks : List Token) (j : Nat) (hj : j ≤ 9) (F : Nat) (hF : 12 ≤ F + j)
    (p : Parser) (hop : isOperand (current toks p) = true)
    (hpost : noPostfix (current toks (advance toks p)).type = true)
    (hstop : ∀ k, j ≤ k → k < 9 → levelIsOp k (current toks (advance toks p)).type = false) :
    levelParser toks j F p = some (some (operandNode (current toks p)), advance toks p) := by
  obtain ⟨f, rfl⟩ : ∃ f, F = f + 3 + (9 - j) := ⟨F + j - 12, by omega⟩
  have h9 : levelParser toks 9 (f + 3) p =
      some (some (operandNode (current toks p)), advance toks p) := by
    rw [levelParser_nine]
    exact unary_operand toks f p hop hpost
  exact level_pass_to toks j 9 hj (Nat.le_refl _) (f + 3) p _ _ h9 hstop

theorem level_one_at (toks : List Token) (j : Nat) (hj : j < 9) (F : Nat) (hF : 2 ≤ F)
    (p p1 p2 : Parser) (l r : ASTNode)
    (hl : levelParser toks (j + 1) F p = some (some l, p1))
    (hop : levelIsOp j (current toks p1).type = true)
    (hr : levelParser toks (j + 1) F (advance toks p1) = some (some r, p2))
    (hstop : levelIsOp j (current toks p2).type = false) :
    levelParser toks j (F + 1) p = some (some (binaryNode (current toks p1) l r), p2) := by
  obtain ⟨f, rfl⟩ : ∃ f, F = f + 2 := ⟨F - 2, by omega⟩
  exact level_one toks j hj f p p1 p2 l r hl hop hr hstop

theorem level_two_at (toks : List Token) (j : Nat) (hj : j < 9) (F : Nat) (hF : 3 ≤ F)
    (p p1 p2 p3 : Parser) (a b c : ASTNode)
    (ha : levelParser toks (j + 1) F p = some (some a, p1))
    (hop1 : levelIsOp j (current toks p1).type = true)
    (hb : levelParser toks (j + 1) F (advance toks p1) = some (some b, p2))
    (hop2 : levelIsOp j (current toks p2).type = true)
    (hc : levelParser toks (j + 1) F (advance toks p2) = some (some c, p3))
    (hstop : levelIsOp j (current toks p3).type = false) :
    levelParser toks j (F + 1) p =
      some (some (binaryNode (current toks p2) (binaryNode (current toks p1) a b) c), p3) := by
  obtain ⟨f, rfl⟩ : ∃ f, F = f + 3 := ⟨F - 3, by omega⟩
  exact level_two toks j hj f p p1 p2 p3 a b c ha hop1 hb hop2 hc hstop

theorem parseExpression_eq_level (toks : List Token) (F : Nat) (p : Parser) :
    parseExpression toks (F + 1) p = levelParser toks 0 F p := by
  rw [parseExpression]
  rfl

theorem binaryLevel_lt {t : TokenType} {j : Nat} (h : binaryLevel t = some j) : j < 9 := by
  cases t <;> simp [binaryLevel] at h <;> omega

theorem noPostfix_of_level {t : TokenType} {j : Nat} (h : binaryLevel t = some j) :
    noPostfix t = true := by
  cases t <;> simp [binaryLevel] at h <;> rfl

theorem current_of_getElem? {toks : List Token} {k : Nat} {t : Token} (errs : List ParseError)
    (h : toks[k]? = some t) : current toks { pos := k, errors := errs } = t := by
  simp [current, h]

theorem advance_of_getElem? (toks : List Token) (k : Nat) (u : Token) (errs : List ParseError)
    (h : toks[k + 1]? = some u) :
    advance toks { pos := k, errors := errs } = { pos := k + 1, errors := errs } := by
  have hlt : k + 1 < toks.length := by
    by_contra hc
    rw [List.getElem?_eq_none (by omega)] at h
    cases h
  simp [advance, hlt]

/-- An operand token at index `k`, followed by a token that starts no postfix
suffix and is no operator of level `j` or tighter. -/
theorem operand_at (toks : List Token) (k : Nat) (errs : List ParseError) (t u : Token)
    (ht : toks[k]? = some t) (hu : toks[k + 1]? = some u) (hop : isOperand t = true)
    (j : Nat) (hj : j ≤ 9) (F : Nat) (hF : 12 ≤ F + j) (hpost : noPostfix u.type = true)
    (hstop : ∀ i, j ≤ i → i < 9 → levelIsOp i u.type = false) :
    levelParser toks j F { pos := k, errors := errs } =
      some (some (operandNode t), { pos := k + 1, errors := errs }) := by
  have hc := current_of_getElem? errs ht
  have ha := advance_of_getElem? toks k u errs hu
  have hn := current_of_getElem? errs hu
  have := level_operand toks j hj F hF { pos := k, errors := errs } (by rw [hc]; exact hop)
    (by rw [ha, hn]; exact hpost) (by rw [ha, hn]; exact hstop)
  rw [hc, ha] at this
  exact this

theorem binaryLevel_semicolon {t : TokenType} (h : t = .TOK_SEMICOLON) :
    binaryLevel t = none ∧ noPostfix t = true := by
  subst h
  exact ⟨rfl, rfl⟩

/-! ## Lexer: scanning a known text -/

theorem Lexer.rest_cons {l : Lexer} {c : Char} {r : List Char} (h : l.rest = c :: r) :
    l.isAtEnd = false ∧ l.cur = c ∧ l.peek = c ∧ l.peekNext = r.headD NUL ∧
      l.advance.rest = r := by
  unfold Lexer.rest at h
  have hlt : l.pos < l.source.length := by
    by_contra hc
    rw [List.drop_eq_nil_of_le (by omega)] at h
    cases h
  have hna : l.isAtEnd = false := Lexer.not_isAtEnd.mpr hlt
  have hcur : l.cur = c := by
    have := congrArg (fun x => x.headD NUL) h
    simp only [List.headD_cons] at this
    rw [← this]
    unfold Lexer.cur
    simp [List.getD_eq_getElem?_getD, List.head?_drop, List.headD_eq_head?_getD]
  have hr : l.source.drop (l.pos + 1) = r := by
    have := congrArg List.tail h
    simpa [List.tail_drop] using this
  refine ⟨hna, hcur, by rw [Lexer.peek_eq_cur hna]; exact hcur, ?_, ?_⟩
  · unfold Lexer.peekNext
    rw [← hr]
    split
    · rw [List.drop_eq_nil_of_le (by omega)]
      rfl
    · simp [List.getD_eq_getElem?_getD, List.head?_drop, List.headD_eq_head?_getD]
  · unfold Lexer.rest
    simpa using hr

theorem Lexer.rest_nil {l : Lexer} (h : l.rest = []) : l.isAtEnd = true := by
  unfold Lexer.rest at h
  have := List.drop_eq_nil_iff.mp h
  simp [Lexer.isAtEnd, this]

theorem Lexer.skip_zero (l : Lexer) : l.skip 0 = l := rfl

theorem Lexer.advance_eq_skip {l : Lexer} (h : l.cur ≠ '\n') : l.advance = l.skip 1 := by
  unfold Lexer.advance Lexer.skip
  rw [if_neg h]

theorem Lexer.skip_skip (l : Lexer) (a b : Nat) : (l.skip a).skip b = l.skip (a + b) := by
  simp [Lexer.skip, Nat.add_assoc]

theorem Lexer.skip_rest {l : Lexer} {w r : List Char} (h : l.rest = w ++ r) :
    (l.skip w.length).rest = r := by
  unfold Lexer.rest Lexer.skip at *
  simp only
  rw [← List.drop_drop, h]
  simp

/-- Blanks in front of a byte that is neither whitespace nor `/` are skipped,
and nothing more. -/
theorem skip_blanks (n : Nat) : ∀ (fuel : Nat) (l : Lexer) (c : Char) (r : List Char),
    l.rest = List.replicate n ' ' ++ c :: r →
    c ≠ ' ' → c ≠ '\t' → c ≠ '\r' → c ≠ '\n' → c ≠ '/' → n < fuel →
    skipWhitespaceAndComments fuel l = some (l.skip n) := by
  induction n with
  | zero =>
    intro fuel l c r h h1 h2 h3 h4 h5 hf
    obtain ⟨k, rfl⟩ : ∃ k, fuel = k + 1 := ⟨fuel - 1, by omega⟩
    obtain ⟨hna, _, hpk, _, _⟩ := Lexer.rest_cons (by simpa using h)
    rw [skipWhitespaceAndComments]
    simp [hna, hpk, h1, h2, h3, h4, h5, Lexer.skip_zero]
  | succ n ih =>
    intro fuel l c r h h1 h2 h3 h4 h5 hf
    obtain ⟨k, rfl⟩ : ∃ k, fuel = k + 1 := ⟨fuel - 1, by omega⟩
    obtain ⟨hna, hcur, hpk, _, hadv⟩ := Lexer.rest_cons
      (show l.rest = ' ' :: (List.replicate n ' ' ++ c :: r) by
        rw [h, List.replicate_succ, List.cons_append])
    have hs : l.advance = l.skip 1 := Lexer.advance_eq_skip (by rw [hcur]; decide)
    rw [skipWhitespaceAndComments]
    simp only [hna, hpk]
    have := ih k l.advance c r hadv h1 h2 h3 h4 h5 (by omega)
    rw [hs, Lexer.skip_skip, Nat.add_comm] at this
    rw [← hs] at this
    simpa using this

/-- Trailing blanks up to the end of the input are skipped. -/
theorem skip_blanks_end (n : Nat) : ∀ (fuel : Nat) (l : Lexer),
    l.rest = List.replicate n ' ' → n < fuel →
    skipWhitespaceAndComments fuel l = some (l.skip n) ∧ (l.skip n).isAtEnd = true := by
  induction n with
  | zero =>
    intro fuel l h hf
    obtain ⟨k, rfl⟩ : ∃ k, fuel = k + 1 := ⟨fuel - 1, by omega⟩
    have hat := Lexer.rest_nil (by simpa using h)
    rw [skipWhitespaceAndComments]
    simp [hat, Lexer.skip_zero]
  | succ n ih =>
    intro fuel l h hf
    obtain ⟨k, rfl⟩ : ∃ k, fuel = k + 1 := ⟨fuel - 1, by omega⟩
    obtain ⟨hna, hcur, hpk, _, hadv⟩ := Lexer.rest_cons
      (show l.rest = ' ' :: List.replicate n ' ' by rw [h, List.replicate_succ])
    have hs : l.advance = l.skip 1 := Lexer.advance_eq_skip (by rw [hcur]; decide)
    rw [skipWhitespaceAndComments]
    simp only [hna, hpk]
    have := ih k l.advance hadv (by omega)
    rw [hs, Lexer.skip_skip, Nat.add_comm] at this
    rw [← hs] at this
    simpa using this

/-- The loop `readWhile p` consumes a run `w` of bytes satisfying `p` that is
followed by the end of input or by a byte not satisfying `p`. -/
theorem readWhile_run (p : Char → Bool) (w : List Char) :
    ∀ (fuel : Nat) (val : String) (l : Lexer) (r : List Char),
    l.rest = w ++ r → (∀ d ∈ w, p d = true ∧ d ≠ '\n') → p (r.headD NUL) = false →
    w.length < fuel →
    readWhile p fuel val l = some (String.mk (val.data ++ w), l.skip w.length) := by
  induction w with
  | nil =>
    intro fuel val l r h _ hr hf
    obtain ⟨k, rfl⟩ : ∃ k, fuel = k + 1 := ⟨fuel - 1, by omega⟩
    rw [readWhile]
    have hstop : (!l.isAtEnd && p l.peek) = false := by
      cases r with
      | nil => simp [Lexer.rest_nil (by simpa using h)]
      | cons c r1 =>
        obtain ⟨_, _, hpk, _, _⟩ := Lexer.rest_cons (by simpa using h)
        simp only [List.headD_cons] at hr
        simp [hpk, hr]
    simp [hstop, Lexer.skip_zero]
  | cons c cs ih =>
    intro fuel val l r h hw hr hf
    obtain ⟨k, rfl⟩ : ∃ k, fuel = k + 1 := ⟨fuel - 1, by omega⟩
    obtain ⟨hna, hcur, hpk, _, hadv⟩ := Lexer.rest_cons
      (show l.rest = c :: (cs ++ r) by rw [h, List.cons_append])
    have hc := hw c (List.mem_cons_self _ _)
    have hs : l.advance = l.skip 1 := Lexer.advance_eq_skip (by rw [hcur]; exact hc.2)
    rw [readWhile]
    simp only [hna, hpk, hc.1, Bool.not_false, Bool.and_self, if_true]
    rw [ih k (val.push l.cur) l.advance r hadv
      (fun d hd => hw d (List.mem_cons_of_mem _ hd)) hr (by simpa using hf)]
    rw [hs, Lexer.skip_skip, hcur]
    simp [Nat.add_comm]

theorem identStart_facts {c : Char} (h : (isalpha c || c == '_') = true) :
    c ≠ '"' ∧ c ≠ '\'' ∧ isdigit c = false ∧ c ≠ ' ' ∧ c ≠ '\t' ∧ c ≠ '\r' ∧ c ≠ '\n' ∧
      c ≠ '/' ∧ (isalnum c || c == '_') = true := by
  have hn : (65 ≤ c.toNat ∧ c.toNat ≤ 90) ∨ (97 ≤ c.toNat ∧ c.toNat ≤ 122) ∨ c.toNat = 95 := by
    simp only [isalpha, Bool.or_eq_true, decide_eq_true_eq, beq_iff_eq] at h
    rcases h with h | h
    · rcases h with h | h
      · exact Or.inl h
      · exact Or.inr (Or.inl h)
    · exact Or.inr (Or.inr (by rw [h]; rfl))
  have ne : ∀ d : Char, (d.toNat < 65 ∨ (90 < d.toNat ∧ d.toNat < 95) ∨ d.toNat = 96 ∨
      122 < d.toNat) → c ≠ d := by
    intro d hd e
    rw [e] at hn
    omega
  refine ⟨ne _ (by decide), ne _ (by decide), ?_, ne _ (by decide), ne _ (by decide),
    ne _ (by decide), ne _ (by decide), ne _ (by decide), ?_⟩
  · simp only [isdigit, decide_eq_false_iff_not]
    omega
  · simp only [isalnum, Bool.or_eq_true] at h ⊢
    rcases h with h | h
    · exact Or.inl (Or.inl h)
    · exact Or.inr h

theorem identChar_not_newline {d : Char} (h : (isalnum d || d == '_') = true) : d ≠ '\n' := by
  intro e
  rw [e] at h
  exact absurd h (by decide)

/-- A word of identifier bytes, followed by a byte that is not one, is scanned
as one identifier or keyword token. -/
theorem lexesAs_ident (w : String) (r : List Char) (c : Char) (cs : List Char)
    (hw : w.data = c :: cs) (hc : (isalpha c || c == '_') = true)
    (hcs : ∀ d ∈ cs, (isalnum d || d == '_') = true)
    (hr : (isalnum (r.headD NUL) || r.headD NUL == '_') = false) :
    LexesAs w (keywordType w) r := by
  intro fuel l h hf
  obtain ⟨h1, h2, h3, _, _, _, _, _, h9⟩ := identStart_facts hc
  obtain ⟨_, _, hpk, _, _⟩ := Lexer.rest_cons
    (show l.rest = c :: (cs ++ r) by rw [h, hw, List.cons_append])
  have hall : ∀ d ∈ w.data, (isalnum d || d == '_') = true ∧ d ≠ '\n' := by
    intro d hd
    rw [hw] at hd
    rcases List.mem_cons.mp hd with rfl | hd
    · exact ⟨h9, identChar_not_newline h9⟩
    · exact ⟨hcs d hd, identChar_not_newline (hcs d hd)⟩
  have hrun := readWhile_run (fun c => isalnum c || c == '_') w.data fuel "" l r h hall hr
    (by rw [List.length_append] at hf; omega)
  unfold scanToken
  simp only [hpk, beq_iff_eq, h1, h2, h3, hc, if_true, if_false, Bool.false_eq_true]
  unfold readIdentOrKeyword
  rw [hrun]
  rfl

/-- A one-character operator that does not start a two-character operator
with the byte after it is scanned as one token. -/
theorem lexesAs_one (w : String) (type : TokenType) (r : List Char) (c : Char)
    (hw : w.data = [c]) (h1 : c ≠ '"') (h2 : c ≠ '\'') (h3 : isdigit c = false)
    (h4 : (isalpha c || c == '_') = false) (h5 : c ≠ '\n')
    (htwo : twoCharOperator c (r.headD NUL) = none)
    (hone : oneCharOperator c = some (type, w)) :
    LexesAs w type r := by
  intro fuel l h hf
  obtain ⟨_, hcur, hpk, hnx, _⟩ := Lexer.rest_cons
    (show l.rest = c :: r by rw [h, hw, List.cons_append, List.nil_append])
  have hs : l.advance = l.skip 1 := Lexer.advance_eq_skip (by rw [hcur]; exact h5)
  have hlen : w.length = 1 := by rw [String.length_eq_data, hw]; rfl
  unfold scanToken
  simp only [hpk, hnx, beq_iff_eq, h1, h2, h3, h4, if_false, Bool.false_eq_true, htwo, hone]
  rw [hs, hlen]

/-- A run of decimal digits not starting with `0`, followed by a byte that is
not a digit, is scanned as one decimal literal. -/
theorem lexesAs_dec (w : String) (r : List Char) (c : Char) (cs : List Char)
    (hw : w.data = c :: cs) (hc : isdigit c = true) (h0 : c ≠ '0')
    (hcs : ∀ d ∈ cs, isdigit d = true) (hr : isdigit (r.headD NUL) = false) :
    LexesAs w .TOK_DEC r := by
  intro fuel l h hf
  obtain ⟨_, _, hpk, _, _⟩ := Lexer.rest_cons
    (show l.rest = c :: (cs ++ r) by rw [h, hw, List.cons_append])
  have hnl : ∀ d : Char, isdigit d = true → d ≠ '\n' := by
    intro d hd e
    rw [e] at hd
    exact absurd hd (by decide)
  have hq : c ≠ '"' ∧ c ≠ '\'' := by
    constructor <;> (intro e; rw [e] at hc; exact absurd hc (by decide))
  have hall : ∀ d ∈ w.data, isdigit d = true ∧ d ≠ '\n' := by
    intro d hd
    rw [hw] at hd
    rcases List.mem_cons.mp hd with rfl | hd
    · exact ⟨hc, hnl _ hc⟩
    · exact ⟨hcs d hd, hnl _ (hcs d hd)⟩
  have hrun := readWhile_run isdigit w.data fuel "" l r h hall hr
    (by rw [List.length_append] at hf; omega)
  unfold scanToken
  simp only [hpk, beq_iff_eq, hq.1, hq.2, hc, if_true, if_false]
  have h0b : (c == '0') = false := by simp [h0]
  unfold readNumber
  simp only [hpk, h0b, Bool.false_and, if_false, Bool.false_eq_true]
  rw [hrun]
  rfl

theorem itemsEnd_errors (items : List Item) : ∀ l : Lexer,
    (itemsEnd l items).errors = l.errors := by
  induction items with
  | nil => intro l; rfl
  | cons it rest ih => intro l; rw [itemsEnd, ih]; rfl

/-- The loop of `tokenize` on the text of a list of items: it appends one
token per item and the EOF token. -/
theorem tokenizeLoop_items (items : List Item) :
    ∀ (fuel : Nat) (acc : List Token) (l : Lexer), ItemsOk items →
    l.rest = itemsText items → (itemsText items).length < fuel →
    tokenizeLoop fuel acc l =
      some (acc ++ (itemTokens l items ++ [makeToken .TOK_EOF "" (itemsEnd l items).here]),
        itemsEnd l items) := by
  induction items with
  | nil =>
    intro fuel acc l _ h hf
    obtain ⟨k, rfl⟩ : ∃ k, fuel = k + 1 := ⟨fuel - 1, by omega⟩
    obtain ⟨hs, hat⟩ := skip_blanks_end 0 (k + 1) l (by simpa [itemsText] using h) (by omega)
    rw [Lexer.skip_zero] at hs hat
    rw [tokenizeLoop, hs]
    simp only [hat, if_true]
    rfl
  | cons it rest ih =>
    intro fuel acc l hok h hf
    obtain ⟨⟨c, cs, hw, n1, n2, n3, n4, n5⟩, hlex, hrest⟩ := hok
    obtain ⟨k, rfl⟩ : ∃ k, fuel = k + 1 := ⟨fuel - 1, by omega⟩
    have hlen : (itemsText (it :: rest)).length =
        it.spaces + (it.word.data.length + (itemsText rest).length) := by
      simp [itemsText]
    have hwl : it.word.data.length = cs.length + 1 := by rw [hw]; rfl
    have hskip := skip_blanks it.spaces (k + 1) l c (cs ++ itemsText rest)
      (by rw [h, itemsText, hw, List.cons_append]) n1 n2 n3 n4 n5 (by omega)
    have hr1 : (l.skip it.spaces).rest = it.word.data ++ itemsText rest := by
      have := Lexer.skip_rest (l := l) (w := List.replicate it.spaces ' ')
        (r := it.word.data ++ itemsText rest) (by rw [h, itemsText])
      simpa using this
    obtain ⟨hna, _, _, _, _⟩ := Lexer.rest_cons
      (show (l.skip it.spaces).rest = c :: (cs ++ itemsText rest) by
        rw [hr1, hw, List.cons_append])
    have hscan := hlex (k + 1) (l.skip it.spaces) hr1 (by rw [List.length_append]; omega)
    have hr2 : ((l.skip it.spaces).skip it.word.length).rest = itemsText rest :=
      Lexer.skip_rest hr1
    have hih := ih k (acc ++ [makeToken it.type it.word (l.skip it.spaces).here])
      ((l.skip it.spaces).skip it.word.length) hrest hr2 (by omega)
    rw [tokenizeLoop, hskip]
    simp only [hna, hscan, Bool.false_eq_true, if_false]
    rw [hih]
    simp [itemTokens, itemsEnd]

theorem itemsOk_ident (s : Nat) (w : String) (type : TokenType) (rest : List Item)
    (c : Char) (cs : List Char) (hw : w.data = c :: cs)
    (hc : (isalpha c || c == '_') = true) (hcs : ∀ d ∈ cs, (isalnum d || d == '_') = true)
    (hty : keywordType w = type)
    (hr : (isalnum ((itemsText rest).headD NUL) || (itemsText rest).headD NUL == '_') = false)
    (hrest : ItemsOk rest) : ItemsOk (⟨s, w, type⟩ :: rest) := by
  obtain ⟨_, _, _, n1, n2, n3, n4, n5, _⟩ := identStart_facts hc
  refine ⟨⟨c, cs, hw, n1, n2, n3, n4, n5⟩, ?_, hrest⟩
  rw [← hty]
  exact lexesAs_ident w _ c cs hw hc hcs hr

theorem itemsOk_name (s : Nat) (w : String) (rest : List Item) (hw : isIdentifierName w)
    (hr : (isalnum ((itemsText rest).headD NUL) || (itemsText rest).headD NUL == '_') = false)
    (hrest : ItemsOk rest) : ItemsOk (⟨s, w, .TOK_IDENT⟩ :: rest) := by
  obtain ⟨⟨c, cs, h1, h2, h3⟩, h4⟩ := hw
  exact itemsOk_ident s w _ rest c cs h1 h2 h3 h4 hr hrest

theorem itemsOk_one (s : Nat) (w : String) (type : TokenType) (rest : List Item) (c : Char)
    (hw : w.data = [c]) (h1 : c ≠ '"') (h2 : c ≠ '\'') (h3 : isdigit c = false)
    (h4 : (isalpha c || c == '_') = false)
    (hb : c ≠ ' ' ∧ c ≠ '\t' ∧ c ≠ '\r' ∧ c ≠ '\n' ∧ c ≠ '/')
    (htwo : twoCharOperator c ((itemsText rest).headD NUL) = none)
    (hone : oneCharOperator c = some (type, w))
    (hrest : ItemsOk rest) : ItemsOk (⟨s, w, type⟩ :: rest) :=
  ⟨⟨c, [], hw, hb.1, hb.2.1, hb.2.2.1, hb.2.2.2.1, hb.2.2.2.2⟩,
    lexesAs_one w type _ c hw h1 h2 h3 h4 hb.2.2.2.1 htwo hone, hrest⟩

theorem itemsOk_dec (s : Nat) (w : String) (rest : List Item) (c : Char) (cs : List Char)
    (hw : w.data = c :: cs) (hc : isdigit c = true) (h0 : c ≠ '0')
    (hcs : ∀ d ∈ cs, isdigit d = true)
    (hb : c ≠ ' ' ∧ c ≠ '\t' ∧ c ≠ '\r' ∧ c ≠ '\n' ∧ c ≠ '/')
    (hr : isdigit ((itemsText rest).headD NUL) = false)
    (hrest : ItemsOk rest) : ItemsOk (⟨s, w, .TOK_DEC⟩ :: rest) :=
  ⟨⟨c, cs, hw, hb.1, hb.2.1, hb.2.2.1, hb.2.2.2.1, hb.2.2.2.2⟩,
    lexesAs_dec w _ c cs hw hc h0 hcs hr, hrest⟩

/-- The tokens of a text made of items, as `tokenize` returns them. -/
theorem tokenize_items (items : List Item) (source : List Char) (fuel : Nat)
    (hok : ItemsOk items) (hs : source = itemsText items) (hf : source.length < fuel) :
    tokenize fuel source =
      some (itemTokens (Lexer.init source) items ++
        [makeToken .TOK_EOF "" (itemsEnd (Lexer.init source) items).here], []) := by
  unfold tokenize
  rw [tokenizeLoop_items items fuel [] (Lexer.init source) hok
    (by rw [hs]; rfl) (by rw [← hs]; exact hf)]
  simp [itemsEnd_errors, Lexer.init]

theorem scenario2_itemsOk (f x T : String) (type : TokenType) (hf : isIdentifierName f)
    (hx : isIdentifierName x)
    (hT : ∃ c cs, T.data = c :: cs ∧ (isalpha c || c == '_') = true ∧
      ∀ d ∈ cs, (isalnum d || d == '_') = true)
    (hTy : keywordType T = type) : ItemsOk (scenario2Items f x T type) := by
  obtain ⟨c, cs, hT1, hT2, hT3⟩ := hT
  unfold scenario2Items
  refine itemsOk_ident 0 "def" _ _ 'd' ['e', 'f'] rfl (by decide) (by decide) rfl rfl ?_
  refine itemsOk_name 1 f _ hf rfl ?_
  refine itemsOk_one 0 "(" _ _ '(' rfl (by decide) (by decide) (by decide) (by decide)
    (by decide) rfl rfl ?_
  refine itemsOk_name 0 x _ hx rfl ?_
  refine itemsOk_ident 1 "of" _ _ 'o' ['f'] rfl (by decide) (by decide) rfl rfl ?_
  refine itemsOk_ident 1 T _ _ c cs hT1 hT2 hT3 hTy rfl ?_
  refine itemsOk_one 0 ")" _ _ ')' rfl (by decide) (by decide) (by decide) (by decide)
    (by decide) rfl rfl ?_
  refine itemsOk_ident 1 "begin" _ _ 'b' ['e', 'g', 'i', 'n'] rfl (by decide) (by decide)
    rfl rfl ?_
  refine itemsOk_name 1 x _ hx rfl ?_
  refine itemsOk_one 1 "=" _ _ '=' rfl (by decide) (by decide) (by decide) (by decide)
    (by decide) rfl rfl ?_
  refine itemsOk_name 1 x _ hx rfl ?_
  refine itemsOk_one 1 "+" _ _ '+' rfl (by decide) (by decide) (by decide) (by decide)
    (by decide) rfl rfl ?_
  refine itemsOk_dec 1 "1" _ '1' [] rfl (by decide) (by decide) (by decide) (by decide) rfl ?_
  refine itemsOk_one 0 ";" _ _ ';' rfl (by decide) (by decide) (by decide) (by decide)
    (by decide) rfl rfl ?_
  refine itemsOk_ident 1 "end" _ _ 'e' ['n', 'd'] rfl (by decide) (by decide) rfl rfl ?_
  refine itemsOk_ident 1 "end" _ _ 'e' ['n', 'd'] rfl (by decide) (by decide) rfl rfl ?_
  trivial

theorem scenario2_text (f x T : String) (type : TokenType) :
    (scenario2Source f x T).toList = itemsText (scenario2Items f x T type) := by
  simp [scenario2Source, scenario2Items, itemsText, String.toList]

theorem builtinTypeNames_facts {T : String} {type : TokenType}
    (h : (T, type) ∈ builtinTypeNames) :
    (∃ c cs, T.data = c :: cs ∧ (isalpha c || c == '_') = true ∧
      ∀ d ∈ cs, (isalnum d || d == '_') = true) ∧
    keywordType T = type ∧ isBuiltinType type = true := by
  simp only [builtinTypeNames, List.mem_cons, Prod.mk.injEq, List.mem_singleton,
    List.not_mem_nil, or_false] at h
  rcases h with h | h | h | h | h | h | h | h <;> obtain ⟨rfl, rfl⟩ := h
  · exact ⟨⟨'b', ['o', 'o', 'l'], rfl, by decide, by decide⟩, rfl, rfl⟩
  · exact ⟨⟨'b', ['y', 't', 'e'], rfl, by decide, by decide⟩, rfl, rfl⟩
  · exact ⟨⟨'i', ['n', 't'], rfl, by decide, by decide⟩, rfl, rfl⟩
  · exact ⟨⟨'u', ['i', 'n', 't'], rfl, by decide, by decide⟩, rfl, rfl⟩
  · exact ⟨⟨'l', ['o', 'n', 'g'], rfl, by decide, by decide⟩, rfl, rfl⟩
  · exact ⟨⟨'u', ['l', 'o', 'n', 'g'], rfl, by decide, by decide⟩, rfl, rfl⟩
  · exact ⟨⟨'c', ['h', 'a', 'r'], rfl, by decide, by decide⟩, rfl, rfl⟩
  · exact ⟨⟨'s', ['t', 'r', 'i', 'n', 'g'], rfl, by decide, by decide⟩, rfl, rfl⟩

/-- Parsing the token sequence of scenario 2, for all names, every builtin
type token and all locations. -/
theorem scenario2_tokens_parse (f x : String) (T : Token) (loc : Nat → SourceLocation)
    (k : Nat) (hT : isBuiltinType T.type = true) :
    parse (scenario2Tokens f x T loc) (k + 21) =
      some { tree := some (scenario2Tree f x T loc), errors := [] } := by
  simp [parse, parseSource, parseSourceLoop, parseSourceItem, parseFuncDef, parseFuncDefLoop,
    parseFuncSignature, parseFuncArg, parseTypeRef, parseTypeRefLoop, parseStatement,
    parseBlock, parseBlockLoop, parseExpressionOrAssign, parseExpression, parseExprOr,
    parseExprAnd, parseExprComparison, parseExprBitOr, parseExprBitXor, parseExprBitAnd,
    parseExprShift, parseExprAdd, parseExprMul, parseExprUnary, parseExprPostfix,
    parseExprPostfixLoop, parseExprPrimary, binaryLoop, commaLoop, scenario2Tokens,
    scenario2Tree, current, advance, check, isAtEnd, expect, error, hT, isOrOp, isAndOp,
    isComparisonOp, isBitOrOp, isBitXorOp, isBitAndOp, isShiftOp, isAddOp, isMulOp,
    isUnaryOp, isLiteralStart, makeNode, ASTNode.addChild, ASTNode.setValue]

theorem scenario2_itemTokens (l : Lexer) (e : Token) (f x T : String) (type : TokenType)
    (he : e.type = .TOK_EOF ∧ e.text = "") :
    ∃ loc : Nat → SourceLocation,
      itemTokens l (scenario2Items f x T type) ++ [e] =
        scenario2Tokens f x ⟨type, T, loc 5⟩ loc := by
  have h : ∃ l0 l1 l2 l3 l4 l5 l6 l7 l8 l9 l10 l11 l12 l13 l14 l15 : SourceLocation,
      itemTokens l (scenario2Items f x T type) =
        [⟨.TOK_DEF, "def", l0⟩, ⟨.TOK_IDENT, f, l1⟩, ⟨.TOK_LPAREN, "(", l2⟩,
         ⟨.TOK_IDENT, x, l3⟩, ⟨.TOK_OF, "of", l4⟩, ⟨type, T, l5⟩, ⟨.TOK_RPAREN, ")", l6⟩,
         ⟨.TOK_BEGIN, "begin", l7⟩, ⟨.TOK_IDENT, x, l8⟩, ⟨.TOK_ASSIGN, "=", l9⟩,
         ⟨.TOK_IDENT, x, l10⟩, ⟨.TOK_PLUS, "+", l11⟩, ⟨.TOK_DEC, "1", l12⟩,
         ⟨.TOK_SEMICOLON, ";", l13⟩, ⟨.TOK_END, "end", l14⟩, ⟨.TOK_END, "end", l15⟩] :=
    ⟨_, _, _, _, _, _, _, _, _, _, _, _, _, _, _, _, rfl⟩
  obtain ⟨l0, l1, l2, l3, l4, l5, l6, l7, l8, l9, l10, l11, l12, l13, l14, l15, h⟩ := h
  obtain ⟨ety, etext, eloc⟩ := e
  obtain ⟨h1, h2⟩ := he
  cases h1
  cases h2
  refine ⟨fun i => [l0, l1, l2, l3, l4, l5, l6, l7, l8, l9, l10, l11, l12, l13, l14, l15,
    eloc].getD i ⟨0, 0, 0⟩, ?_⟩
  rw [h]
  rfl

/-- Lexing then parsing the source text of scenario 2, for all identifier
names and every builtin type keyword. -/
theorem scenario2_source_parse (f x T : String) (type : TokenType)
    (hf : isIdentifierName f) (hx : isIdentifierName x) (hT : (T, type) ∈ builtinTypeNames)
    (fuel : Nat) (hfuel : (scenario2Source f x T).length < fuel) :
    ∃ loc : Nat → SourceLocation, lexAndParse fuel (scenario2Source f x T) =
      some (some (scenario2Tree f x ⟨type, T, loc 5⟩ loc), [], []) := by
  obtain ⟨hshape, hty, hbuiltin⟩ := builtinTypeNames_facts hT
  have htok := tokenize_items (scenario2Items f x T type) (scenario2Source f x T).toList fuel
    (scenario2_itemsOk f x T type hf hx hshape hty) (scenario2_text f x T type) hfuel
  have hlen : 21 ≤ (scenario2Source f x T).length := by
    have e : (" + 1; end end" : String).length = 13 := by decide
    have e2 : (") begin " : String).length = 8 := by decide
    simp only [scenario2Source, String.length_append, e, e2]
    omega
  obtain ⟨k, rfl⟩ : ∃ k, fuel = k + 21 := ⟨fuel - 21, by omega⟩
  obtain ⟨loc, hloc⟩ := scenario2_itemTokens (Lexer.init (scenario2Source f x T).toList)
    (makeToken .TOK_EOF "" (itemsEnd (Lexer.init (scenario2Source f x T).toList)
      (scenario2Items f x T type)).here) f x T type ⟨rfl, rfl⟩
  rw [hloc] at htok
  refine ⟨loc, ?_⟩
  unfold lexAndParse
  rw [htok]
  have hp := scenario2_tokens_parse f x ⟨type, T, loc 5⟩ loc k hbuiltin
  simp only [hp]

/-! ### Scenario 1 and the optional `end` -/

theorem scenario1_itemsOk (n : String) (hn : isIdentifierName n) :
    ItemsOk (scenario1Items n) := by
  unfold scenario1Items
  refine itemsOk_ident 0 "def" _ _ 'd' ['e', 'f'] rfl (by decide) (by decide) rfl rfl ?_
  refine itemsOk_name 1 n _ hn rfl ?_
  refine itemsOk_one 0 "(" _ _ '(' rfl (by decide) (by decide) (by decide) (by decide)
    (by decide) rfl rfl ?_
  refine itemsOk_one 0 ")" _ _ ')' rfl (by decide) (by decide) (by decide) (by decide)
    (by decide) rfl rfl ?_
  refine itemsOk_ident 1 "end" _ _ 'e' ['n', 'd'] rfl (by decide) (by decide) rfl rfl ?_
  trivial

theorem scenario1_text (n : String) :
    (scenario1Source n).toList = itemsText (scenario1Items n) := by
  simp [scenario1Source, scenario1Items, itemsText, String.toList]

/-- Parsing the token sequence of scenario 1, for every name and all
locations. -/
theorem scenario1_tokens_parse (n : String) (loc : Nat → SourceLocation) (k : Nat) :
    parse (scenario1Tokens n loc) (k + 8) =
      some { tree := some (scenario1Tree n loc), errors := [] } := by
  simp [parse, parseSource, parseSourceLoop, parseSourceItem, parseFuncDef, parseFuncDefLoop,
    parseFuncSignature, commaLoop, scenario1Tokens, scenario1Tree, current, advance, check,
    isAtEnd, expect, error, makeNode, ASTNode.addChild, ASTNode.setValue]

theorem scenario1_itemTokens (l : Lexer) (e : Token) (n : String)
    (he : e.type = .TOK_EOF ∧ e.text = "") :
    ∃ loc : Nat → SourceLocation,
      itemTokens l (scenario1Items n) ++ [e] = scenario1Tokens n loc := by
  have h : ∃ l0 l1 l2 l3 l4 : SourceLocation,
      itemTokens l (scenario1Items n) =
        [⟨.TOK_DEF, "def", l0⟩, ⟨.TOK_IDENT, n, l1⟩, ⟨.TOK_LPAREN, "(", l2⟩,
         ⟨.TOK_RPAREN, ")", l3⟩, ⟨.TOK_END, "end", l4⟩] :=
    ⟨_, _, _, _, _, rfl⟩
  obtain ⟨l0, l1, l2, l3, l4, h⟩ := h
  obtain ⟨ety, etext, eloc⟩ := e
  obtain ⟨h1, h2⟩ := he
  cases h1
  cases h2
  refine ⟨fun i => [l0, l1, l2, l3, l4, eloc].getD i ⟨0, 0, 0⟩, ?_⟩
  rw [h]
  rfl

/-- Lexing then parsing `def n() end`, for every identifier name. -/
theorem scenario1_source_parse (n : String) (hn : isIdentifierName n) (fuel : Nat)
    (hfuel : (scenario1Source n).length < fuel) :
    ∃ loc : Nat → SourceLocation, lexAndParse fuel (scenario1Source n) =
      some (some (scenario1Tree n loc), [], []) := by
  have htok := tokenize_items (scenario1Items n) (scenario1Source n).toList fuel
    (scenario1_itemsOk n hn) (scenario1_text n) hfuel
  have hlen : 8 ≤ (scenario1Source n).length := by
    have e : ("() end" : String).length = 6 := by decide
    have e2 : ("def " : String).length = 4 := by decide
    simp only [scenario1Source, String.length_append, e, e2]
    omega
  obtain ⟨k, rfl⟩ : ∃ k, fuel = k + 8 := ⟨fuel - 8, by omega⟩
  obtain ⟨loc, hloc⟩ := scenario1_itemTokens (Lexer.init (scenario1Source n).toList)
    (makeToken .TOK_EOF "" (itemsEnd (Lexer.init (scenario1Source n).toList)
      (scenario1Items n)).here) n ⟨rfl, rfl⟩
  rw [hloc] at htok
  refine ⟨loc, ?_⟩
  unfold lexAndParse
  rw [htok]
  have hp := scenario1_tokens_parse n loc k
  simp only [hp]

/-- The statement loop of `parseFuncDef` ends where it ends on one of `end`,
`def` and the end of input. -/
theorem parseFuncDefLoop_stops (toks : List Token) (fuel : Nat) :
    ∀ (node : ASTNode) (p p2 : Parser) (r : ASTNodePtr),
      parseFuncDefLoop toks fuel node p = some (r, p2) →
      check toks p2 .TOK_END = true ∨ isAtEnd toks p2 = true ∨
        check toks p2 .TOK_DEF = true := by
  induction fuel with
  | zero => intro node p p2 r h; simp [parseFuncDefLoop] at h
  | succ fuel ih =>
    intro node p p2 r h
    rw [parseFuncDefLoop] at h
    by_cases hE : check toks p .TOK_END = true
    · simp only [hE, Bool.not_true, Bool.false_and, Bool.false_eq_true, if_false,
        Option.some.injEq, Prod.mk.injEq] at h
      obtain ⟨_, rfl⟩ := h
      exact Or.inl hE
    by_cases hA : isAtEnd toks p = true
    · simp only [hA, Bool.not_true, Bool.and_false, Bool.false_eq_true, if_false,
        Option.some.injEq, Prod.mk.injEq] at h
      obtain ⟨_, rfl⟩ := h
      exact Or.inr (Or.inl hA)
    simp only [Bool.not_eq_true] at hE hA
    simp only [hE, hA, Bool.not_false, Bool.and_self, if_true] at h
    by_cases hD : check toks p .TOK_DEF = true
    · simp only [hD, if_true, Option.some.injEq, Prod.mk.injEq] at h
      obtain ⟨_, rfl⟩ := h
      exact Or.inr (Or.inr hD)
    simp only [hD, Bool.false_eq_true, if_false] at h
    split at h
    · cases h
    · exact ih _ _ _ _ h
    · split at h
      · cases h
      · exact ih _ _ _ _ h

/-! ## Lexer: token by token -/

theorem Lexer.rest_length (l : Lexer) : l.rest.length = l.source.length - l.pos := by
  simp [Lexer.rest]

theorem Lexer.rest_of_here {l : Lexer} {source : List Char} {t : Token}
    (hs : l.source = source) (hl : t.loc = l.here) : l.rest = source.drop t.loc.offset := by
  rw [hl, ← hs]
  rfl

theorem Lexer.rest_ne_nil {l : Lexer} (h : l.pos < l.source.length) :
    ∃ c r, l.rest = c :: r := by
  cases hr : l.rest with
  | nil =>
    have := Lexer.rest_length l
    rw [hr] at this
    simp at this
    omega
  | cons c r => exact ⟨c, r, rfl⟩

theorem String.mk_data_nil (val : String) : String.mk (val.data ++ []) = val := by
  simp

/-- The loop `readWhile p` appends the longest run of bytes satisfying `p` and
stops in front of the rest, recording no error. -/
theorem readWhile_takeWhile (p : Char → Bool) (fuel : Nat) :
    ∀ (val : String) (l : Lexer), l.rest.length < fuel →
    ∃ l1, readWhile p fuel val l = some (String.mk (val.data ++ l.rest.takeWhile p), l1) ∧
      l1.errors = l.errors ∧ l1.source = l.source ∧ l1.rest = l.rest.dropWhile p := by
  induction fuel with
  | zero => intro val l h; omega
  | succ fuel ih =>
    intro val l h
    rw [readWhile]
    cases hr : l.rest with
    | nil =>
      have := Lexer.rest_nil hr
      simp [this, hr]
    | cons c r =>
      obtain ⟨hna, hcur, hpk, _, hadv⟩ := Lexer.rest_cons hr
      by_cases hp : p c = true
      · simp only [hna, hpk, hp, Bool.not_false, Bool.and_self, if_true]
        obtain ⟨l1, e1, h1, h2, h3⟩ := ih (val.push l.cur) l.advance
          (by rw [hadv]; rw [hr] at h; simpa using h)
        refine ⟨l1, ?_, by rw [h1, Lexer.advance_errors], by rw [h2, Lexer.advance_source], ?_⟩
        · rw [e1, hadv, hcur]
          simp [List.takeWhile_cons, hp]
        · rw [h3, hadv]
          simp [List.dropWhile_cons, hp]
      · simp only [Bool.not_eq_true] at hp
        simp [hna, hpk, hp, List.takeWhile_cons, List.dropWhile_cons, hr]

/-- With enough fuel the loop of `tokenize` returns, and its run is a `ScanRun`. -/
theorem tokenizeLoop_scanRun (fuel : Nat) (acc : List Token) (l : Lexer)
    (hb : l.pos ≤ l.source.length) (hf : l.source.length - l.pos < fuel) :
    ∃ tail l3, tokenizeLoop fuel acc l = some (acc ++ tail, l3) ∧ ScanRun l tail l3 := by
  induction fuel generalizing l acc with
  | zero => omega
  | succ fuel ih =>
    unfold tokenizeLoop
    obtain ⟨l1, e1, r1⟩ := skipWhitespaceAndComments_spec (fuel + 1) l hb hf
    rw [e1]
    simp only
    by_cases hc : l1.isAtEnd = true
    · rw [if_pos hc]
      exact ⟨_, _, rfl, ScanRun.eof l l1 _ e1 r1 hc⟩
    · rw [if_neg hc]
      have hna : l1.isAtEnd = false := by simpa using hc
      have hlt : l1.pos < l1.source.length := Lexer.not_isAtEnd.mp hna
      have hf1 : l1.source.length - l1.pos < fuel + 1 := by
        rw [r1.source]; have := r1.pos; omega
      obtain ⟨t, l2, e2, s2⟩ := scanToken_spec (fuel + 1) l1 hlt hf1
      rw [e2]
      simp only
      have hs2 : l2.source = l1.source := s2.reaches.source
      obtain ⟨tail, l3, e3, run⟩ := ih (acc ++ [t]) l2
        (by rw [hs2]; exact s2.reaches.bound)
        (by rw [hs2, r1.source]; have := s2.progress; have := r1.pos; omega)
      refine ⟨t :: tail, l3, by rw [e3]; simp, ?_⟩
      exact ScanRun.tok l l1 l2 l3 _ t tail e1 r1 hna hf1 e2 s2 run

theorem tokenize_scanRun (source : List Char) (fuel : Nat) (h : source.length < fuel) :
    ∃ tokens l3, tokenize fuel source = some (tokens, l3.errors) ∧
      ScanRun (Lexer.init source) tokens l3 := by
  obtain ⟨tail, l3, e, run⟩ := tokenizeLoop_scanRun fuel [] (Lexer.init source)
    (Nat.zero_le _) (by simpa [Lexer.init] using h)
  refine ⟨tail, l3, ?_, run⟩
  unfold tokenize
  rw [e]
  rfl

theorem ScanRun.source_eq {l l3 : Lexer} {toks : List Token} (h : ScanRun l toks l3) :
    l3.source = l.source ∧ l.pos ≤ l3.pos ∧ l3.pos ≤ l.source.length := by
  induction h with
  | eof l l1 fuel _ r _ => exact ⟨r.source, r.pos, r.bound⟩
  | tok l l1 l2 l3 fuel t rest _ r _ _ _ s _ ih =>
    obtain ⟨h1, h2, h3⟩ := ih
    have := s.reaches.source
    have := s.reaches.pos
    have := r.pos
    refine ⟨by rw [h1, s.reaches.source, r.source], by omega, ?_⟩
    rw [s.reaches.source, r.source] at h3
    exact h3

/-- Every token of a run is the closing EOF token, at the end of the input, or
was returned by a call of `scanToken` at its location; the tokens after it are
the run from the state that call left. -/
theorem ScanRun.each {l l3 : Lexer} {toks : List Token} (h : ScanRun l toks l3) :
    ∀ (pre : List Token) (t : Token) (rest : List Token), toks = pre ++ t :: rest →
      (rest = [] ∧ t.type = .TOK_EOF ∧ t.loc.offset = l.source.length) ∨
      ∃ l1 l2, ScannedAt l.source t l1 l2 ∧ ScanRun l2 rest l3 := by
  induction h with
  | eof l l1 fuel _ r hend =>
    intro pre t rest e
    cases pre with
    | nil =>
      simp only [List.nil_append, List.cons.injEq] at e
      obtain ⟨rfl, rfl⟩ := e
      refine Or.inl ⟨rfl, rfl, ?_⟩
      have := r.bound
      simp only [Lexer.isAtEnd, decide_eq_true_eq, r.source] at hend
      show l1.pos = _
      omega
    | cons a pre =>
      simp only [List.cons_append, List.cons.injEq] at e
      have := congrArg List.length e.2
      simp at this
      omega
  | tok l l1 l2 l3 fuel t0 rest0 _ r hna hf e s run ih =>
    intro pre t rest e0
    cases pre with
    | nil =>
      simp only [List.nil_append, List.cons.injEq] at e0
      obtain ⟨rfl, rfl⟩ := e0
      refine Or.inr ⟨l1, l2, ⟨r.source, s.loc, ?_, fuel, ?_, e⟩, run⟩
      · rw [← r.source]; exact Lexer.not_isAtEnd.mp hna
      · rw [← r.source]; exact hf
    | cons a pre =>
      simp only [List.cons_append, List.cons.injEq] at e0
      have hsrc : l2.source = l.source := by rw [s.reaches.source, r.source]
      rcases ih pre t rest e0.2 with h | ⟨k1, k2, hk, hrun⟩
      · rw [hsrc] at h
        exact Or.inl h
      · rw [hsrc] at hk
        exact Or.inr ⟨k1, k2, hk, hrun⟩

/-- A run that starts at the end of the input is the EOF token alone. -/
theorem ScanRun.at_end {l l3 : Lexer} {toks : List Token} (h : ScanRun l toks l3) :
    l.isAtEnd = true → ∃ loc, toks = [makeToken .TOK_EOF "" loc] := by
  induction h with
  | eof l l1 fuel _ r _ => exact fun _ => ⟨_, rfl⟩
  | tok l l1 l2 l3 fuel t rest _ r hna _ _ _ _ _ =>
    intro hend
    have h1 := Lexer.not_isAtEnd.mp hna
    have := r.pos
    rw [r.source] at h1
    simp only [Lexer.isAtEnd, decide_eq_true_eq] at hend
    omega

theorem digit_not_quote {c : Char} (h : isdigit c = true) : c ≠ '"' ∧ c ≠ '\'' := by
  constructor <;> (intro e; rw [e] at h; exact absurd h (by decide))

/-- At a digit `scanToken` returns the numeric literal that the specification
describes, and records no error. -/
theorem scanToken_number (fuel : Nat) (l : Lexer) (c : Char) (r : List Char)
    (hr : l.rest = c :: r) (hc : isdigit c = true) (hf : l.rest.length < fuel) :
    ∃ l2, scanToken fuel l =
        some (makeToken (numberLexeme l.rest).1 (String.mk (numberLexeme l.rest).2) l.here, l2) ∧
      l2.errors = l.errors := by
  obtain ⟨hna, hcur, hpk, hnx, hadv⟩ := Lexer.rest_cons hr
  have hq := digit_not_quote hc
  unfold scanToken
  simp only [hpk, beq_iff_eq, hq.1, hq.2, hc, if_true, if_false]
  unfold readNumber
  have hdec : ∃ l2, (match readWhile isdigit fuel "" l with
      | none => none
      | some (val, l1) => some (makeToken .TOK_DEC val l.here, l1)) =
        some (makeToken .TOK_DEC (String.mk (l.rest.takeWhile isdigit)) l.here, l2) ∧
      l2.errors = l.errors := by
    obtain ⟨l1, e1, h1, _, _⟩ := readWhile_takeWhile isdigit fuel "" l hf
    rw [e1]
    exact ⟨l1, rfl, h1⟩
  cases r with
  | nil =>
    have hx : ((c == '0') && (NUL == 'x' || NUL == 'X')) = false := by
      rw [show (NUL == 'x' || NUL == 'X') = false by decide, Bool.and_false]
    have hb : ((c == '0') && (NUL == 'b' || NUL == 'B')) = false := by
      rw [show (NUL == 'b' || NUL == 'B') = false by decide, Bool.and_false]
    simp only [hpk, hnx, List.headD_nil, hx, hb, Bool.false_eq_true, if_false]
    rw [hr] at hdec ⊢
    exact hdec
  | cons n r2 =>
    obtain ⟨_, hcur2, _, _, hadv2⟩ := Lexer.rest_cons hadv
    simp only [hpk, hnx, List.headD_cons]
    by_cases h1 : c = '0' ∧ (n = 'x' ∨ n = 'X')
    · have hx : ((c == '0') && (n == 'x' || n == 'X')) = true := by simpa using h1
      rw [if_pos hx]
      obtain ⟨l1, e1, g1, _, _⟩ := readWhile_takeWhile isxdigit fuel
        (("".push l.cur).push l.advance.cur) l.advance.advance
        (by rw [hadv2]; rw [hr] at hf; simp at hf; omega)
      rw [e1, hadv2, hcur, hcur2, hr]
      refine ⟨l1, ?_, by rw [g1, Lexer.advance_errors, Lexer.advance_errors]⟩
      have : numberLexeme (c :: n :: r2) = (.TOK_HEX, c :: n :: r2.takeWhile isxdigit) := by
        simp only [numberLexeme]
        rw [if_pos h1]
      rw [this]
      rfl
    · have hx : ((c == '0') && (n == 'x' || n == 'X')) = false := by simpa using h1
      rw [if_neg (by rw [hx]; exact Bool.false_ne_true)]
      by_cases h2 : c = '0' ∧ (n = 'b' ∨ n = 'B')
      · have hb : ((c == '0') && (n == 'b' || n == 'B')) = true := by simpa using h2
        rw [if_pos hb]
        obtain ⟨l1, e1, g1, _, _⟩ := readWhile_takeWhile (fun c => c == '0' || c == '1') fuel
          (("".push l.cur).push l.advance.cur) l.advance.advance
          (by rw [hadv2]; rw [hr] at hf; simp at hf; omega)
        rw [e1, hadv2, hcur, hcur2, hr]
        refine ⟨l1, ?_, by rw [g1, Lexer.advance_errors, Lexer.advance_errors]⟩
        have : numberLexeme (c :: n :: r2) =
            (.TOK_BITS, c :: n :: r2.takeWhile (fun d => d == '0' || d == '1')) := by
          simp only [numberLexeme]
          rw [if_neg h1, if_pos h2]
        rw [this]
        rfl
      · have hb : ((c == '0') && (n == 'b' || n == 'B')) = false := by simpa using h2
        rw [if_neg (by rw [hb]; exact Bool.false_ne_true)]
        have : numberLexeme (c :: n :: r2) = (.TOK_DEC, (c :: n :: r2).takeWhile isdigit) := by
          simp only [numberLexeme]
          rw [if_neg h1, if_neg h2]
        rw [hr] at hdec ⊢
        rw [this]
        exact hdec

/-- At a letter or underscore `scanToken` returns the longest run of letters,
digits and underscores, with the kind that `keywordType` gives it, and records
no error. -/
theorem scanToken_ident (fuel : Nat) (l : Lexer) (c : Char) (r : List Char)
    (hr : l.rest = c :: r) (hc : (isalpha c || c == '_') = true) (hf : l.rest.length < fuel) :
    ∃ l2, scanToken fuel l =
        some (makeToken
          (keywordType (String.mk (l.rest.takeWhile (fun d => isalnum d || d == '_'))))
          (String.mk (l.rest.takeWhile (fun d => isalnum d || d == '_'))) l.here, l2) ∧
      l2.errors = l.errors ∧
      l2.rest = l.rest.dropWhile (fun d => isalnum d || d == '_') := by
  obtain ⟨h1, h2, h3, _, _, _, _, _, _⟩ := identStart_facts hc
  obtain ⟨_, _, hpk, _, _⟩ := Lexer.rest_cons hr
  obtain ⟨l1, e1, g1, _, g3⟩ := readWhile_takeWhile (fun d => isalnum d || d == '_') fuel "" l hf
  unfold scanToken
  simp only [hpk, beq_iff_eq, h1, h2, h3, hc, if_true, if_false, Bool.false_eq_true]
  unfold readIdentOrKeyword
  rw [e1]
  exact ⟨l1, rfl, g1, g3⟩

theorem if_some_step {α : Type} (P : α → Prop) {cond : Bool} {x y : α} {rest : Option α}
    (h : (if cond = true then some x else rest) = some y)
    (hx : cond = true → P x) (hrest : rest = some y → P y) : P y := by
  by_cases hc : cond = true
  · rw [if_pos hc] at h
    injection h with h
    rw [← h]
    exact hx hc
  · rw [if_neg hc] at h
    exact hrest h

/-- The tests of `tokenize` for two-character operators are the table of the
specification. -/
theorem twoCharOperator_mem {c n : Char} {ty : TokenType} {text : String}
    (h : twoCharOperator c n = some (ty, text)) :
    (c, n, ty) ∈ twoCharOperators ∧ text.data = [c, n] := by
  unfold twoCharOperator at h
  iterate 11
    refine if_some_step (fun y => (c, n, y.1) ∈ twoCharOperators ∧ y.2.data = [c, n]) h
      (fun hc => ?_) (fun h => ?_)
    · simp only [Bool.and_eq_true, beq_iff_eq] at hc
      obtain ⟨rfl, rfl⟩ := hc
      exact ⟨by decide, rfl⟩
  exact absurd h (by simp)

theorem twoCharOperator_of_mem :
    ∀ e ∈ twoCharOperators,
      twoCharOperator e.1 e.2.1 = some (e.2.2, String.mk [e.1, e.2.1]) ∧
      isOneCharKind e.2.2 = false ∧ e.2.2 ≠ .TOK_IDENT ∧ e.1 ≠ '"' ∧ e.1 ≠ '\'' ∧
      isdigit e.1 = false ∧ (isalpha e.1 || e.1 == '_') = false ∧ e.1 ≠ NUL ∧ e.2.1 ≠ NUL := by
  decide

theorem oneCharOperator_kind {c : Char} {ty : TokenType} {text : String}
    (h : oneCharOperator c = some (ty, text)) : isOneCharKind ty = true := by
  unfold oneCharOperator at h
  iterate 21
    refine if_some_step (fun y => isOneCharKind y.1 = true) h (fun _ => ?_) (fun h => ?_)
    · rfl
  exact absurd h (by simp)

theorem keywordType_mem (w : String) :
    keywordType w = .TOK_IDENT ∨ (w, keywordType w) ∈ keywords := by
  unfold keywordType
  cases h : keywords.lookup w with
  | none => exact Or.inl rfl
  | some t =>
    obtain ⟨l1, l2, hl, _⟩ := List.lookup_eq_some_iff.mp h
    exact Or.inr (by rw [hl]; simp)

theorem keywords_facts :
    ∀ e ∈ keywords, keywordType e.1 = e.2 ∧ e.2 ≠ .TOK_IDENT ∧ isOneCharKind e.2 = false ∧
      e.1 ∈ keywordNames := by
  decide

/-- The kind of the token that `scanToken` returns, branch by branch. -/
theorem scanToken_kind (fuel : Nat) (l : Lexer) (t : Token) (l2 : Lexer)
    (h : scanToken fuel l = some (t, l2)) :
    t.type = .TOK_STRING ∨ t.type = .TOK_CHAR ∨ t.type = .TOK_ERROR ∨ t.type = .TOK_HEX ∨
    t.type = .TOK_BITS ∨ t.type = .TOK_DEC ∨
    ((isalpha l.peek || l.peek == '_') = true ∧ t.type = keywordType t.text) ∨
    (l.peek ≠ '"' ∧ l.peek ≠ '\'' ∧ isdigit l.peek = false ∧
      (isalpha l.peek || l.peek == '_') = false ∧
      ((∃ text, twoCharOperator l.peek l.peekNext = some (t.type, text)) ∨
       (twoCharOperator l.peek l.peekNext = none ∧
        ∃ text, oneCharOperator l.peek = some (t.type, text)))) := by
  unfold scanToken at h
  by_cases h1 : (l.peek == '"') = true
  · rw [if_pos h1] at h
    unfold readString at h
    split at h
    · cases h
    · split at h <;>
        (injection h with h; injection h with h1 h2; subst h1; simp [makeToken])
  rw [if_neg h1] at h
  by_cases h2 : (l.peek == '\'') = true
  · rw [if_pos h2] at h
    unfold readChar at h
    simp only at h
    split at h <;> split at h <;>
      (injection h with h; injection h with h1 h2; subst h1; simp [makeToken])
  rw [if_neg h2] at h
  by_cases h3 : isdigit l.peek = true
  · rw [if_pos h3] at h
    unfold readNumber at h
    split at h
    · split at h
      · cases h
      · injection h with h; injection h with h1 h2; subst h1; simp [makeToken]
    · split at h
      · split at h
        · cases h
        · injection h with h; injection h with h1 h2; subst h1; simp [makeToken]
      · split at h
        · cases h
        · injection h with h; injection h with h1 h2; subst h1; simp [makeToken]
  rw [if_neg h3] at h
  by_cases h4 : (isalpha l.peek || l.peek == '_') = true
  · rw [if_pos h4] at h
    unfold readIdentOrKeyword at h
    split at h
    · cases h
    · injection h with h; injection h with h1 h2; subst h1
      exact Or.inr (Or.inr (Or.inr (Or.inr (Or.inr (Or.inr (Or.inl ⟨h4, rfl⟩))))))
  rw [if_neg h4] at h
  have hq1 : l.peek ≠ '"' := by simpa using h1
  have hq2 : l.peek ≠ '\'' := by simpa using h2
  have hd : isdigit l.peek = false := by simpa using h3
  have ha : (isalpha l.peek || l.peek == '_') = false := by simpa using h4
  cases h5 : twoCharOperator l.peek l.peekNext with
  | some r =>
    obtain ⟨ty, text⟩ := r
    rw [h5] at h
    injection h with h; injection h with h1 h2; subst h1
    exact Or.inr (Or.inr (Or.inr (Or.inr (Or.inr (Or.inr (Or.inr
      ⟨hq1, hq2, hd, ha, Or.inl ⟨text, rfl⟩⟩))))))
  | none =>
    rw [h5] at h
    simp only at h
    cases h6 : oneCharOperator l.peek with
    | some r =>
      obtain ⟨ty, text⟩ := r
      rw [h6] at h
      injection h with h; injection h with h1 h2; subst h1
      exact Or.inr (Or.inr (Or.inr (Or.inr (Or.inr (Or.inr (Or.inr
        ⟨hq1, hq2, hd, ha, Or.inr ⟨rfl, text, rfl⟩⟩))))))
    | none =>
      rw [h6] at h
      injection h with h; injection h with h1 h2; subst h1
      simp [makeToken]

theorem Lexer.peekNext_eq_getD (l : Lexer) : l.peekNext = l.source.getD (l.pos + 1) NUL := by
  unfold Lexer.peekNext
  split
  · rw [List.getD_eq_default _ _ (by omega)]
  · rfl

theorem head_dropWhile_false (p : Char → Bool) :
    ∀ (l : List Char) (d : Char), (l.dropWhile p).head? = some d → p d = false := by
  intro l
  induction l with
  | nil => intro d h; simp at h
  | cons c r ih =>
    intro d h
    by_cases hp : p c = true
    · rw [List.dropWhile_cons, if_pos hp] at h
      exact ih d h
    · rw [List.dropWhile_cons, if_neg hp] at h
      simp only [List.head?_cons, Option.some.injEq] at h
      rw [← h]
      simpa using hp

theorem drop_takeWhile_length (p : Char → Bool) (l : List Char) :
    l.drop (l.takeWhile p).length = l.dropWhile p := by
  have h := List.drop_left (l.takeWhile p) (l.dropWhile p)
  rwa [List.takeWhile_append_dropWhile] at h

/-- With enough fuel `tokenize` returns, and every token it returns is the EOF
token at the end of the input or was scanned by `scanToken` from a state that
stands at the token's offset. -/
theorem tokenize_each (source : List Char) (fuel : Nat) (h : source.length < fuel) :
    ∃ tokens l3, tokenize fuel source = some (tokens, l3.errors) ∧
      ∀ (pre : List Token) (t : Token) (rest : List Token), tokens = pre ++ t :: rest →
        (rest = [] ∧ t.type = .TOK_EOF ∧ t.loc.offset = source.length) ∨
        ∃ l1 l2 r, ScannedAt source t l1 l2 ∧ ScanRun l2 rest l3 ∧
          l1.rest = source.getD t.loc.offset NUL :: r ∧
          source.drop t.loc.offset = source.getD t.loc.offset NUL :: r ∧
          l1.peek = source.getD t.loc.offset NUL ∧
          l1.peekNext = source.getD (t.loc.offset + 1) NUL := by
  obtain ⟨tokens, l3, e, run⟩ := tokenize_scanRun source fuel h
  refine ⟨tokens, l3, e, ?_⟩
  intro pre t rest ht
  rcases run.each pre t rest ht with h1 | ⟨l1, l2, hk, hrun⟩
  · exact Or.inl h1
  · have hsrc : l1.source = source := hk.src
    have hoff : t.loc.offset = l1.pos := by rw [hk.loc]; rfl
    obtain ⟨c, r, hr⟩ := Lexer.rest_ne_nil (l := l1) (by rw [hsrc]; exact hk.inside)
    obtain ⟨_, hcur, hpk, _, _⟩ := Lexer.rest_cons hr
    have hc : c = source.getD t.loc.offset NUL := by
      rw [← hcur, hoff, ← hsrc]
      rfl
    refine Or.inr ⟨l1, l2, r, hk, hrun, by rw [hr, hc], ?_, by rw [hpk, hc], ?_⟩
    · rw [← hc, ← hr, hoff, ← hsrc]
      rfl
    · rw [Lexer.peekNext_eq_getD, hoff, hsrc]

theorem scanToken_two (fuel : Nat) (l : Lexer) (e : Char × Char × TokenType)
    (he : e ∈ twoCharOperators) (hpk : l.peek = e.1) (hnx : l.peekNext = e.2.1) :
    scanToken fuel l = some (makeToken e.2.2 (String.mk [e.1, e.2.1]) l.here, l.advance.advance) := by
  obtain ⟨h1, _, _, h4, h5, h6, h7, _, _⟩ := twoCharOperator_of_mem e he
  unfold scanToken
  rw [hpk, hnx]
  simp only [beq_iff_eq, h4, h5, h6, h7, if_false, Bool.false_eq_true, h1]

theorem not_keyword_of_ident {w : String} (h : keywordType w = .TOK_IDENT) :
    w ∉ keywordNames := by
  intro hm
  have key : ∀ v ∈ keywordNames, keywordType v ≠ .TOK_IDENT := by decide
  exact key w hm h

/-- A token of kind `TOK_IDENT` that `scanToken` returns is not a keyword. -/
theorem scanToken_ident_kind (fuel : Nat) (l : Lexer) (t : Token) (l2 : Lexer)
    (h : scanToken fuel l = some (t, l2)) (hty : t.type = .TOK_IDENT) :
    keywordType t.text = .TOK_IDENT := by
  rcases scanToken_kind fuel l t l2 h with k | k | k | k | k | k | k | k
  · rw [hty] at k; cases k
  · rw [hty] at k; cases k
  · rw [hty] at k; cases k
  · rw [hty] at k; cases k
  · rw [hty] at k; cases k
  · rw [hty] at k; cases k
  · rw [← k.2, hty]
  · obtain ⟨_, _, _, _, k⟩ := k
    rcases k with ⟨text, k⟩ | ⟨_, text, k⟩
    · have := (twoCharOperator_of_mem _ (twoCharOperator_mem k).1).2.2.1
      exact absurd hty this
    · have := oneCharOperator_kind k
      rw [hty] at this
      exact absurd this (by decide)

theorem take_succ_of_head {α : Type} (r : List α) (n : Nat) (q : α)
    (h : (r.drop n).head? = some q) : r.take (n + 1) = r.take n ++ [q] := by
  rw [List.take_succ]
  rw [List.head?_drop] at h
  rw [h]
  rfl

theorem closingQuote_cons (c : Char) (r : List Char) :
    closingQuote (c :: r) =
      if c = '"' then some 0
      else if c = '\\' then
        match r with
        | [] => none
        | _ :: r2 => (closingQuote r2).map (· + 2)
      else (closingQuote r).map (· + 1) := by
  cases r <;> rfl

/-- The loop of `readString` appends the text up to the closing quote that
`closingQuote` finds and stops in front of it, or appends all the text that is
left when there is none; it records no error. -/
theorem readStringLoop_quote (fuel : Nat) :
    ∀ (val : String) (l : Lexer), l.rest.length < fuel →
    ∃ val1 l1, readStringLoop fuel val l = some (val1, l1) ∧ l1.errors = l.errors ∧
      (∀ n, closingQuote l.rest = some n →
        val1.data = val.data ++ l.rest.take n ∧ l1.rest = l.rest.drop n ∧
        (l.rest.drop n).head? = some '"') ∧
      (closingQuote l.rest = none → val1.data = val.data ++ l.rest ∧ l1.rest = []) := by
  induction fuel with
  | zero => intro val l h; omega
  | succ fuel ih =>
    intro val l h
    rw [readStringLoop]
    cases hr : l.rest with
    | nil =>
      have hend := Lexer.rest_nil hr
      refine ⟨val, l, by simp [hend], rfl, ?_, ?_⟩
      · intro n hn
        cases hn
      · intro _
        exact ⟨by simp, hr⟩
    | cons c r =>
      obtain ⟨hna, hcur, hpk, _, hadv⟩ := Lexer.rest_cons hr
      have hlen : r.length < fuel := by rw [hr] at h; simpa using h
      by_cases hq : c = '"'
      · refine ⟨val, l, by simp [hna, hpk, hq], rfl, ?_, ?_⟩
        · intro n hn
          rw [closingQuote_cons, if_pos hq] at hn
          injection hn with hn
          subst hn
          simp [hr, hq]
        · intro hn
          rw [closingQuote_cons, if_pos hq] at hn
          cases hn
      · have hgo : (!l.isAtEnd && l.peek != '"') = true := by simp [hna, hpk, hq]
        rw [if_pos hgo]
        by_cases hb : c = '\\'
        · have hbs : (l.peek == '\\') = true := by simp [hpk, hb]
          rw [if_pos hbs]
          cases r with
          | nil =>
            have hend := Lexer.rest_nil hadv
            simp only [hend, Bool.not_true, Bool.false_eq_true, if_false]
            obtain ⟨val1, l1, e1, g1, _, g3⟩ := ih (val.push l.cur) l.advance
              (by rw [hadv]; exact hlen)
            refine ⟨val1, l1, e1, by rw [g1, Lexer.advance_errors], ?_, ?_⟩
            · intro n hn
              rw [closingQuote_cons, if_neg hq, if_pos hb] at hn
              cases hn
            · intro _
              have := g3 (by rw [hadv]; rfl)
              rw [hadv] at this
              refine ⟨?_, this.2⟩
              rw [this.1, hcur]
              simp
          | cons c2 r2 =>
            obtain ⟨hna2, hcur2, _, _, hadv2⟩ := Lexer.rest_cons hadv
            simp only [hna2, Bool.not_false, if_true]
            obtain ⟨val1, l1, e1, g1, g2, g3⟩ := ih ((val.push l.cur).push l.advance.cur)
              l.advance.advance (by rw [hadv2]; simp at hlen; omega)
            have hcq : closingQuote (c :: c2 :: r2) = (closingQuote r2).map (· + 2) := by
              rw [closingQuote_cons, if_neg hq, if_pos hb]
            refine ⟨val1, l1, e1, by rw [g1, Lexer.advance_errors, Lexer.advance_errors],
              ?_, ?_⟩
            · intro n hn
              rw [hcq] at hn
              cases hm : closingQuote r2 with
              | none => rw [hm] at hn; cases hn
              | some m =>
                rw [hm] at hn
                simp only [Option.map_some', Option.some.injEq] at hn
                subst hn
                obtain ⟨a1, a2, a3⟩ := g2 m (by rw [hadv2]; exact hm)
                rw [hadv2] at a1 a2 a3
                refine ⟨?_, by rw [a2]; rfl, by simpa using a3⟩
                rw [a1, hcur, hcur2]
                simp
            · intro hn
              rw [hcq] at hn
              cases hm : closingQuote r2 with
              | some m => rw [hm] at hn; cases hn
              | none =>
                obtain ⟨a1, a2⟩ := g3 (by rw [hadv2]; exact hm)
                rw [hadv2] at a1
                refine ⟨?_, a2⟩
                rw [a1, hcur, hcur2]
                simp
        · have hbs : (l.peek == '\\') = false := by simp [hpk, hb]
          rw [if_neg (by rw [hbs]; exact Bool.false_ne_true)]
          obtain ⟨val1, l1, e1, g1, g2, g3⟩ := ih (val.push l.cur) l.advance
            (by rw [hadv]; exact hlen)
          have hcq : closingQuote (c :: r) = (closingQuote r).map (· + 1) := by
            rw [closingQuote_cons, if_neg hq, if_neg hb]
          refine ⟨val1, l1, e1, by rw [g1, Lexer.advance_errors], ?_, ?_⟩
          · intro n hn
            rw [hcq] at hn
            cases hm : closingQuote r with
            | none => rw [hm] at hn; cases hn
            | some m =>
              rw [hm] at hn
              simp only [Option.map_some', Option.some.injEq] at hn
              subst hn
              obtain ⟨a1, a2, a3⟩ := g2 m (by rw [hadv]; exact hm)
              rw [hadv] at a1 a2 a3
              refine ⟨?_, by rw [a2]; rfl, by simpa using a3⟩
              rw [a1, hcur]
              simp
          · intro hn
            rw [hcq] at hn
            cases hm : closingQuote r with
            | some m => rw [hm] at hn; cases hn
            | none =>
              obtain ⟨a1, a2⟩ := g3 (by rw [hadv]; exact hm)
              rw [hadv] at a1
              refine ⟨?_, a2⟩
              rw [a1, hcur]
              simp

/-- At an opening `"` `scanToken` returns the string literal up to the closing
quote that `closingQuote` finds, recording no error, or, when there is none,
an error token with all the text that is left, one error at the opening quote,
and the lexer at the end of the input. -/
theorem scanToken_string (fuel : Nat) (l : Lexer) (r : List Char)
    (hr : l.rest = '"' :: r) (hf : l.rest.length < fuel) :
    ∃ t l2, scanToken fuel l = some (t, l2) ∧
      (∀ n, closingQuote r = some n →
        t.type = .TOK_STRING ∧ t.text.data = l.rest.take (n + 2) ∧ l2.errors = l.errors) ∧
      (closingQuote r = none →
        t.type = .TOK_ERROR ∧ t.text.data = l.rest ∧
        l2.errors = l.errors ++ [⟨"Unterminated string literal", l.here⟩] ∧
        l2.isAtEnd = true) := by
  obtain ⟨_, _, hpk, _, hadv⟩ := Lexer.rest_cons hr
  obtain ⟨val1, l1, e1, g1, g2, g3⟩ := readStringLoop_quote fuel "\"" l.advance
    (by rw [hadv]; rw [hr] at hf; simp at hf; omega)
  rw [hadv] at g2 g3
  unfold scanToken
  rw [if_pos (by simp [hpk])]
  unfold readString
  rw [e1]
  simp only
  by_cases hend : l1.isAtEnd = true
  · rw [if_neg (by simp [hend])]
    refine ⟨_, _, rfl, ?_, ?_⟩
    · intro n hn
      obtain ⟨_, a2, a3⟩ := g2 n hn
      rw [← a2] at a3
      have : l1.rest = [] := by
        have := Lexer.rest_length l1
        simp only [Lexer.isAtEnd, decide_eq_true_eq] at hend
        exact List.length_eq_zero.mp (by omega)
      rw [this] at a3
      cases a3
    · intro hn
      obtain ⟨a1, _⟩ := g3 hn
      refine ⟨rfl, ?_, by simp [Lexer.pushError, g1], by simpa [Lexer.pushError, Lexer.isAtEnd] using hend⟩
      rw [hr]
      simpa [makeToken] using a1
  · have hna : l1.isAtEnd = false := by simpa using hend
    rw [if_pos (by simp [hna])]
    refine ⟨_, _, rfl, ?_, ?_⟩
    · intro n hn
      obtain ⟨a1, a2, a3⟩ := g2 n hn
      rw [← a2] at a3
      obtain ⟨c, r1, hr1⟩ := Lexer.rest_ne_nil (Lexer.not_isAtEnd.mp hna)
      obtain ⟨_, hcur1, _, _, _⟩ := Lexer.rest_cons hr1
      rw [hr1] at a3
      simp only [List.head?_cons, Option.some.injEq] at a3
      refine ⟨rfl, ?_, by simp [g1]⟩
      rw [hr]
      have hq : (r.drop n).head? = some '"' := by rw [← a2, hr1, a3]; rfl
      simp only [makeToken, String.data_push, a1, hcur1, a3]
      rw [show n + 2 = (n + 1) + 1 by omega, List.take_succ_cons, take_succ_of_head r n '"' hq]
      simp
    · intro hn
      obtain ⟨_, a2⟩ := g3 hn
      have := Lexer.rest_nil a2
      rw [this] at hna
      cases hna

theorem commentClose_zero (r : List Char) : commentClose r 0 = some 0 := by
  match r with
  | [] => rfl
  | [_] => rfl
  | _ :: _ :: _ => rfl

theorem commentClose_short (r : List Char) (depth : Nat) (hd : depth ≠ 0)
    (hr : r.length ≤ 1) : commentClose r depth = none := by
  match r with
  | [] => simp [commentClose, hd]
  | [_] => simp [commentClose, hd]
  | _ :: _ :: _ => simp at hr

theorem commentClose_cons (c c2 : Char) (r2 : List Char) (depth : Nat) (hd : depth ≠ 0) :
    commentClose (c :: c2 :: r2) depth =
      if c = '/' ∧ c2 = '*' then (commentClose r2 (depth + 1)).map (· + 2)
      else if c = '*' ∧ c2 = '/' then (commentClose r2 (depth - 1)).map (· + 2)
      else (commentClose (c2 :: r2) depth).map (· + 1) := by
  rw [commentClose, if_neg hd]

/-- The loop of a block comment stops right after the `*/` that
`commentClose` finds, or at the end of the input when there is none; it
records no error. -/
theorem skipBlockComment_close (fuel : Nat) :
    ∀ (depth : Nat) (l : Lexer), l.rest.length < fuel →
    ∃ l1, skipBlockComment fuel depth l = some l1 ∧ l1.errors = l.errors ∧
      (∀ n, commentClose l.rest depth = some n → l1.rest = l.rest.drop n) ∧
      (commentClose l.rest depth = none → l1.rest = []) := by
  induction fuel with
  | zero => intro depth l h; omega
  | succ fuel ih =>
    intro depth l h
    rw [skipBlockComment]
    by_cases hd : depth = 0
    · subst hd
      refine ⟨l, by simp, rfl, ?_, ?_⟩
      · intro n hn
        rw [commentClose_zero] at hn
        injection hn with hn
        rw [← hn]
        rfl
      · intro hn
        rw [commentClose_zero] at hn
        cases hn
    have hpos : decide (depth > 0) = true := by simp; omega
    cases hr : l.rest with
    | nil =>
      have hend := Lexer.rest_nil hr
      refine ⟨l, by simp [hend], rfl, ?_, fun _ => hr⟩
      intro n hn
      rw [commentClose_short [] depth hd (by simp)] at hn
      cases hn
    | cons c r =>
      obtain ⟨hna, _, hpk, hnx, hadv⟩ := Lexer.rest_cons hr
      have hlen : r.length < fuel := by rw [hr] at h; simpa using h
      rw [if_pos (by simp only [hna, hpos]; rfl)]
      cases r with
      | nil =>
        have hs : (l.peek == '/' && l.peekNext == '*') = false := by
          rw [hnx]
          exact Bool.and_eq_false_imp.mpr fun _ => by decide
        have hs2 : (l.peek == '*' && l.peekNext == '/') = false := by
          rw [hnx]
          exact Bool.and_eq_false_imp.mpr fun _ => by decide
        rw [if_neg (by rw [hs]; exact Bool.false_ne_true),
          if_neg (by rw [hs2]; exact Bool.false_ne_true)]
        obtain ⟨l1, e1, g1, _, g3⟩ := ih depth l.advance (by rw [hadv]; exact hlen)
        rw [hadv] at g3
        refine ⟨l1, e1, by rw [g1, Lexer.advance_errors], ?_,
          fun _ => g3 (commentClose_short [] depth hd (by simp))⟩
        intro n hn
        rw [commentClose_short [c] depth hd (by simp)] at hn
        cases hn
      | cons c2 r2 =>
        obtain ⟨_, _, _, _, hadv2⟩ := Lexer.rest_cons hadv
        have hlen2 : r2.length < fuel := by simp at hlen; omega
        rw [hpk, hnx, List.headD_cons, commentClose_cons c c2 r2 depth hd]
        by_cases h1 : c = '/' ∧ c2 = '*'
        · rw [if_pos (by simp [h1.1, h1.2]), if_pos h1]
          obtain ⟨l1, e1, g1, g2, g3⟩ := ih (depth + 1) l.advance.advance
            (by rw [hadv2]; exact hlen2)
          rw [hadv2] at g2 g3
          refine ⟨l1, e1, by rw [g1, Lexer.advance_errors, Lexer.advance_errors], ?_, ?_⟩
          · intro n hn
            cases hm : commentClose r2 (depth + 1) with
            | none => rw [hm] at hn; cases hn
            | some m =>
              rw [hm] at hn
              simp only [Option.map_some', Option.some.injEq] at hn
              rw [← hn, g2 m hm]
              rfl
          · intro hn
            cases hm : commentClose r2 (depth + 1) with
            | none => exact g3 hm
            | some m => rw [hm] at hn; cases hn
        · rw [if_neg (by simpa using h1), if_neg h1]
          by_cases h2 : c = '*' ∧ c2 = '/'
          · rw [if_pos (by simp [h2.1, h2.2]), if_pos h2]
            obtain ⟨l1, e1, g1, g2, g3⟩ := ih (depth - 1) l.advance.advance
              (by rw [hadv2]; exact hlen2)
            rw [hadv2] at g2 g3
            refine ⟨l1, e1, by rw [g1, Lexer.advance_errors, Lexer.advance_errors], ?_, ?_⟩
            · intro n hn
              cases hm : commentClose r2 (depth - 1) with
              | none => rw [hm] at hn; cases hn
              | some m =>
                rw [hm] at hn
                simp only [Option.map_some', Option.some.injEq] at hn
                rw [← hn, g2 m hm]
                rfl
            · intro hn
              cases hm : commentClose r2 (depth - 1) with
              | none => exact g3 hm
              | some m => rw [hm] at hn; cases hn
          · rw [if_neg (by simpa using h2), if_neg h2]
            obtain ⟨l1, e1, g1, g2, g3⟩ := ih depth l.advance (by rw [hadv]; exact hlen)
            rw [hadv] at g2 g3
            refine ⟨l1, e1, by rw [g1, Lexer.advance_errors], ?_, ?_⟩
            · intro n hn
              cases hm : commentClose (c2 :: r2) depth with
              | none => rw [hm] at hn; cases hn
              | some m =>
                rw [hm] at hn
                simp only [Option.map_some', Option.some.injEq] at hn
                rw [← hn, g2 m hm]
                rfl
            · intro hn
              cases hm : commentClose (c2 :: r2) depth with
              | none => exact g3 hm
              | some m => rw [hm] at hn; cases hn

/-! ## Lexer: one more byte in front of the input -/

section
variable {c : Char} {first : List LexerError} {l k : Lexer}

theorem Shifted.isAtEnd_eq (s : Shifted c first l k) : l.isAtEnd = k.isAtEnd := by
  simp [Lexer.isAtEnd, s.source, s.pos]

theorem Shifted.cur_eq (s : Shifted c first l k) : l.cur = k.cur := by
  simp [Lexer.cur, s.source, s.pos]

theorem Shifted.peek_eq (s : Shifted c first l k) : l.peek = k.peek := by
  simp [Lexer.peek, s.isAtEnd_eq, s.source, s.pos]

theorem Shifted.peekNext_eq (s : Shifted c first l k) : l.peekNext = k.peekNext := by
  simp [Lexer.peekNext, s.source, s.pos]

theorem Shifted.here_eq (s : Shifted c first l k) : l.here = shiftLoc k.here := by
  simp [Lexer.here, shiftLoc, s.pos, s.line, s.col]

theorem Shifted.step (s : Shifted c first l k) : Shifted c first l.advance k.advance := by
  have hl := s.lineOk
  unfold Lexer.advance
  rw [s.cur_eq]
  by_cases hn : k.cur = '\n'
  · rw [if_pos hn, if_pos hn]
    refine ⟨s.source, by simp [s.pos], by simp [s.line], ?_, by simp, s.errors⟩
    simp only
    rw [if_neg (by omega)]
  · rw [if_neg hn, if_neg hn]
    refine ⟨s.source, by simp [s.pos], s.line, ?_, hl, s.errors⟩
    simp only [s.col]
    split <;> rfl

theorem Shifted.push (s : Shifted c first l k) (m : String) (loc : SourceLocation) :
    Shifted c first (l.pushError m (shiftLoc loc)) (k.pushError m loc) := by
  refine ⟨s.source, s.pos, s.line, s.col, s.lineOk, ?_⟩
  simp [Lexer.pushError, s.errors, shiftError]

end

theorem skipLineComment_shift (c : Char) (first : List LexerError) (fuel : Nat) :
    ∀ (l k k1 : Lexer), Shifted c first l k → skipLineComment fuel k = some k1 →
      ∃ l1, skipLineComment fuel l = some l1 ∧ Shifted c first l1 k1 := by
  induction fuel with
  | zero => intro l k k1 _ h; cases h
  | succ fuel ih =>
    intro l k k1 s h
    rw [skipLineComment] at h ⊢
    rw [s.isAtEnd_eq, s.peek_eq]
    by_cases hc : (!k.isAtEnd && k.peek != '\n') = true
    · rw [if_pos hc] at h ⊢
      exact ih _ _ _ s.step h
    · rw [if_neg hc] at h ⊢
      injection h with h
      subst h
      exact ⟨l, rfl, s⟩

theorem skipBlockComment_shift (c : Char) (first : List LexerError) (fuel : Nat) :
    ∀ (depth : Nat) (l k k1 : Lexer), Shifted c first l k →
      skipBlockComment fuel depth k = some k1 →
      ∃ l1, skipBlockComment fuel depth l = some l1 ∧ Shifted c first l1 k1 := by
  induction fuel with
  | zero => intro depth l k k1 _ h; cases h
  | succ fuel ih =>
    intro depth l k k1 s h
    rw [skipBlockComment] at h ⊢
    rw [s.isAtEnd_eq, s.peek_eq, s.peekNext_eq]
    by_cases hc : (!k.isAtEnd && decide (depth > 0)) = true
    · rw [if_pos hc] at h ⊢
      by_cases h1 : (k.peek == '/' && k.peekNext == '*') = true
      · rw [if_pos h1] at h ⊢
        exact ih _ _ _ _ s.step.step h
      · rw [if_neg h1] at h ⊢
        by_cases h2 : (k.peek == '*' && k.peekNext == '/') = true
        · rw [if_pos h2] at h ⊢
          exact ih _ _ _ _ s.step.step h
        · rw [if_neg h2] at h ⊢
          exact ih _ _ _ _ s.step h
    · rw [if_neg hc] at h ⊢
      injection h with h
      subst h
      exact ⟨l, rfl, s⟩

theorem skipWhitespaceAndComments_shift (c : Char) (first : List LexerError) (fuel : Nat) :
    ∀ (l k k1 : Lexer), Shifted c first l k → skipWhitespaceAndComments fuel k = some k1 →
      ∃ l1, skipWhitespaceAndComments fuel l = some l1 ∧ Shifted c first l1 k1 := by
  induction fuel with
  | zero => intro l k k1 _ h; cases h
  | succ fuel ih =>
    intro l k k1 s h
    rw [skipWhitespaceAndComments] at h ⊢
    rw [s.isAtEnd_eq, s.peek_eq, s.peekNext_eq]
    by_cases h0 : k.isAtEnd = true
    · rw [if_pos h0] at h ⊢
      injection h with h
      subst h
      exact ⟨l, rfl, s⟩
    rw [if_neg h0] at h ⊢
    by_cases h1 : (k.peek == ' ' || k.peek == '\t' || k.peek == '\r' || k.peek == '\n') = true
    · rw [if_pos h1] at h ⊢
      exact ih _ _ _ s.step h
    rw [if_neg h1] at h ⊢
    by_cases h2 : (k.peek == '/' && k.peekNext == '/') = true
    · rw [if_pos h2] at h ⊢
      cases hq : skipLineComment (fuel + 1) k with
      | none => rw [hq] at h; cases h
      | some k2 =>
        rw [hq] at h
        obtain ⟨l2, e2, s2⟩ := skipLineComment_shift c first (fuel + 1) l k k2 s hq
        rw [e2]
        exact ih _ _ _ s2 h
    rw [if_neg h2] at h ⊢
    by_cases h3 : (k.peek == '/' && k.peekNext == '*') = true
    · rw [if_pos h3] at h ⊢
      cases hq : skipBlockComment (fuel + 1) 1 k.advance.advance with
      | none => rw [hq] at h; cases h
      | some k2 =>
        rw [hq] at h
        obtain ⟨l2, e2, s2⟩ := skipBlockComment_shift c first (fuel + 1) 1 _ _ k2 s.step.step hq
        rw [e2]
        exact ih _ _ _ s2 h
    · rw [if_neg h3] at h ⊢
      injection h with h
      subst h
      exact ⟨l, rfl, s⟩

theorem readStringLoop_shift (c : Char) (first : List LexerError) (fuel : Nat) :
    ∀ (val : String) (l k : Lexer) (v : String) (k1 : Lexer), Shifted c first l k →
      readStringLoop fuel val k = some (v, k1) →
      ∃ l1, readStringLoop fuel val l = some (v, l1) ∧ Shifted c first l1 k1 := by
  induction fuel with
  | zero => intro val l k v k1 _ h; cases h
  | succ fuel ih =>
    intro val l k v k1 s h
    rw [readStringLoop] at h ⊢
    rw [s.isAtEnd_eq, s.peek_eq, s.cur_eq, s.step.isAtEnd_eq, s.step.cur_eq]
    by_cases hc : (!k.isAtEnd && k.peek != '"') = true
    · rw [if_pos hc] at h ⊢
      by_cases h1 : (k.peek == '\\') = true
      · rw [if_pos h1] at h ⊢
        by_cases h2 : (!k.advance.isAtEnd) = true
        · rw [if_pos h2] at h ⊢
          exact ih _ _ _ _ _ s.step.step h
        · rw [if_neg h2] at h ⊢
          exact ih _ _ _ _ _ s.step h
      · rw [if_neg h1] at h ⊢
        exact ih _ _ _ _ _ s.step h
    · rw [if_neg hc] at h ⊢
      injection h with h
      injection h with h1 h2
      subst h1 h2
      exact ⟨l, rfl, s⟩

theorem readString_shift (c : Char) (first : List LexerError) (fuel : Nat)
    (l k : Lexer) (t : Token) (k2 : Lexer) (s : Shifted c first l k)
    (h : readString fuel k = some (t, k2)) :
    ∃ l2, readString fuel l = some (shiftToken t, l2) ∧ Shifted c first l2 k2 := by
  unfold readString at h ⊢
  cases hq : readStringLoop fuel "\"" k.advance with
  | none => rw [hq] at h; cases h
  | some r =>
    obtain ⟨v, k1⟩ := r
    rw [hq] at h
    obtain ⟨l1, e1, s1⟩ := readStringLoop_shift c first fuel _ _ _ v k1 s.step hq
    rw [e1]
    simp only at h ⊢
    rw [s1.isAtEnd_eq, s1.cur_eq, s.here_eq]
    by_cases hc : (!k1.isAtEnd) = true
    · rw [if_pos hc] at h ⊢
      injection h with h
      injection h with h1 h2
      subst h1 h2
      exact ⟨_, rfl, s1.step⟩
    · rw [if_neg hc] at h ⊢
      injection h with h
      injection h with h1 h2
      subst h1 h2
      exact ⟨_, rfl, s1.push _ _⟩

theorem readChar_shift (c : Char) (first : List LexerError) (l k : Lexer)
    (s : Shifted c first l k) :
    (readChar l).1 = shiftToken (readChar k).1 ∧ Shifted c first (readChar l).2 (readChar k).2 := by
  unfold readChar
  simp only [s.cur_eq, s.here_eq, s.step.isAtEnd_eq, s.step.peek_eq, s.step.cur_eq]
  by_cases h1 : (!k.advance.isAtEnd && k.advance.peek != '\'') = true
  · simp only [h1, if_true, s.step.step.isAtEnd_eq, s.step.step.peek_eq, s.step.step.cur_eq]
    by_cases h2 : (!k.advance.advance.isAtEnd && k.advance.advance.peek == '\'') = true
    · simp only [h2, if_true]
      exact ⟨rfl, s.step.step.step⟩
    · simp only [h2, if_false]
      exact ⟨rfl, s.step.step.push _ _⟩
  · simp only [Bool.not_eq_true] at h1
    simp only [h1, Bool.false_eq_true, if_false, s.step.isAtEnd_eq, s.step.peek_eq,
      s.step.cur_eq]
    by_cases h2 : (!k.advance.isAtEnd && k.advance.peek == '\'') = true
    · simp only [h2, if_true]
      exact ⟨rfl, s.step.step⟩
    · simp only [h2, if_false]
      exact ⟨rfl, s.step.push _ _⟩

theorem readWhile_shift (c : Char) (first : List LexerError) (p : Char → Bool) (fuel : Nat) :
    ∀ (val : String) (l k : Lexer) (v : String) (k1 : Lexer), Shifted c first l k →
      readWhile p fuel val k = some (v, k1) →
      ∃ l1, readWhile p fuel val l = some (v, l1) ∧ Shifted c first l1 k1 := by
  induction fuel with
  | zero => intro val l k v k1 _ h; cases h
  | succ fuel ih =>
    intro val l k v k1 s h
    rw [readWhile] at h ⊢
    rw [s.isAtEnd_eq, s.peek_eq, s.cur_eq]
    by_cases hc : (!k.isAtEnd && p k.peek) = true
    · rw [if_pos hc] at h ⊢
      exact ih _ _ _ _ _ s.step h
    · rw [if_neg hc] at h ⊢
      injection h with h
      injection h with h1 h2
      subst h1 h2
      exact ⟨l, rfl, s⟩

/-- The three loops of `readNumber` and the loop of `readIdentOrKeyword`, each
followed by the making of the token. -/
theorem readWhile_token_shift (c : Char) (first : List LexerError) (p : Char → Bool)
    (fuel : Nat) (val : String) (l k l0 k0 : Lexer) (type : String → TokenType)
    (t : Token) (k2 : Lexer) (s : Shifted c first l k) (s0 : Shifted c first l0 k0)
    (h : (match readWhile p fuel val k with
      | none => none
      | some (v, k1) => some (makeToken (type v) v k0.here, k1)) = some (t, k2)) :
    ∃ l2, (match readWhile p fuel val l with
      | none => none
      | some (v, l1) => some (makeToken (type v) v l0.here, l1)) = some (shiftToken t, l2) ∧
      Shifted c first l2 k2 := by
  cases hq : readWhile p fuel val k with
  | none => rw [hq] at h; cases h
  | some r =>
    obtain ⟨v, k1⟩ := r
    rw [hq] at h
    obtain ⟨l1, e1, s1⟩ := readWhile_shift c first p fuel val l k v k1 s hq
    rw [e1]
    simp only at h ⊢
    injection h with h
    injection h with h1 h2
    subst h1 h2
    rw [s0.here_eq]
    exact ⟨l1, rfl, s1⟩

theorem readNumber_shift (c : Char) (first : List LexerError) (fuel : Nat)
    (l k : Lexer) (t : Token) (k2 : Lexer) (s : Shifted c first l k)
    (h : readNumber fuel k = some (t, k2)) :
    ∃ l2, readNumber fuel l = some (shiftToken t, l2) ∧ Shifted c first l2 k2 := by
  unfold readNumber at h ⊢
  rw [s.peek_eq, s.peekNext_eq, s.cur_eq, s.step.cur_eq]
  by_cases h1 : (k.peek == '0' && (k.peekNext == 'x' || k.peekNext == 'X')) = true
  · rw [if_pos h1] at h ⊢
    exact readWhile_token_shift c first _ fuel _ _ _ l k (fun _ => .TOK_HEX) t k2
      s.step.step s h
  · rw [if_neg h1] at h ⊢
    by_cases h2 : (k.peek == '0' && (k.peekNext == 'b' || k.peekNext == 'B')) = true
    · rw [if_pos h2] at h ⊢
      exact readWhile_token_shift c first _ fuel _ _ _ l k (fun _ => .TOK_BITS) t k2
        s.step.step s h
    · rw [if_neg h2] at h ⊢
      exact readWhile_token_shift c first _ fuel _ _ _ l k (fun _ => .TOK_DEC) t k2 s s h

theorem scanToken_shift (c : Char) (first : List LexerError) (fuel : Nat)
    (l k : Lexer) (t : Token) (k2 : Lexer) (s : Shifted c first l k)
    (h : scanToken fuel k = some (t, k2)) :
    ∃ l2, scanToken fuel l = some (shiftToken t, l2) ∧ Shifted c first l2 k2 := by
  unfold scanToken at h ⊢
  rw [s.peek_eq, s.peekNext_eq]
  by_cases h1 : (k.peek == '"') = true
  · rw [if_pos h1] at h ⊢
    exact readString_shift c first fuel l k t k2 s h
  rw [if_neg h1] at h ⊢
  by_cases h2 : (k.peek == '\'') = true
  · rw [if_pos h2] at h ⊢
    injection h with h
    obtain ⟨a1, a2⟩ := readChar_shift c first l k s
    rw [h] at a1 a2
    exact ⟨(readChar l).2, by rw [← a1], a2⟩
  rw [if_neg h2] at h ⊢
  by_cases h3 : isdigit k.peek = true
  · rw [if_pos h3] at h ⊢
    exact readNumber_shift c first fuel l k t k2 s h
  rw [if_neg h3] at h ⊢
  by_cases h4 : (isalpha k.peek || k.peek == '_') = true
  · rw [if_pos h4] at h ⊢
    unfold readIdentOrKeyword at h ⊢
    exact readWhile_token_shift c first _ fuel _ _ _ l k keywordType t k2 s s h
  rw [if_neg h4] at h ⊢
  rw [s.here_eq]
  cases h5 : twoCharOperator k.peek k.peekNext with
  | some r =>
    obtain ⟨ty, text⟩ := r
    rw [h5] at h
    injection h with h
    injection h with a1 a2
    subst a1 a2
    exact ⟨_, rfl, s.step.step⟩
  | none =>
    rw [h5] at h
    simp only at h ⊢
    cases h6 : oneCharOperator k.peek with
    | some r =>
      obtain ⟨ty, text⟩ := r
      rw [h6] at h
      injection h with h
      injection h with a1 a2
      subst a1 a2
      exact ⟨_, rfl, s.step⟩
    | none =>
      rw [h6] at h
      injection h with h
      injection h with a1 a2
      subst a1 a2
      exact ⟨_, rfl, s.step.push _ _⟩

/-- The loop of `tokenize` on the longer input appends the shifted tokens that
the loop on the shorter input appends. -/
theorem tokenizeLoop_shift (c : Char) (first : List LexerError) (fuel : Nat) :
    ∀ (acc acc0 toks0 : List Token) (l k k3 : Lexer), Shifted c first l k →
      tokenizeLoop fuel acc0 k = some (toks0, k3) →
      ∃ tail l3, toks0 = acc0 ++ tail ∧
        tokenizeLoop fuel acc l = some (acc ++ tail.map shiftToken, l3) ∧
        Shifted c first l3 k3 := by
  induction fuel with
  | zero => intro acc acc0 toks0 l k k3 _ h; cases h
  | succ fuel ih =>
    intro acc acc0 toks0 l k k3 s h
    rw [tokenizeLoop] at h ⊢
    cases hq : skipWhitespaceAndComments (fuel + 1) k with
    | none => rw [hq] at h; cases h
    | some k1 =>
      rw [hq] at h
      obtain ⟨l1, e1, s1⟩ := skipWhitespaceAndComments_shift c first (fuel + 1) l k k1 s hq
      rw [e1]
      simp only at h ⊢
      rw [s1.isAtEnd_eq, s1.here_eq]
      by_cases hend : k1.isAtEnd = true
      · rw [if_pos hend] at h ⊢
        injection h with h
        injection h with a1 a2
        subst a1 a2
        exact ⟨_, l1, rfl, rfl, s1⟩
      · rw [if_neg hend] at h ⊢
        cases hs : scanToken (fuel + 1) k1 with
        | none => rw [hs] at h; cases h
        | some r =>
          obtain ⟨t, k2⟩ := r
          rw [hs] at h
          obtain ⟨l2, e2, s2⟩ := scanToken_shift c first (fuel + 1) l1 k1 t k2 s1 hs
          rw [e2]
          simp only at h ⊢
          obtain ⟨tail, l3, a1, a2, a3⟩ := ih (acc ++ [shiftToken t]) (acc0 ++ [t]) toks0
            l2 k2 k3 s2 h
          refine ⟨t :: tail, l3, by rw [a1, List.append_assoc]; rfl, ?_, a3⟩
          rw [a2, List.append_assoc]
          rfl

theorem oneCharOperator_none {c : Char} (h : c ∉ operatorChars) : oneCharOperator c = none := by
  cases ho : oneCharOperator c with
  | none => rfl
  | some r =>
    obtain ⟨ty, text⟩ := r
    exfalso
    apply h
    unfold oneCharOperator at ho
    iterate 21
      refine if_some_step (fun _ => c ∈ operatorChars) ho (fun hc => ?_) (fun ho => ?_)
      · simp only [beq_iff_eq] at hc
        rw [hc]
        decide
    cases ho

theorem twoCharOperator_none {c : Char} {rest : List Char}
    (h : ∀ e ∈ twoCharOperators, ¬(c = e.1 ∧ rest.head? = some e.2.1)) :
    twoCharOperator c (rest.headD NUL) = none := by
  cases ho : twoCharOperator c (rest.headD NUL) with
  | none => rfl
  | some r =>
    obtain ⟨ty, text⟩ := r
    exfalso
    have hm := (twoCharOperator_mem ho).1
    have hn := (twoCharOperator_of_mem _ hm).2.2.2.2.2.2.2.2
    refine h _ hm ⟨rfl, ?_⟩
    cases rest with
    | nil => exact absurd rfl hn
    | cons a r => rfl

/-- The first iteration of the loop of `tokenize` at a byte that starts no
token: one error token, one error, and the lexer one byte further. -/
theorem tokenizeLoop_unexpected (c : Char) (rest : List Char) (fuel : Nat)
    (hw : c ≠ ' ' ∧ c ≠ '\t' ∧ c ≠ '\r' ∧ c ≠ '\n') (hq : c ≠ '"' ∧ c ≠ '\'')
    (hd : isdigit c = false) (ha : (isalpha c || c == '_') = false)
    (ho : c ∉ operatorChars)
    (htwo : ∀ e ∈ twoCharOperators, ¬(c = e.1 ∧ rest.head? = some e.2.1)) :
    tokenizeLoop (fuel + 1) [] (Lexer.init (c :: rest)) =
      tokenizeLoop fuel [⟨.TOK_ERROR, String.singleton c, ⟨1, 1, 0⟩⟩]
        ((Lexer.init (c :: rest)).advance.pushError
          ("Unexpected character: " ++ String.singleton c) ⟨1, 1, 0⟩) := by
  have hr : (Lexer.init (c :: rest)).rest = c :: rest := rfl
  obtain ⟨hna, _, hpk, hnx, _⟩ := Lexer.rest_cons hr
  have hslash : c ≠ '/' := fun e => ho (by rw [e]; decide)
  have hskip : skipWhitespaceAndComments (fuel + 1) (Lexer.init (c :: rest)) =
      some (Lexer.init (c :: rest)) := by
    rw [skipWhitespaceAndComments]
    simp [hna, hpk, hw.1, hw.2.1, hw.2.2.1, hw.2.2.2, hslash]
  have hscan : scanToken (fuel + 1) (Lexer.init (c :: rest)) =
      some (⟨.TOK_ERROR, String.singleton c, ⟨1, 1, 0⟩⟩,
        (Lexer.init (c :: rest)).advance.pushError
          ("Unexpected character: " ++ String.singleton c) ⟨1, 1, 0⟩) := by
    unfold scanToken
    rw [hpk, hnx, twoCharOperator_none htwo, oneCharOperator_none ho]
    simp only [beq_iff_eq, hq.1, hq.2, hd, ha, if_false, Bool.false_eq_true]
    rfl
  rw [tokenizeLoop, hskip]
  simp only
  rw [if_neg (by rw [hna]; exact Bool.false_ne_true), hscan]
  rfl

theorem shifted_after_unexpected (c : Char) (rest : List Char) (m : String)
    (loc : SourceLocation) (hn : c ≠ '\n') :
    Shifted c [⟨m, loc⟩] ((Lexer.init (c :: rest)).advance.pushError m loc)
      (Lexer.init rest) := by
  have hcur : (Lexer.init (c :: rest)).cur = c := rfl
  unfold Lexer.advance
  rw [hcur, if_neg hn]
  exact ⟨rfl, rfl, rfl, rfl, Nat.le_refl _, rfl⟩

/-! ## Parser: positions -/

theorem tokenAt_pos (toks : List Token) (p : Parser) : tokenAt toks p.pos = current toks p := rfl

theorem EofTerminated.endsWithEof {toks : List Token} (h : EofTerminated toks) :
    EndsWithEof toks := by
  obtain ⟨body, eof, h1, h2, _⟩ := h
  exact ⟨body, eof, h1, h2⟩

/-- In a sequence that ends with EOF, a token that is not EOF is not the last. -/
theorem EndsWithEof.not_last {toks : List Token} (h : EndsWithEof toks) {p : Parser}
    (hp : p.pos < toks.length) (hne : (current toks p).type ≠ .TOK_EOF) :
    p.pos + 1 < toks.length := by
  obtain ⟨body, eof, rfl, he⟩ := h
  by_contra hc
  apply hne
  have hpos : p.pos = body.length := by
    simp only [List.length_append, List.length_singleton] at hp hc
    omega
  simp [current, hpos, he]

/-- In a sequence with EOF as its last token only, the current token is EOF
exactly at the last position. -/
theorem EofTerminated.eof_iff_last {toks : List Token} (h : EofTerminated toks) {p : Parser}
    (hp : p.pos < toks.length) :
    (current toks p).type = .TOK_EOF ↔ p.pos + 1 = toks.length := by
  obtain ⟨body, eof, rfl, he, hb⟩ := h
  simp only [List.length_append, List.length_singleton] at hp ⊢
  constructor
  · intro hc
    by_contra hne
    have hlt : p.pos < body.length := by omega
    have : current (body ++ [eof]) p = body[p.pos] := by
      simp [current, List.getD_eq_getElem?_getD, List.getElem?_append_left hlt,
        List.getElem?_eq_getElem hlt]
    rw [this] at hc
    exact hb _ (List.getElem_mem _) hc
  · intro hc
    have hpos : p.pos = body.length := by omega
    simp [current, hpos, he]

theorem advance_moves {toks : List Token} {p : Parser} (h : p.pos + 1 < toks.length) :
    advance toks p = { pos := p.pos + 1, errors := p.errors } := by
  simp [advance, h]

theorem advance_stays {toks : List Token} {p : Parser} (h : ¬p.pos + 1 < toks.length) :
    advance toks p = p := by
  simp [advance, h]

/-- The loop of `synchronize` on a sequence that ends with EOF: it returns,
records nothing, and stops after the first `;` or at the first other stop
token. -/
theorem synchronize_spec (toks : List Token) (hend : EndsWithEof toks) (fuel : Nat) :
    ∀ p : Parser, p.pos < toks.length → toks.length - p.pos ≤ fuel →
    ∃ j, p.pos ≤ j ∧ j < toks.length ∧ isSyncStop (tokenAt toks j).type = true ∧
      (∀ i, p.pos ≤ i → i < j → isSyncStop (tokenAt toks i).type = false) ∧
      synchronize toks fuel p =
        some { pos := if (tokenAt toks j).type = .TOK_SEMICOLON then j + 1 else j,
               errors := p.errors } := by
  induction fuel with
  | zero => intro p hp hf; omega
  | succ fuel ih =>
    intro p hp hf
    rw [synchronize]
    by_cases h0 : (current toks p).type = .TOK_EOF
    · refine ⟨p.pos, Nat.le_refl _, hp, by simp [isSyncStop, tokenAt_pos, h0],
        fun i h1 h2 => by omega, ?_⟩
      simp [isAtEnd, tokenAt_pos, h0]
    have hmove := advance_moves (hend.not_last hp h0)
    have hna : isAtEnd toks p = false := by simp [isAtEnd, h0]
    rw [hna]
    simp only [Bool.not_false, if_true]
    by_cases h1 : (current toks p).type = .TOK_SEMICOLON
    · refine ⟨p.pos, Nat.le_refl _, hp, by simp [isSyncStop, tokenAt_pos, h1],
        fun i h1 h2 => by omega, ?_⟩
      simp [check, tokenAt_pos, h1, hmove]
    have hns : check toks p .TOK_SEMICOLON = false := by simp [check, h1]
    rw [hns]
    simp only [Bool.false_eq_true, if_false]
    by_cases h2 : (check toks p .TOK_DEF || check toks p .TOK_IF ||
        check toks p .TOK_WHILE || check toks p .TOK_UNTIL ||
        check toks p .TOK_BREAK || check toks p .TOK_END ||
        check toks p .TOK_BEGIN || check toks p .TOK_LBRACE) = true
    · rw [if_pos h2]
      refine ⟨p.pos, Nat.le_refl _, hp, ?_, fun i h1 h2 => by omega, ?_⟩
      · simp only [check] at h2
        simp only [isSyncStop, tokenAt_pos, Bool.or_eq_true]
        exact Or.inr (by simpa using h2)
      · rw [tokenAt_pos, if_neg h1]
    · rw [if_neg h2]
      have hstop : isSyncStop (current toks p).type = false := by
        simp only [check, Bool.not_eq_true] at h2
        simp only [isSyncStop, Bool.or_eq_false_iff]
        exact ⟨⟨by simpa using h0, by simpa using h1⟩, by simpa using h2⟩
      obtain ⟨j, a1, a2, a3, a4, a5⟩ := ih (advance toks p) (by rw [hmove]; exact hend.not_last hp h0)
        (by rw [hmove]; simp only; omega)
      rw [hmove] at a1 a4 a5
      simp only at a1 a4 a5
      refine ⟨j, by omega, a2, a3, ?_, by rw [hmove]; exact a5⟩
      intro i hi hj
      by_cases hip : i = p.pos
      · rw [hip, tokenAt_pos]
        exact hstop
      · exact a4 i (by omega) hj

theorem parseExprPrimary_sentinel (toks : List Token) (fuel : Nat) (p : Parser)
    (h : startsPrimary (current toks p).type = false) :
    parseExprPrimary toks (fuel + 1) p =
      some (some (.mk .EXPR_LITERAL (current toks p).loc "<error>" []),
        advance toks { pos := p.pos, errors := p.errors ++
          [⟨"expected expression, got '" ++ (current toks p).text ++ "'",
            (current toks p).loc⟩] }) := by
  simp only [startsPrimary, Bool.or_eq_false_iff] at h
  obtain ⟨⟨h1, h2⟩, h3⟩ := h
  rw [parseExprPrimary]
  simp only [check, h1, h2, h3, Bool.false_eq_true, if_false]
  rfl

theorem parseTypeRef_sentinel (toks : List Token) (fuel : Nat) (p : Parser)
    (h : startsType (current toks p).type = false) :
    parseTypeRef toks fuel p =
      some (some (.mk .TYPE_BUILTIN (current toks p).loc "<error>" []),
        { pos := p.pos, errors := p.errors ++
          [⟨"expected type name", (current toks p).loc⟩] }) := by
  simp only [startsType, Bool.or_eq_false_iff] at h
  unfold parseTypeRef
  simp only [check, h.1, h.2, Bool.false_eq_true, if_false]
  rfl

theorem advance_keeps_errors (toks : List Token) (p : Parser) : (advance toks p).errors = p.errors := by
  unfold advance
  split <;> rfl

theorem advance_pos_le (toks : List Token) (p : Parser) : p.pos ≤ (advance toks p).pos := by
  unfold advance
  split
  · exact Nat.le_succ _
  · exact Nat.le_refl _

theorem current_append (pre rest : List Token) (k : Nat) (errs : List ParseError) :
    current (pre ++ rest) { pos := pre.length + k, errors := errs } =
      current rest { pos := k, errors := errs } := by
  simp [current, List.getD_eq_getElem?_getD, List.getElem?_append_right]

theorem advance_append (pre rest : List Token) (k : Nat) (errs : List ParseError)
    (h : k + 1 < rest.length) :
    advance (pre ++ rest) { pos := pre.length + k, errors := errs } =
      { pos := pre.length + (k + 1), errors := errs } := by
  have : pre.length + k + 1 < (pre ++ rest).length := by
    rw [List.length_append]; omega
  simp [advance, Nat.add_assoc, h]

/-- The suffix loop of `parseTypeRef` on the tokens of `n` well-formed
suffixes followed by a token that is not `array`. -/
theorem parseTypeRefLoop_suffixes (loc : SourceLocation) (next : Token) (post : List Token)
    (hnext : next.type ≠ .TOK_ARRAY) (errs : List ParseError) :
    ∀ (ss : List ArraySuffix) (pre : List Token) (base : ASTNode) (fuel : Nat),
      (∀ s ∈ ss, s.ok) → ss.length < fuel →
      parseTypeRefLoop (pre ++ (suffixTokens ss ++ next :: post)) fuel loc (some base)
          { pos := pre.length, errors := errs } =
        some (some (arrayNest loc base ss),
          { pos := pre.length + 4 * ss.length, errors := errs }) := by
  intro ss
  induction ss with
  | nil =>
    intro pre base fuel _ hf
    obtain ⟨k, rfl⟩ : ∃ k, fuel = k + 1 := ⟨fuel - 1, by omega⟩
    have h0 := current_append pre (next :: post) 0 errs
    rw [parseTypeRefLoop]
    simp only [suffixTokens, List.nil_append, check]
    rw [show ({ pos := pre.length, errors := errs } : Parser) =
      { pos := pre.length + 0, errors := errs } from rfl, h0]
    have : (current (next :: post) { pos := 0, errors := errs }).type = next.type := rfl
    rw [this]
    simp [hnext, arrayNest]
  | cons s ss ih =>
    intro pre base fuel hok hf
    obtain ⟨k, rfl⟩ : ∃ k, fuel = k + 1 := ⟨fuel - 1, by simp at hf; omega⟩
    obtain ⟨o1, o2, o3, o4⟩ := hok s (List.mem_cons_self _ _)
    obtain ⟨x, tail, hx⟩ : ∃ x tail, suffixTokens ss ++ next :: post = x :: tail := by
      cases h : suffixTokens ss ++ next :: post with
      | nil => simp at h
      | cons x tail => exact ⟨x, tail, rfl⟩
    have hall : pre ++ (suffixTokens (s :: ss) ++ next :: post) =
        pre ++ (s.array :: s.lbracket :: s.dim :: s.rbracket :: x :: tail) := by
      simp [suffixTokens, ArraySuffix.tokens, hx]
    have c0 := current_append pre (s.array :: s.lbracket :: s.dim :: s.rbracket :: x :: tail) 0 errs
    have c1 := current_append pre (s.array :: s.lbracket :: s.dim :: s.rbracket :: x :: tail) 1 errs
    have c2 := current_append pre (s.array :: s.lbracket :: s.dim :: s.rbracket :: x :: tail) 2 errs
    have c3 := current_append pre (s.array :: s.lbracket :: s.dim :: s.rbracket :: x :: tail) 3 errs
    have a0 := advance_append pre (s.array :: s.lbracket :: s.dim :: s.rbracket :: x :: tail) 0 errs
      (by simp)
    have a1 := advance_append pre (s.array :: s.lbracket :: s.dim :: s.rbracket :: x :: tail) 1 errs
      (by simp)
    have a2 := advance_append pre (s.array :: s.lbracket :: s.dim :: s.rbracket :: x :: tail) 2 errs
      (by simp)
    have a3 := advance_append pre (s.array :: s.lbracket :: s.dim :: s.rbracket :: x :: tail) 3 errs
      (by simp)
    have d0 : current (s.array :: s.lbracket :: s.dim :: s.rbracket :: x :: tail)
        { pos := 0, errors := errs } = s.array := rfl
    have d1 : current (s.array :: s.lbracket :: s.dim :: s.rbracket :: x :: tail)
        { pos := 1, errors := errs } = s.lbracket := rfl
    have d2 : current (s.array :: s.lbracket :: s.dim :: s.rbracket :: x :: tail)
        { pos := 2, errors := errs } = s.dim := rfl
    have d3 : current (s.array :: s.lbracket :: s.dim :: s.rbracket :: x :: tail)
        { pos := 3, errors := errs } = s.rbracket := rfl
    rw [d0] at c0
    rw [d1] at c1
    rw [d2] at c2
    rw [d3] at c3
    have hih := ih (pre ++ [s.array, s.lbracket, s.dim, s.rbracket])
      (.mk .TYPE_ARRAY loc s.dim.text [some base]) k
      (fun t ht => hok t (List.mem_cons_of_mem _ ht)) (by simp at hf; omega)
    have hpre : (pre ++ [s.array, s.lbracket, s.dim, s.rbracket]) ++
        (suffixTokens ss ++ next :: post) =
        pre ++ (s.array :: s.lbracket :: s.dim :: s.rbracket :: x :: tail) := by
      simp [hx]
    rw [hpre] at hih
    rw [hall, parseTypeRefLoop]
    have hlen : (pre ++ [s.array, s.lbracket, s.dim, s.rbracket]).length = pre.length + 4 := by
      simp
    rw [hlen] at hih
    simp only [Nat.add_zero, Nat.zero_add, Nat.reduceAdd] at c0 a0 a1 a2 a3
    simp only [check, expect, c0, o1, beq_self_eq_true, if_true, a0, c1, o2, a1, c2, o3, a2, c3,
      o4, a3]
    rw [show (makeNode .TYPE_ARRAY loc s.dim.text).addChild (some base) =
      .mk .TYPE_ARRAY loc s.dim.text [some base] from rfl, hih]
    simp only [arrayNest, List.length_cons]
    refine congrArg some (Prod.ext rfl ?_)
    simp only [Parser.mk.injEq, and_true]
    omega

theorem arrayNest_snoc (loc : SourceLocation) (s : ArraySuffix) :
    ∀ (ss : List ArraySuffix) (base : ASTNode),
      arrayNest loc base (ss ++ [s]) =
        .mk .TYPE_ARRAY loc s.dim.text [some (arrayNest loc base ss)] := by
  intro ss
  induction ss with
  | nil => intro base; rfl
  | cons a ss ih =>
    intro base
    simp only [List.cons_append, arrayNest]
    exact ih _

theorem parseTypeRef_suffixes (pre : List Token) (T : Token) (ss : List ArraySuffix)
    (next : Token) (post : List Token) (errs : List ParseError) (fuel : Nat)
    (hT : startsType T.type = true) (hok : ∀ s ∈ ss, s.ok) (hnext : next.type ≠ .TOK_ARRAY)
    (hf : ss.length < fuel) :
    parseTypeRef (pre ++ T :: (suffixTokens ss ++ next :: post)) fuel
        { pos := pre.length, errors := errs } =
      some (some (arrayNest T.loc (baseTypeNode T) ss),
        { pos := pre.length + 1 + 4 * ss.length, errors := errs }) := by
  have hloop := parseTypeRefLoop_suffixes T.loc next post hnext errs ss (pre ++ [T])
    (baseTypeNode T) fuel hok hf
  have hpre : (pre ++ [T]) ++ (suffixTokens ss ++ next :: post) =
      pre ++ T :: (suffixTokens ss ++ next :: post) := by simp
  have hlen : (pre ++ [T]).length = pre.length + 1 := by simp
  rw [hpre, hlen] at hloop
  obtain ⟨x, tail, hx⟩ : ∃ x tail, suffixTokens ss ++ next :: post = x :: tail := by
    cases h : suffixTokens ss ++ next :: post with
    | nil => simp at h
    | cons x tail => exact ⟨x, tail, rfl⟩
  have c0 : current (pre ++ T :: (suffixTokens ss ++ next :: post))
      { pos := pre.length, errors := errs } = T :=
    current_append pre (T :: (suffixTokens ss ++ next :: post)) 0 errs
  have a0 : advance (pre ++ T :: (suffixTokens ss ++ next :: post))
      { pos := pre.length, errors := errs } = { pos := pre.length + 1, errors := errs } :=
    advance_append pre (T :: (suffixTokens ss ++ next :: post)) 0 errs (by rw [hx]; simp)
  unfold parseTypeRef
  simp only [c0, a0, check]
  by_cases hb : isBuiltinType T.type = true
  · rw [if_pos hb]
    have : baseTypeNode T = makeNode .TYPE_BUILTIN T.loc T.text := by
      simp [baseTypeNode, hb, makeNode]
    rw [← this, hloop]
  · rw [if_neg hb]
    have hid : (T.type == .TOK_IDENT) = true := by
      simp only [startsType, Bool.or_eq_true] at hT
      rcases hT with h | h
      · exact absurd h hb
      · exact h
    rw [if_pos hid]
    have : baseTypeNode T = makeNode .TYPE_CUSTOM T.loc T.text := by
      simp [baseTypeNode, hb, makeNode]
    rw [← this, hloop]

/-! ## Lexer: locations and errors -/

theorem Lexer.Moves.chain {a b c : Lexer} (h1 : a.Moves b) (h2 : b.Moves c) : a.Moves c := by
  induction h1 with
  | refl l => exact h2
  | step l l1 hna _ ih => exact Lexer.Moves.step l c hna (ih h2)

theorem Lexer.Moves.one {l : Lexer} (h : l.isAtEnd = false) : l.Moves l.advance :=
  Lexer.Moves.step l _ h (Lexer.Moves.refl _)

theorem Lexer.Moves.two {l : Lexer} (h : l.isAtEnd = false) (h2 : l.advance.isAtEnd = false) :
    l.Moves l.advance.advance :=
  Lexer.Moves.step l _ h (Lexer.Moves.one h2)

theorem Lexer.next_inside {l : Lexer} {c : Char} (h : (l.peekNext == c) = true)
    (hc : c ≠ NUL) : l.advance.isAtEnd = false := by
  have hb : l.pos + 1 < l.source.length :=
    Lexer.peekNext_bound (by rw [beq_iff_eq] at h; rw [h]; exact hc)
  exact Lexer.not_isAtEnd.mpr (by simp only [Lexer.advance_pos, Lexer.advance_source]; exact hb)

theorem Lexer.located_advance {l : Lexer} (h : l.Located) (hna : l.isAtEnd = false) :
    l.advance.Located := by
  have hlt := Lexer.not_isAtEnd.mp hna
  have hget : l.source[l.pos]? = some l.cur := by
    simp [Lexer.cur, List.getD_eq_getElem?_getD, List.getElem?_eq_getElem hlt]
  have htake : l.source.take (l.pos + 1) = l.source.take l.pos ++ [l.cur] := by
    rw [List.take_succ, hget]
    rfl
  simp only [Lexer.Located, Lexer.here, locationOf, lineOf, columnOf,
    SourceLocation.mk.injEq] at h ⊢
  obtain ⟨h1, h2, _⟩ := h
  unfold Lexer.advance
  by_cases hn : l.cur = '\n'
  · rw [if_pos hn]
    simp only [htake, hn, h1]
    simp [List.count_append]
    omega
  · rw [if_neg hn]
    simp only [htake, h1, h2]
    simp [List.count_append, hn, List.takeWhile_cons]
    constructor
    · rw [List.count_singleton]
      simp only [beq_iff_eq]
      rw [if_neg hn]
    · omega

theorem Lexer.Moves.facts {l l1 : Lexer} (h : l.Moves l1) :
    l1.source = l.source ∧ l1.errors = l.errors ∧ (l.Located → l1.Located) := by
  induction h with
  | refl l => exact ⟨rfl, rfl, id⟩
  | step l l1 hna _ ih =>
    obtain ⟨a1, a2, a3⟩ := ih
    exact ⟨by rw [a1, Lexer.advance_source], by rw [a2, Lexer.advance_errors],
      fun hl => a3 (Lexer.located_advance hl hna)⟩

theorem skipLineComment_moves (fuel : Nat) :
    ∀ (l l1 : Lexer), skipLineComment fuel l = some l1 → l.Moves l1 := by
  induction fuel with
  | zero => intro l l1 h; cases h
  | succ fuel ih =>
    intro l l1 h
    rw [skipLineComment] at h
    by_cases hc : (!l.isAtEnd && l.peek != '\n') = true
    · rw [if_pos hc] at h
      have hna : l.isAtEnd = false := by
        simp only [Bool.and_eq_true, Bool.not_eq_true'] at hc
        exact hc.1
      exact Lexer.Moves.step l l1 hna (ih _ _ h)
    · rw [if_neg hc] at h
      injection h with h
      rw [← h]
      exact Lexer.Moves.refl l

theorem skipBlockComment_moves (fuel : Nat) :
    ∀ (depth : Nat) (l l1 : Lexer), skipBlockComment fuel depth l = some l1 → l.Moves l1 := by
  induction fuel with
  | zero => intro depth l l1 h; cases h
  | succ fuel ih =>
    intro depth l l1 h
    rw [skipBlockComment] at h
    by_cases hc : (!l.isAtEnd && decide (depth > 0)) = true
    · rw [if_pos hc] at h
      have hna : l.isAtEnd = false := by
        simp only [Bool.and_eq_true, Bool.not_eq_true'] at hc
        exact hc.1
      by_cases h1 : (l.peek == '/' && l.peekNext == '*') = true
      · rw [if_pos h1] at h
        simp only [Bool.and_eq_true] at h1
        exact (Lexer.Moves.two hna (Lexer.next_inside h1.2 (by decide))).chain (ih _ _ _ h)
      · rw [if_neg h1] at h
        by_cases h2 : (l.peek == '*' && l.peekNext == '/') = true
        · rw [if_pos h2] at h
          simp only [Bool.and_eq_true] at h2
          exact (Lexer.Moves.two hna (Lexer.next_inside h2.2 (by decide))).chain (ih _ _ _ h)
        · rw [if_neg h2] at h
          exact Lexer.Moves.step l l1 hna (ih _ _ _ h)
    · rw [if_neg hc] at h
      injection h with h
      rw [← h]
      exact Lexer.Moves.refl l

theorem skipWhitespaceAndComments_moves (fuel : Nat) :
    ∀ (l l1 : Lexer), skipWhitespaceAndComments fuel l = some l1 → l.Moves l1 := by
  induction fuel with
  | zero => intro l l1 h; cases h
  | succ fuel ih =>
    intro l l1 h
    rw [skipWhitespaceAndComments] at h
    by_cases h0 : l.isAtEnd = true
    · rw [if_pos h0] at h
      injection h with h
      rw [← h]
      exact Lexer.Moves.refl l
    rw [if_neg h0] at h
    have hna : l.isAtEnd = false := by simpa using h0
    by_cases h1 : (l.peek == ' ' || l.peek == '\t' || l.peek == '\r' || l.peek == '\n') = true
    · rw [if_pos h1] at h
      exact Lexer.Moves.step l l1 hna (ih _ _ h)
    rw [if_neg h1] at h
    by_cases h2 : (l.peek == '/' && l.peekNext == '/') = true
    · rw [if_pos h2] at h
      cases hq : skipLineComment (fuel + 1) l with
      | none => rw [hq] at h; cases h
      | some k =>
        rw [hq] at h
        exact (skipLineComment_moves _ _ _ hq).chain (ih _ _ h)
    rw [if_neg h2] at h
    by_cases h3 : (l.peek == '/' && l.peekNext == '*') = true
    · rw [if_pos h3] at h
      simp only [Bool.and_eq_true] at h3
      cases hq : skipBlockComment (fuel + 1) 1 l.advance.advance with
      | none => rw [hq] at h; cases h
      | some k =>
        rw [hq] at h
        exact ((Lexer.Moves.two hna (Lexer.next_inside h3.2 (by decide))).chain
          (skipBlockComment_moves _ _ _ _ hq)).chain (ih _ _ h)
    · rw [if_neg h3] at h
      injection h with h
      rw [← h]
      exact Lexer.Moves.refl l

theorem readStringLoop_moves (fuel : Nat) :
    ∀ (val : String) (l : Lexer) (v : String) (l1 : Lexer),
      readStringLoop fuel val l = some (v, l1) → l.Moves l1 := by
  induction fuel with
  | zero => intro val l v l1 h; cases h
  | succ fuel ih =>
    intro val l v l1 h
    rw [readStringLoop] at h
    by_cases hc : (!l.isAtEnd && l.peek != '"') = true
    · rw [if_pos hc] at h
      have hna : l.isAtEnd = false := by
        simp only [Bool.and_eq_true, Bool.not_eq_true'] at hc
        exact hc.1
      by_cases h1 : (l.peek == '\\') = true
      · rw [if_pos h1] at h
        by_cases h2 : (!l.advance.isAtEnd) = true
        · rw [if_pos h2] at h
          exact (Lexer.Moves.two hna (by simpa using h2)).chain (ih _ _ _ _ h)
        · rw [if_neg h2] at h
          exact Lexer.Moves.step l l1 hna (ih _ _ _ _ h)
      · rw [if_neg h1] at h
        exact Lexer.Moves.step l l1 hna (ih _ _ _ _ h)
    · rw [if_neg hc] at h
      injection h with h
      injection h with h1 h2
      rw [← h2]
      exact Lexer.Moves.refl l

theorem readWhile_moves (p : Char → Bool) (fuel : Nat) :
    ∀ (val : String) (l : Lexer) (v : String) (l1 : Lexer),
      readWhile p fuel val l = some (v, l1) → l.Moves l1 := by
  induction fuel with
  | zero => intro val l v l1 h; cases h
  | succ fuel ih =>
    intro val l v l1 h
    rw [readWhile] at h
    by_cases hc : (!l.isAtEnd && p l.peek) = true
    · rw [if_pos hc] at h
      have hna : l.isAtEnd = false := by
        simp only [Bool.and_eq_true, Bool.not_eq_true'] at hc
        exact hc.1
      exact Lexer.Moves.step l l1 hna (ih _ _ _ _ h)
    · rw [if_neg hc] at h
      injection h with h
      injection h with h1 h2
      rw [← h2]
      exact Lexer.Moves.refl l

theorem keywordType_not_error (w : String) : keywordType w ≠ .TOK_ERROR := by
  rcases keywordType_mem w with h | h
  · rw [h]
    decide
  · have key : ∀ e ∈ keywords, e.2 ≠ TokenType.TOK_ERROR := by decide
    exact key _ h

theorem twoCharOperator_not_error {c n : Char} {ty : TokenType} {text : String}
    (h : twoCharOperator c n = some (ty, text)) : ty ≠ .TOK_ERROR := by
  have key : ∀ e ∈ twoCharOperators, e.2.2 ≠ TokenType.TOK_ERROR := by decide
  exact key _ (twoCharOperator_mem h).1

theorem oneCharOperator_not_error {c : Char} {ty : TokenType} {text : String}
    (h : oneCharOperator c = some (ty, text)) : ty ≠ .TOK_ERROR := by
  intro e
  have := oneCharOperator_kind h
  rw [e] at this
  exact absurd this (by decide)

/-- A loop `readWhile` followed by the making of a token that is not an error
token. -/
theorem readWhile_token_step (p : Char → Bool) (fuel : Nat) (val : String) (l l0 lm : Lexer)
    (type : String → TokenType) (t : Token) (l2 : Lexer) (hm : l0.Moves l)
    (hty : ∀ v, type v ≠ .TOK_ERROR)
    (h : (match readWhile p fuel val l with
      | none => none
      | some (v, l1) => some (makeToken (type v) v lm.here, l1)) = some (t, l2)) :
    t.loc = lm.here ∧ ∃ k, l0.Moves k ∧ t.type ≠ .TOK_ERROR ∧ l2 = k := by
  cases hq : readWhile p fuel val l with
  | none => rw [hq] at h; cases h
  | some r =>
    obtain ⟨v, l1⟩ := r
    rw [hq] at h
    simp only at h
    injection h with h
    injection h with h1 h2
    subst h1 h2
    exact ⟨rfl, l1, hm.chain (readWhile_moves p fuel val l v l1 hq), hty v, rfl⟩

/-- One call of `scanToken` inside the input: the token is located where the
lexer stood; the lexer advances, and records exactly one error, at that
location, when the token is an error token and none otherwise. -/
theorem scanToken_step (fuel : Nat) (l : Lexer) (t : Token) (l2 : Lexer)
    (hna : l.isAtEnd = false) (h : scanToken fuel l = some (t, l2)) :
    t.loc = l.here ∧ ∃ lm, l.Moves lm ∧
      ((t.type ≠ .TOK_ERROR ∧ l2 = lm) ∨
       (t.type = .TOK_ERROR ∧ ∃ m, l2 = lm.pushError m l.here)) := by
  unfold scanToken at h
  by_cases h1 : (l.peek == '"') = true
  · rw [if_pos h1] at h
    unfold readString at h
    cases hq : readStringLoop fuel "\"" l.advance with
    | none => rw [hq] at h; cases h
    | some r =>
      obtain ⟨v, l1⟩ := r
      rw [hq] at h
      simp only at h
      have hm : l.Moves l1 := Lexer.Moves.step l l1 hna (readStringLoop_moves _ _ _ _ _ hq)
      by_cases hc : (!l1.isAtEnd) = true
      · rw [if_pos hc] at h
        injection h with h
        injection h with a1 a2
        subst a1 a2
        exact ⟨rfl, l1.advance, hm.chain (Lexer.Moves.one (by simpa using hc)),
          Or.inl ⟨by simp [makeToken], rfl⟩⟩
      · rw [if_neg hc] at h
        injection h with h
        injection h with a1 a2
        subst a1 a2
        exact ⟨rfl, l1, hm, Or.inr ⟨rfl, _, rfl⟩⟩
  rw [if_neg h1] at h
  by_cases h2 : (l.peek == '\'') = true
  · rw [if_pos h2] at h
    injection h with h
    unfold readChar at h
    simp only at h
    by_cases c1 : (!l.advance.isAtEnd && l.advance.peek != '\'') = true
    · simp only [c1, if_true] at h
      have n1 : l.advance.isAtEnd = false := by
        simp only [Bool.and_eq_true, Bool.not_eq_true'] at c1
        exact c1.1
      by_cases c2 : (!l.advance.advance.isAtEnd && l.advance.advance.peek == '\'') = true
      · simp only [c2, if_true] at h
        have n2 : l.advance.advance.isAtEnd = false := by
          simp only [Bool.and_eq_true, Bool.not_eq_true'] at c2
          exact c2.1
        injection h with a1 a2
        subst a1 a2
        exact ⟨rfl, _, (Lexer.Moves.two hna n1).chain (Lexer.Moves.one n2),
          Or.inl ⟨by simp [makeToken], rfl⟩⟩
      · simp only [Bool.not_eq_true] at c2
        simp only [c2, Bool.false_eq_true, if_false] at h
        injection h with a1 a2
        subst a1 a2
        exact ⟨rfl, _, Lexer.Moves.two hna n1, Or.inr ⟨rfl, _, rfl⟩⟩
    · simp only [Bool.not_eq_true] at c1
      simp only [c1, Bool.false_eq_true, if_false] at h
      by_cases c2 : (!l.advance.isAtEnd && l.advance.peek == '\'') = true
      · simp only [c2, if_true] at h
        have n1 : l.advance.isAtEnd = false := by
          simp only [Bool.and_eq_true, Bool.not_eq_true'] at c2
          exact c2.1
        injection h with a1 a2
        subst a1 a2
        exact ⟨rfl, _, Lexer.Moves.two hna n1, Or.inl ⟨by simp [makeToken], rfl⟩⟩
      · simp only [Bool.not_eq_true] at c2
        simp only [c2, Bool.false_eq_true, if_false] at h
        injection h with a1 a2
        subst a1 a2
        exact ⟨rfl, _, Lexer.Moves.one hna, Or.inr ⟨rfl, _, rfl⟩⟩
  rw [if_neg h2] at h
  by_cases h3 : isdigit l.peek = true
  · rw [if_pos h3] at h
    unfold readNumber at h
    by_cases c1 : (l.peek == '0' && (l.peekNext == 'x' || l.peekNext == 'X')) = true
    · rw [if_pos c1] at h
      have n1 : l.advance.isAtEnd = false := by
        simp only [Bool.and_eq_true, Bool.or_eq_true] at c1
        rcases c1.2 with e | e
        · exact Lexer.next_inside e (by decide)
        · exact Lexer.next_inside e (by decide)
      obtain ⟨a, k, b, c, d⟩ := readWhile_token_step _ fuel _ _ l l (fun _ => .TOK_HEX) t l2
        (Lexer.Moves.two hna n1) (fun _ => TokenType.noConfusion) h
      exact ⟨a, k, b, Or.inl ⟨c, d⟩⟩
    · rw [if_neg c1] at h
      by_cases c2 : (l.peek == '0' && (l.peekNext == 'b' || l.peekNext == 'B')) = true
      · rw [if_pos c2] at h
        have n1 : l.advance.isAtEnd = false := by
          simp only [Bool.and_eq_true, Bool.or_eq_true] at c2
          rcases c2.2 with e | e
          · exact Lexer.next_inside e (by decide)
          · exact Lexer.next_inside e (by decide)
        obtain ⟨a, k, b, c, d⟩ := readWhile_token_step _ fuel _ _ l l (fun _ => .TOK_BITS) t l2
          (Lexer.Moves.two hna n1) (fun _ => TokenType.noConfusion) h
        exact ⟨a, k, b, Or.inl ⟨c, d⟩⟩
      · rw [if_neg c2] at h
        obtain ⟨a, k, b, c, d⟩ := readWhile_token_step _ fuel _ _ l l (fun _ => .TOK_DEC) t l2
          (Lexer.Moves.refl l) (fun _ => TokenType.noConfusion) h
        exact ⟨a, k, b, Or.inl ⟨c, d⟩⟩
  rw [if_neg h3] at h
  by_cases h4 : (isalpha l.peek || l.peek == '_') = true
  · rw [if_pos h4] at h
    unfold readIdentOrKeyword at h
    obtain ⟨a, k, b, c, d⟩ := readWhile_token_step _ fuel _ _ l l keywordType t l2
      (Lexer.Moves.refl l) keywordType_not_error h
    exact ⟨a, k, b, Or.inl ⟨c, d⟩⟩
  rw [if_neg h4] at h
  cases h5 : twoCharOperator l.peek l.peekNext with
  | some r =>
    obtain ⟨ty, text⟩ := r
    rw [h5] at h
    injection h with h
    injection h with a1 a2
    subst a1 a2
    have n1 : l.advance.isAtEnd = false :=
      Lexer.next_inside (beq_self_eq_true _) (twoCharOperator_spec h5).2.2
    exact ⟨rfl, _, Lexer.Moves.two hna n1, Or.inl ⟨twoCharOperator_not_error h5, rfl⟩⟩
  | none =>
    rw [h5] at h
    simp only at h
    cases h6 : oneCharOperator l.peek with
    | some r =>
      obtain ⟨ty, text⟩ := r
      rw [h6] at h
      injection h with h
      injection h with a1 a2
      subst a1 a2
      exact ⟨rfl, _, Lexer.Moves.one hna, Or.inl ⟨oneCharOperator_not_error h6, rfl⟩⟩
    | none =>
      rw [h6] at h
      injection h with h
      injection h with a1 a2
      subst a1 a2
      exact ⟨rfl, _, Lexer.Moves.one hna, Or.inr ⟨rfl, _, rfl⟩⟩

theorem errorTokens_cons (t : Token) (rest : List Token) :
    errorTokens (t :: rest) =
      if t.type = .TOK_ERROR then t :: errorTokens rest else errorTokens rest := by
  unfold errorTokens
  rw [List.filter_cons]
  by_cases h : t.type = .TOK_ERROR
  · simp [h]
  · simp [h]

/-- Along a run of the loop of `tokenize` that starts in a located state,
every token is located at its offset, the errors recorded are, in order, one
per error token and at that token's location, and the final state is located. -/
theorem ScanRun.located {l l3 : Lexer} {toks : List Token} (h : ScanRun l toks l3) :
    l.Located →
      (∀ t ∈ toks, t.loc = locationOf l.source t.loc.offset) ∧
      l3.errors.map (fun e => e.loc) =
        l.errors.map (fun e => e.loc) ++ (errorTokens toks).map (fun t => t.loc) ∧
      l3.Located ∧ l3.source = l.source := by
  induction h with
  | eof l l1 fuel e r hend =>
    intro hl
    obtain ⟨a1, a2, a3⟩ := (skipWhitespaceAndComments_moves _ _ _ e).facts
    have hl1 := a3 hl
    refine ⟨?_, ?_, hl1, a1⟩
    · intro t ht
      rw [List.mem_singleton.mp ht]
      show l1.here = locationOf l.source l1.pos
      rw [← a1]
      exact hl1
    · rw [a2]
      simp [errorTokens, makeToken]
  | tok l l1 l2 l3 fuel t rest e r hna hf hscan hspec hrun ih =>
    intro hl
    obtain ⟨a1, a2, a3⟩ := (skipWhitespaceAndComments_moves _ _ _ e).facts
    have hl1 := a3 hl
    obtain ⟨hloc, lm, hm, hcase⟩ := scanToken_step fuel l1 t l2 hna hscan
    obtain ⟨b1, b2, b3⟩ := hm.facts
    have hlm := b3 hl1
    have ht : t.loc = locationOf l.source t.loc.offset := by
      rw [hloc]
      show l1.here = locationOf l.source l1.pos
      rw [← a1]
      exact hl1
    rcases hcase with ⟨hty, rfl⟩ | ⟨hty, m, rfl⟩
    · obtain ⟨c1, c2, c3, c4⟩ := ih hlm
      refine ⟨?_, ?_, c3, by rw [c4, b1, a1]⟩
      · intro x hx
        rcases List.mem_cons.mp hx with rfl | hx
        · exact ht
        · rw [← a1, ← b1]
          exact c1 x hx
      · rw [c2, b2, a2, errorTokens_cons, if_neg hty]
    · have hl2 : (lm.pushError m l1.here).Located := hlm
      obtain ⟨c1, c2, c3, c4⟩ := ih hl2
      have hsrc : (lm.pushError m l1.here).source = l.source := by
        show lm.source = l.source
        rw [b1, a1]
      refine ⟨?_, ?_, c3, by rw [c4, hsrc]⟩
      · intro x hx
        rcases List.mem_cons.mp hx with rfl | hx
        · exact ht
        · rw [← hsrc]
          exact c1 x hx
      · rw [c2, errorTokens_cons, if_pos hty]
        simp [Lexer.pushError, b2, a2, hloc]

/-- The tokens and errors of `tokenize`, located. -/
theorem tokenize_located (source : List Char) (fuel : Nat) (h : source.length < fuel) :
    ∃ tokens errors, tokenize fuel source = some (tokens, errors) ∧
      (∀ t ∈ tokens, t.loc = locationOf source t.loc.offset) ∧
      errors.map (fun e => e.loc) = (errorTokens tokens).map (fun t => t.loc) := by
  obtain ⟨tokens, l3, e, run⟩ := tokenize_scanRun source fuel h
  obtain ⟨a1, a2, _, _⟩ := run.located rfl
  exact ⟨tokens, l3.errors, e, a1, by simpa [Lexer.init] using a2⟩

/-- A token that starts with `<` is an operator of one or two bytes. -/
theorem scanToken_lt_short (fuel : Nat) (l : Lexer) (t : Token) (l2 : Lexer)
    (hpk : l.peek = '<') (h : scanToken fuel l = some (t, l2)) : t.text.length ≤ 2 := by
  unfold scanToken at h
  rw [hpk] at h
  have d1 : ('<' == '"') = false := by decide
  have d2 : ('<' == '\'') = false := by decide
  have d3 : isdigit '<' = false := by decide
  have d4 : (isalpha '<' || '<' == '_') = false := by decide
  simp only [d1, d2, d3, d4, Bool.false_eq_true, if_false] at h
  cases hq : twoCharOperator '<' l.peekNext with
  | some x =>
    obtain ⟨ty, text⟩ := x
    rw [hq] at h
    injection h with h
    injection h with h1 h2
    have hd := (twoCharOperator_mem hq).2
    have ht : t.text = text := by rw [← h1]; rfl
    rw [ht]
    show text.data.length ≤ 2
    rw [hd]
    exact Nat.le_refl 2
  | none =>
    rw [hq] at h
    have d5 : oneCharOperator '<' = some (.TOK_LT, "<") := by decide
    rw [d5] at h
    injection h with h
    injection h with h1 h2
    rw [← h1]
    show ("<" : String).length ≤ 2
    decide

/-- The tokens of `tokenize` end with EOF; none of their lexemes is the text
`<error>`, and only the EOF token has an empty one. -/
theorem tokenize_lexemes_plain (source : List Char) (fuel : Nat) (h : source.length < fuel) :
    ∃ tokens errors, tokenize fuel source = some (tokens, errors) ∧ EndsWithEof tokens ∧
      ∀ t ∈ tokens, t.text ≠ "<error>" ∧ (t.type ≠ .TOK_EOF → t.text ≠ "") := by
  obtain ⟨tokens, l3, e, heach⟩ := tokenize_each source fuel h
  obtain ⟨tokens2, errors2, e2, run⟩ := tokenize_run source fuel h
  rw [e] at e2
  injection e2 with e2
  injection e2 with e3 e4
  subst e3
  have facts := run.lexemes
  have hend : EndsWithEof tokens := by
    obtain ⟨body, loc, h1, _⟩ := run.ends_with_eof
    exact ⟨body, _, h1, rfl⟩
  refine ⟨tokens, l3.errors, e, hend, ?_⟩
  intro t ht
  obtain ⟨_, hlen, hsub, hpos⟩ := facts.each t ht
  constructor
  · intro htext
    have hl7 : t.text.length = 7 := by rw [htext]; rfl
    have hdata : t.text.data = ['<', 'e', 'r', 'r', 'o', 'r', '>'] := by rw [htext]
    obtain ⟨pre, rest, hsplit⟩ := List.append_of_mem ht
    rcases heach pre t rest hsplit with ⟨_, _, hoff⟩ | ⟨l1, l2, r, hs, _, _, hdrop, hpeek, _⟩
    · simp only [Lexer.init] at hlen
      omega
    · have hc : source.getD t.loc.offset NUL = '<' := by
        have h1 := hsub
        simp only [Lexer.init] at h1
        rw [substr, hdrop, hl7, hdata] at h1
        simp only [List.take_succ_cons, List.cons.injEq] at h1
        exact h1.1
      obtain ⟨f, _, hcall⟩ := hs.call
      have := scanToken_lt_short f l1 t l2 (by rw [hpeek, hc]) hcall
      omega
  · intro hne htext
    have := hpos hne
    rw [htext] at this
    exact absurd this (by decide)

/-! ## Parser: what every operation keeps -/

section
variable {toks : List Token} {R : Parser → Parser → Prop}

theorem StepClosed.expect (hR : StepClosed toks R) (p : Parser) (type : TokenType)
    (context : String) : R p (expect toks p type context) := by
  unfold PLLab1.expect
  split
  · exact hR.advance p
  · exact hR.error p _

theorem synchronize_keeps (hR : StepClosed toks R) (fuel : Nat) :
    ∀ p p1, synchronize toks fuel p = some p1 → R p p1 := by
  induction fuel with
  | zero => intro p p1 h; cases h
  | succ n ih =>
    intro p p1 h
    rw [synchronize] at h
    split at h
    · split at h
      · injection h with h
        rw [← h]
        exact hR.advance p
      · split at h
        · injection h with h
          rw [← h]
          exact hR.refl p
        · exact hR.trans (hR.advance p) (ih _ _ h)
    · injection h with h
      rw [← h]
      exact hR.refl p

theorem parseTypeRefLoop_keeps (hR : StepClosed toks R) (fuel : Nat) :
    ∀ loc base, Keeps R (parseTypeRefLoop toks fuel loc base) := by
  induction fuel with
  | zero => intro loc base p r p1 h; cases h
  | succ n ih =>
    intro loc base p r p1 h
    rw [parseTypeRefLoop] at h
    split at h
    · exact hR.trans (hR.trans (hR.advance p) (hR.trans (hR.expect _ _ _)
        (hR.trans (hR.expect _ _ _) (hR.expect _ _ _)))) (ih _ _ _ _ _ h)
    · injection h with h
      injection h with h1 h2
      rw [← h2]
      exact hR.refl p

theorem parseTypeRef_keeps (hR : StepClosed toks R) (fuel : Nat) :
    Keeps R (parseTypeRef toks fuel) := by
  intro p r p1 h
  unfold parseTypeRef at h
  dsimp only at h
  split at h
  · exact hR.trans (hR.advance p) (parseTypeRefLoop_keeps hR fuel _ _ _ _ _ h)
  · split at h
    · exact hR.trans (hR.advance p) (parseTypeRefLoop_keeps hR fuel _ _ _ _ _ h)
    · injection h with h
      injection h with h1 h2
      rw [← h2]
      exact hR.error p _

theorem parseFuncArg_keeps (hR : StepClosed toks R) (fuel : Nat) :
    Keeps R (parseFuncArg toks fuel) := by
  intro p r p1 h
  unfold parseFuncArg at h
  dsimp only at h
  split at h
  · split at h
    · cases h
    · rename_i t p2 h1
      injection h with h
      injection h with h3 h4
      rw [← h4]
      exact hR.trans (hR.expect _ _ _)
        (hR.trans (hR.advance _) (parseTypeRef_keeps hR fuel _ _ _ h1))
  · injection h with h
    injection h with h3 h4
    rw [← h4]
    exact hR.expect _ _ _

theorem commaLoop_keeps (hR : StepClosed toks R) {item : Parser → Parsed}
    (hi : Keeps R item) (fuel : Nat) :
    ∀ node p node1 p1, commaLoop toks item fuel node p = some (node1, p1) → R p p1 := by
  induction fuel with
  | zero => intro node p node1 p1 h; cases h
  | succ n ih =>
    intro node p node1 p1 h
    rw [commaLoop] at h
    split at h
    · split at h
      · cases h
      · rename_i child p2 h1
        exact hR.trans (hR.trans (hR.advance p) (hi _ _ _ h1)) (ih _ _ _ _ h)
    · injection h with h
      injection h with h1 h2
      rw [← h2]
      exact hR.refl p

theorem parseFuncSignature_keeps (hR : StepClosed toks R) (fuel : Nat) :
    Keeps R (parseFuncSignature toks fuel) := by
  intro p r p1 h
  unfold parseFuncSignature at h
  dsimp only at h
  split at h
  · cases h
  · rename_i node1 p4 hargs
    have hres : R p p4 := by
      split at hargs
      · split at hargs
        · cases hargs
        · rename_i arg p3 h1
          exact hR.trans (hR.trans (hR.expect _ _ _) (hR.expect _ _ _))
            (hR.trans (parseFuncArg_keeps hR fuel _ _ _ h1)
              (commaLoop_keeps hR (parseFuncArg_keeps hR fuel) fuel _ _ _ _ hargs))
      · injection hargs with hargs
        injection hargs with h3 h4
        rw [← h4]
        exact hR.trans (hR.expect _ _ _) (hR.expect _ _ _)
    split at h
    · split at h
      · cases h
      · rename_i t p6 h1
        injection h with h
        injection h with h3 h4
        rw [← h4]
        exact hR.trans hres (hR.trans (hR.expect _ _ _)
          (hR.trans (hR.advance _) (parseTypeRef_keeps hR fuel _ _ _ h1)))
    · injection h with h
      injection h with h3 h4
      rw [← h4]
      exact hR.trans hres (hR.expect _ _ _)

theorem binaryLoop_keeps (hR : StepClosed toks R) {isOp : TokenType → Bool}
    {operand : Parser → Parsed} (ho : Keeps R operand) (fuel : Nat) :
    ∀ left, Keeps R (binaryLoop toks isOp operand fuel left) := by
  induction fuel with
  | zero => intro left p r p1 h; cases h
  | succ n ih =>
    intro left p r p1 h
    rw [binaryLoop] at h
    split at h
    · cases ho1 : operand (advance toks p) with
      | none => simp [ho1] at h
      | some res =>
        obtain ⟨right, p2⟩ := res
        simp only [ho1] at h
        exact hR.trans (hR.trans (hR.advance p) (ho _ _ _ ho1)) (ih _ _ _ _ h)
    · injection h with h
      injection h with h1 h2
      rw [← h2]
      exact hR.refl p

theorem level_keeps (hR : StepClosed toks R) {isOp : TokenType → Bool}
    {operand : Parser → Parsed} (fuel : Nat) (ho : Keeps R operand) :
    Keeps R (fun p => match operand p with
      | none => none
      | some (left, p1) => binaryLoop toks isOp operand fuel left p1) := by
  intro p r p1 h
  simp only at h
  cases ho1 : operand p with
  | none => simp [ho1] at h
  | some res =>
    obtain ⟨left, p2⟩ := res
    simp only [ho1] at h
    exact hR.trans (ho _ _ _ ho1) (binaryLoop_keeps hR ho fuel _ _ _ _ h)

end

section
variable {toks : List Token} {R : Parser → Parser → Prop}

theorem exprKeeps_zero (toks : List Token) (R : Parser → Parser → Prop) :
    ExprKeeps toks R 0 := by
  constructor
  all_goals first
    | (intro p r p1 h
       simp [parseExpression, parseExprOr, parseExprAnd, parseExprComparison, parseExprBitOr,
         parseExprBitXor, parseExprBitAnd, parseExprShift, parseExprAdd, parseExprMul,
         parseExprUnary, parseExprPostfix, parseRange, parseExprPrimary] at h)
    | (intro e p r p1 h
       simp [parseExprPostfixLoop] at h)

theorem exprKeeps_succ (hR : StepClosed toks R) (n : Nat) (ih : ExprKeeps toks R n) :
    ExprKeeps toks R (n + 1) := by
  constructor
  · intro p r p1 h
    rw [parseExpression] at h
    exact ih.or_ _ _ _ h
  · intro p r p1 h
    rw [parseExprOr] at h
    exact level_keeps hR n ih.and_ p r p1 h
  · intro p r p1 h
    rw [parseExprAnd] at h
    exact level_keeps hR n ih.comparison p r p1 h
  · intro p r p1 h
    rw [parseExprComparison] at h
    exact level_keeps hR n ih.bitOr p r p1 h
  · intro p r p1 h
    rw [parseExprBitOr] at h
    exact level_keeps hR n ih.bitXor p r p1 h
  · intro p r p1 h
    rw [parseExprBitXor] at h
    exact level_keeps hR n ih.bitAnd p r p1 h
  · intro p r p1 h
    rw [parseExprBitAnd] at h
    exact level_keeps hR n ih.shift p r p1 h
  · intro p r p1 h
    rw [parseExprShift] at h
    exact level_keeps hR n ih.add p r p1 h
  · intro p r p1 h
    rw [parseExprAdd] at h
    exact level_keeps hR n ih.mul p r p1 h
  · intro p r p1 h
    rw [parseExprMul] at h
    exact level_keeps hR n ih.unary p r p1 h
  · -- parseExprUnary
    intro p r p1 h
    rw [parseExprUnary] at h
    split at h
    · dsimp only at h
      split at h
      · cases h
      · rename_i operand p2 h1
        injection h with h
        injection h with h3 h4
        rw [← h4]
        exact hR.trans (hR.advance p) (ih.unary _ _ _ h1)
    · exact ih.postfix_ _ _ _ h
  · -- parseExprPostfix
    intro p r p1 h
    rw [parseExprPostfix] at h
    split at h
    · cases h
    · rename_i expr p2 h1
      exact hR.trans (ih.primary _ _ _ h1) (ih.postfixLoop expr _ _ _ h)
  · -- parseExprPostfixLoop
    intro e p r p1 h
    rw [parseExprPostfixLoop] at h
    split at h
    · dsimp only at h
      split at h
      · cases h
      · rename_i callNode1 p3 hargs
        have hres : R p p3 := by
          split at hargs
          · split at hargs
            · cases hargs
            · rename_i arg p2 h1
              exact hR.trans (hR.advance p) (hR.trans (ih.expression _ _ _ h1)
                (commaLoop_keeps hR ih.expression n _ _ _ _ hargs))
          · injection hargs with hargs
            injection hargs with h3 h4
            rw [← h4]
            exact hR.advance p
        exact hR.trans hres (hR.trans (hR.expect _ _ _) (ih.postfixLoop _ _ _ _ h))
    · split at h
      · dsimp only at h
        split at h
        · cases h
        · rename_i range p2 h1
          split at h
          · cases h
          · rename_i sliceNode1 p3 h3
            exact hR.trans (hR.advance p) (hR.trans (ih.range _ _ _ h1)
              (hR.trans (commaLoop_keeps hR ih.range n _ _ _ _ h3)
                (hR.trans (hR.expect _ _ _) (ih.postfixLoop _ _ _ _ h))))
      · split at h
        · exact hR.trans (hR.advance p) (ih.postfixLoop _ _ _ _ h)
        · injection h with h
          injection h with h1 h2
          rw [← h2]
          exact hR.refl p
  · -- parseRange
    intro p r p1 h
    rw [parseRange] at h
    split at h
    · cases h
    · rename_i from_ p2 h1
      split at h
      · split at h
        · cases h
        · rename_i to_ p3 h3
          split at h
          · cases h
          · injection h with h
            injection h with h5 h6
            rw [← h6]
            exact hR.trans (ih.expression _ _ _ h1)
              (hR.trans (hR.advance _) (ih.expression _ _ _ h3))
      · injection h with h
        injection h with h5 h6
        rw [← h6]
        exact ih.expression _ _ _ h1
  · -- parseExprPrimary
    intro p r p1 h
    rw [parseExprPrimary] at h
    split at h
    · split at h
      · cases h
      · rename_i inner p2 h1
        injection h with h
        injection h with h3 h4
        rw [← h4]
        exact hR.trans (hR.advance p) (hR.trans (ih.expression _ _ _ h1) (hR.expect _ _ _))
    · split at h
      · injection h with h
        injection h with h3 h4
        rw [← h4]
        exact hR.advance p
      · split at h
        · injection h with h
          injection h with h3 h4
          rw [← h4]
          exact hR.advance p
        · injection h with h
          injection h with h3 h4
          rw [← h4]
          exact hR.trans (hR.error p _) (hR.advance _)

theorem exprKeeps (hR : StepClosed toks R) (fuel : Nat) : ExprKeeps toks R fuel := by
  induction fuel with
  | zero => exact exprKeeps_zero toks R
  | succ n ih => exact exprKeeps_succ hR n ih

theorem parseExpressionOrAssign_keeps (hR : StepClosed toks R) (fuel : Nat) :
    Keeps R (parseExpressionOrAssign toks fuel) := by
  intro p r p1 h
  have he := (exprKeeps hR fuel).expression
  unfold parseExpressionOrAssign at h
  dsimp only at h
  split at h
  · cases h
  · rename_i expr p2 h1
    have e1 := he _ _ _ h1
    split at h
    · split at h
      · cases h
      · rename_i rhs p3 h2
        have e2 := hR.trans e1 (hR.trans (hR.advance _) (he _ _ _ h2))
        split at h
        · split at h
          · cases h
          · rename_i cond p4 h3
            injection h with h
            injection h with h5 h6
            rw [← h6]
            exact hR.trans e2 (hR.trans (hR.advance _)
              (hR.trans (he _ _ _ h3) (hR.expect _ _ _)))
        · injection h with h
          injection h with h5 h6
          rw [← h6]
          exact hR.trans e2 (hR.expect _ _ _)
    · split at h
      · split at h
        · cases h
        · split at h
          · cases h
          · rename_i cond p3 h2
            injection h with h
            injection h with h5 h6
            rw [← h6]
            exact hR.trans e1 (hR.trans (hR.advance _)
              (hR.trans (he _ _ _ h2) (hR.expect _ _ _)))
      · injection h with h
        injection h with h5 h6
        rw [← h6]
        exact hR.trans e1 (hR.expect _ _ _)

end

section
variable {toks : List Token} {R : Parser → Parser → Prop}

theorem stmtKeeps_zero (toks : List Token) (R : Parser → Parser → Prop) :
    StmtKeeps toks R 0 := by
  constructor
  all_goals first
    | (intro p r p1 h
       simp [parseStatement, parseIfStatement, parseLoopStatement, parseBlock, parseSourceItem,
         parseFuncDef] at h)
    | (intro node p r p1 h
       simp [parseLoopStatementLoop, parseFuncDefLoop] at h)
    | (intro closer node p r p1 h
       simp [parseBlockLoop] at h)

theorem stmtKeeps_succ (hR : StepClosed toks R) (n : Nat) (ih : StmtKeeps toks R n) :
    StmtKeeps toks R (n + 1) := by
  have he := (exprKeeps hR n).expression
  constructor
  · -- parseStatement
    intro p r p1 h
    rw [parseStatement] at h
    split at h
    · exact ih.ifStatement _ _ _ h
    · exact ih.loopStatement _ _ _ h
    · exact ih.loopStatement _ _ _ h
    · injection h with h
      injection h with h1 h2
      rw [← h2]
      exact hR.trans (hR.advance p) (hR.expect _ _ _)
    · exact ih.block _ _ _ h
    · exact ih.block _ _ _ h
    · exact parseExpressionOrAssign_keeps hR n _ _ _ h
  · -- parseIfStatement
    intro p r p1 h
    rw [parseIfStatement] at h
    split at h
    · cases h
    · rename_i cond p2 h1
      split at h
      · cases h
      · rename_i thenStmt p3 h2
        have e2 := hR.trans (hR.expect p .TOK_IF "if") (hR.trans (he _ _ _ h1)
          (hR.trans (hR.expect _ _ _) (ih.statement _ _ _ h2)))
        split at h
        · split at h
          · cases h
          · rename_i elseStmt p4 h3
            injection h with h
            injection h with h5 h6
            rw [← h6]
            exact hR.trans e2 (hR.trans (hR.advance _) (ih.statement _ _ _ h3))
        · injection h with h
          injection h with h5 h6
          rw [← h6]
          exact e2
  · -- parseLoopStatement
    intro p r p1 h
    rw [parseLoopStatement] at h
    split at h
    · cases h
    · rename_i cond p2 h1
      split at h
      · cases h
      · rename_i node1 p3 h2
        injection h with h
        injection h with h5 h6
        rw [← h6]
        exact hR.trans (hR.advance p) (hR.trans (he _ _ _ h1)
          (hR.trans (ih.loopLoop _ _ _ _ h2) (hR.expect _ _ _)))
  · -- parseLoopStatementLoop
    intro node p r p1 h
    rw [parseLoopStatementLoop] at h
    split at h
    · split at h
      · cases h
      · rename_i stmt p2 h1
        exact hR.trans (ih.statement _ _ _ h1) (ih.loopLoop _ _ _ _ h)
      · rename_i p2 h1
        split at h
        · cases h
        · rename_i p3 h2
          exact hR.trans (ih.statement _ _ _ h1)
            (hR.trans (synchronize_keeps hR n _ _ h2) (ih.loopLoop _ _ _ _ h))
    · injection h with h
      injection h with h5 h6
      rw [← h6]
      exact hR.refl p
  · -- parseBlock
    intro p r p1 h
    rw [parseBlock] at h
    split at h
    · cases h
    · rename_i node1 p2 h1
      injection h with h
      injection h with h5 h6
      rw [← h6]
      exact hR.trans (hR.advance p) (hR.trans (ih.blockLoop _ _ _ _ _ h1) (hR.expect _ _ _))
  · -- parseBlockLoop
    intro closer node p r p1 h
    rw [parseBlockLoop] at h
    split at h
    · split at h
      · split at h
        · cases h
        · rename_i item p2 h1
          exact hR.trans (ih.sourceItem _ _ _ h1) (ih.blockLoop _ _ _ _ _ h)
        · rename_i p2 h1
          split at h
          · cases h
          · rename_i p3 h2
            exact hR.trans (ih.sourceItem _ _ _ h1)
              (hR.trans (synchronize_keeps hR n _ _ h2) (ih.blockLoop _ _ _ _ _ h))
      · split at h
        · cases h
        · rename_i stmt p2 h1
          exact hR.trans (ih.statement _ _ _ h1) (ih.blockLoop _ _ _ _ _ h)
        · rename_i p2 h1
          split at h
          · cases h
          · rename_i p3 h2
            exact hR.trans (ih.statement _ _ _ h1)
              (hR.trans (synchronize_keeps hR n _ _ h2) (ih.blockLoop _ _ _ _ _ h))
    · injection h with h
      injection h with h5 h6
      rw [← h6]
      exact hR.refl p
  · -- parseSourceItem
    intro p r p1 h
    rw [parseSourceItem] at h
    split at h
    · exact ih.funcDef _ _ _ h
    · injection h with h
      injection h with h5 h6
      rw [← h6]
      exact hR.error p _
  · -- parseFuncDef
    intro p r p1 h
    rw [parseFuncDef] at h
    dsimp only at h
    split at h
    · cases h
    · rename_i sig p2 h1
      have e1 := hR.trans (hR.expect p .TOK_DEF "def") (parseFuncSignature_keeps hR n _ _ _ h1)
      split at h
      · cases h
      · rename_i node1 p3 hbody
        have hres : R p p3 := by
          split at hbody
          · exact hR.trans e1 (ih.funcDefLoop _ _ _ _ hbody)
          · injection hbody with hbody
            injection hbody with h5 h6
            rw [← h6]
            exact e1
        split at h
        · injection h with h
          injection h with h5 h6
          rw [← h6]
          exact hR.trans hres (hR.advance _)
        · injection h with h
          injection h with h5 h6
          rw [← h6]
          exact hres
  · -- parseFuncDefLoop
    intro node p r p1 h
    rw [parseFuncDefLoop] at h
    split at h
    · split at h
      · injection h with h
        injection h with h5 h6
        rw [← h6]
        exact hR.refl p
      · split at h
        · cases h
        · rename_i stmt p2 h1
          exact hR.trans (ih.statement _ _ _ h1) (ih.funcDefLoop _ _ _ _ h)
        · rename_i p2 h1
          split at h
          · cases h
          · rename_i p3 h2
            exact hR.trans (ih.statement _ _ _ h1)
              (hR.trans (synchronize_keeps hR n _ _ h2) (ih.funcDefLoop _ _ _ _ h))
    · injection h with h
      injection h with h5 h6
      rw [← h6]
      exact hR.refl p

theorem stmtKeeps (hR : StepClosed toks R) (fuel : Nat) : StmtKeeps toks R fuel := by
  induction fuel with
  | zero => exact stmtKeeps_zero toks R
  | succ n ih => exact stmtKeeps_succ hR n ih

theorem parseSourceLoop_keeps (hR : StepClosed toks R) (fuel : Nat) :
    ∀ node, Keeps R (parseSourceLoop toks fuel node) := by
  induction fuel with
  | zero => intro node p r p1 h; cases h
  | succ n ih =>
    intro node p r p1 h
    rw [parseSourceLoop] at h
    split at h
    · split at h
      · cases h
      · rename_i item p2 h1
        exact hR.trans ((stmtKeeps hR n).sourceItem _ _ _ h1) (ih _ _ _ _ h)
      · rename_i p2 h1
        split at h
        · cases h
        · rename_i p3 h2
          exact hR.trans ((stmtKeeps hR n).sourceItem _ _ _ h1)
            (hR.trans (synchronize_keeps hR n _ _ h2) (ih _ _ _ _ h))
    · injection h with h
      injection h with h5 h6
      rw [← h6]
      exact hR.refl p

/-- Every relation that is kept by `advance` and `error` holds between the
initial state and the state in which `parse` returns. -/
theorem parse_keeps (hR : StepClosed toks R) (fuel : Nat) (res : ParseResult)
    (h : parse toks fuel = some res) :
    ∃ p1, R { pos := 0, errors := [] } p1 ∧ res.errors = p1.errors := by
  unfold parse parseSource at h
  split at h
  · cases h
  · rename_i tree p1 h1
    injection h with h
    rw [← h]
    exact ⟨p1, parseSourceLoop_keeps hR fuel _ _ _ _ h1, rfl⟩

end

theorem staysInside_closed (toks : List Token) : StepClosed toks (StaysInside toks) := by
  refine ⟨fun p h => h, fun h1 h2 h => h2 (h1 h), ?_, fun p msg h => h⟩
  intro p h
  unfold advance
  split
  · assumption
  · exact h

theorem follows_closed (toks : List Token) : StepClosed toks (Follows toks) := by
  refine ⟨?_, ?_, ?_, ?_⟩
  · intro p
    exact ⟨Nat.le_refl _, id, [], by simp, by simp, by simp⟩
  · intro a b c h1 h2
    obtain ⟨i1, e1, s1, b1⟩ := h1.errors
    obtain ⟨i2, e2, s2, b2⟩ := h2.errors
    have hp1 := h1.pos
    have hp2 := h2.pos
    refine ⟨Nat.le_trans hp1 hp2, fun h => h2.inside (h1.inside h), i1 ++ i2, ?_, ?_, ?_⟩
    · rw [e2, e1]
      simp
    · rw [List.map_append, List.pairwise_append]
      refine ⟨s1, s2, ?_⟩
      intro x hx y hy
      obtain ⟨x0, hx0, rfl⟩ := List.mem_map.mp hx
      obtain ⟨y0, hy0, rfl⟩ := List.mem_map.mp hy
      have := (b1 x0 hx0).2
      have := (b2 y0 hy0).1
      omega
    · intro x hx
      rcases List.mem_append.mp hx with hx | hx
      · have := b1 x hx
        omega
      · have := b2 x hx
        omega
  · intro p
    refine ⟨advance_pos_le toks p, staysInside_closed toks |>.advance p, [], ?_, by simp,
      by simp⟩
    rw [advance_keeps_errors]
    simp
  · intro p msg
    refine ⟨Nat.le_refl _, id, [(p.pos, msg)], rfl, by simp, ?_⟩
    intro x hx
    rw [List.mem_singleton.mp hx]
    exact ⟨Nat.le_refl _, Nat.le_refl _⟩

theorem ASTNode.addChildren_nil (node : ASTNode) : node.addChildren [] = node := by
  cases node
  simp [ASTNode.addChildren]

theorem ASTNode.addChildren_cons (node : ASTNode) (c : ASTNodePtr) (cs : List ASTNodePtr) :
    node.addChildren (c :: cs) = (node.addChild c).addChildren cs := by
  cases node
  simp [ASTNode.addChildren, ASTNode.addChild]

theorem StatementsAt.errors {toks : List Token} {fuel : Nat} {p p1 : Parser}
    {stmts : List ASTNode} (h : StatementsAt toks fuel p stmts p1) : p1.errors = p.errors := by
  induction h with
  | nil => rfl
  | cons fuel p p1 p2 s rest _ _ he _ ih => rw [ih, he]

theorem blockCloser_cases (t : TokenType) :
    blockCloser t = .TOK_END ∨ blockCloser t = .TOK_RBRACE := by
  unfold blockCloser
  split
  · exact Or.inr rfl
  · exact Or.inl rfl

/-- The loop of `parseBlock` on a list of statements followed by the
closer. -/
theorem parseBlockLoop_statements {toks : List Token} {closer : TokenType}
    (hc : closer = .TOK_END ∨ closer = .TOK_RBRACE) {fuel : Nat} {p p0 : Parser}
    {stmts : List ASTNode} (h : StatementsAt toks fuel p stmts p0) :
    ∀ node : ASTNode, (current toks p0).type = closer →
      parseBlockLoop toks (fuel + 1) closer node p =
        some (some (node.addChildren (stmts.map some)), p0) := by
  induction h with
  | nil fuel p =>
    intro node hcl
    rw [parseBlockLoop]
    simp [check, hcl, ASTNode.addChildren_nil]
  | cons fuel p p1 p2 s rest hs hp he _ ih =>
    intro node hcl
    have hne : (current toks p).type ≠ closer ∧ (current toks p).type ≠ .TOK_EOF ∧
        (current toks p).type ≠ .TOK_DEF := by
      simp only [startsBlockStatement, Bool.not_eq_true', Bool.or_eq_false_iff,
        beq_eq_false_iff_ne, ne_eq] at hs
      refine ⟨?_, hs.1.2, hs.2⟩
      rcases hc with rfl | rfl
      · exact hs.1.1.1
      · exact hs.1.1.2
    rw [parseBlockLoop]
    simp only [check, isAtEnd, beq_eq_false_iff_ne.mpr hne.1, beq_eq_false_iff_ne.mpr hne.2.1,
      beq_eq_false_iff_ne.mpr hne.2.2, Bool.not_false, Bool.and_self, if_true,
      Bool.false_eq_true, if_false, hp]
    rw [ih (node.addChild (some s)) hcl, List.map_cons, ASTNode.addChildren_cons]

/-- The loop of `parseBlock` stops at its closer or at the end of the
input, with a node. -/
theorem parseBlockLoop_stops (toks : List Token) (closer : TokenType) (fuel : Nat) :
    ∀ (node : ASTNode) (p p0 : Parser) (r : ASTNodePtr),
      parseBlockLoop toks fuel closer node p = some (r, p0) →
      (∃ n1, r = some n1) ∧
      ((current toks p0).type = closer ∨ (current toks p0).type = .TOK_EOF) := by
  induction fuel with
  | zero => intro node p p0 r h; simp [parseBlockLoop] at h
  | succ fuel ih =>
    intro node p p0 r h
    rw [parseBlockLoop] at h
    split at h
    · split at h
      · split at h
        · cases h
        · exact ih _ _ _ _ h
        · split at h
          · cases h
          · exact ih _ _ _ _ h
      · split at h
        · cases h
        · exact ih _ _ _ _ h
        · split at h
          · cases h
          · exact ih _ _ _ _ h
    · rename_i hcond
      injection h with h
      injection h with h1 h2
      subst h2
      refine ⟨⟨node, h1.symm⟩, ?_⟩
      simp only [check, isAtEnd, Bool.and_eq_true, Bool.not_eq_true', beq_eq_false_iff_ne, ne_eq,
        not_and, Decidable.not_not] at hcond
      by_cases hq : (current toks p).type = closer
      · exact Or.inl hq
      · exact Or.inr (hcond hq)

/-! ### Node locations -/

@[simp] theorem ASTNode.loc_addChild (n : ASTNode) (c : ASTNodePtr) :
    (n.addChild c).loc = n.loc := by
  cases n; rfl

@[simp] theorem ASTNode.loc_setValue (n : ASTNode) (v : String) :
    (n.setValue v).loc = n.loc := by
  cases n; rfl

@[simp] theorem ASTNode.loc_makeNode (k : Kind) (loc : SourceLocation) (v : String) :
    (makeNode k loc v).loc = loc := rfl

theorem ASTNode.children_addChild (n : ASTNode) (c : ASTNodePtr) :
    (n.addChild c).children = n.children ++ [c] := by
  cases n; rfl

theorem parseTypeRefLoop_loc (toks : List Token) (fuel : Nat) :
    ∀ (loc : SourceLocation) (base : ASTNodePtr) (p p1 : Parser) (r : ASTNodePtr),
      (∀ b, base = some b → b.loc = loc) →
      parseTypeRefLoop toks fuel loc base p = some (r, p1) →
      ∀ n, r = some n → n.loc = loc := by
  induction fuel with
  | zero => intro loc base p p1 r _ h; cases h
  | succ n ih =>
    intro loc base p p1 r hb h
    rw [parseTypeRefLoop] at h
    split at h
    · refine ih _ _ _ _ _ ?_ h
      intro b hb1
      injection hb1 with hb1
      rw [← hb1]
      simp
    · injection h with h
      injection h with h1 h2
      subst h1
      exact hb

/-- The comma loop adds children to its node. -/
theorem commaLoop_node (toks : List Token) (item : Parser → Parsed) (fuel : Nat) :
    ∀ (node node1 : ASTNode) (p p1 : Parser),
      commaLoop toks item fuel node p = some (node1, p1) →
      node1.loc = node.loc ∧ node1.kind = node.kind ∧
        ∃ extra, node1.children = node.children ++ extra := by
  induction fuel with
  | zero => intro node node1 p p1 h; cases h
  | succ n ih =>
    intro node node1 p p1 h
    rw [commaLoop] at h
    split at h
    · split at h
      · cases h
      · rename_i child p2 _
        obtain ⟨a, b, extra, c⟩ := ih _ _ _ _ h
        refine ⟨by simpa using a, by simpa using b, child :: extra, ?_⟩
        rw [c, ASTNode.children_addChild]
        simp
    · injection h with h
      injection h with h1 h2
      subst h1
      exact ⟨rfl, rfl, [], by simp⟩

theorem parseLoopStatementLoop_loc (toks : List Token) (fuel : Nat) :
    ∀ (node : ASTNode) (p p1 : Parser) (r : ASTNodePtr),
      parseLoopStatementLoop toks fuel node p = some (r, p1) →
      ∃ n1, r = some n1 ∧ n1.loc = node.loc := by
  induction fuel with
  | zero => intro node p p1 r h; simp [parseLoopStatementLoop] at h
  | succ n ih =>
    intro node p p1 r h
    rw [parseLoopStatementLoop] at h
    split at h
    · split at h
      · cases h
      · obtain ⟨n1, a, b⟩ := ih _ _ _ _ h
        exact ⟨n1, a, by simpa using b⟩
      · split at h
        · cases h
        · exact ih _ _ _ _ h
    · injection h with h
      injection h with h1 h2
      exact ⟨node, h1.symm, rfl⟩

theorem parseBlockLoop_loc (toks : List Token) (closer : TokenType) (fuel : Nat) :
    ∀ (node : ASTNode) (p p1 : Parser) (r : ASTNodePtr),
      parseBlockLoop toks fuel closer node p = some (r, p1) →
      ∃ n1, r = some n1 ∧ n1.loc = node.loc := by
  induction fuel with
  | zero => intro node p p1 r h; simp [parseBlockLoop] at h
  | succ n ih =>
    intro node p p1 r h
    rw [parseBlockLoop] at h
    split at h
    · split at h
      · split at h
        · cases h
        · obtain ⟨n1, a, b⟩ := ih _ _ _ _ h
          exact ⟨n1, a, by simpa using b⟩
        · split at h
          · cases h
          · exact ih _ _ _ _ h
      · split at h
        · cases h
        · obtain ⟨n1, a, b⟩ := ih _ _ _ _ h
          exact ⟨n1, a, by simpa using b⟩
        · split at h
          · cases h
          · exact ih _ _ _ _ h
    · injection h with h
      injection h with h1 h2
      exact ⟨node, h1.symm, rfl⟩

theorem parseFuncDefLoop_loc (toks : List Token) (fuel : Nat) :
    ∀ (node : ASTNode) (p p1 : Parser) (r : ASTNodePtr),
      parseFuncDefLoop toks fuel node p = some (r, p1) →
      ∃ n1, r = some n1 ∧ n1.loc = node.loc := by
  induction fuel with
  | zero => intro node p p1 r h; simp [parseFuncDefLoop] at h
  | succ n ih =>
    intro node p p1 r h
    rw [parseFuncDefLoop] at h
    split at h
    · split at h
      · injection h with h
        injection h with h1 h2
        exact ⟨node, h1.symm, rfl⟩
      · split at h
        · cases h
        · obtain ⟨n1, a, b⟩ := ih _ _ _ _ h
          exact ⟨n1, a, by simpa using b⟩
        · split at h
          · cases h
          · exact ih _ _ _ _ h
    · injection h with h
      injection h with h1 h2
      exact ⟨node, h1.symm, rfl⟩

theorem parseSourceLoop_loc (toks : List Token) (fuel : Nat) :
    ∀ (node : ASTNode) (p p1 : Parser) (r : ASTNodePtr),
      parseSourceLoop toks fuel node p = some (r, p1) →
      ∃ n1, r = some n1 ∧ n1.loc = node.loc := by
  induction fuel with
  | zero => intro node p p1 r h; simp [parseSourceLoop] at h
  | succ n ih =>
    intro node p p1 r h
    rw [parseSourceLoop] at h
    split at h
    · split at h
      · cases h
      · obtain ⟨n1, a, b⟩ := ih _ _ _ _ h
        exact ⟨n1, a, by simpa using b⟩
      · split at h
        · cases h
        · exact ih _ _ _ _ h
    · injection h with h
      injection h with h1 h2
      exact ⟨node, h1.symm, rfl⟩

theorem parseTypeRef_root (toks : List Token) (fuel : Nat) :
    RootAtStart toks (parseTypeRef toks fuel) := by
  intro p node p1 h
  unfold parseTypeRef at h
  dsimp only at h
  split at h
  · exact parseTypeRefLoop_loc toks fuel _ _ _ _ _
      (fun b hb => by injection hb with hb; rw [← hb]; rfl) h node rfl
  · split at h
    · exact parseTypeRefLoop_loc toks fuel _ _ _ _ _
        (fun b hb => by injection hb with hb; rw [← hb]; rfl) h node rfl
    · injection h with h
      injection h with h1 h2
      injection h1 with h1
      rw [← h1]
      rfl

theorem parseFuncArg_root (toks : List Token) (fuel : Nat) :
    RootAtStart toks (parseFuncArg toks fuel) := by
  intro p node p1 h
  unfold parseFuncArg at h
  dsimp only at h
  split at h
  · split at h
    · cases h
    · injection h with h
      injection h with h1 h2
      injection h1 with h1
      rw [← h1]
      simp
  · injection h with h
    injection h with h1 h2
    injection h1 with h1
    rw [← h1]
    rfl

theorem parseFuncSignature_root (toks : List Token) (fuel : Nat) :
    RootAtStart toks (parseFuncSignature toks fuel) := by
  intro p node p1 h
  unfold parseFuncSignature at h
  dsimp only at h
  split at h
  · cases h
  · rename_i node1 p4 hargs
    have hloc : node1.loc = (current toks p).loc := by
      split at hargs
      · split at hargs
        · cases hargs
        · have := (commaLoop_node toks _ fuel _ _ _ _ hargs).1
          simpa using this
      · injection hargs with hargs
        injection hargs with h1 h2
        rw [← h1]
        simp
    split at h
    · split at h
      · cases h
      · injection h with h
        injection h with h1 h2
        injection h1 with h1
        rw [← h1]
        simpa using hloc
    · injection h with h
      injection h with h1 h2
      injection h1 with h1
      rw [← h1]
      exact hloc

theorem parseExprPrimary_root (toks : List Token) (fuel : Nat) :
    RootAtStart toks (parseExprPrimary toks fuel) := by
  intro p node p1 h
  cases fuel with
  | zero => simp [parseExprPrimary] at h
  | succ n =>
    rw [parseExprPrimary] at h
    split at h
    · split at h
      · cases h
      · injection h with h
        injection h with h1 h2
        injection h1 with h1
        rw [← h1]
        simp
    · split at h
      · injection h with h
        injection h with h1 h2
        injection h1 with h1
        rw [← h1]
        rfl
      · split at h
        · injection h with h
          injection h with h1 h2
          injection h1 with h1
          rw [← h1]
          rfl
        · injection h with h
          injection h with h1 h2
          injection h1 with h1
          rw [← h1]
          rfl

theorem parseExpressionOrAssign_root (toks : List Token) (fuel : Nat) :
    RootAtStart toks (parseExpressionOrAssign toks fuel) := by
  intro p node p1 h
  unfold parseExpressionOrAssign at h
  dsimp only at h
  split at h
  · cases h
  · split at h
    · split at h
      · cases h
      · split at h
        · split at h
          · cases h
          · injection h with h
            injection h with h1 h2
            injection h1 with h1
            rw [← h1]
            simp
        · injection h with h
          injection h with h1 h2
          injection h1 with h1
          rw [← h1]
          simp
    · split at h
      · split at h
        · cases h
        · split at h
          · cases h
          · injection h with h
            injection h with h1 h2
            injection h1 with h1
            rw [← h1]
            simp
      · injection h with h
        injection h with h1 h2
        injection h1 with h1
        rw [← h1]
        simp

theorem parseIfStatement_root (toks : List Token) (fuel : Nat) :
    RootAtStart toks (parseIfStatement toks fuel) := by
  intro p node p1 h
  cases fuel with
  | zero => simp [parseIfStatement] at h
  | succ n =>
    rw [parseIfStatement] at h
    split at h
    · cases h
    · split at h
      · cases h
      · split at h
        · split at h
          · cases h
          · injection h with h
            injection h with h1 h2
            injection h1 with h1
            rw [← h1]
            simp
        · injection h with h
          injection h with h1 h2
          injection h1 with h1
          rw [← h1]
          simp

theorem parseLoopStatement_root (toks : List Token) (fuel : Nat) :
    RootAtStart toks (parseLoopStatement toks fuel) := by
  intro p node p1 h
  cases fuel with
  | zero => simp [parseLoopStatement] at h
  | succ n =>
    rw [parseLoopStatement] at h
    split at h
    · cases h
    · split at h
      · cases h
      · rename_i hq
        injection h with h
        injection h with h1 h2
        obtain ⟨n1, a, b⟩ := parseLoopStatementLoop_loc toks n _ _ _ _ hq
        rw [h1] at a
        injection a with a
        rw [a, b]
        simp

theorem parseBlock_root (toks : List Token) (fuel : Nat) :
    RootAtStart toks (parseBlock toks fuel) := by
  intro p node p1 h
  cases fuel with
  | zero => simp [parseBlock] at h
  | succ n =>
    rw [parseBlock] at h
    split at h
    · cases h
    · rename_i hq
      injection h with h
      injection h with h1 h2
      obtain ⟨n1, a, b⟩ := parseBlockLoop_loc toks _ n _ _ _ _ hq
      rw [h1] at a
      injection a with a
      rw [a, b]
      rfl

theorem parseStatement_root (toks : List Token) (fuel : Nat) :
    RootAtStart toks (parseStatement toks fuel) := by
  intro p node p1 h
  cases fuel with
  | zero => simp [parseStatement] at h
  | succ n =>
    rw [parseStatement] at h
    split at h
    · exact parseIfStatement_root toks n p node p1 h
    · exact parseLoopStatement_root toks n p node p1 h
    · exact parseLoopStatement_root toks n p node p1 h
    · injection h with h
      injection h with h1 h2
      injection h1 with h1
      rw [← h1]
      rfl
    · exact parseBlock_root toks n p node p1 h
    · exact parseBlock_root toks n p node p1 h
    · exact parseExpressionOrAssign_root toks n p node p1 h

theorem parseFuncDef_root (toks : List Token) (fuel : Nat) :
    RootAtStart toks (parseFuncDef toks fuel) := by
  intro p node p1 h
  cases fuel with
  | zero => simp [parseFuncDef] at h
  | succ n =>
    rw [parseFuncDef] at h
    split at h
    · cases h
    · rename_i sig q1 _
      have key : ∀ (body : Parsed),
          (∀ r q, body = some (r, q) → ∀ m, r = some m → m.loc = (current toks p).loc) →
          (match body with
            | none => none
            | some (node1, p2) =>
              if check toks p2 .TOK_END then some (node1, advance toks p2)
              else some (node1, p2)) = some (some node, p1) →
          node.loc = (current toks p).loc := by
        intro body hb hm
        cases body with
        | none => cases hm
        | some x =>
          obtain ⟨r, q⟩ := x
          dsimp only at hm
          split at hm
          · injection hm with hm
            injection hm with h1 h2
            exact hb r q rfl node h1
          · injection hm with hm
            injection hm with h1 h2
            exact hb r q rfl node h1
      refine key _ ?_ h
      intro r q hbody m hm
      split at hbody
      · obtain ⟨n1, a, b⟩ := parseFuncDefLoop_loc toks n _ _ _ _ hbody
        rw [hm] at a
        injection a with a
        rw [a, b]
        simp
      · injection hbody with hbody
        injection hbody with h1 h2
        rw [hm] at h1
        injection h1 with h1
        rw [← h1]
        simp

theorem parseSourceItem_root (toks : List Token) (fuel : Nat) :
    RootAtStart toks (parseSourceItem toks fuel) := by
  intro p node p1 h
  cases fuel with
  | zero => simp [parseSourceItem] at h
  | succ n =>
    rw [parseSourceItem] at h
    split at h
    · exact parseFuncDef_root toks n p node p1 h
    · injection h with h
      injection h with h1 h2
      cases h1

theorem parseSource_root (toks : List Token) (fuel : Nat) :
    RootAtStart toks (parseSource toks fuel) := by
  intro p node p1 h
  unfold parseSource at h
  obtain ⟨n1, a, b⟩ := parseSourceLoop_loc toks fuel _ _ _ _ h
  injection a with a
  rw [a, b]
  rfl

theorem startLocated (toks : List Token) (fuel : Nat) : StartLocated toks fuel :=
  ⟨parseSource_root toks fuel, parseSourceItem_root toks fuel, parseFuncDef_root toks fuel,
    parseFuncSignature_root toks fuel, parseFuncArg_root toks fuel, parseTypeRef_root toks fuel,
    parseStatement_root toks fuel, parseIfStatement_root toks fuel,
    parseLoopStatement_root toks fuel, parseBlock_root toks fuel,
    parseExpressionOrAssign_root toks fuel, parseExprPrimary_root toks fuel⟩

theorem parseTypeRefLoop_typeAt (toks : List Token) (fuel : Nat) :
    ∀ (loc : SourceLocation) (b : ASTNode) (p p1 : Parser) (r : ASTNodePtr),
      TypeAt loc b → parseTypeRefLoop toks fuel loc (some b) p = some (r, p1) →
      ∃ n, r = some n ∧ TypeAt loc n := by
  induction fuel with
  | zero => intro loc b p p1 r _ h; cases h
  | succ n ih =>
    intro loc b p p1 r hb h
    rw [parseTypeRefLoop] at h
    split at h
    · exact ih loc _ _ _ _ (TypeAt.array _ b hb) h
    · injection h with h
      injection h with h1 h2
      exact ⟨b, h1.symm, hb⟩

/-- Every node of the type reference that `parseTypeRef` returns is located
at the first token of the type reference. -/
theorem parseTypeRef_typeAt (toks : List Token) (fuel : Nat) (p p1 : Parser) (r : ASTNodePtr)
    (h : parseTypeRef toks fuel p = some (r, p1)) :
    ∃ n, r = some n ∧ TypeAt (current toks p).loc n := by
  unfold parseTypeRef at h
  dsimp only at h
  split at h
  · exact parseTypeRefLoop_typeAt toks fuel _ _ _ _ _ (TypeAt.base _ _ (Or.inl rfl)) h
  · split at h
    · exact parseTypeRefLoop_typeAt toks fuel _ _ _ _ _ (TypeAt.base _ _ (Or.inr rfl)) h
    · injection h with h
      injection h with h1 h2
      exact ⟨_, h1.symm, TypeAt.base _ _ (Or.inl rfl)⟩

/-- The nodes that `parseExpressionOrAssign` builds around the expression it
parses first, with their locations. -/
theorem parseExpressionOrAssign_shape (toks : List Token) (fuel : Nat) (p p1 : Parser)
    (r : ASTNodePtr) (h : parseExpressionOrAssign toks fuel p = some (r, p1)) :
    ∃ expr q, parseExpression toks fuel p = some (expr, q) ∧
      (r = some (.mk .STMT_EXPR (current toks p).loc "" [expr]) ∨
       (∃ rhs, r = some (.mk .STMT_ASSIGN (current toks p).loc "" [expr, rhs])) ∨
       (∃ rhs q2 cond, parseExpression toks fuel (advance toks q) = some (rhs, q2) ∧
          r = some (.mk .STMT_REPEAT (current toks p).loc (current toks q2).text
            [some (.mk .STMT_ASSIGN (current toks p).loc "" [expr, rhs]), cond])) ∨
       (∃ e cond, expr = some e ∧
          r = some (.mk .STMT_REPEAT (current toks p).loc (current toks q).text
            [some (.mk .STMT_EXPR e.loc "" [some e]), cond]))) := by
  unfold parseExpressionOrAssign at h
  dsimp only at h
  split at h
  · cases h
  · rename_i expr q hq
    refine ⟨expr, q, hq, ?_⟩
    split at h
    · split at h
      · cases h
      · rename_i rhs q2 hq2
        split at h
        · split at h
          · cases h
          · injection h with h
            injection h with h1 h2
            exact Or.inr (Or.inr (Or.inl ⟨rhs, q2, _, hq2, h1.symm⟩))
        · injection h with h
          injection h with h1 h2
          exact Or.inr (Or.inl ⟨rhs, h1.symm⟩)
    · split at h
      · split at h
        · cases h
        · rename_i e
          split at h
          · cases h
          · injection h with h
            injection h with h1 h2
            exact Or.inr (Or.inr (Or.inr ⟨e, _, rfl, h1.symm⟩))
      · injection h with h
        injection h with h1 h2
        exact Or.inl h1.symm

/-- One turn of the loop of a binary level: the node is located at the
operator and holds the left and the right operand. -/
theorem binaryLoop_turn (toks : List Token) (isOp : TokenType → Bool)
    (operand : Parser → Parsed) (n : Nat) (left r : ASTNodePtr) (p p2 : Parser)
    (hop : isOp (current toks p).type = true)
    (h : binaryLoop toks isOp operand (n + 1) left p = some (r, p2)) :
    ∃ right p1, operand (advance toks p) = some (right, p1) ∧
      binaryLoop toks isOp operand n
        (some (.mk .EXPR_BINARY (current toks p).loc (current toks p).text [left, right])) p1 =
        some (r, p2) := by
  rw [binaryLoop] at h
  simp only [hop, if_true] at h
  split at h
  · cases h
  · rename_i right p1 heq
    exact ⟨right, p1, heq, h⟩

/-- One turn of the postfix loop at `(`: the Call node is located at the
parenthesis and has the callee as its first child. -/
theorem postfix_call_turn (toks : List Token) (n : Nat) (e r : ASTNodePtr) (p p2 : Parser)
    (hc : check toks p .TOK_LPAREN = true)
    (h : parseExprPostfixLoop toks (n + 1) e p = some (r, p2)) :
    ∃ call p3, call.kind = .EXPR_CALL ∧ call.loc = (current toks p).loc ∧
      call.children.head? = some e ∧
      parseExprPostfixLoop toks n (some call) p3 = some (r, p2) := by
  rw [parseExprPostfixLoop] at h
  simp only [hc, if_true] at h
  split at h
  · cases h
  · rename_i args node1 p4 heq
    refine ⟨node1, _, ?_, ?_, ?_, h⟩
    all_goals
      split at heq
      · split at heq
        · cases heq
        · obtain ⟨a, b, extra, c⟩ := commaLoop_node toks _ n _ _ _ _ heq
          first
            | (rw [b]; simp)
            | (rw [a]; simp)
            | (rw [c]; rfl)
      · injection heq with heq
        injection heq with h1 h2
        rw [← h1]
        rfl

/-- One turn of the postfix loop at `[`: the Slice node is located at the
bracket and has the sliced expression as its first child. -/
theorem postfix_slice_turn (toks : List Token) (n : Nat) (e r : ASTNodePtr) (p p2 : Parser)
    (hp : check toks p .TOK_LPAREN = false) (hc : check toks p .TOK_LBRACKET = true)
    (h : parseExprPostfixLoop toks (n + 1) e p = some (r, p2)) :
    ∃ slice p3, slice.kind = .EXPR_SLICE ∧ slice.loc = (current toks p).loc ∧
      slice.children.head? = some e ∧
      parseExprPostfixLoop toks n (some slice) p3 = some (r, p2) := by
  rw [parseExprPostfixLoop] at h
  simp only [hp, hc, if_true, Bool.false_eq_true, if_false] at h
  split at h
  · cases h
  · split at h
    · cases h
    · rename_i heq
      obtain ⟨a, b, extra, c⟩ := commaLoop_node toks _ n _ _ _ _ heq
      refine ⟨_, _, ?_, ?_, ?_, h⟩
      · rw [b]; simp
      · rw [a]; simp
      · rw [c]; rfl

/-- One turn of the postfix loop at `++` or `--`: the Unary node is located
at the operator and holds the operand. -/
theorem postfix_unary_turn (toks : List Token) (n : Nat) (e : ASTNodePtr) (p : Parser)
    (hp : check toks p .TOK_LPAREN = false) (hb : check toks p .TOK_LBRACKET = false)
    (hc : (check toks p .TOK_INC || check toks p .TOK_DEC_OP) = true) :
    parseExprPostfixLoop toks (n + 1) e p =
      parseExprPostfixLoop toks n
        (some (.mk .EXPR_UNARY (current toks p).loc ("post" ++ (current toks p).text) [e]))
        (advance toks p) := by
  rw [parseExprPostfixLoop]
  simp only [hp, hb, hc, if_true, Bool.false_eq_true, if_false]
  rfl

/-- The prefix operators: the Unary node is located at the operator, the
first token of the construct. -/
theorem parseExprUnary_root (toks : List Token) (fuel : Nat) (p p1 : Parser) (node : ASTNode)
    (hop : isUnaryOp (current toks p).type = true)
    (h : parseExprUnary toks fuel p = some (some node, p1)) :
    node.kind = .EXPR_UNARY ∧ node.loc = (current toks p).loc := by
  cases fuel with
  | zero => simp [parseExprUnary] at h
  | succ n =>
    rw [parseExprUnary] at h
    simp only [hop, if_true] at h
    split at h
    · cases h
    · injection h with h
      injection h with h1 h2
      injection h1 with h1
      rw [← h1]
      simp

/-- A range `from .. to` is located where its first expression is. -/
theorem parseRange_root (toks : List Token) (n : Nat) (p p1 q : Parser) (node f : ASTNode)
    (hf : parseExpression toks n p = some (some f, q))
    (hd : check toks q .TOK_DOTDOT = true)
    (h : parseRange toks (n + 1) p = some (some node, p1)) :
    node.kind = .EXPR_RANGE ∧ node.loc = f.loc := by
  rw [parseRange] at h
  simp only [hf, hd, if_true] at h
  split at h
  · cases h
  · injection h with h
    injection h with h1 h2
    injection h1 with h1
    rw [← h1]
    simp

/-! ### Signatures and type references always return -/

theorem check_not_last {toks : List Token} (hend : EndsWithEof toks) {p : Parser}
    (hp : p.pos < toks.length) {t : TokenType} (ht : t ≠ .TOK_EOF)
    (hc : check toks p t = true) : p.pos + 1 < toks.length := by
  apply hend.not_last hp
  simp only [check, beq_iff_eq] at hc
  rw [hc]
  exact ht

theorem Follows.andThen {toks : List Token} {a b c : Parser} (h1 : Follows toks a b)
    (h2 : Follows toks b c) : Follows toks a c :=
  (follows_closed toks).trans h1 h2

theorem expect_follows (toks : List Token) (p : Parser) (type : TokenType) (context : String) :
    Follows toks p (expect toks p type context) :=
  (follows_closed toks).expect p type context

theorem parseTypeRefLoop_total {toks : List Token} (hend : EndsWithEof toks) (fuel : Nat) :
    ∀ (loc : SourceLocation) (base : ASTNodePtr) (p : Parser), p.pos < toks.length →
      toks.length - p.pos < fuel →
      ∃ r p1, parseTypeRefLoop toks fuel loc base p = some (r, p1) := by
  induction fuel with
  | zero => intro loc base p hp hf; omega
  | succ n ih =>
    intro loc base p hp hf
    rw [parseTypeRefLoop]
    split
    · rename_i hc
      have hnl := check_not_last hend hp (by decide) hc
      have ha : (advance toks p).pos = p.pos + 1 := by rw [advance_moves hnl]
      have hf1 := ((expect_follows toks (advance toks p) .TOK_LBRACKET "[").andThen
        (expect_follows toks _ .TOK_DEC "array dimension")).andThen
        (expect_follows toks _ .TOK_RBRACKET "]")
      have h1 := hf1.pos
      have h2 := hf1.inside (by omega)
      exact ih _ _ _ h2 (by omega)
    · exact ⟨_, _, rfl⟩

theorem parseTypeRef_total {toks : List Token} (hend : EndsWithEof toks) (fuel : Nat)
    (p : Parser) (hp : p.pos < toks.length) (hf : toks.length - p.pos < fuel) :
    ∃ r p1, parseTypeRef toks fuel p = some (r, p1) := by
  have h1 := advance_pos_le toks p
  have h2 := (staysInside_closed toks).advance p hp
  unfold parseTypeRef
  dsimp only
  split
  · exact parseTypeRefLoop_total hend fuel _ _ _ h2 (by omega)
  · split
    · exact parseTypeRefLoop_total hend fuel _ _ _ h2 (by omega)
    · exact ⟨_, _, rfl⟩

theorem parseFuncArg_total {toks : List Token} (hend : EndsWithEof toks) (fuel : Nat)
    (p : Parser) (hp : p.pos < toks.length) (hf : toks.length - p.pos < fuel) :
    ∃ r p1, parseFuncArg toks fuel p = some (r, p1) := by
  have hf1 := (expect_follows toks p .TOK_IDENT "argument name").andThen
    ((follows_closed toks).advance _)
  have h1 := hf1.pos
  have h2 := hf1.inside hp
  unfold parseFuncArg
  dsimp only
  split
  · obtain ⟨r, p1, e⟩ := parseTypeRef_total hend fuel _ h2 (by omega)
    rw [e]
    exact ⟨_, _, rfl⟩
  · exact ⟨_, _, rfl⟩

/-- The comma loop returns when its item function does. -/
theorem commaLoop_total {toks : List Token} (hend : EndsWithEof toks)
    {item : Parser → Parsed} (hk : Keeps (Follows toks) item)
    (hi : ∀ p : Parser, p.pos < toks.length → ∃ r p1, item p = some (r, p1)) (fuel : Nat) :
    ∀ (node : ASTNode) (p : Parser), p.pos < toks.length → toks.length - p.pos < fuel →
      ∃ node1 p1, commaLoop toks item fuel node p = some (node1, p1) := by
  induction fuel with
  | zero => intro node p hp hf; omega
  | succ n ih =>
    intro node p hp hf
    rw [commaLoop]
    split
    · rename_i hc
      have hnl := check_not_last hend hp (by decide) hc
      have ha : (advance toks p).pos = p.pos + 1 := by rw [advance_moves hnl]
      obtain ⟨r, p1, e⟩ := hi (advance toks p) (by omega)
      have hf1 := hk _ _ _ e
      have h1 := hf1.pos
      have h2 := hf1.inside (by omega)
      rw [e]
      exact ih _ _ h2 (by omega)
    · exact ⟨_, _, rfl⟩

theorem parseFuncSignature_total {toks : List Token} (hend : EndsWithEof toks) (fuel : Nat)
    (p : Parser) (hp : p.pos < toks.length) (hf : toks.length < fuel) :
    ∃ r p1, parseFuncSignature toks fuel p = some (r, p1) := by
  have hF := follows_closed toks
  have hf2 := (expect_follows toks p .TOK_IDENT "function name").andThen
    (expect_follows toks _ .TOK_LPAREN "(")
  have h2p := hf2.pos
  have h2i := hf2.inside hp
  have hargs : ∃ node1 p4, (if (!check toks
      (expect toks (expect toks p .TOK_IDENT "function name") .TOK_LPAREN "(")
        .TOK_RPAREN) = true then
      match parseFuncArg toks fuel
        (expect toks (expect toks p .TOK_IDENT "function name") .TOK_LPAREN "(") with
      | none => none
      | some (arg, p3) => commaLoop toks (parseFuncArg toks fuel) fuel
          (((makeNode .FUNC_SIGNATURE (current toks p).loc "").setValue
            (current toks p).text).addChild arg) p3
      else some ((makeNode .FUNC_SIGNATURE (current toks p).loc "").setValue
        (current toks p).text,
        expect toks (expect toks p .TOK_IDENT "function name") .TOK_LPAREN "(")) =
      some (node1, p4) ∧ p.pos ≤ p4.pos ∧ p4.pos < toks.length := by
    split
    · obtain ⟨arg, p3, e⟩ := parseFuncArg_total hend fuel _ h2i (by omega)
      have hf3 := parseFuncArg_keeps hF fuel _ _ _ e
      have h3p := hf3.pos
      have h3i := hf3.inside h2i
      obtain ⟨node1, p4, e4⟩ := commaLoop_total hend (parseFuncArg_keeps hF fuel)
        (fun q hq => parseFuncArg_total hend fuel q hq (by omega)) fuel
        (((makeNode .FUNC_SIGNATURE (current toks p).loc "").setValue
          (current toks p).text).addChild arg) p3 h3i (by omega)
      have hf4 := commaLoop_keeps hF (parseFuncArg_keeps hF fuel) fuel _ _ _ _ e4
      have h4p := hf4.pos
      have h4i := hf4.inside h3i
      rw [e]
      exact ⟨node1, p4, e4, by omega, h4i⟩
    · exact ⟨_, _, rfl, h2p, h2i⟩
  obtain ⟨node1, p4, e4, h4p, h4i⟩ := hargs
  unfold parseFuncSignature
  dsimp only
  rw [e4]
  dsimp only
  have hf5 := (expect_follows toks p4 .TOK_RPAREN ")").andThen (hF.advance _)
  have h5p := hf5.pos
  have h5i := hf5.inside h4i
  split
  · obtain ⟨r, p6, e6⟩ := parseTypeRef_total hend fuel _ h5i (by omega)
    rw [e6]
    exact ⟨_, _, rfl⟩
  · exact ⟨_, _, rfl⟩

/-! ### The value stored for a name -/

@[simp] theorem ASTNode.value_addChild (n : ASTNode) (c : ASTNodePtr) :
    (n.addChild c).value = n.value := by
  cases n; rfl

@[simp] theorem ASTNode.value_setValue (n : ASTNode) (v : String) :
    (n.setValue v).value = v := by
  cases n; rfl

@[simp] theorem ASTNode.value_makeNode (k : Kind) (loc : SourceLocation) (v : String) :
    (makeNode k loc v).value = v := rfl

theorem commaLoop_value (toks : List Token) (item : Parser → Parsed) (fuel : Nat) :
    ∀ (node node1 : ASTNode) (p p1 : Parser),
      commaLoop toks item fuel node p = some (node1, p1) → node1.value = node.value := by
  induction fuel with
  | zero => intro node node1 p p1 h; cases h
  | succ n ih =>
    intro node node1 p p1 h
    rw [commaLoop] at h
    split at h
    · split at h
      · cases h
      · have := ih _ _ _ _ h
        simpa using this
    · injection h with h
      injection h with h1 h2
      rw [h1]

/-- A failed `expect` is one call of `error`. -/
theorem expect_fails (toks : List Token) (p : Parser) (type : TokenType) (context : String)
    (h : (current toks p).type ≠ type) :
    expect toks p type context =
      error toks p ("expected '" ++ context ++ "', got '" ++ (current toks p).text ++ "'") := by
  simp only [expect, check, beq_eq_false_iff_ne.mpr h, Bool.false_eq_true, if_false]

theorem parseFuncArg_value (toks : List Token) (fuel : Nat) (p p1 : Parser) (r : ASTNodePtr)
    (h : parseFuncArg toks fuel p = some (r, p1)) :
    (∃ node, r = some node ∧ node.kind = .FUNC_ARG ∧ node.value = (current toks p).text) ∧
    Follows toks (expect toks p .TOK_IDENT "argument name") p1 := by
  have hF := follows_closed toks
  unfold parseFuncArg at h
  dsimp only at h
  split at h
  · split at h
    · cases h
    · rename_i t p2 h1
      injection h with h
      injection h with h3 h4
      rw [← h3, ← h4]
      exact ⟨⟨_, rfl, by simp, by simp⟩,
        hF.trans (hF.advance _) (parseTypeRef_keeps hF fuel _ _ _ h1)⟩
  · injection h with h
    injection h with h3 h4
    rw [← h3, ← h4]
    exact ⟨⟨_, rfl, rfl, rfl⟩, hF.refl _⟩

theorem parseFuncSignature_value (toks : List Token) (fuel : Nat) (p p1 : Parser)
    (r : ASTNodePtr) (h : parseFuncSignature toks fuel p = some (r, p1)) :
    (∃ node, r = some node ∧ node.kind = .FUNC_SIGNATURE ∧
      node.value = (current toks p).text) ∧
    Follows toks (expect toks p .TOK_IDENT "function name") p1 := by
  have hF := follows_closed toks
  unfold parseFuncSignature at h
  dsimp only at h
  split at h
  · cases h
  · rename_i node1 p4 hargs
    have hres : node1.kind = .FUNC_SIGNATURE ∧ node1.value = (current toks p).text ∧
        Follows toks (expect toks p .TOK_IDENT "function name") p4 := by
      split at hargs
      · split at hargs
        · cases hargs
        · rename_i arg p3 h1
          obtain ⟨_, b, _⟩ := commaLoop_node toks _ fuel _ _ _ _ hargs
          have c := commaLoop_value toks _ fuel _ _ _ _ hargs
          refine ⟨by simpa using b, by simpa using c, ?_⟩
          exact hF.trans (hF.expect _ _ _)
            (hF.trans (parseFuncArg_keeps hF fuel _ _ _ h1)
              (commaLoop_keeps hF (parseFuncArg_keeps hF fuel) fuel _ _ _ _ hargs))
      · injection hargs with hargs
        injection hargs with h3 h4
        rw [← h3, ← h4]
        exact ⟨by simp, by simp, hF.expect _ _ _⟩
    obtain ⟨hk, hv, hfol⟩ := hres
    split at h
    · split at h
      · cases h
      · rename_i t p6 h1
        injection h with h
        injection h with h3 h4
        rw [← h3, ← h4]
        exact ⟨⟨_, rfl, by simpa using hk, by simpa using hv⟩,
          hF.trans hfol (hF.trans (hF.expect _ _ _)
            (hF.trans (hF.advance _) (parseTypeRef_keeps hF fuel _ _ _ h1)))⟩
    · injection h with h
      injection h with h3 h4
      rw [← h3, ← h4]
      exact ⟨⟨_, rfl, hk, hv⟩, hF.trans hfol (hF.expect _ _ _)⟩

/-- What follows a state adds its errors after those of the state. -/
theorem Follows.errors_append {toks : List Token} {p p1 : Parser} (h : Follows toks p p1) :
    ∃ more, p1.errors = p.errors ++ more := by
  obtain ⟨idx, e, _, _⟩ := h.errors
  exact ⟨_, e⟩

/-! ### The else branch of an If -/

/-- What `parseIfStatement` returns: the If takes an else branch exactly when
the token right after its then branch is `else`. -/
theorem parseIfStatement_else (toks : List Token) (n : Nat) (p p2 : Parser) (r : ASTNodePtr)
    (h : parseIfStatement toks (n + 1) p = some (r, p2)) :
    ∃ cond p1 thenStmt p3,
      parseExpression toks n (expect toks p .TOK_IF "if") = some (cond, p1) ∧
      parseStatement toks n (expect toks p1 .TOK_THEN "then") = some (thenStmt, p3) ∧
      (((current toks p3).type = .TOK_ELSE ∧
          ∃ elseStmt, parseStatement toks n (advance toks p3) = some (elseStmt, p2) ∧
            r = some (.mk .STMT_IF (current toks p).loc "" [cond, thenStmt, elseStmt])) ∨
        ((current toks p3).type ≠ .TOK_ELSE ∧ p2 = p3 ∧
          r = some (.mk .STMT_IF (current toks p).loc "" [cond, thenStmt]))) := by
  rw [parseIfStatement] at h
  split at h
  · cases h
  · rename_i cond p1 hc
    split at h
    · cases h
    · rename_i thenStmt p3 ht
      refine ⟨cond, p1, thenStmt, p3, hc, ht, ?_⟩
      split at h
      · rename_i he
        simp only [check, beq_iff_eq] at he
        split at h
        · cases h
        · rename_i elseStmt p4 hs
          injection h with h
          injection h with h1 h2
          subst h2
          exact Or.inl ⟨he, elseStmt, hs, h1.symm⟩
      · rename_i he
        simp only [check, beq_iff_eq] at he
        injection h with h
        injection h with h1 h2
        exact Or.inr ⟨he, h2.symm, h1.symm⟩

/-! ## The claims -/

/-- C1 (the code fails the claim). The lexer turns the input `end` into the
tokens `end` EOF, and on this EOF-terminated token sequence `Parser::parse`
returns for no amount of fuel: `parseSourceItem` returns null without
consuming, `synchronize` stops at `end` without consuming, and the loop of
`parseSource` starts over at the same position. -/
theorem parse_end_never_returns :
    tokenize 4 "end".toList = some (endOnly, []) ∧ ∀ fuel, parse endOnly fuel = none := by
  refine ⟨rfl, fun fuel => ?_⟩
  unfold parse parseSource
  rw [parseSourceLoop_endOnly]

/-- C2. For every input, `tokenize` returns as soon as the fuel exceeds the
input length (every loop iteration consumes a character or stops), and the
token sequence is some tokens, none of kind `TOK_EOF`, followed by exactly one
`TOK_EOF` token with empty lexeme. -/
theorem tokenize_terminates_single_eof (source : List Char) (fuel : Nat)
    (h : source.length < fuel) :
    ∃ tokens errors, tokenize fuel source = some (tokens, errors) ∧
      ∃ init loc, tokens = init ++ [{ type := .TOK_EOF, text := "", loc := loc }] ∧
        ∀ t ∈ init, t.type ≠ .TOK_EOF := by
  obtain ⟨tokens, errors, e, run⟩ := tokenize_run source fuel h
  exact ⟨tokens, errors, e, run.ends_with_eof⟩

theorem tokenize_terminates_single_eof_witness :
    "x = 1".toList.length < 6 ∧
    ∃ tokens errors, tokenize 6 "x = 1".toList = some (tokens, errors) ∧
      ∃ init loc, tokens = init ++ [{ type := .TOK_EOF, text := "", loc := loc }] ∧
        ∀ t ∈ init, t.type ≠ .TOK_EOF :=
  ⟨by decide, tokenize_terminates_single_eof "x = 1".toList 6 (by decide)⟩

/-- C5. Whenever `Parser::parse` returns on a token sequence that ends in a
`TOK_EOF` token, the tree is non-null, its root has kind SOURCE and every child
of the root is a non-null FUNC_DEF node; and on the single EOF token it returns
(for every positive fuel) a SOURCE root without children and no error. -/
theorem parse_returns_source_root :
    (∀ (tokens : List Token) (fuel : Nat) (r : ParseResult),
      (∃ init eof, tokens = init ++ [eof] ∧ eof.type = .TOK_EOF) →
      parse tokens fuel = some r →
      ∃ root, r.tree = some root ∧ root.kind = .SOURCE ∧
        ∀ c ∈ root.children, ∃ n, c = some n ∧ n.kind = .FUNC_DEF) ∧
    (∀ (eof : Token) (k : Nat), eof.type = .TOK_EOF →
      parse [eof] (k + 1) = some { tree := some (.mk .SOURCE eof.loc "" []), errors := [] }) := by
  constructor
  · intro tokens fuel r _ h
    unfold parse parseSource at h
    split at h
    · cases h
    · rename_i tree p hs
      injection h with h
      subst h
      obtain ⟨root, e, _, hk, hc⟩ := parseSourceLoop_good tokens fuel _ _ _ _
        (wf_leaf .SOURCE _ _ trivial) rfl (by intro c hc; cases hc) hs
      refine ⟨root, e, hk, ?_⟩
      intro c hc1
      obtain ⟨n, e1, _, k1⟩ := hc c hc1
      exact ⟨n, e1, k1⟩
  · intro eof k he
    obtain ⟨ty, text, loc⟩ := eof
    cases he
    rfl

theorem parse_returns_source_root_witness :
    ∃ root, (ParseResult.mk (some (.mk .SOURCE tokEof.loc "" [])) []).tree = some root ∧
      root.kind = .SOURCE ∧ ∀ c ∈ root.children, ∃ n, c = some n ∧ n.kind = .FUNC_DEF :=
  parse_returns_source_root.1 [tokEof] 1 _ ⟨[], tokEof, rfl, rfl⟩ rfl

/-- C6. Well-formed tree invariant: whenever `Parser::parse` returns on a
token sequence that ends in a `TOK_EOF` token, with or without syntax errors,
the tree is non-null and well formed: every node has only non-null children
and the child count fixed by its kind (`childrenOk`). On the way, no
expression function and no statement function ever returns null (`ExprInv`,
`StmtInv`). -/
theorem parse_tree_wellFormed (tokens : List Token) (fuel : Nat) (r : ParseResult)
    (_hlast : ∃ init eof, tokens = init ++ [eof] ∧ eof.type = .TOK_EOF)
    (h : parse tokens fuel = some r) :
    (∃ root, r.tree = some root ∧ WellFormed root) ∧
    (∀ f, ExprInv tokens f) ∧ (∀ f, StmtInv tokens f) := by
  refine ⟨?_, exprInv tokens, stmtInv tokens⟩
  unfold parse parseSource at h
  split at h
  · cases h
  · rename_i tree p hs
    injection h with h
    subst h
    obtain ⟨root, e, hw, _, _⟩ := parseSourceLoop_good tokens fuel _ _ _ _
      (wf_leaf .SOURCE _ _ trivial) rfl (by intro c hc; cases hc) hs
    exact ⟨root, e, hw⟩

theorem parse_tree_wellFormed_witness :
    (∃ root, (ParseResult.mk (some (scenario2Tree "f" "x" ⟨.TOK_INT, "int", ⟨1, 12, 11⟩⟩
        scenario2Locs)) []).tree = some root ∧ WellFormed root) ∧
    (∀ f, ExprInv (scenario2Tokens "f" "x" ⟨.TOK_INT, "int", ⟨1, 12, 11⟩⟩ scenario2Locs) f) ∧
    (∀ f, StmtInv (scenario2Tokens "f" "x" ⟨.TOK_INT, "int", ⟨1, 12, 11⟩⟩ scenario2Locs) f) :=
  parse_tree_wellFormed (scenario2Tokens "f" "x" ⟨.TOK_INT, "int", ⟨1, 12, 11⟩⟩ scenario2Locs)
    21 _ ⟨(scenario2Tokens "f" "x" ⟨.TOK_INT, "int", ⟨1, 12, 11⟩⟩ scenario2Locs).dropLast,
      ⟨.TOK_EOF, "", scenario2Locs 16⟩, rfl, rfl⟩ rfl

/-- C7. Left associativity: for two operators `o1`, `o2` of the same binary
level and operand tokens `a`, `b`, `c`, `parseExpression` on the tokens
`a o1 b o2 c ;` returns `BinaryExpr(o2)[BinaryExpr(o1)[a, b], c]`, records no
error and stops at the `;` (index 5), for every fuel of at least 13. -/
theorem binary_left_associative (a o1 b o2 c semi : Token) (rest : List Token)
    (errs : List ParseError) (j fuel : Nat)
    (ha : isOperand a = true) (hb : isOperand b = true) (hc : isOperand c = true)
    (h1 : binaryLevel o1.type = some j) (h2 : binaryLevel o2.type = some j)
    (hs : semi.type = .TOK_SEMICOLON) (hf : 13 ≤ fuel) :
    parseExpression (a :: o1 :: b :: o2 :: c :: semi :: rest) fuel { pos := 0, errors := errs } =
      some (some (binaryNode o2 (binaryNode o1 (operandNode a) (operandNode b)) (operandNode c)),
        { pos := 5, errors := errs }) := by
  have hj := binaryLevel_lt h1
  obtain ⟨hsl, hsp⟩ := binaryLevel_semicolon hs
  obtain ⟨g, rfl⟩ : ∃ g, fuel = g + 1 := ⟨fuel - 1, by omega⟩
  have hA := operand_at (a :: o1 :: b :: o2 :: c :: semi :: rest) 0 errs a o1 rfl rfl ha (j + 1)
    (by omega) (g - 1 - j) (by omega) (noPostfix_of_level h1)
    (fun i hi _ => levelIsOp_false_of_level h1 (by omega))
  have hB := operand_at (a :: o1 :: b :: o2 :: c :: semi :: rest) 2 errs b o2 rfl rfl hb (j + 1)
    (by omega) (g - 1 - j) (by omega) (noPostfix_of_level h2)
    (fun i hi _ => levelIsOp_false_of_level h2 (by omega))
  have hC := operand_at (a :: o1 :: b :: o2 :: c :: semi :: rest) 4 errs c semi rfl (by simp) hc (j + 1)
    (by omega) (g - 1 - j) (by omega) hsp (fun i _ _ => levelIsOp_false_of_none hsl i)
  have h12 := advance_of_getElem? (a :: o1 :: b :: o2 :: c :: semi :: rest) 1 b errs rfl
  have h34 := advance_of_getElem? (a :: o1 :: b :: o2 :: c :: semi :: rest) 3 c errs rfl
  have hT := level_two_at (a :: o1 :: b :: o2 :: c :: semi :: rest) j hj (g - 1 - j) (by omega)
    { pos := 0, errors := errs } { pos := 1, errors := errs } { pos := 3, errors := errs }
    { pos := 5, errors := errs } _ _ _ hA ((levelIsOp_iff j hj _).mpr h1)
    (by rw [h12]; exact hB) ((levelIsOp_iff j hj _).mpr h2) (by rw [h34]; exact hC)
    (levelIsOp_false_of_none hsl j)
  have hP := level_pass_to (a :: o1 :: b :: o2 :: c :: semi :: rest) 0 j (Nat.zero_le _)
    (by omega) _ _ _ _ hT (fun k _ _ => levelIsOp_false_of_none hsl k)
  rw [parseExpression_eq_level]
  rw [show g - 1 - j + 1 + (j - 0) = g by omega] at hP
  exact hP

/-- C8. Precedence: for an operator `lo` of a strictly looser binary level than
the operator `hi` and operand tokens `a`, `b`, `c`, `parseExpression` returns
`BinaryExpr(lo)[a, BinaryExpr(hi)[b, c]]` on `a lo b hi c ;` and
`BinaryExpr(lo)[BinaryExpr(hi)[a, b], c]` on `a hi b lo c ;`, in both cases
without recording an error and stopping at the `;`, for every fuel of at
least 13. -/
theorem binary_precedence (a lo b hi c semi : Token) (rest : List Token)
    (errs : List ParseError) (i j fuel : Nat)
    (ha : isOperand a = true) (hb : isOperand b = true) (hc : isOperand c = true)
    (hlo : binaryLevel lo.type = some i) (hhi : binaryLevel hi.type = some j) (hij : i < j)
    (hs : semi.type = .TOK_SEMICOLON) (hf : 13 ≤ fuel) :
    parseExpression (a :: lo :: b :: hi :: c :: semi :: rest) fuel { pos := 0, errors := errs } =
      some (some (binaryNode lo (operandNode a) (binaryNode hi (operandNode b) (operandNode c))),
        { pos := 5, errors := errs }) ∧
    parseExpression (a :: hi :: b :: lo :: c :: semi :: rest) fuel { pos := 0, errors := errs } =
      some (some (binaryNode lo (binaryNode hi (operandNode a) (operandNode b)) (operandNode c)),
        { pos := 5, errors := errs }) := by
  have hj := binaryLevel_lt hhi
  obtain ⟨hsl, hsp⟩ := binaryLevel_semicolon hs
  obtain ⟨g, rfl⟩ : ∃ g, fuel = g + 1 := ⟨fuel - 1, by omega⟩
  constructor
  · -- a lo b hi c ;
    have hB := operand_at (a :: lo :: b :: hi :: c :: semi :: rest) 2 errs b hi rfl rfl hb (j + 1)
      (by omega) (g - 1 - j) (by omega) (noPostfix_of_level hhi)
      (fun k hk _ => levelIsOp_false_of_level hhi (by omega))
    have hC := operand_at (a :: lo :: b :: hi :: c :: semi :: rest) 4 errs c semi rfl (by simp) hc (j + 1)
      (by omega) (g - 1 - j) (by omega) hsp (fun k _ _ => levelIsOp_false_of_none hsl k)
    have h34 := advance_of_getElem? (a :: lo :: b :: hi :: c :: semi :: rest) 3 c errs rfl
    have hR := level_one_at (a :: lo :: b :: hi :: c :: semi :: rest) j hj (g - 1 - j) (by omega)
      { pos := 2, errors := errs } { pos := 3, errors := errs } { pos := 5, errors := errs }
      _ _ hB ((levelIsOp_iff j hj _).mpr hhi) (by rw [h34]; exact hC)
      (levelIsOp_false_of_none hsl j)
    have hR1 := level_pass_to (a :: lo :: b :: hi :: c :: semi :: rest) (i + 1) j (by omega)
      (by omega) _ _ _ _ hR (fun k _ _ => levelIsOp_false_of_none hsl k)
    have hA := operand_at (a :: lo :: b :: hi :: c :: semi :: rest) 0 errs a lo rfl rfl ha (i + 1)
      (by omega) (g - 1 - j + 1 + (j - (i + 1))) (by omega) (noPostfix_of_level hlo)
      (fun k hk _ => levelIsOp_false_of_level hlo (by omega))
    have h12 := advance_of_getElem? (a :: lo :: b :: hi :: c :: semi :: rest) 1 b errs rfl
    have hT := level_one_at (a :: lo :: b :: hi :: c :: semi :: rest) i (by omega)
      (g - 1 - j + 1 + (j - (i + 1))) (by omega)
      { pos := 0, errors := errs } { pos := 1, errors := errs } { pos := 5, errors := errs }
      _ _ hA ((levelIsOp_iff i (by omega) _).mpr hlo) (by rw [h12]; exact hR1)
      (levelIsOp_false_of_none hsl i)
    have hP := level_pass_to (a :: lo :: b :: hi :: c :: semi :: rest) 0 i (Nat.zero_le _)
      (by omega) _ _ _ _ hT (fun k _ _ => levelIsOp_false_of_none hsl k)
    rw [parseExpression_eq_level]
    rw [show g - 1 - j + 1 + (j - (i + 1)) + 1 + (i - 0) = g by omega] at hP
    exact hP
  · -- a hi b lo c ;
    have hA := operand_at (a :: hi :: b :: lo :: c :: semi :: rest) 0 errs a hi rfl rfl ha (j + 1)
      (by omega) (g - 1 - j) (by omega) (noPostfix_of_level hhi)
      (fun k hk _ => levelIsOp_false_of_level hhi (by omega))
    have hB := operand_at (a :: hi :: b :: lo :: c :: semi :: rest) 2 errs b lo rfl rfl hb (j + 1)
      (by omega) (g - 1 - j) (by omega) (noPostfix_of_level hlo)
      (fun k hk _ => levelIsOp_false_of_level hlo (by omega))
    have h12 := advance_of_getElem? (a :: hi :: b :: lo :: c :: semi :: rest) 1 b errs rfl
    have hL := level_one_at (a :: hi :: b :: lo :: c :: semi :: rest) j hj (g - 1 - j) (by omega)
      { pos := 0, errors := errs } { pos := 1, errors := errs } { pos := 3, errors := errs }
      _ _ hA ((levelIsOp_iff j hj _).mpr hhi) (by rw [h12]; exact hB)
      (levelIsOp_false_of_level hlo (by omega))
    have hL1 := level_pass_to (a :: hi :: b :: lo :: c :: semi :: rest) (i + 1) j (by omega)
      (by omega) _ _ _ _ hL (fun k hk _ => levelIsOp_false_of_level hlo (by omega))
    have hC := operand_at (a :: hi :: b :: lo :: c :: semi :: rest) 4 errs c semi rfl (by simp) hc (i + 1)
      (by omega) (g - 1 - j + 1 + (j - (i + 1))) (by omega) hsp
      (fun k _ _ => levelIsOp_false_of_none hsl k)
    have h34 := advance_of_getElem? (a :: hi :: b :: lo :: c :: semi :: rest) 3 c errs rfl
    have hT := level_one_at (a :: hi :: b :: lo :: c :: semi :: rest) i (by omega)
      (g - 1 - j + 1 + (j - (i + 1))) (by omega)
      { pos := 0, errors := errs } { pos := 3, errors := errs } { pos := 5, errors := errs }
      _ _ hL1 ((levelIsOp_iff i (by omega) _).mpr hlo) (by rw [h34]; exact hC)
      (levelIsOp_false_of_none hsl i)
    have hP := level_pass_to (a :: hi :: b :: lo :: c :: semi :: rest) 0 i (Nat.zero_le _)
      (by omega) _ _ _ _ hT (fun k _ _ => levelIsOp_false_of_none hsl k)
    rw [parseExpression_eq_level]
    rw [show g - 1 - j + 1 + (j - (i + 1)) + 1 + (i - 0) = g by omega] at hP
    exact hP

theorem binary_left_associative_witness :
    parseExpression [tokA, tokPlus, tokB, tokMinus, tokC, tokSemi, tokEof] 13
        { pos := 0, errors := [] } =
      some (some (binaryNode tokMinus (binaryNode tokPlus (operandNode tokA) (operandNode tokB))
        (operandNode tokC)), { pos := 5, errors := [] }) :=
  binary_left_associative tokA tokPlus tokB tokMinus tokC tokSemi [tokEof] [] 7 13
    rfl rfl rfl rfl rfl rfl (by decide)

theorem binary_precedence_witness :
    parseExpression [tokA, tokPlus, tokB, tokStar, tokC, tokSemi, tokEof] 13
        { pos := 0, errors := [] } =
      some (some (binaryNode tokPlus (operandNode tokA)
        (binaryNode tokStar (operandNode tokB) (operandNode tokC))),
        { pos := 5, errors := [] }) ∧
    parseExpression [tokA, tokStar, tokB, tokPlus, tokC, tokSemi, tokEof] 13
        { pos := 0, errors := [] } =
      some (some (binaryNode tokPlus
        (binaryNode tokStar (operandNode tokA) (operandNode tokB)) (operandNode tokC)),
        { pos := 5, errors := [] }) :=
  binary_precedence tokA tokPlus tokB tokStar tokC tokSemi [tokEof] [] 7 8 13
    rfl rfl rfl rfl rfl (by decide) rfl (by decide)

/-- C9. Scenario 2: lexing then parsing `def f(x of int) begin x = x + 1; end end`
yields no lexical error, no syntax error and the tree
`Source[FuncDef[FuncSignature(f)[FuncArg(x)[TypeBuiltin(int)]],
Block[Assign[Place(x), BinaryExpr(+)[Place(x), Literal(1)]]]]]`. Generally:
for all names `f`, `x`, every builtin type token `T` and all token locations,
parsing the token sequence of the scenario yields that tree with those
payloads and no error; and for all identifier names `f`, `x` and every builtin
type keyword `T`, lexing then parsing the source text with these names yields
that tree, no lexical error and no syntax error, as soon as the fuel exceeds
the length of the text. -/
theorem scenario2_parses :
    (∀ k, lexAndParse (k + 42) "def f(x of int) begin x = x + 1; end end" =
      some (some (scenario2Tree "f" "x" ⟨.TOK_INT, "int", ⟨1, 12, 11⟩⟩ scenario2Locs), [], [])) ∧
    (∀ (f x : String) (T : Token) (loc : Nat → SourceLocation) (k : Nat),
      isBuiltinType T.type = true →
      parse (scenario2Tokens f x T loc) (k + 21) =
        some { tree := some (scenario2Tree f x T loc), errors := [] }) ∧
    (∀ (f x T : String) (type : TokenType),
      isIdentifierName f → isIdentifierName x → (T, type) ∈ builtinTypeNames →
      ∀ fuel, (scenario2Source f x T).length < fuel →
      ∃ loc : Nat → SourceLocation, lexAndParse fuel (scenario2Source f x T) =
        some (some (scenario2Tree f x ⟨type, T, loc 5⟩ loc), [], [])) :=
  ⟨fun _ => rfl, scenario2_tokens_parse,
    fun f x T type hf hx hT fuel hfuel => scenario2_source_parse f x T type hf hx hT fuel hfuel⟩

theorem scenario2_parses_witness :
    parse (scenario2Tokens "g" "y" ⟨.TOK_BOOL, "bool", ⟨1, 12, 11⟩⟩ scenario2Locs) 21 =
      some { tree := some (scenario2Tree "g" "y" ⟨.TOK_BOOL, "bool", ⟨1, 12, 11⟩⟩ scenario2Locs),
             errors := [] } ∧
    ∃ loc : Nat → SourceLocation, lexAndParse 60 (scenario2Source "count" "n_1" "ulong") =
      some (some (scenario2Tree "count" "n_1" ⟨.TOK_ULONG, "ulong", loc 5⟩ loc), [], []) :=
  ⟨scenario2_parses.2.1 "g" "y" ⟨.TOK_BOOL, "bool", ⟨1, 12, 11⟩⟩ scenario2Locs 0 rfl,
   scenario2_parses.2.2 "count" "n_1" "ulong" .TOK_ULONG
    ⟨⟨'c', ['o', 'u', 'n', 't'], rfl, by decide, by decide⟩, rfl⟩
    ⟨⟨'n', ['_', '1'], rfl, by decide, by decide⟩, rfl⟩
    (by decide) 60 (by decide)⟩

/-- C10. Repeat statements: when `L`, `R`, `C` parse without error,
`parseExpressionOrAssign` on `L = R kw C ;` with `kw` one of `while`, `until`
returns `Repeat(kw)[Assign[L, R], C]`; when `E`, `C` parse without error, on
`E kw C ;` it returns `Repeat(kw)[ExprStmt[E], C]`; the Repeat node is valued
with the lexeme of the keyword token, the `;` is consumed and no error is
recorded. In particular `def f() x = x+1 while x<10; end` lexes and parses,
without any error, to the tree `scenario6Tree`. -/
theorem repeat_statements :
    (∀ (toks : List Token) (fuel : Nat) (p p1 p2 p3 : Parser) (L R C : ASTNode),
      parseExpression toks fuel p = some (some L, p1) →
      (current toks p1).type = .TOK_ASSIGN →
      parseExpression toks fuel (advance toks p1) = some (some R, p2) →
      ((current toks p2).type = .TOK_WHILE ∨ (current toks p2).type = .TOK_UNTIL) →
      parseExpression toks fuel (advance toks p2) = some (some C, p3) →
      (current toks p3).type = .TOK_SEMICOLON →
      p3.errors = p.errors →
      parseExpressionOrAssign toks fuel p =
        some (some (.mk .STMT_REPEAT (current toks p).loc (current toks p2).text
          [some (.mk .STMT_ASSIGN (current toks p).loc "" [some L, some R]), some C]),
          advance toks p3) ∧
      (advance toks p3).errors = p.errors) ∧
    (∀ (toks : List Token) (fuel : Nat) (p p1 p2 : Parser) (E C : ASTNode),
      parseExpression toks fuel p = some (some E, p1) →
      ((current toks p1).type = .TOK_WHILE ∨ (current toks p1).type = .TOK_UNTIL) →
      parseExpression toks fuel (advance toks p1) = some (some C, p2) →
      (current toks p2).type = .TOK_SEMICOLON →
      p2.errors = p.errors →
      parseExpressionOrAssign toks fuel p =
        some (some (.mk .STMT_REPEAT (current toks p).loc (current toks p1).text
          [some (.mk .STMT_EXPR E.loc "" [some E]), some C]),
          advance toks p2) ∧
      (advance toks p2).errors = p.errors) ∧
    (∀ k, lexAndParse (k + 32) "def f() x = x+1 while x<10; end" =
      some (some scenario6Tree, [], [])) := by
  have hadv : ∀ (toks : List Token) (q : Parser), (advance toks q).errors = q.errors := by
    intro toks q
    unfold advance
    split <;> rfl
  refine ⟨?_, ?_, fun k => rfl⟩
  · intro toks fuel p p1 p2 p3 L R C hL hassign hR hkw hC hsemi herr
    have hkw1 : (check toks p2 .TOK_WHILE || check toks p2 .TOK_UNTIL) = true := by
      rcases hkw with h | h <;> simp [check, h]
    have hA : check toks p1 .TOK_ASSIGN = true := by simp [check, hassign]
    have hS : check toks p3 .TOK_SEMICOLON = true := by simp [check, hsemi]
    refine ⟨?_, by rw [hadv, herr]⟩
    unfold parseExpressionOrAssign expect
    simp [hL, hA, hR, hkw1, hC, hS, makeNode, ASTNode.addChild]
  · intro toks fuel p p1 p2 E C hE hkw hC hsemi herr
    have hkw1 : (check toks p1 .TOK_WHILE || check toks p1 .TOK_UNTIL) = true := by
      rcases hkw with h | h <;> simp [check, h]
    have hna : check toks p1 .TOK_ASSIGN = false := by
      rcases hkw with h | h <;> simp [check, h]
    have hS : check toks p2 .TOK_SEMICOLON = true := by simp [check, hsemi]
    refine ⟨?_, by rw [hadv, herr]⟩
    unfold parseExpressionOrAssign expect
    simp [hE, hna, hkw1, hC, hS, makeNode, ASTNode.addChild]

theorem repeat_statements_witness :
    parseExpressionOrAssign repeatAssignTokens 14 { pos := 0, errors := [] } =
      some (some (.mk .STMT_REPEAT ⟨1, 1, 0⟩ "while"
        [some (.mk .STMT_ASSIGN ⟨1, 1, 0⟩ ""
          [some (.mk .EXPR_PLACE ⟨1, 1, 0⟩ "x" []), some (.mk .EXPR_PLACE ⟨1, 5, 4⟩ "y" [])]),
         some (.mk .EXPR_PLACE ⟨1, 13, 12⟩ "z" [])]),
        { pos := 6, errors := [] }) ∧
    parseExpressionOrAssign repeatExprTokens 14 { pos := 0, errors := [] } =
      some (some (.mk .STMT_REPEAT ⟨1, 1, 0⟩ "until"
        [some (.mk .STMT_EXPR ⟨1, 1, 0⟩ "" [some (.mk .EXPR_PLACE ⟨1, 1, 0⟩ "x" [])]),
         some (.mk .EXPR_PLACE ⟨1, 9, 8⟩ "z" [])]),
        { pos := 4, errors := [] }) :=
  ⟨(repeat_statements.1 repeatAssignTokens 14 { pos := 0, errors := [] }
      { pos := 1, errors := [] } { pos := 3, errors := [] } { pos := 5, errors := [] }
      _ _ _ rfl rfl rfl (Or.inl rfl) rfl rfl rfl).1,
   (repeat_statements.2.1 repeatExprTokens 14 { pos := 0, errors := [] }
      { pos := 1, errors := [] } { pos := 3, errors := [] }
      _ _ rfl (Or.inr rfl) rfl rfl rfl).1⟩

/-- C11 (scenario 3): lexing and parsing `def f( end` returns for every fuel
from 7 on. There is no lexical error, and two syntax errors are recorded at the
`end` token: the missing argument name and then the expected `)`, the only one
that names `)`. The tree is a Source with one FuncDef child whose first and
only child is the FuncSignature valued `f`. -/
theorem scenario3_missing_paren (k : Nat) :
    lexAndParse (k + 7) "def f( end" =
      some (some scenario3Tree, [],
        [⟨"expected 'argument name', got 'end'", ⟨1, 8, 7⟩⟩,
         ⟨"expected ')', got 'end'", ⟨1, 8, 7⟩⟩]) ∧
    scenario3Tree.kind = .SOURCE ∧
    (∃ loc args, scenario3Tree.children =
      [some (.mk .FUNC_DEF loc "" [some (.mk .FUNC_SIGNATURE ⟨1, 5, 4⟩ "f" args)])]) :=
  ⟨rfl, rfl, _, _, rfl⟩

/-- C12 (scenario 1): for every identifier name `n`, lexing then parsing
`def n() end` returns, with any fuel above the length of the text, no lexical
error, no syntax error and the tree `Source[FuncDef[FuncSignature(n)]]`, in
which the signature has no children and the function definition has the
signature as its only child; for `n = f` the nodes are at 1:1 and 1:5. -/
theorem scenario1_parses :
    (∀ n : String, isIdentifierName n → ∀ fuel : Nat, (scenario1Source n).length < fuel →
      ∃ loc : Nat → SourceLocation,
        lexAndParse fuel (scenario1Source n) = some (some (scenario1Tree n loc), [], [])) ∧
    (∀ k : Nat, lexAndParse (k + 8) "def f() end" =
      some (some (.mk .SOURCE ⟨1, 1, 0⟩ "" [some (.mk .FUNC_DEF ⟨1, 1, 0⟩ "" [
        some (.mk .FUNC_SIGNATURE ⟨1, 5, 4⟩ "f" [])])]), [], [])) :=
  ⟨fun n hn fuel hfuel => scenario1_source_parse n hn fuel hfuel, fun _ => rfl⟩

theorem scenario1_parses_witness :
    ∃ loc : Nat → SourceLocation,
      lexAndParse 12 (scenario1Source "f") = some (some (scenario1Tree "f" loc), [], []) :=
  scenario1_parses.1 "f" ⟨⟨'f', [], rfl, by decide, by decide⟩, rfl⟩ 12 (by decide)

/-- C20 (optional `end`): the statement loop of `parseFuncDef` stops at `def`,
at the end of input and at `end` alike, leaving the node and the errors as they
are; it stops nowhere else; and `parseFuncDef` returns exactly the node built
from the signature and the body statements, with the errors recorded while
building it, whether the token it stops on is `end` (then consumed) or not. So
`def f() def g() end` gives two FuncDef children and no error, the same kinds
and values as `def f() end def g() end`, and `def f() x = 1;` gives no error
and the same tree as `def f() x = 1; end`. -/
theorem optional_end :
    (∀ (toks : List Token) (fuel : Nat) (node : ASTNode) (p : Parser),
      (check toks p .TOK_DEF = true ∨ isAtEnd toks p = true ∨ check toks p .TOK_END = true) →
      parseFuncDefLoop toks (fuel + 1) node p = some (some node, p)) ∧
    (∀ (toks : List Token) (fuel : Nat) (node : ASTNode) (p p2 : Parser) (r : ASTNodePtr),
      parseFuncDefLoop toks fuel node p = some (r, p2) →
      check toks p2 .TOK_END = true ∨ isAtEnd toks p2 = true ∨ check toks p2 .TOK_DEF = true) ∧
    (∀ (toks : List Token) (fuel : Nat) (p : Parser),
      parseFuncDef toks fuel p =
        match funcDefBody toks fuel p with
        | none => none
        | some (node, p2) =>
          some (node, if check toks p2 .TOK_END then advance toks p2 else p2)) ∧
    (∀ (toks : List Token) (p : Parser),
      (if check toks p .TOK_END then advance toks p else p).errors = p.errors) ∧
    (∀ k : Nat,
      lexAndParse (k + 12) "def f() def g() end" =
        some (some (twoFuncTree ⟨1, 9, 8⟩ ⟨1, 13, 12⟩), [], []) ∧
      lexAndParse (k + 16) "def f() end def g() end" =
        some (some (twoFuncTree ⟨1, 13, 12⟩ ⟨1, 17, 16⟩), [], []) ∧
      lexAndParse (k + 18) "def f() x = 1;" = some (some optionalEndTree, [], []) ∧
      lexAndParse (k + 18) "def f() x = 1; end" = some (some optionalEndTree, [], [])) := by
  refine ⟨?_, fun toks fuel => parseFuncDefLoop_stops toks fuel, ?_, ?_,
    fun _ => ⟨rfl, rfl, rfl, rfl⟩⟩
  · intro toks fuel node p h
    rw [parseFuncDefLoop]
    rcases h with h | h | h
    · by_cases hE : check toks p .TOK_END = true
      · simp [hE]
      · by_cases hA : isAtEnd toks p = true
        · simp [hA]
        · simp [hE, hA, h]
    · simp [h]
    · simp [h]
  · intro toks fuel p
    cases fuel with
    | zero => simp [parseFuncDef, funcDefBody]
    | succ fuel =>
      rw [parseFuncDef, funcDefBody]
      cases parseFuncSignature toks fuel (expect toks p .TOK_DEF "def") with
      | none => rfl
      | some r =>
        obtain ⟨sig, p1⟩ := r
        dsimp only
        split
        · cases parseFuncDefLoop toks fuel
            ((makeNode .FUNC_DEF (current toks p).loc "").addChild sig) p1 with
          | none => rfl
          | some r2 =>
            obtain ⟨n2, p2⟩ := r2
            rfl
        · split <;> rfl
  · intro toks p
    split
    · unfold advance
      split <;> rfl
    · rfl

theorem optional_end_witness :
    parseFuncDefLoop [⟨.TOK_DEF, "def", ⟨1, 1, 0⟩⟩] 1
        (makeNode .FUNC_DEF ⟨1, 1, 0⟩ "") { pos := 0, errors := [] } =
      some (some (makeNode .FUNC_DEF ⟨1, 1, 0⟩ ""), { pos := 0, errors := [] }) ∧
    (check [⟨.TOK_END, "end", ⟨1, 1, 0⟩⟩] { pos := 0, errors := [] } .TOK_END = true ∨
      isAtEnd [⟨.TOK_END, "end", ⟨1, 1, 0⟩⟩] { pos := 0, errors := [] } = true ∨
      check [⟨.TOK_END, "end", ⟨1, 1, 0⟩⟩] { pos := 0, errors := [] } .TOK_DEF = true) :=
  ⟨optional_end.1 [⟨.TOK_DEF, "def", ⟨1, 1, 0⟩⟩] 0 _ { pos := 0, errors := [] }
      (Or.inl rfl),
   optional_end.2.1 [⟨.TOK_END, "end", ⟨1, 1, 0⟩⟩] 1 (makeNode .FUNC_DEF ⟨1, 1, 0⟩ "")
      { pos := 0, errors := [] } { pos := 0, errors := [] } _ rfl⟩

/-- C13 (numeric literals): with fuel above the length of the input `tokenize`
returns, and every token that starts at a decimal digit has the kind and the
lexeme of `numberLexeme` at its offset: TOK_HEX for `0x`/`0X` with the longest,
possibly empty, run of hex digits, TOK_BITS for `0b`/`0B` with the longest run
of `0`/`1`, TOK_DEC with the longest run of decimal digits otherwise; the call
of `scanToken` that returns it leaves the error list as it was. The input
`0xFF 0b101 123` gives HEX `0xFF`, BITS `0b101`, DEC `123`, EOF and no
error. -/
theorem numeric_literals :
    (∀ (source : List Char) (fuel : Nat), source.length < fuel →
      ∃ tokens errors, tokenize fuel source = some (tokens, errors) ∧
        ∀ t ∈ tokens, isdigit (source.getD t.loc.offset NUL) = true →
          t.type = (numberLexeme (source.drop t.loc.offset)).1 ∧
          t.text.data = (numberLexeme (source.drop t.loc.offset)).2 ∧
          ∃ l1 l2, ScannedAt source t l1 l2 ∧ l2.errors = l1.errors) ∧
    (∀ k : Nat, tokenize (k + 6) "0xFF 0b101 123".toList =
      some ([⟨.TOK_HEX, "0xFF", ⟨1, 1, 0⟩⟩, ⟨.TOK_BITS, "0b101", ⟨1, 6, 5⟩⟩,
        ⟨.TOK_DEC, "123", ⟨1, 12, 11⟩⟩, ⟨.TOK_EOF, "", ⟨1, 15, 14⟩⟩], [])) := by
  refine ⟨?_, fun _ => rfl⟩
  intro source fuel h
  obtain ⟨tokens, l3, e, each⟩ := tokenize_each source fuel h
  refine ⟨tokens, l3.errors, e, ?_⟩
  intro t ht hd
  obtain ⟨pre, rest, hsplit⟩ := List.append_of_mem ht
  rcases each pre t rest hsplit with ⟨_, _, hoff⟩ | ⟨l1, l2, r, hk, _, hr, hdrop, _, _⟩
  · rw [hoff, List.getD_eq_default _ _ (Nat.le_refl _)] at hd
    exact absurd hd (by decide)
  · obtain ⟨f, hf, hcall⟩ := hk.call
    obtain ⟨l2', e2, herr⟩ := scanToken_number f l1 _ r hr hd
      (by rw [Lexer.rest_length, hk.src]; exact hf)
    rw [hcall] at e2
    injection e2 with e2
    injection e2 with e3 e4
    have hrest : l1.rest = source.drop t.loc.offset := by rw [hr, hdrop]
    rw [hrest] at e3
    exact ⟨congrArg Token.type e3, congrArg (fun x => x.text.data) e3, l1, l2, hk,
      by rw [e4, herr]⟩

theorem numeric_literals_witness :
    ∃ tokens errors, tokenize 5 "0x1F".toList = some (tokens, errors) ∧
      ∀ t ∈ tokens, isdigit ("0x1F".toList.getD t.loc.offset NUL) = true →
        t.type = (numberLexeme ("0x1F".toList.drop t.loc.offset)).1 ∧
        t.text.data = (numberLexeme ("0x1F".toList.drop t.loc.offset)).2 ∧
        ∃ l1 l2, ScannedAt "0x1F".toList t l1 l2 ∧ l2.errors = l1.errors :=
  numeric_literals.1 "0x1F".toList 5 (by decide)

/-- C17 (identifiers and keywords): every token that starts at an ASCII letter
or underscore has as lexeme the longest run of letters, digits and underscores
from its offset, so the byte after the lexeme, if any, is none of these; its
kind is `keywordType` of the lexeme, which is the kind paired with the lexeme
in the table of the 21 keywords when the lexeme is one of them, in exactly
that spelling, and TOK_IDENT otherwise; scanning it records no error. No token
of kind TOK_IDENT has a keyword as its lexeme. -/
theorem identifiers_and_keywords :
    (∀ (source : List Char) (fuel : Nat), source.length < fuel →
      ∃ tokens errors, tokenize fuel source = some (tokens, errors) ∧
        (∀ t ∈ tokens,
          (isalpha (source.getD t.loc.offset NUL) ||
            source.getD t.loc.offset NUL == '_') = true →
          t.text.data = (source.drop t.loc.offset).takeWhile (fun d => isalnum d || d == '_') ∧
          (∀ d, (source.drop (t.loc.offset + t.text.length)).head? = some d →
            (isalnum d || d == '_') = false) ∧
          t.type = keywordType t.text ∧
          ∃ l1 l2, ScannedAt source t l1 l2 ∧ l2.errors = l1.errors) ∧
        (∀ t ∈ tokens, t.type = .TOK_IDENT → t.text ∉ keywordNames)) ∧
    (keywords.map Prod.fst = keywordNames ∧ keywordNames.length = 21) ∧
    (∀ e ∈ keywords, keywordType e.1 = e.2 ∧ e.2 ≠ .TOK_IDENT) ∧
    (∀ w : String, w ∉ keywordNames → keywordType w = .TOK_IDENT) ∧
    keywordType "def" = .TOK_DEF ∧ keywordType "Def" = .TOK_IDENT := by
  refine ⟨?_, ⟨rfl, rfl⟩, fun e he => ⟨(keywords_facts e he).1, (keywords_facts e he).2.1⟩,
    ?_, rfl, rfl⟩
  · intro source fuel h
    obtain ⟨tokens, l3, e, each⟩ := tokenize_each source fuel h
    refine ⟨tokens, l3.errors, e, ?_, ?_⟩
    · intro t ht hc
      obtain ⟨pre, rest, hsplit⟩ := List.append_of_mem ht
      rcases each pre t rest hsplit with ⟨_, _, hoff⟩ | ⟨l1, l2, r, hk, _, hr, hdrop, _, _⟩
      · rw [hoff, List.getD_eq_default _ _ (Nat.le_refl _)] at hc
        exact absurd hc (by decide)
      · obtain ⟨f, hf, hcall⟩ := hk.call
        obtain ⟨l2', e2, herr, hafter⟩ := scanToken_ident f l1 _ r hr hc
          (by rw [Lexer.rest_length, hk.src]; exact hf)
        rw [hcall] at e2
        injection e2 with e2
        injection e2 with e3 e4
        have hrest : l1.rest = source.drop t.loc.offset := by rw [hr, hdrop]
        rw [hrest] at e3
        have htext : t.text.data =
            (source.drop t.loc.offset).takeWhile (fun d => isalnum d || d == '_') :=
          congrArg (fun x => x.text.data) e3
        have hty : t.type = keywordType t.text := by
          rw [congrArg Token.text e3]
          exact congrArg Token.type e3
        refine ⟨htext, ?_, hty, l1, l2, hk, by rw [e4, herr]⟩
        intro d hd
        rw [← List.drop_drop, String.length_eq_data, htext, drop_takeWhile_length] at hd
        exact head_dropWhile_false _ _ d hd
    · intro t ht hty
      obtain ⟨pre, rest, hsplit⟩ := List.append_of_mem ht
      rcases each pre t rest hsplit with ⟨_, heof, _⟩ | ⟨l1, l2, r, hk, _⟩
      · rw [hty] at heof
        cases heof
      · obtain ⟨f, _, hcall⟩ := hk.call
        exact not_keyword_of_ident (scanToken_ident_kind f l1 t l2 hcall hty)
  · intro w hw
    rcases keywordType_mem w with h | h
    · exact h
    · exact absurd (keywords_facts _ h).2.2.2 hw

theorem identifiers_and_keywords_witness :
    ∃ tokens errors, tokenize 5 "if_".toList = some (tokens, errors) ∧
      (∀ t ∈ tokens,
        (isalpha ("if_".toList.getD t.loc.offset NUL) ||
          "if_".toList.getD t.loc.offset NUL == '_') = true →
        t.text.data = ("if_".toList.drop t.loc.offset).takeWhile
          (fun d => isalnum d || d == '_') ∧
        (∀ d, ("if_".toList.drop (t.loc.offset + t.text.length)).head? = some d →
          (isalnum d || d == '_') = false) ∧
        t.type = keywordType t.text ∧
        ∃ l1 l2, ScannedAt "if_".toList t l1 l2 ∧ l2.errors = l1.errors) ∧
      (∀ t ∈ tokens, t.type = .TOK_IDENT → t.text ∉ keywordNames) :=
  identifiers_and_keywords.1 "if_".toList 5 (by decide)

/-- C18 (greedy two-character operators): for every token and every pair of
the table of the eleven two-character operators, if the bytes at the token's
offset and right after it are that pair, then the token is that operator with
the two bytes as lexeme; and no token of a one-character operator kind starts
at such a pair. `===` gives EQ, ASSIGN and `+++` gives INC, PLUS. -/
theorem greedy_two_char :
    (∀ (source : List Char) (fuel : Nat), source.length < fuel →
      ∃ tokens errors, tokenize fuel source = some (tokens, errors) ∧
        (∀ t ∈ tokens, ∀ e ∈ twoCharOperators,
          source.getD t.loc.offset NUL = e.1 → source.getD (t.loc.offset + 1) NUL = e.2.1 →
          t.type = e.2.2 ∧ t.text.data = [e.1, e.2.1]) ∧
        (∀ t ∈ tokens, isOneCharKind t.type = true → ∀ e ∈ twoCharOperators,
          ¬(source.getD t.loc.offset NUL = e.1 ∧
            source.getD (t.loc.offset + 1) NUL = e.2.1))) ∧
    (∀ k : Nat, tokenize (k + 3) "===".toList =
      some ([⟨.TOK_EQ, "==", ⟨1, 1, 0⟩⟩, ⟨.TOK_ASSIGN, "=", ⟨1, 3, 2⟩⟩,
        ⟨.TOK_EOF, "", ⟨1, 4, 3⟩⟩], [])) ∧
    (∀ k : Nat, tokenize (k + 3) "+++".toList =
      some ([⟨.TOK_INC, "++", ⟨1, 1, 0⟩⟩, ⟨.TOK_PLUS, "+", ⟨1, 3, 2⟩⟩,
        ⟨.TOK_EOF, "", ⟨1, 4, 3⟩⟩], [])) := by
  refine ⟨?_, fun _ => rfl, fun _ => rfl⟩
  intro source fuel h
  obtain ⟨tokens, l3, e, each⟩ := tokenize_each source fuel h
  have first : ∀ t ∈ tokens, ∀ e ∈ twoCharOperators,
      source.getD t.loc.offset NUL = e.1 → source.getD (t.loc.offset + 1) NUL = e.2.1 →
      t.type = e.2.2 ∧ t.text.data = [e.1, e.2.1] := by
    intro t ht e he h1 h2
    obtain ⟨pre, rest, hsplit⟩ := List.append_of_mem ht
    rcases each pre t rest hsplit with ⟨_, _, hoff⟩ | ⟨l1, l2, r, hk, _, _, _, hpk, hnx⟩
    · rw [hoff, List.getD_eq_default _ _ (Nat.le_refl _)] at h1
      exact absurd h1.symm (twoCharOperator_of_mem e he).2.2.2.2.2.2.2.1
    · obtain ⟨f, _, hcall⟩ := hk.call
      rw [scanToken_two f l1 e he (by rw [hpk, h1]) (by rw [hnx, h2])] at hcall
      injection hcall with hcall
      injection hcall with e3 e4
      exact ⟨by rw [← e3]; rfl, by rw [← e3]; rfl⟩
  refine ⟨tokens, l3.errors, e, first, ?_⟩
  intro t ht hone e he hpair
  have := (first t ht e he hpair.1 hpair.2).1
  rw [this, (twoCharOperator_of_mem e he).2.1] at hone
  cases hone

theorem greedy_two_char_witness :
    ∃ tokens errors, tokenize 5 "<=".toList = some (tokens, errors) ∧
      (∀ t ∈ tokens, ∀ e ∈ twoCharOperators,
        "<=".toList.getD t.loc.offset NUL = e.1 →
        "<=".toList.getD (t.loc.offset + 1) NUL = e.2.1 →
        t.type = e.2.2 ∧ t.text.data = [e.1, e.2.1]) ∧
      (∀ t ∈ tokens, isOneCharKind t.type = true → ∀ e ∈ twoCharOperators,
        ¬("<=".toList.getD t.loc.offset NUL = e.1 ∧
          "<=".toList.getD (t.loc.offset + 1) NUL = e.2.1)) :=
  greedy_two_char.1 "<=".toList 5 (by decide)

/-- C14 (string literals): for every token that starts at a `"`, with
`closingQuote` the index, in the text after that quote, of the first `"` that
is not the byte right after an escaping backslash: if there is one, the token
is a TOK_STRING whose lexeme is the source text from the opening to the
closing quote, both included and escapes undecoded, and scanning it records no
error; if there is none, the token is a TOK_ERROR whose lexeme is the source
from the opening quote to the end of the input, scanning it records exactly
the one error `Unterminated string literal` at the token's location, and the
only token after it is EOF. The input `"abc` gives ERROR, EOF and one error at
line 1, column 1, offset 0. -/
theorem string_literals :
    (∀ (source : List Char) (fuel : Nat), source.length < fuel →
      ∃ tokens errors, tokenize fuel source = some (tokens, errors) ∧
        ∀ (pre : List Token) (t : Token) (rest : List Token), tokens = pre ++ t :: rest →
          source.getD t.loc.offset NUL = '"' →
          ∃ l1 l2, ScannedAt source t l1 l2 ∧
            (∀ n, closingQuote (source.drop (t.loc.offset + 1)) = some n →
              t.type = .TOK_STRING ∧ t.text.data = (source.drop t.loc.offset).take (n + 2) ∧
              l2.errors = l1.errors) ∧
            (closingQuote (source.drop (t.loc.offset + 1)) = none →
              t.type = .TOK_ERROR ∧ t.text.data = source.drop t.loc.offset ∧
              l2.errors = l1.errors ++ [⟨"Unterminated string literal", t.loc⟩] ∧
              ∃ loc, rest = [makeToken .TOK_EOF "" loc])) ∧
    (∀ k : Nat, tokenize (k + 5) "\"abc".toList =
      some ([⟨.TOK_ERROR, "\"abc", ⟨1, 1, 0⟩⟩, ⟨.TOK_EOF, "", ⟨1, 5, 4⟩⟩],
        [⟨"Unterminated string literal", ⟨1, 1, 0⟩⟩])) ∧
    (∀ k : Nat, tokenize (k + 8) "\"a\\\"b\" c".toList =
      some ([⟨.TOK_STRING, "\"a\\\"b\"", ⟨1, 1, 0⟩⟩, ⟨.TOK_IDENT, "c", ⟨1, 8, 7⟩⟩,
        ⟨.TOK_EOF, "", ⟨1, 9, 8⟩⟩], [])) ∧
    closingQuote "a\\\"b\" c".toList = some 4 ∧ closingQuote "a\\\\\" c".toList = some 3 := by
  refine ⟨?_, fun _ => rfl, fun _ => rfl, by decide, by decide⟩
  intro source fuel h
  obtain ⟨tokens, l3, e, each⟩ := tokenize_each source fuel h
  refine ⟨tokens, l3.errors, e, ?_⟩
  intro pre t rest hsplit hq
  rcases each pre t rest hsplit with ⟨_, _, hoff⟩ | ⟨l1, l2, r, hk, hrun, hr, hdrop, _, _⟩
  · rw [hoff, List.getD_eq_default _ _ (Nat.le_refl _)] at hq
    exact absurd hq (by decide)
  · obtain ⟨f, hf, hcall⟩ := hk.call
    rw [hq] at hr hdrop
    obtain ⟨t', l2', e2, g1, g2⟩ := scanToken_string f l1 r hr
      (by rw [Lexer.rest_length, hk.src]; exact hf)
    rw [hcall] at e2
    injection e2 with e2
    injection e2 with e3 e4
    subst e3 e4
    have hrest : l1.rest = source.drop t.loc.offset := by rw [hr, hdrop]
    have htail : source.drop (t.loc.offset + 1) = r := by
      rw [← List.drop_drop, hdrop]
      rfl
    rw [htail, ← hrest]
    refine ⟨l1, l2, hk, g1, ?_⟩
    intro hn
    obtain ⟨a1, a2, a3, a4⟩ := g2 hn
    refine ⟨a1, a2, by rw [a3, hk.loc], ?_⟩
    exact hrun.at_end a4

theorem string_literals_witness :
    ∃ tokens errors, tokenize 9 "\"a\" \"b".toList = some (tokens, errors) ∧
      ∀ (pre : List Token) (t : Token) (rest : List Token), tokens = pre ++ t :: rest →
        "\"a\" \"b".toList.getD t.loc.offset NUL = '"' →
        ∃ l1 l2, ScannedAt "\"a\" \"b".toList t l1 l2 ∧
          (∀ n, closingQuote ("\"a\" \"b".toList.drop (t.loc.offset + 1)) = some n →
            t.type = .TOK_STRING ∧
            t.text.data = ("\"a\" \"b".toList.drop t.loc.offset).take (n + 2) ∧
            l2.errors = l1.errors) ∧
          (closingQuote ("\"a\" \"b".toList.drop (t.loc.offset + 1)) = none →
            t.type = .TOK_ERROR ∧ t.text.data = "\"a\" \"b".toList.drop t.loc.offset ∧
            l2.errors = l1.errors ++ [⟨"Unterminated string literal", t.loc⟩] ∧
            ∃ loc, rest = [makeToken .TOK_EOF "" loc]) :=
  string_literals.1 "\"a\" \"b".toList 9 (by decide)

/-- C15 (char literals), the input on which the code leaves its documentation
(`TOK_CHAR` is `'.'` in `lexer.h`): whatever follows, two quotes in a row at
the start of the input are scanned as one TOK_CHAR token whose lexeme is the
two quotes, of length 2 with nothing between them, and no error is recorded;
so `''` gives CHAR, EOF and an empty error list. -/
theorem char_literal_empty :
    (∀ (r : List Char) (fuel : Nat),
      ∃ l2, scanToken fuel (Lexer.init ('\'' :: '\'' :: r)) =
          some (⟨.TOK_CHAR, "''", ⟨1, 1, 0⟩⟩, l2) ∧ l2.errors = []) ∧
    (∀ k : Nat, tokenize (k + 2) "''".toList =
      some ([⟨.TOK_CHAR, "''", ⟨1, 1, 0⟩⟩, ⟨.TOK_EOF, "", ⟨1, 3, 2⟩⟩], [])) ∧
    ("''" : String).length = 2 := by
  refine ⟨?_, fun _ => rfl, rfl⟩
  intro r fuel
  have hr : (Lexer.init ('\'' :: '\'' :: r)).rest = '\'' :: '\'' :: r := rfl
  obtain ⟨_, hcur, hpk, _, hadv⟩ := Lexer.rest_cons hr
  obtain ⟨hna2, hcur2, hpk2, _, _⟩ := Lexer.rest_cons hadv
  refine ⟨(Lexer.init ('\'' :: '\'' :: r)).advance.advance, ?_, rfl⟩
  unfold scanToken readChar
  rw [if_neg (by rw [hpk]; decide), if_pos (by rw [hpk]; decide)]
  simp only [hna2, hpk2, hcur, hcur2, bne_self_eq_false, Bool.and_false, Bool.false_eq_true,
    if_false, Bool.not_false, beq_self_eq_true, Bool.and_self, if_true]
  rfl

/-- C16 (block comments): when the lexer stands at `/*` between tokens,
`skipWhitespaceAndComments` runs the comment loop from depth 1 and then goes on
skipping from where that loop stops, which is right after the `*/` at which
the depth counter of `commentClose` gets to zero, or the end of the input when
it never does; no token is made and the error list stays as it was. When the
depth never gets to zero the loop of `tokenize` appends the EOF token only, so
an input that is one unclosed comment gives the single EOF token and no error.
`/* a /* b */ c */ x` gives IDENT `x`, EOF. -/
theorem block_comments :
    (∀ (fuel : Nat) (l : Lexer) (r : List Char), l.rest = '/' :: '*' :: r →
      l.rest.length < fuel + 1 →
      ∃ l1, skipBlockComment (fuel + 1) 1 l.advance.advance = some l1 ∧
        skipWhitespaceAndComments (fuel + 1) l = skipWhitespaceAndComments fuel l1 ∧
        l1.errors = l.errors ∧
        (∀ n, commentClose r 1 = some n → l1.rest = r.drop n) ∧
        (commentClose r 1 = none → l1.rest = [])) ∧
    (∀ (fuel : Nat) (acc : List Token) (l : Lexer) (r : List Char),
      l.rest = '/' :: '*' :: r → commentClose r 1 = none → l.rest.length < fuel →
      ∃ l1, tokenizeLoop fuel acc l = some (acc ++ [makeToken .TOK_EOF "" l1.here], l1) ∧
        l1.errors = l.errors ∧ l1.rest = []) ∧
    (∀ (r : List Char) (fuel : Nat), commentClose r 1 = none → r.length + 2 < fuel →
      ∃ loc, tokenize fuel ('/' :: '*' :: r) = some ([makeToken .TOK_EOF "" loc], [])) ∧
    (∀ k : Nat, tokenize (k + 20) "/* a /* b */ c */ x".toList =
      some ([⟨.TOK_IDENT, "x", ⟨1, 19, 18⟩⟩, ⟨.TOK_EOF, "", ⟨1, 20, 19⟩⟩], [])) ∧
    commentClose " a /* b */ c */ x".toList 1 = some 15 ∧
    commentClose "/ a".toList 1 = none := by
  have first : ∀ (fuel : Nat) (l : Lexer) (r : List Char), l.rest = '/' :: '*' :: r →
      l.rest.length < fuel + 1 →
      ∃ l1, skipBlockComment (fuel + 1) 1 l.advance.advance = some l1 ∧
        skipWhitespaceAndComments (fuel + 1) l = skipWhitespaceAndComments fuel l1 ∧
        l1.errors = l.errors ∧
        (∀ n, commentClose r 1 = some n → l1.rest = r.drop n) ∧
        (commentClose r 1 = none → l1.rest = []) := by
    intro fuel l r hr hf
    obtain ⟨hna, _, hpk, hnx, hadv⟩ := Lexer.rest_cons hr
    obtain ⟨_, _, _, _, hadv2⟩ := Lexer.rest_cons hadv
    obtain ⟨l1, e1, g1, g2, g3⟩ := skipBlockComment_close (fuel + 1) 1 l.advance.advance
      (by rw [hadv2]; rw [hr] at hf; simp at hf; omega)
    rw [hadv2] at g2 g3
    refine ⟨l1, e1, ?_, by rw [g1, Lexer.advance_errors, Lexer.advance_errors], g2, g3⟩
    rw [skipWhitespaceAndComments, e1, hna, hpk, hnx]
    rfl
  have second : ∀ (fuel : Nat) (acc : List Token) (l : Lexer) (r : List Char),
      l.rest = '/' :: '*' :: r → commentClose r 1 = none → l.rest.length < fuel →
      ∃ l1, tokenizeLoop fuel acc l = some (acc ++ [makeToken .TOK_EOF "" l1.here], l1) ∧
        l1.errors = l.errors ∧ l1.rest = [] := by
    intro fuel acc l r hr hn hf
    obtain ⟨k, rfl⟩ : ∃ k, fuel = k + 2 := ⟨fuel - 2, by rw [hr] at hf; simp at hf; omega⟩
    obtain ⟨l1, _, e2, g1, _, g3⟩ := first (k + 1) l r hr (by omega)
    have hend := Lexer.rest_nil (g3 hn)
    refine ⟨l1, ?_, g1, g3 hn⟩
    rw [tokenizeLoop, e2, skipWhitespaceAndComments, if_pos hend]
    simp only [hend, if_true]
  refine ⟨first, second, ?_, fun _ => rfl, by decide, by decide⟩
  intro r fuel hn hf
  obtain ⟨l1, e1, g1, _⟩ := second fuel [] (Lexer.init ('/' :: '*' :: r)) r rfl hn
    (by simpa [Lexer.rest, Lexer.init] using hf)
  refine ⟨l1.here, ?_⟩
  unfold tokenize
  rw [e1]
  simp only [List.nil_append, g1]
  rfl

theorem block_comments_witness :
    ∃ loc, tokenize 9 "/* a /*".toList = some ([makeToken .TOK_EOF "" loc], []) :=
  block_comments.2.2.1 " a /*".toList 9 (by decide) (by decide)

/-- C19, the statement that holds: for every byte `c` that is not whitespace, a
quote, a digit, an ASCII letter, an underscore or an operator or punctuation
byte, and every text `rest` such that `c` followed by `rest` does not start a
two-character operator, `tokenize (c :: rest)` returns the error token with
lexeme `c` at 1:1, offset 0, followed by the tokens of `tokenize rest`, and the
error `Unexpected character: c` at 1:1, offset 0, followed by the errors of
`tokenize rest`, each with the same kind, lexeme and message and with its
location shifted by `shiftLoc`: the offset one larger, the line the same, the
column one larger on line 1 and the same on later lines. -/
theorem unexpected_character (c : Char) (rest : List Char)
    (hw : c ≠ ' ' ∧ c ≠ '\t' ∧ c ≠ '\r' ∧ c ≠ '\n') (hq : c ≠ '"' ∧ c ≠ '\'')
    (hd : isdigit c = false) (ha : (isalpha c || c == '_') = false)
    (ho : c ∉ operatorChars)
    (htwo : ∀ e ∈ twoCharOperators, ¬(c = e.1 ∧ rest.head? = some e.2.1))
    (fuel : Nat) (hf : rest.length < fuel) :
    ∃ toks errs, tokenize fuel rest = some (toks, errs) ∧
      tokenize (fuel + 1) (c :: rest) =
        some (⟨.TOK_ERROR, String.singleton c, ⟨1, 1, 0⟩⟩ :: toks.map shiftToken,
          ⟨"Unexpected character: " ++ String.singleton c, ⟨1, 1, 0⟩⟩ ::
            errs.map shiftError) ∧
      (∀ t : Token, (shiftToken t).type = t.type ∧ (shiftToken t).text = t.text ∧
        (shiftToken t).loc = shiftLoc t.loc) ∧
      (∀ e : LexerError, (shiftError e).message = e.message ∧
        (shiftError e).loc = shiftLoc e.loc) := by
  obtain ⟨tail, k3, e, _⟩ := tokenizeLoop_scanRun fuel [] (Lexer.init rest)
    (Nat.zero_le _) (by simpa [Lexer.init] using hf)
  obtain ⟨tail2, l3, a1, a2, a3⟩ := tokenizeLoop_shift c
    [⟨"Unexpected character: " ++ String.singleton c, ⟨1, 1, 0⟩⟩] fuel
    [⟨.TOK_ERROR, String.singleton c, ⟨1, 1, 0⟩⟩] [] _ _ _ k3
    (shifted_after_unexpected c rest _ ⟨1, 1, 0⟩ hw.2.2.2) e
  have ht : tail2 = tail := by
    simp only [List.nil_append] at a1
    exact a1.symm
  subst ht
  refine ⟨tail2, k3.errors, ?_, ?_, fun _ => ⟨rfl, rfl, rfl⟩, fun _ => ⟨rfl, rfl⟩⟩
  · unfold tokenize
    rw [e]
    rfl
  · unfold tokenize
    rw [tokenizeLoop_unexpected c rest fuel hw hq hd ha ho htwo, a2]
    simp only [a3.errors]
    rfl

theorem unexpected_character_witness :
    ∃ toks errs, tokenize 5 " a".toList = some (toks, errs) ∧
      tokenize (5 + 1) ('@' :: " a".toList) =
        some (⟨.TOK_ERROR, String.singleton '@', ⟨1, 1, 0⟩⟩ :: toks.map shiftToken,
          ⟨"Unexpected character: " ++ String.singleton '@', ⟨1, 1, 0⟩⟩ ::
            errs.map shiftError) ∧
      (∀ t : Token, (shiftToken t).type = t.type ∧ (shiftToken t).text = t.text ∧
        (shiftToken t).loc = shiftLoc t.loc) ∧
      (∀ e : LexerError, (shiftError e).message = e.message ∧
        (shiftError e).loc = shiftLoc e.loc) :=
  unexpected_character '@' " a".toList (by decide) (by decide) (by decide) (by decide)
    (by decide) (by decide) 5 (by decide)

/-- C19 as stated fails in the columns: with `c = @` and `rest` a newline
followed by `a`, the token `a` is at line 2, column 1 in both token lists, so
its location is shifted by one offset but not by one column. -/
theorem unexpected_character_column :
    tokenize 4 "@\na".toList =
      some ([⟨.TOK_ERROR, "@", ⟨1, 1, 0⟩⟩, ⟨.TOK_IDENT, "a", ⟨2, 1, 2⟩⟩,
        ⟨.TOK_EOF, "", ⟨2, 2, 3⟩⟩], [⟨"Unexpected character: @", ⟨1, 1, 0⟩⟩]) ∧
    tokenize 4 "\na".toList =
      some ([⟨.TOK_IDENT, "a", ⟨2, 1, 1⟩⟩, ⟨.TOK_EOF, "", ⟨2, 2, 2⟩⟩], []) ∧
    ¬shiftedByOne ⟨2, 1, 2⟩ ⟨2, 1, 1⟩ ∧ ¬shiftedByOne ⟨2, 2, 3⟩ ⟨2, 2, 2⟩ :=
  ⟨rfl, rfl, by simp [shiftedByOne], by simp [shiftedByOne]⟩

/-- C22 (resynchronization): on a token sequence whose last token is EOF, from
every position inside it, `synchronize` returns once the fuel covers the tokens
that are left, records no error, and with `j` the first index from the
position on whose token is `;`, one of `def if while until break end begin {`
or EOF, leaves the position at `j + 1` if that token is `;` and at `j`
otherwise; no token before `j` has one of these kinds. -/
theorem synchronize_resumes (toks : List Token) (hend : EndsWithEof toks) (fuel : Nat)
    (p : Parser) (hp : p.pos < toks.length) (hf : toks.length - p.pos ≤ fuel) :
    ∃ j, p.pos ≤ j ∧ j < toks.length ∧ isSyncStop (tokenAt toks j).type = true ∧
      (∀ i, p.pos ≤ i → i < j → isSyncStop (tokenAt toks i).type = false) ∧
      synchronize toks fuel p =
        some { pos := if (tokenAt toks j).type = .TOK_SEMICOLON then j + 1 else j,
               errors := p.errors } :=
  synchronize_spec toks hend fuel p hp hf

theorem synchronize_resumes_witness :
    ∃ j, 0 ≤ j ∧ j < syncSample.length ∧ isSyncStop (tokenAt syncSample j).type = true ∧
      (∀ i, 0 ≤ i → i < j → isSyncStop (tokenAt syncSample i).type = false) ∧
      synchronize syncSample 3 { pos := 0, errors := [] } =
        some { pos := if (tokenAt syncSample j).type = .TOK_SEMICOLON then j + 1 else j,
               errors := [] } :=
  synchronize_resumes syncSample
    ⟨[⟨.TOK_IDENT, "x", ⟨1, 1, 0⟩⟩, ⟨.TOK_SEMICOLON, ";", ⟨1, 2, 1⟩⟩],
      ⟨.TOK_EOF, "", ⟨1, 3, 2⟩⟩, rfl, rfl⟩ 3 { pos := 0, errors := [] }
    (by decide) (by decide)

/-- C23 (error sentinels): when the current token is not `(`, a literal or an
identifier, `parseExprPrimary` appends exactly one error
`expected expression, got '<lexeme>'` at that token's location and returns a
childless Literal node valued `<error>` at that location; when the current
token is neither a builtin type keyword nor an identifier, `parseTypeRef`
appends exactly one error at that token's location and returns a childless
TypeBuiltin node valued `<error>`. `parseExpression` and `parseTypeRef` never
return a null pointer, so the child slot is filled. -/
theorem error_sentinels :
    (∀ (toks : List Token) (fuel : Nat) (p : Parser),
      startsPrimary (current toks p).type = false →
      ∃ p1, parseExprPrimary toks (fuel + 1) p =
          some (some (.mk .EXPR_LITERAL (current toks p).loc "<error>" []), p1) ∧
        p1.errors = p.errors ++
          [⟨"expected expression, got '" ++ (current toks p).text ++ "'",
            (current toks p).loc⟩]) ∧
    (∀ (toks : List Token) (fuel : Nat) (p : Parser),
      startsType (current toks p).type = false →
      ∃ p1, parseTypeRef toks fuel p =
          some (some (.mk .TYPE_BUILTIN (current toks p).loc "<error>" []), p1) ∧
        p1.errors = p.errors ++ [⟨"expected type name", (current toks p).loc⟩]) ∧
    (∀ (toks : List Token) (fuel : Nat) (p p1 : Parser) (r : ASTNodePtr),
      parseExpression toks fuel p = some (r, p1) → ∃ n, r = some n) ∧
    (∀ (toks : List Token) (fuel : Nat) (p p1 : Parser) (r : ASTNodePtr),
      parseTypeRef toks fuel p = some (r, p1) → ∃ n, r = some n) := by
  refine ⟨?_, ?_, ?_, ?_⟩
  · intro toks fuel p h
    exact ⟨_, parseExprPrimary_sentinel toks fuel p h, by rw [advance_keeps_errors]⟩
  · intro toks fuel p h
    exact ⟨_, parseTypeRef_sentinel toks fuel p h, rfl⟩
  · intro toks fuel p p1 r h
    obtain ⟨n, hn, _⟩ := (exprInv toks fuel).expression p r p1 h
    exact ⟨n, hn⟩
  · intro toks fuel p p1 r h
    obtain ⟨n, hn, _⟩ := parseTypeRef_good toks fuel p r p1 h
    exact ⟨n, hn⟩

theorem error_sentinels_witness :
    ∃ p1, parseExprPrimary syncSample (0 + 1) { pos := 1, errors := [] } =
        some (some (.mk .EXPR_LITERAL (current syncSample { pos := 1, errors := [] }).loc
          "<error>" []), p1) ∧
      p1.errors = [] ++
        [⟨"expected expression, got '" ++
            (current syncSample { pos := 1, errors := [] }).text ++ "'",
          (current syncSample { pos := 1, errors := [] }).loc⟩] :=
  error_sentinels.1 syncSample 0 { pos := 1, errors := [] } rfl

/-- C30 (a missing expression consumes the offending token): on a token
sequence that has EOF as its last token and nowhere else, a failing
`parseExprPrimary` leaves the position one further, whatever the kind of the
current token, unless that token is EOF, where it stays; a failed `expect`
and a failed `parseTypeRef` leave the position where it is and append one
error. So `def f() x = ; end` records exactly two errors, the expected
expression at `;` and the expected `;` at `end`, and gives
Assign[Place(x), Literal(<error>)]. -/
theorem missing_expression_consumes :
    (∀ (toks : List Token), EofTerminated toks → ∀ (fuel : Nat) (p : Parser),
      p.pos < toks.length → startsPrimary (current toks p).type = false →
      ∃ r p1, parseExprPrimary toks (fuel + 1) p = some (r, p1) ∧
        p1.pos = if (current toks p).type = .TOK_EOF then p.pos else p.pos + 1) ∧
    (∀ (toks : List Token) (p : Parser) (type : TokenType) (context : String),
      check toks p type = false →
      (expect toks p type context).pos = p.pos ∧
      (expect toks p type context).errors = p.errors ++
        [⟨"expected '" ++ context ++ "', got '" ++ (current toks p).text ++ "'",
          (current toks p).loc⟩]) ∧
    (∀ (toks : List Token) (fuel : Nat) (p : Parser),
      startsType (current toks p).type = false →
      ∃ r p1, parseTypeRef toks fuel p = some (r, p1) ∧ p1.pos = p.pos) ∧
    (∀ k : Nat, lexAndParse (k + 18) "def f() x = ; end" =
      some (some missingExprTree, [],
        [⟨"expected expression, got ';'", ⟨1, 13, 12⟩⟩,
         ⟨"expected ';', got 'end'", ⟨1, 15, 14⟩⟩])) := by
  refine ⟨?_, ?_, ?_, fun _ => rfl⟩
  · intro toks hend fuel p hp h
    refine ⟨_, _, parseExprPrimary_sentinel toks fuel p h, ?_⟩
    have hcur : current toks { pos := p.pos, errors := p.errors ++
        [⟨"expected expression, got '" ++ (current toks p).text ++ "'",
          (current toks p).loc⟩] } = current toks p := rfl
    have hiff := hend.eof_iff_last (p := p) hp
    by_cases he : (current toks p).type = .TOK_EOF
    · rw [if_pos he, advance_stays (by have := hiff.mp he; simp only; omega)]
    · have hm := hend.endsWithEof.not_last hp he
      rw [if_neg he]
      simp [advance, hm]
  · intro toks p type context h
    unfold expect
    rw [if_neg (by rw [h]; exact Bool.false_ne_true)]
    exact ⟨rfl, rfl⟩
  · intro toks fuel p h
    exact ⟨_, _, parseTypeRef_sentinel toks fuel p h, rfl⟩

theorem missing_expression_consumes_witness :
    ∃ r p1, parseExprPrimary syncSample (0 + 1) { pos := 1, errors := [] } = some (r, p1) ∧
      p1.pos = if (current syncSample { pos := 1, errors := [] }).type = .TOK_EOF then 1
        else 1 + 1 :=
  missing_expression_consumes.1 syncSample
    ⟨[⟨.TOK_IDENT, "x", ⟨1, 1, 0⟩⟩, ⟨.TOK_SEMICOLON, ";", ⟨1, 2, 1⟩⟩],
      ⟨.TOK_EOF, "", ⟨1, 3, 2⟩⟩, rfl, rfl, by decide⟩ 0 { pos := 1, errors := [] }
    (by decide) rfl

/-- C21 (array type references): for every base type token `T`, a builtin
type keyword or an identifier, and every list of `n >= 0` suffixes
`array [ d ]` with decimal dimensions, followed by a token that is not `array`,
`parseTypeRef` returns with fuel above `n`, records no error, consumes the
`1 + 4 n` tokens and returns `arrayNest`: TypeBuiltin(T) or TypeCustom(T) for
`n = 0`, and for a last suffix `s` the node TypeArray valued with the dimension
lexeme of `s` whose only child is the nesting of the suffixes before it. -/
theorem array_type_refs (pre : List Token) (T : Token) (ss : List ArraySuffix)
    (next : Token) (post : List Token) (errs : List ParseError) (fuel : Nat)
    (hT : startsType T.type = true) (hok : ∀ s ∈ ss, s.ok) (hnext : next.type ≠ .TOK_ARRAY)
    (hf : ss.length < fuel) :
    parseTypeRef (pre ++ T :: (suffixTokens ss ++ next :: post)) fuel
        { pos := pre.length, errors := errs } =
      some (some (arrayNest T.loc (baseTypeNode T) ss),
        { pos := pre.length + 1 + 4 * ss.length, errors := errs }) ∧
    arrayNest T.loc (baseTypeNode T) [] =
      .mk (if isBuiltinType T.type then .TYPE_BUILTIN else .TYPE_CUSTOM) T.loc T.text [] ∧
    ∀ (front : List ArraySuffix) (s : ArraySuffix),
      arrayNest T.loc (baseTypeNode T) (front ++ [s]) =
        .mk .TYPE_ARRAY T.loc s.dim.text [some (arrayNest T.loc (baseTypeNode T) front)] :=
  ⟨parseTypeRef_suffixes pre T ss next post errs fuel hT hok hnext hf, rfl,
    fun front s => arrayNest_snoc T.loc s front (baseTypeNode T)⟩

theorem array_type_refs_witness :
    parseTypeRef ([] ++ (⟨.TOK_INT, "int", ⟨1, 1, 0⟩⟩ : Token) ::
        (suffixTokens [⟨⟨.TOK_ARRAY, "array", ⟨1, 5, 4⟩⟩, ⟨.TOK_LBRACKET, "[", ⟨1, 10, 9⟩⟩,
            ⟨.TOK_DEC, "3", ⟨1, 11, 10⟩⟩, ⟨.TOK_RBRACKET, "]", ⟨1, 12, 11⟩⟩⟩] ++
          (⟨.TOK_EOF, "", ⟨1, 13, 12⟩⟩ : Token) :: [])) 2 { pos := 0, errors := [] } =
      some (some (.mk .TYPE_ARRAY ⟨1, 1, 0⟩ "3" [some (.mk .TYPE_BUILTIN ⟨1, 1, 0⟩ "int" [])]),
        { pos := 5, errors := [] }) :=
  (array_type_refs [] ⟨.TOK_INT, "int", ⟨1, 1, 0⟩⟩
    [⟨⟨.TOK_ARRAY, "array", ⟨1, 5, 4⟩⟩, ⟨.TOK_LBRACKET, "[", ⟨1, 10, 9⟩⟩,
      ⟨.TOK_DEC, "3", ⟨1, 11, 10⟩⟩, ⟨.TOK_RBRACKET, "]", ⟨1, 12, 11⟩⟩⟩]
    ⟨.TOK_EOF, "", ⟨1, 13, 12⟩⟩ [] [] 2 rfl
    (by
      intro s hs
      rw [List.mem_singleton.mp hs]
      exact ⟨rfl, rfl, rfl, rfl⟩)
    (by decide) (by decide)).1

/-- C28 (lexical errors and ERROR tokens): for every input, the locations of
the lexical errors are, in order, the locations of the tokens of kind
TOK_ERROR: there are as many errors as error tokens, the i-th error is located
where the i-th error token is, and the error list is empty exactly when no
token has kind TOK_ERROR. -/
theorem errors_match_error_tokens (source : List Char) (fuel : Nat)
    (h : source.length < fuel) :
    ∃ tokens errors, tokenize fuel source = some (tokens, errors) ∧
      errors.map (fun e => e.loc) = (errorTokens tokens).map (fun t => t.loc) ∧
      errors.length = (errorTokens tokens).length ∧
      (∀ (i : Nat) (e : LexerError) (t : Token), errors[i]? = some e →
        (errorTokens tokens)[i]? = some t → e.loc = t.loc) ∧
      (errors = [] ↔ ∀ t ∈ tokens, t.type ≠ .TOK_ERROR) := by
  obtain ⟨tokens, errors, e, _, hmap⟩ := tokenize_located source fuel h
  have hlen : errors.length = (errorTokens tokens).length := by
    have := congrArg List.length hmap
    simpa using this
  refine ⟨tokens, errors, e, hmap, hlen, ?_, ?_⟩
  · intro i x t hx ht
    have h1 : (errors.map (fun e => e.loc))[i]? = some x.loc := by
      rw [List.getElem?_map, hx]
      rfl
    have h2 : ((errorTokens tokens).map (fun t => t.loc))[i]? = some t.loc := by
      rw [List.getElem?_map, ht]
      rfl
    rw [hmap, h2] at h1
    injection h1 with h1
    exact h1.symm
  · constructor
    · intro he t ht hty
      have hm : t ∈ errorTokens tokens := List.mem_filter.mpr ⟨ht, by simp [hty]⟩
      rw [he] at hlen
      have : errorTokens tokens = [] := List.length_eq_zero.mp hlen.symm
      rw [this] at hm
      cases hm
    · intro hall
      have : errorTokens tokens = [] := by
        apply List.filter_eq_nil_iff.mpr
        intro t ht
        simpa using hall t ht
      rw [this] at hlen
      exact List.length_eq_zero.mp hlen

theorem errors_match_error_tokens_witness :
    ∃ tokens errors, tokenize 8 "a @ \"b".toList = some (tokens, errors) ∧
      errors.map (fun e => e.loc) = (errorTokens tokens).map (fun t => t.loc) ∧
      errors.length = (errorTokens tokens).length ∧
      (∀ (i : Nat) (e : LexerError) (t : Token), errors[i]? = some e →
        (errorTokens tokens)[i]? = some t → e.loc = t.loc) ∧
      (errors = [] ↔ ∀ t ∈ tokens, t.type ≠ .TOK_ERROR) :=
  errors_match_error_tokens "a @ \"b".toList 8 (by decide)

/-- C29 (parser index safety): for every non-empty token sequence the
initial position 0 is inside the token vector; at a position inside it the
reads of `current` and `peekToken` are reads of an element of the vector;
`advance` stays inside and does not move at the last token, `error` and
`expect` stay inside; and every parser function, from a position inside the
vector, returns at a position inside it, so does `parse`. -/
theorem parser_index_safety (toks : List Token) (hne : toks ≠ []) :
    ({ pos := 0, errors := [] } : Parser).pos < toks.length ∧
    (∀ p : Parser, p.pos < toks.length →
      toks[p.pos]? = some (current toks p) ∧
      ∃ i, i < toks.length ∧ toks[i]? = some (peekToken toks p)) ∧
    (∀ p : Parser, p.pos < toks.length → (advance toks p).pos < toks.length) ∧
    (∀ p : Parser, p.pos + 1 = toks.length → advance toks p = p) ∧
    (∀ (p : Parser) (msg : String), p.pos < toks.length → (error toks p msg).pos < toks.length) ∧
    (∀ (p : Parser) (type : TokenType) (context : String), p.pos < toks.length →
      (expect toks p type context).pos < toks.length) ∧
    (∀ fuel p p1, synchronize toks fuel p = some p1 → StaysInside toks p p1) ∧
    (∀ fuel, ExprKeeps toks (StaysInside toks) fuel ∧ StmtKeeps toks (StaysInside toks) fuel ∧
      Keeps (StaysInside toks) (parseTypeRef toks fuel) ∧
      Keeps (StaysInside toks) (parseFuncArg toks fuel) ∧
      Keeps (StaysInside toks) (parseFuncSignature toks fuel) ∧
      Keeps (StaysInside toks) (parseExpressionOrAssign toks fuel) ∧
      ∀ node, Keeps (StaysInside toks) (parseSourceLoop toks fuel node)) ∧
    (∀ fuel res, parse toks fuel = some res →
      ∃ p1 : Parser, p1.pos < toks.length ∧ res.errors = p1.errors) := by
  have hR := staysInside_closed toks
  have hpos : 0 < toks.length := List.length_pos.mpr hne
  refine ⟨hpos, ?_, fun p => hR.advance p, ?_, fun p msg => hR.error p msg,
    fun p type context => hR.expect p type context,
    fun fuel p p1 h => synchronize_keeps hR fuel p p1 h, ?_, ?_⟩
  · intro p hp
    constructor
    · simp [current, List.getD_eq_getElem?_getD, List.getElem?_eq_getElem hp]
    · unfold peekToken
      split
      · rename_i h1
        exact ⟨p.pos + 1, h1, by simp [List.getD_eq_getElem?_getD, List.getElem?_eq_getElem h1]⟩
      · refine ⟨toks.length - 1, by omega, ?_⟩
        rw [List.getLastD_eq_getLast?, List.getLast?_eq_getElem?]
        cases hq : toks[toks.length - 1]? with
        | none =>
          have := List.getElem?_eq_none_iff.mp hq
          omega
        | some x => rfl
  · intro p hp
    unfold advance
    rw [if_neg (by omega)]
  · intro fuel
    exact ⟨exprKeeps hR fuel, stmtKeeps hR fuel, parseTypeRef_keeps hR fuel,
      parseFuncArg_keeps hR fuel, parseFuncSignature_keeps hR fuel,
      parseExpressionOrAssign_keeps hR fuel, parseSourceLoop_keeps hR fuel⟩
  · intro fuel res h
    obtain ⟨p1, h1, h2⟩ := parse_keeps hR fuel res h
    exact ⟨p1, h1 hpos, h2⟩

theorem parser_index_safety_witness :
    missingParenTokens ≠ [] ∧
    ∃ p1 : Parser, p1.pos < missingParenTokens.length ∧
      ([⟨"expected 'argument name', got 'end'", ⟨1, 8, 7⟩⟩,
        ⟨"expected ')', got 'end'", ⟨1, 8, 7⟩⟩] : List ParseError) = p1.errors :=
  ⟨by decide, (parser_index_safety missingParenTokens (by decide)).2.2.2.2.2.2.2.2 7
    ⟨some scenario3Tree, _⟩ rfl⟩

/-- C26, as stated, fails (block delimiters): a block opened by `begin` is
not closed by the closing brace, and a block opened by the opening brace is
not closed by `end`. In `def f() begin x; } end` the closing brace is parsed
as a statement of the block, which records two syntax errors and adds a second
child to the Block node; `def f() { x; end end` records five syntax errors. -/
theorem mixed_block_delimiters :
    lexAndParse 40 "def f() begin x; \x7d end" =
      some (some (.mk .SOURCE ⟨1, 1, 0⟩ "" [some (.mk .FUNC_DEF ⟨1, 1, 0⟩ "" [
        some (.mk .FUNC_SIGNATURE ⟨1, 5, 4⟩ "f" []),
        some (.mk .STMT_BLOCK ⟨1, 9, 8⟩ "" [
          some (.mk .STMT_EXPR ⟨1, 15, 14⟩ "" [some (.mk .EXPR_PLACE ⟨1, 15, 14⟩ "x" [])]),
          some (.mk .STMT_EXPR ⟨1, 18, 17⟩ "" [
            some (.mk .EXPR_LITERAL ⟨1, 18, 17⟩ "<error>" [])])])])]), [],
        [⟨"expected expression, got '\x7d'", ⟨1, 18, 17⟩⟩,
         ⟨"expected ';', got 'end'", ⟨1, 20, 19⟩⟩]) ∧
    ∃ tree, lexAndParse 40 "def f() \x7b x; end end" =
      some (tree, [],
        [⟨"expected expression, got 'end'", ⟨1, 14, 13⟩⟩,
         ⟨"expected ';', got 'end'", ⟨1, 18, 17⟩⟩,
         ⟨"expected expression, got 'end'", ⟨1, 18, 17⟩⟩,
         ⟨"expected ';', got ''", ⟨1, 21, 20⟩⟩,
         ⟨"expected '\x7d', got ''", ⟨1, 21, 20⟩⟩]) :=
  ⟨rfl, _, rfl⟩

/-- C26, amended (block delimiters): `parseBlock` closes a block opened by
`begin` with `end` and a block opened by the opening brace with the closing
brace. For every statement list that parses without error and is followed by
the closer that matches the opener, `parseBlock` returns one Block node,
located at the opener, holding those statements, consumes the closer and
records no error. Whenever `parseBlock` returns, its loop has stopped at the
matching closer, which is consumed, or at the end of the input, where the
missing closer is recorded as an error. `def f() begin x; end end` and
`def f() { x; } end` parse without error into a Block holding `x;`. -/
theorem matched_block_delimiters :
    (∀ (toks : List Token) (fuel : Nat) (p p0 : Parser) (stmts : List ASTNode),
      ((current toks p).type = .TOK_BEGIN ∨ (current toks p).type = .TOK_LBRACE) →
      StatementsAt toks fuel (advance toks p) stmts p0 →
      (current toks p0).type = blockCloser (current toks p).type →
      parseBlock toks (fuel + 2) p =
        some (some (.mk .STMT_BLOCK (current toks p).loc "" (stmts.map some)),
          advance toks p0) ∧
      (advance toks p0).errors = p.errors) ∧
    (∀ (toks : List Token) (fuel : Nat) (p p1 : Parser) (r : ASTNodePtr),
      parseBlock toks fuel p = some (r, p1) →
      ∃ n node p0, fuel = n + 1 ∧ r = some node ∧
        parseBlockLoop toks n (blockCloser (current toks p).type)
          (makeNode .STMT_BLOCK (current toks p).loc "") (advance toks p) = some (r, p0) ∧
        (((current toks p0).type = blockCloser (current toks p).type ∧
            p1 = advance toks p0) ∨
          ((current toks p0).type ≠ blockCloser (current toks p).type ∧
            (current toks p0).type = .TOK_EOF ∧
            p1 = error toks p0 ("expected '" ++ blockCloserText (current toks p).type ++
              "', got '" ++ (current toks p0).text ++ "'")))) ∧
    (∀ k : Nat, lexAndParse (k + 21) "def f() begin x; end end" =
      some (some (blockTree 5), [], [])) ∧
    (∀ k : Nat, lexAndParse (k + 21) "def f() \x7b x; \x7d end" =
      some (some (blockTree 1), [], [])) := by
  refine ⟨?_, ?_, fun _ => rfl, fun _ => rfl⟩
  · intro toks fuel p p0 stmts hop hst hcl
    have hloop := parseBlockLoop_statements (blockCloser_cases (current toks p).type) hst
      (makeNode .STMT_BLOCK (current toks p).loc "") hcl
    constructor
    · rw [parseBlock]
      simp only [check]
      have e1 : (if ((current toks p).type == TokenType.TOK_LBRACE) = true
          then TokenType.TOK_RBRACE else TokenType.TOK_END) =
          blockCloser (current toks p).type := rfl
      rw [e1, hloop]
      simp only [expect, check, hcl, beq_self_eq_true, if_true]
      rfl
    · rw [advance_keeps_errors, hst.errors, advance_keeps_errors]
  · intro toks fuel p p1 r h
    cases fuel with
    | zero => simp [parseBlock] at h
    | succ n =>
      rw [parseBlock] at h
      simp only [check] at h
      have e1 : (if ((current toks p).type == TokenType.TOK_LBRACE) = true
          then TokenType.TOK_RBRACE else TokenType.TOK_END) =
          blockCloser (current toks p).type := rfl
      have e2 : (if ((current toks p).type == TokenType.TOK_LBRACE) = true
          then "\x7d" else "end") = blockCloserText (current toks p).type := rfl
      rw [e1, e2] at h
      cases hq : parseBlockLoop toks n (blockCloser (current toks p).type)
          (makeNode .STMT_BLOCK (current toks p).loc "") (advance toks p) with
      | none => rw [hq] at h; cases h
      | some x =>
        obtain ⟨r0, p0⟩ := x
        rw [hq] at h
        injection h with h
        injection h with h1 h2
        subst h1
        obtain ⟨⟨node, hn⟩, hstop⟩ := parseBlockLoop_stops toks _ n _ _ _ _ hq
        refine ⟨n, node, p0, rfl, hn, hq, ?_⟩
        by_cases hc : (current toks p0).type = blockCloser (current toks p).type
        · left
          refine ⟨hc, ?_⟩
          rw [← h2]
          simp [expect, check, hc]
        · right
          have heof : (current toks p0).type = .TOK_EOF := by
            rcases hstop with h3 | h3
            · exact absurd h3 hc
            · exact h3
          refine ⟨hc, heof, ?_⟩
          rw [← h2]
          simp only [expect, check, beq_eq_false_iff_ne.mpr hc, Bool.false_eq_true, if_false]

theorem matched_block_delimiters_witness :
    ((current beginEndTokens { pos := 0, errors := [] }).type = .TOK_BEGIN ∨
      (current beginEndTokens { pos := 0, errors := [] }).type = .TOK_LBRACE) ∧
    StatementsAt beginEndTokens 15 (advance beginEndTokens { pos := 0, errors := [] })
      [.mk .STMT_EXPR ⟨1, 7, 6⟩ "" [some (.mk .EXPR_PLACE ⟨1, 7, 6⟩ "x" [])]]
      { pos := 3, errors := [] } ∧
    parseBlock beginEndTokens 17 { pos := 0, errors := [] } =
      some (some (.mk .STMT_BLOCK ⟨1, 1, 0⟩ "" [
        some (.mk .STMT_EXPR ⟨1, 7, 6⟩ "" [some (.mk .EXPR_PLACE ⟨1, 7, 6⟩ "x" [])])]),
        { pos := 4, errors := [] }) :=
  ⟨Or.inl rfl,
    .cons 14 _ _ _ _ _ rfl rfl rfl (.nil 14 _),
    (matched_block_delimiters.1 beginEndTokens 15 { pos := 0, errors := [] }
      { pos := 3, errors := [] }
      [.mk .STMT_EXPR ⟨1, 7, 6⟩ "" [some (.mk .EXPR_PLACE ⟨1, 7, 6⟩ "x" [])]]
      (Or.inl rfl) (.cons 14 _ _ _ _ _ rfl rfl rfl (.nil 14 _)) rfl).1⟩

/-- C24, as stated, fails (node locations): the BinaryExpr built for `x + 1`
is located at the operator `+` (column 11, offset 10), not at `x` (column 9,
offset 8), so its first child has a smaller byte offset than the node; and the
Call built for `f(a)` is located at the parenthesis (offset 9), after its
callee `f` (offset 8). -/
theorem binary_located_at_operator :
    lexAndParse 40 "def f() x + 1; end" =
      some (some (.mk .SOURCE ⟨1, 1, 0⟩ "" [some (.mk .FUNC_DEF ⟨1, 1, 0⟩ "" [
        some (.mk .FUNC_SIGNATURE ⟨1, 5, 4⟩ "f" []),
        some (.mk .STMT_EXPR ⟨1, 9, 8⟩ "" [
          some (.mk .EXPR_BINARY ⟨1, 11, 10⟩ "+" [
            some (.mk .EXPR_PLACE ⟨1, 9, 8⟩ "x" []),
            some (.mk .EXPR_LITERAL ⟨1, 13, 12⟩ "1" [])])])])]), [], []) ∧
    lexAndParse 40 "def f() f(a); end" =
      some (some (.mk .SOURCE ⟨1, 1, 0⟩ "" [some (.mk .FUNC_DEF ⟨1, 1, 0⟩ "" [
        some (.mk .FUNC_SIGNATURE ⟨1, 5, 4⟩ "f" []),
        some (.mk .STMT_EXPR ⟨1, 9, 8⟩ "" [
          some (.mk .EXPR_CALL ⟨1, 10, 9⟩ "" [
            some (.mk .EXPR_PLACE ⟨1, 9, 8⟩ "f" []),
            some (.mk .EXPR_PLACE ⟨1, 11, 10⟩ "a" [])])])])]), [], []) :=
  ⟨rfl, rfl⟩

/-- C24, amended (node locations): every node is built with the location of
the token that is current at its construction site, or with the location of an
expression node parsed before. The node returned by `parseSource`,
`parseSourceItem`, `parseFuncDef`, `parseFuncSignature`, `parseFuncArg`,
`parseTypeRef`, `parseStatement`, `parseIfStatement`, `parseLoopStatement`,
`parseBlock`, `parseExpressionOrAssign` and `parseExprPrimary` is located at
the token at which the function was called, the first token of the construct;
so are all the nodes of a type reference, the Assign child of a Repeat, and
the Unary node of a prefix operator. The ExprStmt child of a Repeat
`expr while|until cond;` is located where its expression node is, and a Range
where its first expression node is. A BinaryExpr is located at its operator, a
Call at its `(`, a Slice at its `[`, a postfix Unary at its `++` or `--`, each
with the expression parsed before as first child. In
`def f() x + 1 until z; end` the BinaryExpr and the ExprStmt around it are at
the `+`, after their descendant `x`. -/
theorem node_locations :
    (∀ (toks : List Token) (fuel : Nat), StartLocated toks fuel) ∧
    (∀ (toks : List Token) (fuel : Nat) (p p1 : Parser) (node : ASTNode),
      isUnaryOp (current toks p).type = true →
      parseExprUnary toks fuel p = some (some node, p1) →
      node.kind = .EXPR_UNARY ∧ node.loc = (current toks p).loc) ∧
    (∀ (toks : List Token) (j : Nat), j < 9 → ∀ (F : Nat), 2 ≤ F →
      ∀ (p p1 p2 : Parser) (l r : ASTNode),
      levelParser toks (j + 1) F p = some (some l, p1) →
      levelIsOp j (current toks p1).type = true →
      levelParser toks (j + 1) F (advance toks p1) = some (some r, p2) →
      levelIsOp j (current toks p2).type = false →
      levelParser toks j (F + 1) p =
        some (some (.mk .EXPR_BINARY (current toks p1).loc (current toks p1).text
          [some l, some r]), p2)) ∧
    (∀ (toks : List Token) (isOp : TokenType → Bool) (operand : Parser → Parsed) (n : Nat)
      (left r : ASTNodePtr) (p p2 : Parser),
      isOp (current toks p).type = true →
      binaryLoop toks isOp operand (n + 1) left p = some (r, p2) →
      ∃ right p1, operand (advance toks p) = some (right, p1) ∧
        binaryLoop toks isOp operand n
          (some (.mk .EXPR_BINARY (current toks p).loc (current toks p).text [left, right]))
          p1 = some (r, p2)) ∧
    (∀ (toks : List Token) (n : Nat) (e r : ASTNodePtr) (p p2 : Parser),
      check toks p .TOK_LPAREN = true →
      parseExprPostfixLoop toks (n + 1) e p = some (r, p2) →
      ∃ call p3, call.kind = .EXPR_CALL ∧ call.loc = (current toks p).loc ∧
        call.children.head? = some e ∧
        parseExprPostfixLoop toks n (some call) p3 = some (r, p2)) ∧
    (∀ (toks : List Token) (n : Nat) (e r : ASTNodePtr) (p p2 : Parser),
      check toks p .TOK_LPAREN = false → check toks p .TOK_LBRACKET = true →
      parseExprPostfixLoop toks (n + 1) e p = some (r, p2) →
      ∃ slice p3, slice.kind = .EXPR_SLICE ∧ slice.loc = (current toks p).loc ∧
        slice.children.head? = some e ∧
        parseExprPostfixLoop toks n (some slice) p3 = some (r, p2)) ∧
    (∀ (toks : List Token) (n : Nat) (e : ASTNodePtr) (p : Parser),
      check toks p .TOK_LPAREN = false → check toks p .TOK_LBRACKET = false →
      (check toks p .TOK_INC || check toks p .TOK_DEC_OP) = true →
      parseExprPostfixLoop toks (n + 1) e p =
        parseExprPostfixLoop toks n
          (some (.mk .EXPR_UNARY (current toks p).loc ("post" ++ (current toks p).text) [e]))
          (advance toks p)) ∧
    (∀ (toks : List Token) (n : Nat) (p p1 q : Parser) (node f : ASTNode),
      parseExpression toks n p = some (some f, q) →
      check toks q .TOK_DOTDOT = true →
      parseRange toks (n + 1) p = some (some node, p1) →
      node.kind = .EXPR_RANGE ∧ node.loc = f.loc) ∧
    (∀ (toks : List Token) (fuel : Nat) (p p1 : Parser) (r : ASTNodePtr),
      parseTypeRef toks fuel p = some (r, p1) →
      ∃ n, r = some n ∧ TypeAt (current toks p).loc n) ∧
    (∀ (toks : List Token) (fuel : Nat) (p p1 : Parser) (r : ASTNodePtr),
      parseExpressionOrAssign toks fuel p = some (r, p1) →
      ∃ expr q, parseExpression toks fuel p = some (expr, q) ∧
        (r = some (.mk .STMT_EXPR (current toks p).loc "" [expr]) ∨
         (∃ rhs, r = some (.mk .STMT_ASSIGN (current toks p).loc "" [expr, rhs])) ∨
         (∃ rhs q2 cond, parseExpression toks fuel (advance toks q) = some (rhs, q2) ∧
            r = some (.mk .STMT_REPEAT (current toks p).loc (current toks q2).text
              [some (.mk .STMT_ASSIGN (current toks p).loc "" [expr, rhs]), cond])) ∨
         (∃ e cond, expr = some e ∧
            r = some (.mk .STMT_REPEAT (current toks p).loc (current toks q).text
              [some (.mk .STMT_EXPR e.loc "" [some e]), cond])))) ∧
    (∀ k : Nat, lexAndParse (k + 18) "def f() x + 1 until z; end" =
      some (some (.mk .SOURCE ⟨1, 1, 0⟩ "" [some (.mk .FUNC_DEF ⟨1, 1, 0⟩ "" [
        some (.mk .FUNC_SIGNATURE ⟨1, 5, 4⟩ "f" []),
        some (.mk .STMT_REPEAT ⟨1, 9, 8⟩ "until" [
          some (.mk .STMT_EXPR ⟨1, 11, 10⟩ "" [
            some (.mk .EXPR_BINARY ⟨1, 11, 10⟩ "+" [
              some (.mk .EXPR_PLACE ⟨1, 9, 8⟩ "x" []),
              some (.mk .EXPR_LITERAL ⟨1, 13, 12⟩ "1" [])])]),
          some (.mk .EXPR_PLACE ⟨1, 21, 20⟩ "z" [])])])]), [], [])) :=
  ⟨startLocated, parseExprUnary_root,
    fun toks j hj F hF p p1 p2 l r => level_one_at toks j hj F hF p p1 p2 l r,
    binaryLoop_turn, postfix_call_turn, postfix_slice_turn, postfix_unary_turn,
    parseRange_root, parseTypeRef_typeAt, parseExpressionOrAssign_shape, fun _ => rfl⟩

theorem node_locations_witness :
    parseStatement beginEndTokens 18 { pos := 0, errors := [] } =
      some (some (.mk .STMT_BLOCK ⟨1, 1, 0⟩ "" [
        some (.mk .STMT_EXPR ⟨1, 7, 6⟩ "" [some (.mk .EXPR_PLACE ⟨1, 7, 6⟩ "x" [])])]),
        { pos := 4, errors := [] }) ∧
    (ASTNode.mk .STMT_BLOCK ⟨1, 1, 0⟩ "" [
        some (.mk .STMT_EXPR ⟨1, 7, 6⟩ "" [some (.mk .EXPR_PLACE ⟨1, 7, 6⟩ "x" [])])]).loc =
      (current beginEndTokens { pos := 0, errors := [] }).loc ∧
    levelParser sumTokens 7 7 { pos := 0, errors := [] } =
      some (some (.mk .EXPR_BINARY ⟨1, 3, 2⟩ "+" [
        some (.mk .EXPR_PLACE ⟨1, 1, 0⟩ "a" []), some (.mk .EXPR_LITERAL ⟨1, 5, 4⟩ "2" [])]),
        { pos := 3, errors := [] }) :=
  ⟨rfl,
    (node_locations.1 beginEndTokens 18).statement { pos := 0, errors := [] } _
      { pos := 4, errors := [] } rfl,
    node_locations.2.2.1 sumTokens 7 (by decide) 6 (by decide) { pos := 0, errors := [] }
      { pos := 1, errors := [] } { pos := 3, errors := [] }
      (.mk .EXPR_PLACE ⟨1, 1, 0⟩ "a" []) (.mk .EXPR_LITERAL ⟨1, 5, 4⟩ "2" []) rfl rfl rfl rfl⟩

/-- C32, as stated, fails (dangling else): the statement `s1 = if c then x;`
parses without error on its own, as an If with 2 children, yet in
`if a then if b then s1 else y;` the `else` is taken by the If of `c`, the
nearest one, so the If of `b` has 2 children and not 3: the tree is
`If[a, If[b, If[c, x, y]]]`, with no error. -/
theorem dangling_else_nested :
    lexAndParse 40 "def f() if c then x; end" =
      some (some (.mk .SOURCE ⟨1, 1, 0⟩ "" [some (.mk .FUNC_DEF ⟨1, 1, 0⟩ "" [
        some (.mk .FUNC_SIGNATURE ⟨1, 5, 4⟩ "f" []),
        some (.mk .STMT_IF ⟨1, 9, 8⟩ "" [
          some (.mk .EXPR_PLACE ⟨1, 12, 11⟩ "c" []),
          some (placeStatement "x" ⟨1, 19, 18⟩)])])]), [], []) ∧
    lexAndParse 40 "def f() if a then if b then if c then x; else y; end" =
      some (some (.mk .SOURCE ⟨1, 1, 0⟩ "" [some (.mk .FUNC_DEF ⟨1, 1, 0⟩ "" [
        some (.mk .FUNC_SIGNATURE ⟨1, 5, 4⟩ "f" []),
        some (.mk .STMT_IF ⟨1, 9, 8⟩ "" [
          some (.mk .EXPR_PLACE ⟨1, 12, 11⟩ "a" []),
          some (.mk .STMT_IF ⟨1, 19, 18⟩ "" [
            some (.mk .EXPR_PLACE ⟨1, 22, 21⟩ "b" []),
            some (.mk .STMT_IF ⟨1, 29, 28⟩ "" [
              some (.mk .EXPR_PLACE ⟨1, 32, 31⟩ "c" []),
              some (placeStatement "x" ⟨1, 39, 38⟩),
              some (placeStatement "y" ⟨1, 47, 46⟩)])])])])]), [], []) :=
  ⟨rfl, rfl⟩

/-- C32, amended (dangling else): an If takes an else branch exactly when the
token right after its own then branch is `else`, so an `else` belongs to the
nearest If whose then branch ends in front of it. In
`if a then if b then s1 else s2`, where the expressions `a`, `b` and the
statements `s1`, `s2` parse without error with the fuel the nested calls get,
the parse of `s1` stops in front of the `else` (`s1` does not itself take it),
and what follows `s2` is not another `else`, `parseIfStatement` returns
`If[a, If[b, s1, s2]]`: the inner If has exactly 3 children, the outer If
exactly 2, and no error is recorded. -/
theorem dangling_else :
    (∀ (toks : List Token) (n : Nat) (p p1 p3 p4 p5 : Parser) (a b s1 s2 : ASTNode),
      (current toks p).type = .TOK_IF →
      parseExpression toks (n + 2) (advance toks p) = some (some a, p1) →
      (current toks p1).type = .TOK_THEN →
      (current toks (advance toks p1)).type = .TOK_IF →
      parseExpression toks n (advance toks (advance toks p1)) = some (some b, p3) →
      (current toks p3).type = .TOK_THEN →
      parseStatement toks n (advance toks p3) = some (some s1, p4) →
      (current toks p4).type = .TOK_ELSE →
      parseStatement toks n (advance toks p4) = some (some s2, p5) →
      (current toks p5).type ≠ .TOK_ELSE →
      p1.errors = p.errors → p3.errors = p1.errors →
      p4.errors = p3.errors → p5.errors = p4.errors →
      ∃ outer inner : ASTNode,
        parseIfStatement toks (n + 3) p = some (some outer, p5) ∧
        outer = .mk .STMT_IF (current toks p).loc "" [some a, some inner] ∧
        inner = .mk .STMT_IF (current toks (advance toks p1)).loc ""
          [some b, some s1, some s2] ∧
        outer.children.length = 2 ∧ inner.children.length = 3 ∧
        p5.errors = p.errors) ∧
    (∀ (toks : List Token) (n : Nat) (p p2 : Parser) (r : ASTNodePtr),
      parseIfStatement toks (n + 1) p = some (r, p2) →
      ∃ cond p1 thenStmt p3,
        parseExpression toks n (expect toks p .TOK_IF "if") = some (cond, p1) ∧
        parseStatement toks n (expect toks p1 .TOK_THEN "then") = some (thenStmt, p3) ∧
        (((current toks p3).type = .TOK_ELSE ∧
            ∃ elseStmt, parseStatement toks n (advance toks p3) = some (elseStmt, p2) ∧
              r = some (.mk .STMT_IF (current toks p).loc "" [cond, thenStmt, elseStmt])) ∨
          ((current toks p3).type ≠ .TOK_ELSE ∧ p2 = p3 ∧
            r = some (.mk .STMT_IF (current toks p).loc "" [cond, thenStmt])))) := by
  refine ⟨?_, parseIfStatement_else⟩
  intro toks n p p1 p3 p4 p5 a b s1 s2 hif ha hthen hif2 hb hthen2 hs1 helse hs2 hstop
    hea heb he1 he2
  have hinner : parseIfStatement toks (n + 1) (advance toks p1) =
      some (some (.mk .STMT_IF (current toks (advance toks p1)).loc ""
        [some b, some s1, some s2]), p5) := by
    rw [parseIfStatement]
    simp only [expect, check, hif2, beq_self_eq_true, if_true, hb, hthen2, hs1, helse, hs2]
    rfl
  have hstmt : parseStatement toks (n + 2) (advance toks p1) =
      some (some (.mk .STMT_IF (current toks (advance toks p1)).loc ""
        [some b, some s1, some s2]), p5) := by
    rw [parseStatement]
    simp only [hif2]
    exact hinner
  refine ⟨_, _, ?_, rfl, rfl, rfl, rfl, by rw [he2, he1, heb, hea]⟩
  rw [parseIfStatement]
  simp only [expect, check, hif, beq_self_eq_true, if_true, ha, hthen, hstmt,
    beq_eq_false_iff_ne.mpr hstop, Bool.false_eq_true, if_false]
  rfl

theorem dangling_else_witness :
    ∃ outer inner : ASTNode,
      parseIfStatement danglingElseTokens 19 { pos := 0, errors := [] } =
        some (some outer, { pos := 11, errors := [] }) ∧
      outer = .mk .STMT_IF ⟨1, 1, 0⟩ "" [some (.mk .EXPR_PLACE ⟨1, 4, 3⟩ "a" []), some inner] ∧
      inner = .mk .STMT_IF ⟨1, 11, 10⟩ "" [some (.mk .EXPR_PLACE ⟨1, 14, 13⟩ "b" []),
        some (placeStatement "x" ⟨1, 21, 20⟩), some (placeStatement "y" ⟨1, 29, 28⟩)] ∧
      outer.children.length = 2 ∧ inner.children.length = 3 ∧
      ({ pos := 11, errors := [] } : Parser).errors = ([] : List ParseError) :=
  dangling_else.1 danglingElseTokens 16 { pos := 0, errors := [] } { pos := 2, errors := [] }
    { pos := 5, errors := [] } { pos := 8, errors := [] } { pos := 11, errors := [] }
    (.mk .EXPR_PLACE ⟨1, 4, 3⟩ "a" []) (.mk .EXPR_PLACE ⟨1, 14, 13⟩ "b" [])
    (placeStatement "x" ⟨1, 21, 20⟩) (placeStatement "y" ⟨1, 29, 28⟩)
    rfl rfl rfl rfl rfl rfl rfl rfl rfl (by decide) rfl rfl rfl rfl

/-- C31 (placeholder payload on a missing name): a failed `expect` records
exactly one error, at the current token, and consumes no token. On a token
sequence that ends with EOF, with fuel above its length, `parseFuncSignature`
and `parseFuncArg` called at a token that is no identifier return a
FuncSignature, respectively FuncArg, node whose value is the lexeme of that
token, and the first error they record is the one of the missing name; an
array suffix whose dimension is no decimal literal gives a TypeArray node
valued with the lexeme of the token found there. On lexer output that lexeme
is never `<error>` and is empty only for EOF. `def ( ) end` yields
FuncSignature("(") with exactly one error, `def f( end` a FuncArg valued
"end", and `def f(a of int array[]) end` a TypeArray valued "]". -/
theorem placeholder_payload :
    (∀ (toks : List Token) (p : Parser) (type : TokenType) (context : String),
      (current toks p).type ≠ type →
      (expect toks p type context).pos = p.pos ∧
      (expect toks p type context).errors = p.errors ++
        [⟨"expected '" ++ context ++ "', got '" ++ (current toks p).text ++ "'",
          (current toks p).loc⟩] ∧
      current toks (expect toks p type context) = current toks p) ∧
    (∀ (toks : List Token), EndsWithEof toks → ∀ (fuel : Nat) (p : Parser),
      p.pos < toks.length → toks.length < fuel → (current toks p).type ≠ .TOK_IDENT →
      ∃ node p1 more, parseFuncSignature toks fuel p = some (some node, p1) ∧
        node.kind = .FUNC_SIGNATURE ∧ node.value = (current toks p).text ∧
        p1.errors = p.errors ++
          ⟨"expected 'function name', got '" ++ (current toks p).text ++ "'",
            (current toks p).loc⟩ :: more) ∧
    (∀ (toks : List Token), EndsWithEof toks → ∀ (fuel : Nat) (p : Parser),
      p.pos < toks.length → toks.length < fuel → (current toks p).type ≠ .TOK_IDENT →
      ∃ node p1 more, parseFuncArg toks fuel p = some (some node, p1) ∧
        node.kind = .FUNC_ARG ∧ node.value = (current toks p).text ∧
        p1.errors = p.errors ++
          ⟨"expected 'argument name', got '" ++ (current toks p).text ++ "'",
            (current toks p).loc⟩ :: more) ∧
    (∀ (toks : List Token), EndsWithEof toks → ∀ (fuel : Nat) (loc : SourceLocation)
      (base : ASTNodePtr) (p p1 : Parser),
      p.pos < toks.length → toks.length < fuel →
      check toks p .TOK_ARRAY = true →
      p1 = expect toks (advance toks p) .TOK_LBRACKET "[" →
      (current toks p1).type ≠ .TOK_DEC →
      ∃ r p2, parseTypeRefLoop toks (fuel + 1) loc base p = some (r, p2) ∧
        parseTypeRefLoop toks fuel loc
          (some (.mk .TYPE_ARRAY loc (current toks p1).text [base]))
          (expect toks (error toks p1
            ("expected 'array dimension', got '" ++ (current toks p1).text ++ "'"))
            .TOK_RBRACKET "]") = some (r, p2)) ∧
    (∀ (source : List Char) (fuel : Nat), source.length < fuel →
      ∃ tokens errors, tokenize fuel source = some (tokens, errors) ∧ EndsWithEof tokens ∧
        ∀ t ∈ tokens, t.text ≠ "<error>" ∧ (t.type ≠ .TOK_EOF → t.text ≠ "")) ∧
    (∀ k : Nat, lexAndParse (k + 7) "def ( ) end" =
      some (some (.mk .SOURCE ⟨1, 1, 0⟩ "" [some (.mk .FUNC_DEF ⟨1, 1, 0⟩ "" [
        some (.mk .FUNC_SIGNATURE ⟨1, 5, 4⟩ "(" [])])]), [],
        [⟨"expected 'function name', got '('", ⟨1, 5, 4⟩⟩])) ∧
    (∀ k : Nat, lexAndParse (k + 7) "def f( end" =
      some (some (.mk .SOURCE ⟨1, 1, 0⟩ "" [some (.mk .FUNC_DEF ⟨1, 1, 0⟩ "" [
        some (.mk .FUNC_SIGNATURE ⟨1, 5, 4⟩ "f" [
          some (.mk .FUNC_ARG ⟨1, 8, 7⟩ "end" [])])])]), [],
        [⟨"expected 'argument name', got 'end'", ⟨1, 8, 7⟩⟩,
         ⟨"expected ')', got 'end'", ⟨1, 8, 7⟩⟩])) ∧
    (∀ k : Nat, lexAndParse (k + 14) "def f(a of int array[]) end" =
      some (some (.mk .SOURCE ⟨1, 1, 0⟩ "" [some (.mk .FUNC_DEF ⟨1, 1, 0⟩ "" [
        some (.mk .FUNC_SIGNATURE ⟨1, 5, 4⟩ "f" [
          some (.mk .FUNC_ARG ⟨1, 7, 6⟩ "a" [
            some (.mk .TYPE_ARRAY ⟨1, 12, 11⟩ "]" [
              some (.mk .TYPE_BUILTIN ⟨1, 12, 11⟩ "int" [])])])])])]), [],
        [⟨"expected 'array dimension', got ']'", ⟨1, 22, 21⟩⟩])) := by
  refine ⟨?_, ?_, ?_, ?_, tokenize_lexemes_plain, fun _ => rfl, fun _ => rfl, fun _ => rfl⟩
  · intro toks p type context h
    rw [expect_fails toks p type context h]
    exact ⟨rfl, rfl, rfl⟩
  · intro toks hend fuel p hp hf hne
    obtain ⟨r, p1, e⟩ := parseFuncSignature_total hend fuel p hp hf
    obtain ⟨⟨node, hr, hk, hv⟩, hfol⟩ := parseFuncSignature_value toks fuel p p1 r e
    obtain ⟨more, hm⟩ := hfol.errors_append
    rw [expect_fails toks p _ _ hne] at hm
    refine ⟨node, p1, more, by rw [e, hr], hk, hv, ?_⟩
    rw [hm]
    simp [error]
  · intro toks hend fuel p hp hf hne
    obtain ⟨r, p1, e⟩ := parseFuncArg_total hend fuel p hp (by omega)
    obtain ⟨⟨node, hr, hk, hv⟩, hfol⟩ := parseFuncArg_value toks fuel p p1 r e
    obtain ⟨more, hm⟩ := hfol.errors_append
    rw [expect_fails toks p _ _ hne] at hm
    refine ⟨node, p1, more, by rw [e, hr], hk, hv, ?_⟩
    rw [hm]
    simp [error]
  · intro toks hend fuel loc base p p1 hp hf hc hp1 hne
    obtain ⟨r, p2, e⟩ := parseTypeRefLoop_total hend (fuel + 1) loc base p hp (by omega)
    refine ⟨r, p2, e, ?_⟩
    rw [parseTypeRefLoop] at e
    simp only [hc, if_true] at e
    rw [← hp1, expect_fails toks p1 _ _ hne] at e
    exact e

theorem placeholder_payload_witness :
    ∃ node p1 more, parseFuncSignature missingNameTokens 6 { pos := 1, errors := [] } =
        some (some node, p1) ∧
      node.kind = .FUNC_SIGNATURE ∧ node.value = "(" ∧
      p1.errors = [] ++ (⟨"expected 'function name', got '('", ⟨1, 5, 4⟩⟩ :: more) :=
  placeholder_payload.2.1 missingNameTokens
    ⟨[⟨.TOK_DEF, "def", ⟨1, 1, 0⟩⟩, ⟨.TOK_LPAREN, "(", ⟨1, 5, 4⟩⟩,
      ⟨.TOK_RPAREN, ")", ⟨1, 7, 6⟩⟩, ⟨.TOK_END, "end", ⟨1, 9, 8⟩⟩],
      ⟨.TOK_EOF, "", ⟨1, 12, 11⟩⟩, rfl, rfl⟩
    6 { pos := 1, errors := [] } (by decide) (by decide) (by decide)

end PLLab1
